import Mathlib

/-!
# SRT2DSPECT: the numeric kernels of the spline reconstruction technique

A shallow embedding of the numeric helper functions of
`src/analytic/SRT2DSPECT/SRT2DSPECTReconstruction.cxx` (`integ`, `spline`, `splint`,
`hilbert_node`, `hilbert`, `hilbert_der_double`), of `set_up` and of `actual_reconstruct`:
its checks, its sampling tables, the data loading, the attenuation factor, the one-sided
differences and the view loop with the state it carries from one view to the next; and of
the detector tables and `get_all_det_pos_pairs_for_bin` of
`src/buildblock/ProjDataInfoCylindricalNoArcCorr.cxx`.

Conventions of the embedding.

* `float`/`double` values are elements of an arbitrary linearly ordered field `K` with a
  floor function (exact arithmetic): the rationals for evaluation, the reals for the
  analytic statements. There rounding, infinities and NaN are not modelled and division is
  the total division of the field. Two parts of the program are embedded a second time
  where this matters: `spline` on values with infinities and NaN (`Fp`, `spline_fp`), for
  its behaviour at equal abscissae, and the image coordinates with the skip test of the image
  loops in IEEE 754 arithmetic (`binary32`, `binary64`, `skipped_binary32`,
  `actual_reconstruct_binary32`), for the set of the voxels that are written.
* A `std::vector<float>` or `float[]` is a function `Nat → K` from indices to values; its
  length is the separate `int` argument the source passes along (`n`, `sp`, `max`). A write
  `v[i] = e` is `Function.update v i e`.
* An `int` that is a count or an index is a `Nat`; where the source computes with signed
  `int` arithmetic on it (integer division, conversion from `float`) the computation is
  done in `Int`.
* A `for` loop is a structural recursion on the number of iterations done so far; the
  `while` loop of `splint` is a recursion on fuel, with a lemma that the fuel given suffices.
* The `libm` functions (`sqrt`, `sin`, `cos`, `log`, `exp`) and `M_PI` are not part of the
  repository: they are taken as a parameter `Libm K`.
-/

namespace SRT2DSPECT

variable {K : Type} [LinearOrderedField K]

/-! ## Data model -/

/-- The mathematical library the source links against (`<cmath>`): the functions the
numeric kernels call and the constant `M_PI`. -/
structure Libm (K : Type) where
  /-- The function `sqrt`. -/
  sqrt : K → K
  /-- The function `sin`. -/
  sin : K → K
  /-- The function `cos`. -/
  cos : K → K
  /-- The function `log`. -/
  log : K → K
  /-- The function `exp`. -/
  exp : K → K
  /-- The constant `M_PI`. -/
  pi : K

/-- A vector given by the list of its first entries (zero beyond them); used to write
concrete inputs. -/
def vec (l : List K) : Nat → K := fun i => l.getD i 0

/-- Conversion of a floating value to `int` (C++ `[conv.fpint]`): truncation toward zero. -/
def toInt [FloorRing K] (v : K) : Int := if 0 ≤ v then Int.floor v else Int.ceil v

/-! ## `integ` (source lines 1047-1057) -/

/-- The accumulator `intg` of `integ` after the iterations `k = 1 .. m` of its loop.
`intg` is declared `int`: the initialisation `intg = ff[0]` converts the first sample to
`int`, and every `intg += ff[k]` adds in floating point and converts the sum back to `int`. -/
def integ_loop [FloorRing K] (ff : Nat → K) : Nat → Int
  | 0 => toInt (ff 0)
  | m + 1 => toInt (((integ_loop ff m : Int) : K) + ff (m + 1))

/-- The function `integ(dist, max, ff)`: `return intg * dist / max` after the loop
`for (k = 1; k < max; k++)`. -/
def integ [FloorRing K] (dist : K) (max : Nat) (ff : Nat → K) : K :=
  ((integ_loop ff (max - 1) : Int) : K) * dist / (max : K)

/-! ## `spline` (source lines 1021-1045) -/

/-- Forward elimination of `spline`: the pair `(y2, u)` after the iterations `i = 1 .. m`
of the first loop. Before the loop `y2[0] = 0.0` and `u[0] = 0.0`, `u` being a fresh
zero-initialised vector. -/
def spline_forward (x y y2 : Nat → K) : Nat → (Nat → K) × (Nat → K)
  | 0 => (Function.update y2 0 0, Function.update (fun _ => (0 : K)) 0 0)
  | m + 1 =>
    let s := spline_forward x y y2 m
    let i := m + 1
    let sig := (x i - x (i - 1)) / (x (i + 1) - x (i - 1))
    let p := sig * s.1 (i - 1) + 2
    (Function.update s.1 i ((sig - 1) / p),
     Function.update s.2 i
      ((6 * ((y (i + 1) - y i) / (x (i + 1) - x i) - (y i - y (i - 1)) / (x i - x (i - 1)))
            / (x (i + 1) - x (i - 1))
          - sig * s.2 (i - 1))
        / p))

/-- Back-substitution of `spline`: `spline_back u m y2` runs
`for (k = m - 1; k >= 0; k--) y2[k] = y2[k] * y2[k + 1] + u[k]`. -/
def spline_back (u : Nat → K) : Nat → (Nat → K) → (Nat → K)
  | 0, y2 => y2
  | k + 1, y2 => spline_back u k (Function.update y2 k (y2 k * y2 (k + 1) + u k))

/-- The function `spline(x, y, n, y2)`; the result is the vector `y2` on return. The first
loop runs for `i = 1 .. n-2`, then `y2[n-1]` is set with `qn = un = 0`, then the second loop
runs for `k = n-2` down to `0`. (For `n < 2` the source reads `u[n-2]` out of bounds; the
embedding is meant for `n ≥ 2`.) -/
def spline (x y : Nat → K) (n : Nat) (y2 : Nat → K) : Nat → K :=
  let s := spline_forward x y y2 (n - 2)
  let qn : K := 0
  let un : K := 0
  spline_back s.2 (n - 1)
    (Function.update s.1 (n - 1) ((un - qn * s.2 (n - 2)) / (qn * s.1 (n - 2) + 1)))

/-! ## `splint` (source lines 988-1019) -/

/-- The bisection loop of `splint`, `while (khi - klo > 1)`, run for at most `fuel`
iterations from the state `(klo, khi)`; `k = floor((khi + klo) / 2.0)`. -/
def splint_search (xa : Nat → K) (x : K) : Nat → Nat → Nat → Nat × Nat
  | 0, klo, khi => (klo, khi)
  | fuel + 1, klo, khi =>
    if khi - klo > 1 then
      let k := (khi + klo) / 2
      if xa k > x then splint_search xa x fuel klo k else splint_search xa x fuel k khi
    else (klo, khi)

/-- The function `splint(xa, ya, y2a, n, x)`. The search starts from `klo = 1`, `khi = n`
(`n` iterations of fuel are enough, see `splint_search_gap`). -/
def splint (xa ya y2a : Nat → K) (n : Nat) (x : K) : K :=
  let r := splint_search xa x n 1 n
  let klo := r.1
  let khi := r.2
  let h := xa khi - xa klo
  let a := (xa khi - x) / h
  let b := (x - xa klo) / h
  a * ya klo + b * ya khi + ((a * a * a - a) * y2a klo + (b * b * b - b) * y2a khi) * (h * h) / 6

/-! ## `hilbert_node` (source lines 859-887) -/

/-- The accumulator `dh` of `hilbert_node` after the iterations `i = 0 .. m-1` of its loop. -/
def hilbert_node_loop (x : K) (f ddf p : Nat → K) : Nat → K
  | 0 => 0
  | m + 1 =>
    let dh := hilbert_node_loop x f ddf p m
    let i := m
    dh - f i + f (i + 1)
      + 1 / 36
          * (4 * p i * p i - 5 * p i * p (i + 1) - 5 * p (i + 1) * p (i + 1)
              - 3 * (p i - 5 * p (i + 1)) * x - 6 * x * x)
          * ddf i
      + 1 / 36
          * (5 * p i * p i + 5 * p i * p (i + 1) - 4 * p (i + 1) * p (i + 1)
              - 3 * (5 * p i - p (i + 1)) * x + 6 * x * x)
          * ddf (i + 1)

/-- The function `hilbert_node(x, f, ddf, p, sp, fn)`. The loop runs for `i = 0 .. sp-2`.
In both branches the factor is written `2 / (sp - 1)` with the `int` literal `2` and the
`int` variable `sp`: an integer division, whose quotient is then converted to `float`. -/
def hilbert_node (M : Libm K) (x : K) (f ddf p : Nat → K) (sp : Nat) (fn : K) : K :=
  let dh := hilbert_node_loop x f ddf p (sp - 1)
  if |x| = 1 then
    (((2 : Int) / ((sp : Int) - 1) : Int) : K) * dh
  else
    fn * M.log ((1 - x) / (1 + x)) + (((2 : Int) / ((sp : Int) - 1) : Int) : K) * dh

/-! ## `hilbert` (source lines 889-947) -/

/-- The pair `(dh, Di)` of `hilbert` after the statements for `i = 0` and the iterations
`i = 1 .. m` of its loop. -/
def hilbert_loop (x : K) (f ddf p lg : Nat → K) : Nat → K × K
  | 0 =>
    let i := 0
    let Di := -1 / (p i - p (i + 1))
      * ((p (i + 1) - x) * f i - (p i - x) * f (i + 1)
          - 1 / 6 * (p i - x) * (p (i + 1) - x)
              * ((p i - 2 * p (i + 1) + x) * ddf i + (2 * p i - p (i + 1) - x) * ddf (i + 1)))
    (-f i + f (i + 1)
      + 1 / 36
          * (4 * p i * p i - 5 * p i * p (i + 1) - 5 * p (i + 1) * p (i + 1)
              - 3 * (p i - 5 * p (i + 1)) * x - 6 * x * x)
          * ddf i
      + 1 / 36
          * (5 * p i * p i + 5 * p i * p (i + 1) - 4 * p (i + 1) * p (i + 1)
              - 3 * (5 * p i - p (i + 1)) * x + 6 * x * x)
          * ddf (i + 1)
      - Di * lg i, Di)
  | m + 1 =>
    let s := hilbert_loop x f ddf p lg m
    let dh := s.1
    let Di := s.2
    let i := m + 1
    let Di1 := -1 / (p i - p (i + 1))
      * ((p (i + 1) - x) * f i - (p i - x) * f (i + 1)
          - 1 / 6 * (p i - x) * (p (i + 1) - x)
              * ((p i - 2 * p (i + 1) + x) * ddf i + (2 * p i - p (i + 1) - x) * ddf (i + 1)))
    (dh - f i + f (i + 1)
      + 1 / 36
          * (4 * p i * p i - 5 * p i * p (i + 1) - 5 * p (i + 1) * p (i + 1)
              - 3 * (p i - 5 * p (i + 1)) * x - 6 * x * x)
          * ddf i
      + 1 / 36
          * (5 * p i * p i + 5 * p i * p (i + 1) - 4 * p (i + 1) * p (i + 1)
              - 3 * (5 * p i - p (i + 1)) * x + 6 * x * x)
          * ddf (i + 1)
      + (Di - Di1) * lg (i + 1), Di1)

/-- The function `hilbert(x, f, ddf, p, sp, lg)`: the statements for `i = 0`, the loop
`for (i = 1; i < sp - 2; i++)`, the statements for `i = sp - 2`, and the final scaling by
the floating-point quotient `2.0 / (sp - 1)`. (For `sp < 2` the source reads at the negative
index `sp - 2`; the embedding is meant for `sp ≥ 2`.) -/
def hilbert (x : K) (f ddf p : Nat → K) (sp : Nat) (lg : Nat → K) : K :=
  let s := hilbert_loop x f ddf p lg (sp - 3)
  let dh := s.1
  let i := sp - 2
  let Di := -1 / (p i - p (i + 1))
    * ((p (i + 1) - x) * f i - (p i - x) * f (i + 1)
        - 1 / 6 * (p i - x) * (p (i + 1) - x)
            * ((p i - 2 * p (i + 1) + x) * ddf i + (2 * p i - p (i + 1) - x) * ddf (i + 1)))
  let dh := dh - f i + f (i + 1)
    + 1 / 36
        * (4 * p i * p i - 5 * p i * p (i + 1) - 5 * p (i + 1) * p (i + 1)
            - 3 * (p i - 5 * p (i + 1)) * x - 6 * x * x)
        * ddf i
    + 1 / 36
        * (5 * p i * p i + 5 * p i * p (i + 1) - 4 * p (i + 1) * p (i + 1)
            - 3 * (5 * p i - p (i + 1)) * x + 6 * x * x)
        * ddf (i + 1)
    + Di * lg (sp - 1)
  2 / ((sp : K) - 1) * dh

/-! ## `hilbert_der_double` (source lines 949-986) -/

/-- The pair `(dh, dh1)` of `hilbert_der_double` after the iterations `i = 0 .. m-1` of its
loop; `dp = p[1] - p[2]`, and the threshold `2e-6` is the rational `2/1000000`. -/
def hilbert_der_double_loop (x : K) (f ddf f1 ddf1 p lg : Nat → K) : Nat → K × K
  | 0 => (0, 0)
  | m + 1 =>
    let s := hilbert_der_double_loop x f ddf f1 ddf1 p lg m
    let dh := s.1
    let dh1 := s.2
    let dp := p 1 - p 2
    let i := m
    let pix := if |p i - x| > 2 / 1000000 then f i / (p i - x) else 0
    let pi1x := if |p (i + 1) - x| > 2 / 1000000 then f (i + 1) / (p (i + 1) - x) else 0
    let dh := dh + pix - pi1x - 1 / 4 * (p i - 3 * p (i + 1) + 2 * x) * ddf i
      - 1 / 4 * (3 * p i - p (i + 1) - 2 * x) * ddf (i + 1)
      + ((f i - f (i + 1)) / dp
          - 1 / 6 * (p i - p (i + 1) - (3 * (p (i + 1) - x) * (p (i + 1) - x)) / dp) * ddf i
          + 1 / 6 * (p i - p (i + 1) - (3 * (p i - x) * (p i - x)) / dp) * ddf (i + 1))
        * lg i
    let pix := if |p i - x| > 2 / 1000000 then f1 i / (p i - x) else 0
    let pi1x := if |p (i + 1) - x| > 2 / 1000000 then f1 (i + 1) / (p (i + 1) - x) else 0
    let dh1 := dh1 + pix - pi1x - 1 / 4 * (p i - 3 * p (i + 1) + 2 * x) * ddf1 i
      - 1 / 4 * (3 * p i - p (i + 1) - 2 * x) * ddf1 (i + 1)
      + ((f1 i - f1 (i + 1)) / dp
          - 1 / 6 * (p i - p (i + 1) - (3 * (p (i + 1) - x) * (p (i + 1) - x)) / dp) * ddf1 i
          + 1 / 6 * (p i - p (i + 1) - (3 * (p i - x) * (p i - x)) / dp) * ddf1 (i + 1))
        * lg i
    (dh, dh1)

/-- The function `hilbert_der_double(x, f, ddf, f1, ddf1, p, sp, dhp, dh1p, lg)`; the result
is the pair `(*dhp, *dh1p)`. The loop runs for `i = 0 .. sp-2`. -/
def hilbert_der_double (x : K) (f ddf f1 ddf1 p : Nat → K) (sp : Nat) (lg : Nat → K) : K × K :=
  let s := hilbert_der_double_loop x f ddf f1 ddf1 p lg (sp - 1)
  (2 / ((sp : K) - 1) * s.1, 2 / ((sp : K) - 1) * s.2)

/-! ## The attenuation factor in `actual_reconstruct` (source lines 260, 397-415, 526-648) -/

/-- The constant `Nt`, the number of secondary angles (source line 260). -/
def Nt : Nat := 8

/-- The index-reversed copy made when the caches are built:
`f1_cache[ia][it][sp - ip - 1] = f_cache[ia][it][ip]` for `ip = 0 .. sp-1`, written into a
zero-initialised vector of length `sp`. -/
def mirror (sp : Nat) (v : Nat → K) : Nat → K :=
  fun j => if j < sp then v (sp - 1 - j) else 0

/-- The test that makes the image loops skip a grid point (`continue`), with
`aux = sqrt(1 - x2 * x2)`: the point is processed exactly when the test fails. This is the
test in the arithmetic of `K`; `skipped_binary32` is the test as the program evaluates it
on its `float` values. -/
def skipped (M : Libm K) (x1 x2 : K) : Prop :=
  |x2| ≥ 1 ∨ |x1| ≥ M.sqrt (1 - x2 * x2)

instance (M : Libm K) (x1 x2 : K) : Decidable (skipped M x1 x2) := by
  unfold skipped
  infer_instance

/-- The radial coordinate `rho = x2 * cos(th) - x1 * sin(th)`. -/
def rho_of (M : Libm K) (x1 x2 th : K) : K := x2 * M.cos th - x1 * M.sin th

/-- The directly computed bracket index `int i = floor((rho + 1) * (sp - 1) / 2)`. -/
def bracket [FloorRing K] (rho : K) (sp : Nat) : Int :=
  Int.floor ((rho + 1) * ((sp : K) - 1) / 2)

/-- The in-line spline evaluation
`f_node = A * f[i] + B * f[i+1] + C * ddf[i] + D * ddf[i+1]` with the blend weights
`A, B, C, D` computed from `p1 = p[i]`, `p2 = p[i+1]`. -/
def f_node_of [FloorRing K] (p : Nat → K) (sp : Nat) (rho : K) (f ddf : Nat → K) : K :=
  let i := (bracket rho sp).toNat
  let p1 := p i
  let p2 := p (i + 1)
  let A := (p2 - rho) / (p2 - p1)
  let B := 1 - A
  let C := 1 / 6 * (A * A * A - A) * (p2 - p1) * (p2 - p1)
  let D := 1 / 6 * (B * B * B - B) * (p2 - p1) * (p2 - p1)
  A * f i + B * f (i + 1) + C * ddf i + D * ddf (i + 1)

/-- The along-ray coordinate `tau = x2 * sin(th) + x1 * cos(th)`. -/
def tau_of (M : Libm K) (x1 x2 th : K) : K := x2 * M.sin th + x1 * M.cos th

/-- The lower integration bound `a`. -/
def bound_a (M : Libm K) (rho tau : K) : K :=
  if tau ≥ 0 then tau else -M.sqrt (1 - rho * rho)

/-- The upper integration bound `b`. -/
def bound_b (M : Libm K) (rho tau : K) : K :=
  if tau ≥ 0 then M.sqrt (1 - rho * rho) else tau

/-- The first abscissa `tau1 = a + (b - a) * (1.0 / 2 - sqrt(3.0) / 6)`. -/
def tau1_of (M : Libm K) (a b : K) : K := a + (b - a) * (1 / 2 - M.sqrt 3 / 6)

/-- The second abscissa `tau2 = a + (b - a) * (1.0 / 2 + sqrt(3.0) / 6)`. -/
def tau2_of (M : Libm K) (a b : K) : K := a + (b - a) * (1 / 2 + M.sqrt 3 / 6)

/-- The weight `w = 1.0 / 2 * (b - a)`. -/
def weight_w (a b : K) : K := 1 / 2 * (b - a)

/-- The secondary radial coordinate
`rho_k = tau_k * sin(th[ith] - t[it]) + rho * cos(th[ith] - t[it])`. -/
def rho_k (M : Libm K) (tauk rho th t : K) : K :=
  tauk * M.sin (th - t) + rho * M.cos (th - t)

/-- One row `lg1_cache[it]` (or `lg2_cache[it]`) of the log tables, a zero-initialised
vector of length `sp - 1`: entry `ip` is `log(fabs((p[ip+1] - rho_k) / (p[ip] - rho_k)))`,
reset to `0` when one of the two distances is below `2e-6`. -/
def lg_cache (M : Libm K) (p : Nat → K) (sp : Nat) (rhok : K) : Nat → K :=
  fun ip =>
    if ip < sp - 1 then
      if |p (ip + 1) - rhok| < 2 / 1000000 ∨ |p ip - rhok| < 2 / 1000000 then 0
      else M.log |(p (ip + 1) - rhok) / (p ip - rhok)|
    else 0

/-- The array `dh1` (or `dh2`) after the loop over `it < Nt / 2`: the call of
`hilbert_der_double` for `it` writes its first output to index `it` and its second output
to index `it + Nt / 2`. -/
def dh_samples (M : Libm K) (p : Nat → K) (sp : Nat) (tauk rho th : K) (t : Nat → K)
    (f_cache ddf_cache f1_cache ddf1_cache : Nat → Nat → K) : Nat → K :=
  fun k =>
    if k < Nt / 2 then
      (hilbert_der_double (rho_k M tauk rho th (t k)) (f_cache k) (ddf_cache k) (f1_cache k)
        (ddf1_cache k) p sp (lg_cache M p sp (rho_k M tauk rho th (t k)))).1
    else
      (hilbert_der_double (rho_k M tauk rho th (t (k - Nt / 2))) (f_cache (k - Nt / 2))
        (ddf_cache (k - Nt / 2)) (f1_cache (k - Nt / 2)) (ddf1_cache (k - Nt / 2)) p sp
        (lg_cache M p sp (rho_k M tauk rho th (t (k - Nt / 2))))).2

/-- The attenuation exponent `F = w * Ft1 + w * Ft2` of `actual_reconstruct` at the grid
point `(x1, x2)` for the view angle `th`, with
`Ft_k = -1.0 / (4.0 * M_PI * M_PI) * integ(2 * M_PI, Nt, dh_k)`. The caches are those of
one axial position, indexed by the secondary angle. -/
def attenuation_F [FloorRing K] (M : Libm K) (p : Nat → K) (sp : Nat) (t : Nat → K)
    (th x1 x2 : K) (f_cache ddf_cache f1_cache ddf1_cache : Nat → Nat → K) : K :=
  let rho := rho_of M x1 x2 th
  let tau := tau_of M x1 x2 th
  let a := bound_a M rho tau
  let b := bound_b M rho tau
  let tau1 := tau1_of M a b
  let tau2 := tau2_of M a b
  let w := weight_w a b
  let dh1 := dh_samples M p sp tau1 rho th t f_cache ddf_cache f1_cache ddf1_cache
  let dh2 := dh_samples M p sp tau2 rho th t f_cache ddf_cache f1_cache ddf1_cache
  let Ft1 := -1 / (4 * M.pi * M.pi) * integ (2 * M.pi) Nt dh1
  let Ft2 := -1 / (4 * M.pi * M.pi) * integ (2 * M.pi) Nt dh2
  w * Ft1 + w * Ft2

/-- The attenuation factor `I = exp(f_node - F)` of `actual_reconstruct` at the grid point
`(x1, x2)` for the view angle `th`; `f`, `ddf` are the view's attenuation profile and its
spline coefficients at one axial position. -/
def attenuation_I [FloorRing K] (M : Libm K) (p : Nat → K) (sp : Nat) (t : Nat → K)
    (th x1 x2 : K) (f ddf : Nat → K) (f_cache ddf_cache f1_cache ddf1_cache : Nat → Nat → K) :
    K :=
  let rho := rho_of M x1 x2 th
  let f_node := f_node_of p sp rho f ddf
  let F := attenuation_F M p sp t th x1 x2 f_cache ddf_cache f1_cache ddf1_cache
  M.exp (f_node - F)

/-! ## The closed forms of the specification -/

/-- The closed-form per-interval term `E_i(x)` of the Hilbert transform, as the
specification writes it:
`f[i+1] - f[i] + (1/36)(4p_i^2 - 5p_i p_{i+1} - 5p_{i+1}^2 - 3(p_i - 5p_{i+1})x - 6x^2) ddf[i]
 + (1/36)(5p_i^2 + 5p_i p_{i+1} - 4p_{i+1}^2 - 3(5p_i - p_{i+1})x + 6x^2) ddf[i+1]`. -/
def E_term (x : K) (f ddf p : Nat → K) (i : Nat) : K :=
  f (i + 1) - f i
    + (1 / 36) * (4 * p i ^ 2 - 5 * p i * p (i + 1) - 5 * p (i + 1) ^ 2
        - 3 * (p i - 5 * p (i + 1)) * x - 6 * x ^ 2) * ddf i
    + (1 / 36) * (5 * p i ^ 2 + 5 * p i * p (i + 1) - 4 * p (i + 1) ^ 2
        - 3 * (5 * p i - p (i + 1)) * x + 6 * x ^ 2) * ddf (i + 1)

/-- The per-interval quantity `D_i(x)` that `hilbert` computes into `Di` and `Di1`. -/
def D_term (x : K) (f ddf p : Nat → K) (i : Nat) : K :=
  -1 / (p i - p (i + 1))
    * ((p (i + 1) - x) * f i - (p i - x) * f (i + 1)
        - 1 / 6 * (p i - x) * (p (i + 1) - x)
            * ((p i - 2 * p (i + 1) + x) * ddf i + (2 * p i - p (i + 1) - x) * ddf (i + 1)))

/-- The value the specification gives for `hilbert_node`: the log term (absent when
`|x| = 1`) plus the real-valued grid spacing `2/(sp-1)` times the sum of the per-interval
terms. -/
def hilbert_node_spec (M : Libm K) (x : K) (f ddf p : Nat → K) (sp : Nat) (fn : K) : K :=
  if |x| = 1 then
    2 / ((sp : K) - 1) * ∑ i in Finset.range (sp - 1), E_term x f ddf p i
  else
    fn * M.log ((1 - x) / (1 + x))
      + 2 / ((sp : K) - 1) * ∑ i in Finset.range (sp - 1), E_term x f ddf p i

/-- The value the specification gives for `hilbert`: the grid spacing times the
per-interval sum of `E_i(x) + D_i(x) * (lg[i+1] - lg[i])`. -/
def hilbert_spec (x : K) (f ddf p : Nat → K) (sp : Nat) (lg : Nat → K) : K :=
  2 / ((sp : K) - 1)
    * ∑ i in Finset.range (sp - 1),
        (E_term x f ddf p i + D_term x f ddf p i * (lg (i + 1) - lg i))

/-! ## Sampling tables and data loading in `actual_reconstruct` (source lines 260, 341-369, 443-452) -/

/-- The constant `Nmul = sth / Nt` (integer division, source line 260). -/
def Nmul (sth : Nat) : Nat := sth / Nt

/-- Entry `i` of the view angles, `th[i] = i * 2 * M_PI / sth`. -/
def grid_th (M : Libm K) (sth : Nat) (i : Nat) : K := (i : K) * 2 * M.pi / (sth : K)

/-- Entry `it` of the secondary angles, `t[it] = it * 2 * M_PI / Nt`. -/
def grid_t (M : Libm K) (it : Nat) : K := (it : K) * 2 * M.pi / (Nt : K)

/-- Entry `j` of the radial grid, `p[j] = -1.0 + 2.0 * j / (sp - 1)`. -/
def grid_p (sp : Nat) (j : Nat) : K := -1 + 2 * (j : K) / ((sp : K) - 1)

/-- Entry `k1` of the image coordinates `x1`, `x1[k1] = -1.0 + 2.0 * k1 / (sx - 1)`. -/
def grid_x1 (sx : Nat) (k1 : Nat) : K := -1 + 2 * (k1 : K) / ((sx : K) - 1)

/-- Entry `k2` of the image coordinates `x2`, a zero-initialised vector of length `sy` that
the source fills with `for (k2 = 0; k2 < sx; k2++) x2[k2] = -1.0 + 2.0 * k2 / (sx - 1)`:
both the loop bound and the spacing are taken from `sx`. -/
def grid_x2 (sx : Nat) (k2 : Nat) : K :=
  if k2 < sx then -1 + 2 * (k2 : K) / ((sx : K) - 1) else 0

/-- The cache fill: `f_cache[ia][it][ip]` is the sample `(ia, ip)` of the attenuation
viewgram `Nmul * it`, stored as it is (the factor `*.15` is commented out in the source).
`atten ith ia ip` is the sample of the attenuation data at view `ith`, the offsets
`get_min_axial_pos_num()` and `get_min_tangential_pos_num()` being absorbed in the indices. -/
def f_cache_of (atten : Nat → Nat → Nat → K) (sth : Nat) (ia : Nat) : Nat → Nat → K :=
  fun it ip => atten (Nmul sth * it) ia ip

/-- The view load of the emission profile: `g[ia][ip]` is the sample `(ia, ip)` of the
projection viewgram `ith`. -/
def view_g (proj : Nat → Nat → Nat → K) (ith ia : Nat) : Nat → K :=
  fun ip => proj ith ia ip

/-- The view load of the attenuation profile: `f[ia][ip]` is the sample `(ia, ip)` of the
attenuation viewgram `ith` multiplied by `0.1`. -/
def view_f (atten : Nat → Nat → Nat → K) (ith ia : Nat) : Nat → K :=
  fun ip => atten ith ia ip * (1 / 10)

/-! ## The finite differences of `actual_reconstruct` (source lines 654-699) -/

/-- The forward one-sided difference along one axis of the intermediate volume,
`(-3.0 * r[k] + 4.0 * r[k+1] - r[k+2]) / (2.0 * (2.0 / (s - 1)))`, `s` being `sx` along
`x1` and `sy` along `x2`. -/
def diff_forward (s : Nat) (r : Int → K) (k : Int) : K :=
  (-3 * r k + 4 * r (k + 1) - r (k + 2)) / (2 * (2 / ((s : K) - 1)))

/-- The backward one-sided difference,
`(3.0 * r[k] - 4.0 * r[k-1] + r[k-2]) / (2.0 * (2.0 / (s - 1)))`. -/
def diff_backward (s : Nat) (r : Int → K) (k : Int) : K :=
  (3 * r k - 4 * r (k - 1) + r (k - 2)) / (2 * (2 / ((s : K) - 1)))

/-- The values `rx1`, `rx2`: the forward difference when the coordinate `x` of the point is
negative, the backward difference otherwise. -/
def diff_one_sided (s : Nat) (x : K) (r : Int → K) (k : Int) : K :=
  if x < 0 then diff_forward s r k else diff_backward s r k

/-- The two further indices read by `diff_one_sided` besides `k`. -/
def diff_reads (x : K) (k : Int) : Int × Int :=
  if x < 0 then (k + 1, k + 2) else (k - 1, k - 2)

/-! ## The parts of the attenuation exponent -/

/-- The weight `w` at the grid point `(x1, x2)` for the view angle `th`, computed from the
bounds `a`, `b` of the point. -/
def attenuation_w (M : Libm K) (th x1 x2 : K) : K :=
  weight_w (bound_a M (rho_of M x1 x2 th) (tau_of M x1 x2 th))
    (bound_b M (rho_of M x1 x2 th) (tau_of M x1 x2 th))

/-- The quadrature result `integ(2 * M_PI, Nt, dh1)` of the first abscissa. -/
def attenuation_Q1 [FloorRing K] (M : Libm K) (p : Nat → K) (sp : Nat) (t : Nat → K)
    (th x1 x2 : K) (f_cache ddf_cache f1_cache ddf1_cache : Nat → Nat → K) : K :=
  integ (2 * M.pi) Nt
    (dh_samples M p sp
      (tau1_of M (bound_a M (rho_of M x1 x2 th) (tau_of M x1 x2 th))
        (bound_b M (rho_of M x1 x2 th) (tau_of M x1 x2 th)))
      (rho_of M x1 x2 th) th t f_cache ddf_cache f1_cache ddf1_cache)

/-- The quadrature result `integ(2 * M_PI, Nt, dh2)` of the second abscissa. -/
def attenuation_Q2 [FloorRing K] (M : Libm K) (p : Nat → K) (sp : Nat) (t : Nat → K)
    (th x1 x2 : K) (f_cache ddf_cache f1_cache ddf1_cache : Nat → Nat → K) : K :=
  integ (2 * M.pi) Nt
    (dh_samples M p sp
      (tau2_of M (bound_a M (rho_of M x1 x2 th) (tau_of M x1 x2 th))
        (bound_b M (rho_of M x1 x2 th) (tau_of M x1 x2 th)))
      (rho_of M x1 x2 th) th t f_cache ddf_cache f1_cache ddf1_cache)

/-- The attenuation exponent as the specification writes it, `w * (Q1 + Q2) / (4 pi^2)`. -/
def attenuation_F_spec [FloorRing K] (M : Libm K) (p : Nat → K) (sp : Nat) (t : Nat → K)
    (th x1 x2 : K) (f_cache ddf_cache f1_cache ddf1_cache : Nat → Nat → K) : K :=
  attenuation_w M th x1 x2
    * (attenuation_Q1 M p sp t th x1 x2 f_cache ddf_cache f1_cache ddf1_cache
        + attenuation_Q2 M p sp t th x1 x2 f_cache ddf_cache f1_cache ddf1_cache)
    / (4 * M.pi ^ 2)

/-! ## The log tables of `hilbert` -/

/-- The log table built in `actual_reconstruct` (source lines 545-549):
`val = fabs(rho - p[ip]); lg[ip] = val < 2e-6 ? 0. : log(val)`. -/
def lg_of (M : Libm K) (p : Nat → K) (rho : K) : Nat → K :=
  fun ip => if |rho - p ip| < 2 / 1000000 then 0 else M.log |rho - p ip|

/-- The log table as the specification writes it, `lg[j] = log|x - p[j]|`. -/
def log_table (M : Libm K) (x : K) (p : Nat → K) : Nat → K :=
  fun j => M.log |x - p j|

/-- The finite Hilbert transform of the spline as the specification writes it for the
derivative: `(2/(sp-1)) * SUM_{i=0}^{sp-2} [E_i(x) + D_i(x) * log|(p[i+1] - x)/(p[i] - x)|]`. -/
def hilbert_quotient_form (M : Libm K) (x : K) (f ddf p : Nat → K) (sp : Nat) : K :=
  2 / ((sp : K) - 1)
    * ∑ i in Finset.range (sp - 1),
        (E_term x f ddf p i + D_term x f ddf p i * M.log |(p (i + 1) - x) / (p i - x)|)

/-- The grid point `(ix1, ix2)` is processed by the image loops
`for (ix1 = 0; ix1 < sx; ix1++) for (ix2 = 0; ix2 < sy; ix2++)`: its indices are in range
and the skip test fails at `(x1[ix1], x2[ix2])`. These are the points at which the
intermediate volume is written for the current view. The test and the coordinates are those
of exact arithmetic; `processed_binary32` is the set with the stored coordinates and the
test in floating-point arithmetic. -/
def processed (M : Libm K) (sx sy : Nat) (ix1 ix2 : Int) : Prop :=
  0 ≤ ix1 ∧ ix1 < sx ∧ 0 ≤ ix2 ∧ ix2 < sy
    ∧ ¬ skipped M (grid_x1 sx ix1.toNat) (grid_x2 sx ix2.toNat)

instance (M : Libm K) (sx sy : Nat) (ix1 ix2 : Int) : Decidable (processed M sx sy ix1 ix2) := by
  unfold processed
  infer_instance

/-! ## The view loop of `actual_reconstruct` (source lines 356-415, 426-700) -/

/-- The runtime sizes: `sp` tangential positions, `sth` views, `sa` axial positions and the
image extents `sx`, `sy`. -/
structure Sizes where
  /-- The number of tangential positions. -/
  sp : Nat
  /-- The number of views. -/
  sth : Nat
  /-- The number of axial positions. -/
  sa : Nat
  /-- The image size along `x`. -/
  sx : Nat
  /-- The image size along `y`. -/
  sy : Nat

/-- The part of the program state at one axial position `ia` that lives across the
iterations of the view loop: the coefficient vectors `ddg[ia]`, `ddf[ia]`, `ddfc[ia]`,
`ddfs[ia]` handed to `spline` as output arguments, the slice `rx1x2th[ia]` of the
intermediate volume and the slice of the output image. The image slice is indexed by the
loop indices `(ix1, ix2)`, which stand for the voxel
`image[ia][image_min_x + sx - ix1 - 1][image_min_y + ix2]`. All other variables of the loop
body are assigned before they are read in every iteration. -/
structure AxialState (K : Type) where
  /-- The vector `ddg[ia]`. -/
  ddg : Nat → K
  /-- The vector `ddf[ia]`. -/
  ddf : Nat → K
  /-- The vector `ddfc[ia]`. -/
  ddfc : Nat → K
  /-- The vector `ddfs[ia]`. -/
  ddfs : Nat → K
  /-- The slice `rx1x2th[ia]`. -/
  rx : Int → Int → K
  /-- The slice of the output image. -/
  image : Int → Int → K

/-- The state before the first view: zero-initialised vectors, `rx1x2th.fill(0.0F)` and
`density_ptr->fill(0)`. -/
def AxialState.initial : AxialState K :=
  ⟨fun _ => 0, fun _ => 0, fun _ => 0, fun _ => 0, fun _ _ => 0, fun _ _ => 0⟩

/-- The cache `ddf_cache[ia]`: `spline(p, f_cache[ia][it], sp, ddf_cache[ia][it])` on a
zero-initialised vector. -/
def ddf_cache_of (atten : Nat → Nat → Nat → K) (sp sth ia : Nat) : Nat → Nat → K :=
  fun it => spline (grid_p sp) (f_cache_of atten sth ia it) sp (fun _ => 0)

/-- The cache `f1_cache[ia]`, the index-reversed `f_cache[ia]`. -/
def f1_cache_of (atten : Nat → Nat → Nat → K) (sp sth ia : Nat) : Nat → Nat → K :=
  fun it => mirror sp (f_cache_of atten sth ia it)

/-- The cache `ddf1_cache[ia]`, the index-reversed `ddf_cache[ia]`. -/
def ddf1_cache_of (atten : Nat → Nat → Nat → K) (sp sth ia : Nat) : Nat → Nat → K :=
  fun it => mirror sp (ddf_cache_of atten sp sth ia it)

/-- The node values `hilb[ia][ip] = hilbert_node(p[ip], f[ia], ddf[ia], p, sp, f[ia][ip])`. -/
def view_hilb (M : Libm K) (sp : Nat) (f ddf : Nat → K) : Nat → K :=
  fun ip => hilbert_node M (grid_p sp ip) f ddf (grid_p sp) sp (f ip)

/-- The node values `fc[ia][ip] = fcpe[ia][ip] * g[ia][ip]` with
`fcpe[ia][ip] = exp(0.5 * f[ia][ip]) * cos(hilb[ia][ip] / (2 * M_PI))`. -/
def view_fc (M : Libm K) (sp : Nat) (g f ddf : Nat → K) : Nat → K :=
  fun ip => M.exp (1 / 2 * f ip) * M.cos (view_hilb M sp f ddf ip / (2 * M.pi)) * g ip

/-- The node values `fs[ia][ip] = fspe[ia][ip] * g[ia][ip]` with
`fspe[ia][ip] = exp(0.5 * f[ia][ip]) * sin(hilb[ia][ip] / (2 * M_PI))`. -/
def view_fs (M : Libm K) (sp : Nat) (g f ddf : Nat → K) : Nat → K :=
  fun ip => M.exp (1 / 2 * f ip) * M.sin (view_hilb M sp f ddf ip / (2 * M.pi)) * g ip

/-- The value stored in `rx1x2th[ia][ix1][ix2]` for a processed point `(x1, x2)` at the
view angle `th`: the raw inversion value multiplied by the attenuation factor `I`. -/
def rx_value [FloorRing K] (M : Libm K) (p : Nat → K) (sp : Nat) (t : Nat → K)
    (th x1 x2 : K) (g ddg f ddf fc ddfc fs ddfs : Nat → K)
    (f_cache ddf_cache f1_cache ddf1_cache : Nat → Nat → K) : K :=
  let rho := rho_of M x1 x2 th
  let lg := lg_of M p rho
  let f_node := f_node_of p sp rho f ddf
  let h := hilbert rho f ddf p sp lg
  let fcme_fin := M.exp (-(1 / 2) * f_node) * M.cos (h / (2 * M.pi))
  let fsme_fin := M.exp (-(1 / 2) * f_node) * M.sin (h / (2 * M.pi))
  let fcpe_fin := M.exp (1 / 2 * f_node) * M.cos (h / (2 * M.pi))
  let fspe_fin := M.exp (1 / 2 * f_node) * M.sin (h / (2 * M.pi))
  let gx := splint p g ddg sp rho
  let fc_fin := fcpe_fin * gx
  let fs_fin := fspe_fin * gx
  let hc_fin := hilbert rho fc ddfc p sp lg
  let hs_fin := hilbert rho fs ddfs p sp lg
  let raw := fcme_fin * (1 / M.pi * hc_fin + fs_fin) + fsme_fin * (1 / M.pi * hs_fin - fc_fin)
  let I := attenuation_I M p sp t th x1 x2 f ddf f_cache ddf_cache f1_cache ddf1_cache
  I * raw

/-- One iteration of the view loop at the axial position `ia`: the view `ith` is loaded,
the four splines are fitted into the vectors of the state, the intermediate volume is
written at every processed point, and then the image is incremented at every processed point
by `1/(4 pi) * (rx1 * sin(th) - rx2 * cos(th)) * (2 pi / sth) * 6.23`. -/
def view_step_axial [FloorRing K] (M : Libm K) (S : Sizes) (proj atten : Nat → Nat → Nat → K)
    (ia : Nat) (s : AxialState K) (ith : Nat) : AxialState K :=
  let p : Nat → K := grid_p S.sp
  let th := grid_th M S.sth ith
  let g := view_g proj ith ia
  let f := view_f atten ith ia
  let ddg := spline p g S.sp s.ddg
  let ddf := spline p f S.sp s.ddf
  let fc := view_fc M S.sp g f ddf
  let fs := view_fs M S.sp g f ddf
  let ddfc := spline p fc S.sp s.ddfc
  let ddfs := spline p fs S.sp s.ddfs
  let rx : Int → Int → K := fun ix1 ix2 =>
    if processed M S.sx S.sy ix1 ix2 then
      rx_value M p S.sp (grid_t M) th (grid_x1 S.sx ix1.toNat) (grid_x2 S.sx ix2.toNat)
        g ddg f ddf fc ddfc fs ddfs (f_cache_of atten S.sth ia)
        (ddf_cache_of atten S.sp S.sth ia) (f1_cache_of atten S.sp S.sth ia)
        (ddf1_cache_of atten S.sp S.sth ia)
    else s.rx ix1 ix2
  let image : Int → Int → K := fun ix1 ix2 =>
    if processed M S.sx S.sy ix1 ix2 then
      let rx1 := diff_one_sided S.sx (grid_x1 S.sx ix1.toNat) (fun k => rx k ix2) ix1
      let rx2 := diff_one_sided S.sy (grid_x2 S.sx ix2.toNat) (fun k => rx ix1 k) ix2
      s.image ix1 ix2
        + 1 / (4 * M.pi) * (rx1 * M.sin th - rx2 * M.cos th) * (2 * M.pi / (S.sth : K))
          * (623 / 100)
    else s.image ix1 ix2
  ⟨ddg, ddf, ddfc, ddfs, rx, image⟩

/-- One iteration of the view loop on the whole state: the axial positions `ia < sa` are
stepped, there is nothing at the others. -/
def view_step [FloorRing K] (M : Libm K) (S : Sizes) (proj atten : Nat → Nat → Nat → K)
    (s : Nat → AxialState K) (ith : Nat) : Nat → AxialState K :=
  fun ia => if ia < S.sa then view_step_axial M S proj atten ia (s ia) ith else s ia

/-- The view loop run over the views of `order`, from the initial state. The source runs it
with `order = [0, 1, ..., sth - 1]`. -/
def run_views [FloorRing K] (M : Libm K) (S : Sizes) (proj atten : Nat → Nat → Nat → K)
    (order : List Nat) : Nat → AxialState K :=
  order.foldl (view_step M S proj atten) (fun _ => AxialState.initial)

/-- The contribution of the view `ith` to the image slice `ia`: the image after that view
alone, from the initial state. -/
def view_contribution [FloorRing K] (M : Libm K) (S : Sizes)
    (proj atten : Nat → Nat → Nat → K) (ia ith : Nat) : Int → Int → K :=
  (view_step M S proj atten (fun _ => AxialState.initial) ith ia).image

/-- Two states of one axial position agree outside what an iteration of the view loop
overwrites: the four coefficient vectors agree beyond the index `sp - 1`, and the
intermediate volumes agree at the points that are not processed. -/
def same_frame (M : Libm K) (S : Sizes) (a b : AxialState K) : Prop :=
  (∀ k, S.sp - 1 < k → a.ddg k = b.ddg k)
    ∧ (∀ k, S.sp - 1 < k → a.ddf k = b.ddf k)
    ∧ (∀ k, S.sp - 1 < k → a.ddfc k = b.ddfc k)
    ∧ (∀ k, S.sp - 1 < k → a.ddfs k = b.ddfs k)
    ∧ (∀ i j, ¬ processed M S.sx S.sy i j → a.rx i j = b.rx i j)

/-! ## `set_up` (source lines 86-114) and the checks of `actual_reconstruct` (lines 150-223) -/

/-- The class `Succeeded`. -/
inductive Succeeded where
  /-- The value `Succeeded::yes`. -/
  | yes
  /-- The value `Succeeded::no`. -/
  | no
  deriving DecidableEq

/-- What `set_up` reads from a `ProjDataInfoCylindrical`: the minimum and the maximum ring
difference of segment 0 and the number of segments. -/
structure CylindricalInfo where
  /-- The value `get_min_ring_difference(0)`. -/
  min_ring_difference : Int
  /-- The value `get_max_ring_difference(0)`. -/
  max_ring_difference : Int
  /-- The value `get_num_segments()`. -/
  num_segments : Int

/-- The function `set_up`, as a function of the result of `base_type::set_up`, of the
projection data info (`none` when it is not a `ProjDataInfoCylindrical`) and of the value
of `num_segments_to_combine` on entry. The result is the exception raised by `error`, or
the value returned together with the value of `num_segments_to_combine` on return. The test
`num_segments_to_combine % 2 == 0` uses the truncated remainder of C++. Reading the
attenuation file is taken to succeed. -/
def set_up (base_set_up : Succeeded) (cyl : Option CylindricalInfo)
    (num_segments_to_combine : Int) : Except String (Succeeded × Int) :=
  if base_set_up = Succeeded.no then Except.ok (Succeeded.no, num_segments_to_combine)
  else if num_segments_to_combine ≥ 0 ∧ Int.tmod num_segments_to_combine 2 = 0 then
    Except.error "num_segments_to_combine has to be odd (or -1)"
  else if num_segments_to_combine = -1 then
    match cyl with
    | none => Except.ok (Succeeded.yes, 1)
    | some c =>
      if c.min_ring_difference ≠ c.max_ring_difference ∨ c.num_segments = 1 then
        Except.ok (Succeeded.yes, 1)
      else Except.ok (Succeeded.yes, 3)
  else Except.ok (Succeeded.yes, num_segments_to_combine)

/-- The run-time type of the projection data info, as far as `actual_reconstruct` tests it. -/
inductive Geometry where
  /-- A `ProjDataInfoCylindricalArcCorr`. -/
  | cylindrical_arc_corrected
  /-- A `ProjDataInfoCylindrical` that is not arc-corrected. -/
  | cylindrical_not_arc_corrected
  /-- Not a `ProjDataInfoCylindrical`. -/
  | other
  deriving DecidableEq

/-- The outcome of a call of `actual_reconstruct`: the value returned or the exception
raised, and the content of the output image when the call ends. -/
structure ReconResult (K : Type) where
  /-- The value returned, or the exception. -/
  outcome : Except String Succeeded
  /-- The output image at the end of the call, indexed by `(ia, ix1, ix2)` as in
  `AxialState`. -/
  density : Nat → Int → Int → K

/-- The function `actual_reconstruct`. With `num_segments_to_combine > 1` the data are first
rebinned, which casts the data info to `ProjDataInfoCylindrical&` and throws when it is not
one; `tan_theta` and `proj` are the tangent of segment 0 and the samples of the data after
that step. Then `fabs(tan_theta) > 1.E-4` returns `Succeeded::no`, data that are not a
`ProjDataInfoCylindricalArcCorr` raise an error, and only then the image is filled with zeros
and the view loop is run over the views `0 .. sth-1`. -/
def actual_reconstruct [FloorRing K] (M : Libm K) (S : Sizes) (geometry : Geometry)
    (num_segments_to_combine : Int) (tan_theta : K) (proj atten : Nat → Nat → Nat → K)
    (density : Nat → Int → Int → K) : ReconResult K :=
  if num_segments_to_combine > 1 ∧ geometry = Geometry.other then
    ⟨Except.error "std::bad_cast", density⟩
  else if |tan_theta| > 1 / 10000 then ⟨Except.ok Succeeded.no, density⟩
  else if geometry ≠ Geometry.cylindrical_arc_corrected then
    ⟨Except.error "SPECT data should correspond to ProjDataInfoCylindricalArcCorr", density⟩
  else
    ⟨Except.ok Succeeded.yes,
      fun ia => (run_views M S proj atten (List.range S.sth) ia).image⟩

/-- The indices at which the grid setup writes into `x2`, a vector of length `sy`: those of
the loop `for (k2 = 0; k2 < sx; k2++) x2[k2] = ...`. -/
def x2_write_indices (sx : Nat) : List Nat := List.range sx

/-! ## The detector tables of `ProjDataInfoCylindricalNoArcCorr` (source lines 165-319) -/

/-- The expression `a >> 1` on `int`: the arithmetic shift, which rounds down (the source
asserts `-1 >> 1 == -1` and `-2 >> 1 == -1`). -/
def shift_right_one (a : Int) : Int := a / 2

/-- An entry of the table `uncompressed_view_tangpos_to_det1det2`. -/
structure Det1Det2 where
  /-- The field `det1_num`. -/
  det1_num : Int
  /-- The field `det2_num`. -/
  det2_num : Int
  deriving DecidableEq

/-- The entry that `initialise_uncompressed_view_tangpos_to_det1det2` stores at
`[v_num][tp_num]`, with the truncated `%` and `/` of C++. -/
def uncompressed_view_tangpos_to_det1det2 (num_detectors v_num tp_num : Int) : Det1Det2 :=
  ⟨Int.tmod (v_num + shift_right_one tp_num + num_detectors) num_detectors,
    Int.tmod (v_num - shift_right_one (tp_num + 1) + Int.tdiv num_detectors 2) num_detectors⟩

/-- The local variables `view_num`, `tang_pos_num`, `swap_detectors` of
`initialise_det1det2_to_uncompressed_view_tangpos` at the end of an iteration with
`det1_num ≠ det2_num`. -/
structure ViewTangPosLocal where
  /-- The variable `view_num`. -/
  view_num : Int
  /-- The variable `tang_pos_num`. -/
  tang_pos_num : Int
  /-- The variable `swap_detectors`. -/
  swap_detectors : Int
  deriving DecidableEq

/-- An entry of the table `det1det2_to_uncompressed_view_tangpos`. -/
structure ViewTangPosSwap where
  /-- The field `view_num`. -/
  view_num : Int
  /-- The field `tang_pos_num`. -/
  tang_pos_num : Int
  /-- The field `swap_detectors`. -/
  swap_detectors : Bool
  deriving DecidableEq

/-- The body of the loop of `initialise_det1det2_to_uncompressed_view_tangpos` for
`det1_num ≠ det2_num`, up to the three assignments to the table. -/
def det1det2_locals (num_detectors det1_num det2_num : Int) : ViewTangPosLocal :=
  let tang_pos_num :=
    Int.tmod (det1_num - det2_num + Int.tdiv (3 * num_detectors) 2) num_detectors
  let view_num := Int.tmod (det1_num - shift_right_one tang_pos_num + num_detectors) num_detectors
  let max_num_views := Int.tdiv num_detectors 2
  if view_num < max_num_views then
    if tang_pos_num ≥ max_num_views then ⟨view_num, num_detectors - tang_pos_num, 1⟩
    else ⟨view_num, tang_pos_num, 0⟩
  else
    if tang_pos_num ≥ max_num_views then
      ⟨view_num - max_num_views, tang_pos_num - num_detectors, 0⟩
    else ⟨view_num - max_num_views, tang_pos_num * -1, 1⟩

/-- The entry that `initialise_det1det2_to_uncompressed_view_tangpos` stores at
`[det1_num][det2_num]`; `none` on the diagonal, which the loop skips. The stored flag is
`swap_detectors == 0`. -/
def det1det2_to_uncompressed_view_tangpos (num_detectors det1_num det2_num : Int) :
    Option ViewTangPosSwap :=
  if det1_num = det2_num then none
  else
    some ⟨(det1det2_locals num_detectors det1_num det2_num).view_num,
      (det1det2_locals num_detectors det1_num det2_num).tang_pos_num,
      decide ((det1det2_locals num_detectors det1_num det2_num).swap_detectors = 0)⟩

/-! ## The cubic spline piece of one interval (source lines 1010-1016) -/

/-- The cubic that `splint` evaluates once its search has ended on the interval
`klo = i`, `khi = i + 1`: with `h = xa[i+1] - xa[i]`, `a = (xa[i+1] - x) / h`,
`b = (x - xa[i]) / h`, the value
`a * ya[i] + b * ya[i+1] + ((a^3 - a) * y2a[i] + (b^3 - b) * y2a[i+1]) * (h * h) / 6`. -/
def spline_piece (xa ya y2a : Nat → K) (i : Nat) (x : K) : K :=
  let klo := i
  let khi := i + 1
  let h := xa khi - xa klo
  let a := (xa khi - x) / h
  let b := (x - xa klo) / h
  a * ya klo + b * ya khi + ((a * a * a - a) * y2a klo + (b * b * b - b) * y2a khi) * (h * h) / 6

/-! ## `get_all_det_pos_pairs_for_bin` (source lines 321-376) -/

/-- The coordinates of a `Bin` that `get_all_det_pos_pairs_for_bin` reads besides the
segment and the axial position (which only select the ring pairs). -/
structure Bin where
  /-- The value `bin.view_num()`. -/
  view_num : Int
  /-- The value `bin.tangential_pos_num()`. -/
  tangential_pos_num : Int
  /-- The value `bin.timing_pos_num()`. -/
  timing_pos_num : Int

/-- A `DetectionPositionPair<>` as the function fills it: the tangential and axial
coordinates of the two positions and the timing position. -/
structure DetectionPositionPair where
  /-- The value `pos1().tangential_coord()`. -/
  pos1_tangential : Int
  /-- The value `pos1().axial_coord()`. -/
  pos1_axial : Int
  /-- The value `pos2().tangential_coord()`. -/
  pos2_tangential : Int
  /-- The value `pos2().axial_coord()`. -/
  pos2_axial : Int
  /-- The value `timing_pos()`. -/
  timing_pos : Int
  deriving DecidableEq

/-- The function `get_num_det_pos_pairs_for_bin`: the number of ring pairs of the bin's
segment and axial position, times `get_view_mashing_factor()`, times
`ignore_non_spatial_dimensions ? 1 : std::max(1, get_tof_mash_factor())`. The number of ring
pairs and the two mashing factors are counts kept by the class; they are parameters here. -/
def get_num_det_pos_pairs_for_bin (num_ring_pairs view_mashing_factor tof_mash_factor : Nat)
    (ignore_non_spatial_dimensions : Bool) : Nat :=
  num_ring_pairs * view_mashing_factor
    * (if ignore_non_spatial_dimensions = true then 1 else max 1 tof_mash_factor)

/-- The pair `(min_timing_pos_num, max_timing_pos_num)`: both `0`, replaced when the
non-spatial dimensions are not ignored by
`timing_pos_num * tof_mash_factor ∓ tof_mash_factor / 2` (integer division). -/
def timing_pos_range (tof_mash_factor : Nat) (timing_pos_num : Int)
    (ignore_non_spatial_dimensions : Bool) : Int × Int :=
  if ignore_non_spatial_dimensions = true then (0, 0)
  else
    (timing_pos_num * (tof_mash_factor : Int) - ((tof_mash_factor / 2 : Nat) : Int),
      timing_pos_num * (tof_mash_factor : Int) + ((tof_mash_factor / 2 : Nat) : Int))

/-- The values taken by the variable of a loop `for (int u = lo; u <= hi; ++u)`. -/
def loop_values (lo hi : Int) : List Int :=
  (List.range (hi - lo + 1).toNat).map (fun (k : Nat) => lo + (k : Int))

/-- The innermost loop of `get_all_det_pos_pairs_for_bin` over the timing positions. The
state is the counter `current_dp_num` and the list of the writes `dps[index] = value` done so
far, in order. -/
def write_timing_loop (det1_num det2_num : Int) (rings : Int × Int) (timings : List Int)
    (s : Nat × List (Nat × DetectionPositionPair)) : Nat × List (Nat × DetectionPositionPair) :=
  timings.foldl
    (fun s u => (s.1 + 1, s.2 ++ [(s.1, ⟨det1_num, rings.1, det2_num, rings.2, u⟩)])) s

/-- The function `get_all_det_pos_pairs_for_bin`: the loop over the uncompressed views
`view_num * view_mashing_factor .. (view_num + 1) * view_mashing_factor - 1`, over the ring
pairs and over the timing positions. The result is the final value of `current_dp_num` and
the list of the writes into `dps`, which has been resized to
`get_num_det_pos_pairs_for_bin(bin, ignore_non_spatial_dimensions)` entries. `ring_pairs` is
the vector returned by `get_all_ring_pairs_for_segment_axial_pos_num`. -/
def get_all_det_pos_pairs_for_bin (num_detectors : Int) (ring_pairs : List (Int × Int))
    (view_mashing_factor tof_mash_factor : Nat) (bin : Bin)
    (ignore_non_spatial_dimensions : Bool) : Nat × List (Nat × DetectionPositionPair) :=
  let r := timing_pos_range tof_mash_factor bin.timing_pos_num ignore_non_spatial_dimensions
  let timings := loop_values r.1 r.2
  (List.range view_mashing_factor).foldl
    (fun s (dv : Nat) =>
      let uncompressed_view_num := bin.view_num * (view_mashing_factor : Int) + (dv : Int)
      let e := uncompressed_view_tangpos_to_det1det2 num_detectors uncompressed_view_num
        bin.tangential_pos_num
      ring_pairs.foldl
        (fun s rings => write_timing_loop e.det1_num e.det2_num rings timings s) s)
    (0, [])

/-! ## `spline` on floating values with infinities and NaN -/

/-- A floating value with the special values of IEEE 754 arithmetic: a finite number, an
infinity or NaN. The arithmetic on finite numbers is exact (rounding and overflow are not
modelled). Zero has no sign: a zero divisor counts as `+0`, which is what an exact
cancellation `a - a` yields under round-to-nearest, so that a finite non-zero number
divided by zero is the infinity with the sign of the number. -/
inductive Fp (K : Type) where
  /-- A finite number. -/
  | fin (v : K)
  /-- The value `+inf`. -/
  | pinf
  /-- The value `-inf`. -/
  | ninf
  /-- The value NaN. -/
  | nan

/-- The test `std::isfinite`. -/
def Fp.is_finite : Fp K → Bool
  | Fp.fin _ => true
  | _ => false

/-- Addition: `inf + (-inf)` and every sum with NaN is NaN. -/
def Fp.add : Fp K → Fp K → Fp K
  | Fp.fin a, Fp.fin b => Fp.fin (a + b)
  | Fp.fin _, Fp.pinf => Fp.pinf
  | Fp.fin _, Fp.ninf => Fp.ninf
  | Fp.pinf, Fp.fin _ => Fp.pinf
  | Fp.pinf, Fp.pinf => Fp.pinf
  | Fp.ninf, Fp.fin _ => Fp.ninf
  | Fp.ninf, Fp.ninf => Fp.ninf
  | _, _ => Fp.nan

/-- Subtraction: `inf - inf` and every difference with NaN is NaN. -/
def Fp.sub : Fp K → Fp K → Fp K
  | Fp.fin a, Fp.fin b => Fp.fin (a - b)
  | Fp.fin _, Fp.pinf => Fp.ninf
  | Fp.fin _, Fp.ninf => Fp.pinf
  | Fp.pinf, Fp.fin _ => Fp.pinf
  | Fp.pinf, Fp.ninf => Fp.pinf
  | Fp.ninf, Fp.fin _ => Fp.ninf
  | Fp.ninf, Fp.pinf => Fp.ninf
  | _, _ => Fp.nan

/-- The infinity with the sign of `a`, NaN for `a = 0`: the product of `a` and `+inf`. -/
def Fp.signed_inf (a : K) : Fp K :=
  if a = 0 then Fp.nan else if 0 < a then Fp.pinf else Fp.ninf

/-- Multiplication: `0 * inf` and every product with NaN is NaN. -/
def Fp.mul : Fp K → Fp K → Fp K
  | Fp.fin a, Fp.fin b => Fp.fin (a * b)
  | Fp.fin a, Fp.pinf => Fp.signed_inf a
  | Fp.fin a, Fp.ninf => Fp.signed_inf (-a)
  | Fp.pinf, Fp.fin b => Fp.signed_inf b
  | Fp.ninf, Fp.fin b => Fp.signed_inf (-b)
  | Fp.pinf, Fp.pinf => Fp.pinf
  | Fp.pinf, Fp.ninf => Fp.ninf
  | Fp.ninf, Fp.pinf => Fp.ninf
  | Fp.ninf, Fp.ninf => Fp.pinf
  | _, _ => Fp.nan

/-- Division: `0 / 0`, `inf / inf` and every quotient with NaN is NaN; a finite non-zero
number divided by zero is an infinity; a finite number divided by an infinity is zero. -/
def Fp.div : Fp K → Fp K → Fp K
  | Fp.fin a, Fp.fin b => if b = 0 then Fp.signed_inf a else Fp.fin (a / b)
  | Fp.fin _, Fp.pinf => Fp.fin 0
  | Fp.fin _, Fp.ninf => Fp.fin 0
  | Fp.pinf, Fp.fin b => if 0 ≤ b then Fp.pinf else Fp.ninf
  | Fp.ninf, Fp.fin b => if 0 ≤ b then Fp.ninf else Fp.pinf
  | _, _ => Fp.nan

/-- Forward elimination of `spline` on floating values with infinities and NaN: the same
statements as `spline_forward`, each operation being the IEEE one. -/
def spline_forward_fp (x y y2 : Nat → Fp K) : Nat → (Nat → Fp K) × (Nat → Fp K)
  | 0 => (Function.update y2 0 (Fp.fin 0), Function.update (fun _ => Fp.fin 0) 0 (Fp.fin 0))
  | m + 1 =>
    let s := spline_forward_fp x y y2 m
    let i := m + 1
    let sig := Fp.div (Fp.sub (x i) (x (i - 1))) (Fp.sub (x (i + 1)) (x (i - 1)))
    let p := Fp.add (Fp.mul sig (s.1 (i - 1))) (Fp.fin 2)
    (Function.update s.1 i (Fp.div (Fp.sub sig (Fp.fin 1)) p),
     Function.update s.2 i
      (Fp.div
        (Fp.sub
          (Fp.div
            (Fp.mul (Fp.fin 6)
              (Fp.sub (Fp.div (Fp.sub (y (i + 1)) (y i)) (Fp.sub (x (i + 1)) (x i)))
                (Fp.div (Fp.sub (y i) (y (i - 1))) (Fp.sub (x i) (x (i - 1))))))
            (Fp.sub (x (i + 1)) (x (i - 1))))
          (Fp.mul sig (s.2 (i - 1))))
        p))

/-- Back-substitution of `spline` on floating values with infinities and NaN. -/
def spline_back_fp (u : Nat → Fp K) : Nat → (Nat → Fp K) → (Nat → Fp K)
  | 0, y2 => y2
  | k + 1, y2 => spline_back_fp u k (Function.update y2 k (Fp.add (Fp.mul (y2 k) (y2 (k + 1))) (u k)))

/-- The function `spline(x, y, n, y2)` on floating values with infinities and NaN. -/
def spline_fp (x y : Nat → Fp K) (n : Nat) (y2 : Nat → Fp K) : Nat → Fp K :=
  let s := spline_forward_fp x y y2 (n - 2)
  let qn : Fp K := Fp.fin 0
  let un : Fp K := Fp.fin 0
  spline_back_fp s.2 (n - 1)
    (Function.update s.1 (n - 1)
      (Fp.div (Fp.sub un (Fp.mul qn (s.2 (n - 2)))) (Fp.add (Fp.mul qn (s.1 (n - 2))) (Fp.fin 1))))

/-- The call `spline(x, y, n, y2)` with its error channel, on floating values with
infinities and NaN. The body of `spline` contains no call of `error`, no `throw` and no
test of its arguments, and floating-point division by zero raises no exception: every call
returns with the vector its two loops have computed. -/
def spline_call (x y : Nat → Fp K) (n : Nat) (y2 : Nat → Fp K) : Except String (Nat → Fp K) :=
  Except.ok (spline_fp x y n y2)

/-! ## Binary floating-point rounding and the skip test as the program evaluates it -/

/-- Rounding of a rational number to the nearest binary floating-point number with `prec`
significant bits, ties to even (the rounding of IEEE 754 arithmetic). The exponent range is
not bounded: overflow and subnormal numbers are not modelled. -/
def round_to_precision (prec : Nat) (x : ℚ) : ℚ :=
  if x = 0 then 0
  else
    let e : Int := Int.log 2 |x| - ((prec : Int) - 1)
    let s : ℚ := |x| / 2 ^ e
    let f : Int := ⌊s⌋
    let m : Int :=
      if s - f < 1 / 2 then f
      else if 1 / 2 < s - f then f + 1
      else if f % 2 = 0 then f else f + 1
    if x < 0 then -((m : ℚ) * 2 ^ e) else (m : ℚ) * 2 ^ e

/-- Rounding to the type `float` (IEEE 754 binary32, 24 significant bits). -/
def binary32 (x : ℚ) : ℚ := round_to_precision 24 x

/-- Rounding to the type `double` (IEEE 754 binary64, 53 significant bits). -/
def binary64 (x : ℚ) : ℚ := round_to_precision 53 x

/-- The correctly rounded square root with `prec` significant bits, which IEEE 754 requires
of `sqrt`: `none` (NaN) for a negative argument, else the floating-point number nearest to
the square root. -/
def sqrt_to_precision (prec : Nat) (d : ℚ) : Option ℚ :=
  if d < 0 then none
  else if d = 0 then some 0
  else
    let e : Int := Int.log 2 d / 2 - ((prec : Int) - 1)
    let s : ℚ := d / 4 ^ e
    let f : Nat := Nat.sqrt ⌊s⌋₊
    let m : Nat :=
      if s < ((f : ℚ) + 1 / 2) ^ 2 then f
      else if ((f : ℚ) + 1 / 2) ^ 2 < s then f + 1
      else if f % 2 = 0 then f else f + 1
    some ((m : ℚ) * 2 ^ e)

/-- Entry `k1` of the vector `x1` as the program stores it: the statement
`x1[k1] = -1.0 + 2.0 * k1 / (sx - 1)` evaluates its right-hand side in `double`, each
operation rounded, and stores the result in a `std::vector<float>` (for `sx ≥ 2`; with
`sx = 1` the divisor is zero). -/
def x1_binary32 (sx k1 : Nat) : ℚ :=
  binary32 (binary64 (-1 + binary64 (binary64 (2 * (k1 : ℚ)) / ((sx : ℚ) - 1))))

/-- Entry `k2` of the vector `x2` as the program stores it: a zero-initialised
`std::vector<float>` of length `sy`, filled by
`for (k2 = 0; k2 < sx; k2++) x2[k2] = -1.0 + 2.0 * k2 / (sx - 1)`. -/
def x2_binary32 (sx k2 : Nat) : ℚ :=
  if k2 < sx then binary32 (binary64 (-1 + binary64 (binary64 (2 * (k2 : ℚ)) / ((sx : ℚ) - 1))))
  else 0

/-- The variable `float aux` after `aux = sqrt(1. - x2[ix2] * x2[ix2])`: the product of two
`float` values is a `float`, the difference from the `double` constant `1.` and its square
root are `double` values, and the assignment rounds to `float`. The value `none` is NaN. -/
def aux_binary32 (x2 : ℚ) : Option ℚ :=
  (sqrt_to_precision 53 (binary64 (1 - binary32 (x2 * x2)))).map binary32

/-- The skip test `if (fabs(x2[ix2]) >= 1. || fabs(x1[ix1]) >= aux) continue;` on the stored
values `x1 = x1[ix1]`, `x2 = x2[ix2]`, as the program evaluates it. A comparison with NaN is
false. -/
def skipped_binary32 (x1 x2 : ℚ) : Prop :=
  |x2| ≥ 1 ∨ match aux_binary32 x2 with
    | some aux => |x1| ≥ aux
    | none => False

instance (x1 x2 : ℚ) : Decidable (skipped_binary32 x1 x2) := by
  unfold skipped_binary32
  cases aux_binary32 x2 <;> infer_instance

/-- The grid point `(ix1, ix2)` is processed by the image loops as the program runs them:
its indices are in range and the skip test, evaluated in floating-point arithmetic on the
stored coordinates, fails. -/
def processed_binary32 (sx sy : Nat) (ix1 ix2 : Int) : Prop :=
  0 ≤ ix1 ∧ ix1 < sx ∧ 0 ≤ ix2 ∧ ix2 < sy
    ∧ ¬ skipped_binary32 (x1_binary32 sx ix1.toNat) (x2_binary32 sx ix2.toNat)

instance (sx sy : Nat) (ix1 ix2 : Int) : Decidable (processed_binary32 sx sy ix1 ix2) := by
  unfold processed_binary32
  infer_instance

/-! ## The view loop on the stored coordinates with the floating-point skip test -/

/-- One iteration of the view loop at the axial position `ia`, with the set of processed
points and the coordinate vectors `x1`, `x2` as parameters: the statements are those of
`view_step_axial`, which is the instance with the exact skip test and the exact grid. -/
def view_step_axial_with [FloorRing K] (M : Libm K) (S : Sizes) (proc : Int → Int → Bool)
    (x1 x2 : Nat → K) (proj atten : Nat → Nat → Nat → K)
    (ia : Nat) (s : AxialState K) (ith : Nat) : AxialState K :=
  let p : Nat → K := grid_p S.sp
  let th := grid_th M S.sth ith
  let g := view_g proj ith ia
  let f := view_f atten ith ia
  let ddg := spline p g S.sp s.ddg
  let ddf := spline p f S.sp s.ddf
  let fc := view_fc M S.sp g f ddf
  let fs := view_fs M S.sp g f ddf
  let ddfc := spline p fc S.sp s.ddfc
  let ddfs := spline p fs S.sp s.ddfs
  let rx : Int → Int → K := fun ix1 ix2 =>
    if proc ix1 ix2 then
      rx_value M p S.sp (grid_t M) th (x1 ix1.toNat) (x2 ix2.toNat)
        g ddg f ddf fc ddfc fs ddfs (f_cache_of atten S.sth ia)
        (ddf_cache_of atten S.sp S.sth ia) (f1_cache_of atten S.sp S.sth ia)
        (ddf1_cache_of atten S.sp S.sth ia)
    else s.rx ix1 ix2
  let image : Int → Int → K := fun ix1 ix2 =>
    if proc ix1 ix2 then
      let rx1 := diff_one_sided S.sx (x1 ix1.toNat) (fun k => rx k ix2) ix1
      let rx2 := diff_one_sided S.sy (x2 ix2.toNat) (fun k => rx ix1 k) ix2
      s.image ix1 ix2
        + 1 / (4 * M.pi) * (rx1 * M.sin th - rx2 * M.cos th) * (2 * M.pi / (S.sth : K))
          * (623 / 100)
    else s.image ix1 ix2
  ⟨ddg, ddf, ddfc, ddfs, rx, image⟩

/-- One iteration of the view loop on the whole state, as `view_step`. -/
def view_step_with [FloorRing K] (M : Libm K) (S : Sizes) (proc : Int → Int → Bool)
    (x1 x2 : Nat → K) (proj atten : Nat → Nat → Nat → K)
    (s : Nat → AxialState K) (ith : Nat) : Nat → AxialState K :=
  fun ia => if ia < S.sa then view_step_axial_with M S proc x1 x2 proj atten ia (s ia) ith
    else s ia

/-- The view loop run over the views of `order`, from the initial state, as `run_views`. -/
def run_views_with [FloorRing K] (M : Libm K) (S : Sizes) (proc : Int → Int → Bool)
    (x1 x2 : Nat → K) (proj atten : Nat → Nat → Nat → K) (order : List Nat) :
    Nat → AxialState K :=
  order.foldl (view_step_with M S proc x1 x2 proj atten) (fun _ => AxialState.initial)

/-- The function `actual_reconstruct` with the image loops as the program runs them: the
checks are those of `actual_reconstruct`; the view loop runs on the stored `float`
coordinates `x1`, `x2` and skips the points that the skip test, evaluated in
floating-point arithmetic, rejects. The values accumulated at the processed points are
computed in exact arithmetic from the stored coordinates. -/
def actual_reconstruct_binary32 [FloorRing K] (M : Libm K) (S : Sizes) (geometry : Geometry)
    (num_segments_to_combine : Int) (tan_theta : K) (proj atten : Nat → Nat → Nat → K)
    (density : Nat → Int → Int → K) : ReconResult K :=
  if num_segments_to_combine > 1 ∧ geometry = Geometry.other then
    ⟨Except.error "std::bad_cast", density⟩
  else if |tan_theta| > 1 / 10000 then ⟨Except.ok Succeeded.no, density⟩
  else if geometry ≠ Geometry.cylindrical_arc_corrected then
    ⟨Except.error "SPECT data should correspond to ProjDataInfoCylindricalArcCorr", density⟩
  else
    ⟨Except.ok Succeeded.yes,
      fun ia => (run_views_with M S (fun ix1 ix2 => decide (processed_binary32 S.sx S.sy ix1 ix2))
        (fun k1 => ((x1_binary32 S.sx k1 : ℚ) : K)) (fun k2 => ((x2_binary32 S.sx k2 : ℚ) : K))
        proj atten (List.range S.sth) ia).image⟩

/-! ## Lemmas on `spline` -/

theorem spline_back_ge (u : Nat → K) (m : Nat) (y2 : Nat → K) (k : Nat) (hk : m ≤ k) :
    spline_back u m y2 k = y2 k := by
  induction m generalizing y2 with
  | zero => rfl
  | succ m ih =>
    rw [spline_back, ih _ (by omega), Function.update_noteq (by omega)]

theorem spline_back_lt (u : Nat → K) (m : Nat) (y2 : Nat → K) (k : Nat) (hk : k < m) :
    spline_back u m y2 k = y2 k * spline_back u m y2 (k + 1) + u k := by
  induction m generalizing y2 with
  | zero => omega
  | succ m ih =>
    rw [spline_back]
    rcases Nat.lt_succ_iff_lt_or_eq.mp hk with h | h
    · rw [ih _ h, Function.update_noteq (by omega)]
    · subst h
      rw [spline_back_ge u k _ k le_rfl, spline_back_ge u k _ (k + 1) (by omega),
        Function.update_same, Function.update_noteq (by omega)]

theorem spline_forward_fst_gt (x y y2 : Nat → K) (m i : Nat) (h : m < i) :
    (spline_forward x y y2 m).1 i = y2 i := by
  induction m with
  | zero => simp [spline_forward, Function.update_noteq (show i ≠ 0 by omega)]
  | succ m ih =>
    simp only [spline_forward]
    rw [Function.update_noteq (by omega), ih (by omega)]

theorem spline_forward_fst_stable (x y y2 : Nat → K) (m i : Nat) (h : i ≤ m) :
    (spline_forward x y y2 m).1 i = (spline_forward x y y2 i).1 i := by
  induction m with
  | zero => obtain rfl : i = 0 := by omega
            rfl
  | succ m ih =>
    rcases Nat.lt_or_ge i (m + 1) with h1 | h1
    · rw [← ih (by omega)]
      simp only [spline_forward]
      rw [Function.update_noteq (by omega)]
    · obtain rfl : i = m + 1 := by omega
      rfl

theorem spline_forward_snd_stable (x y y2 : Nat → K) (m i : Nat) (h : i ≤ m) :
    (spline_forward x y y2 m).2 i = (spline_forward x y y2 i).2 i := by
  induction m with
  | zero => obtain rfl : i = 0 := by omega
            rfl
  | succ m ih =>
    rcases Nat.lt_or_ge i (m + 1) with h1 | h1
    · rw [← ih (by omega)]
      simp only [spline_forward]
      rw [Function.update_noteq (by omega)]
    · obtain rfl : i = m + 1 := by omega
      rfl

theorem spline_forward_zero (x y y2 : Nat → K) (m : Nat) :
    (spline_forward x y y2 m).1 0 = 0 ∧ (spline_forward x y y2 m).2 0 = 0 := by
  rw [spline_forward_fst_stable x y y2 m 0 (Nat.zero_le _),
    spline_forward_snd_stable x y y2 m 0 (Nat.zero_le _)]
  simp [spline_forward]

/-- The value of `spline` at the last index. -/
theorem spline_last (x y y2 : Nat → K) (n : Nat) : spline x y n y2 (n - 1) = 0 := by
  simp [spline, spline_back_ge]

/-- The back-substitution relation satisfied by the result of `spline`. -/
theorem spline_rec (x y y2 : Nat → K) (n k : Nat) (hk : k + 1 < n) :
    spline x y n y2 k
      = (spline_forward x y y2 (n - 2)).1 k * spline x y n y2 (k + 1)
        + (spline_forward x y y2 (n - 2)).2 k := by
  unfold spline
  rw [spline_back_lt _ _ _ _ (by omega), Function.update_noteq (by omega)]


/-- The values written by iteration `i ≥ 1` of the forward elimination, in terms of the
values at `i - 1`. -/
theorem spline_forward_step (x y y2 : Nat → K) (m i : Nat) (hi : 1 ≤ i) (him : i ≤ m) :
    (spline_forward x y y2 m).1 i
        = ((x i - x (i - 1)) / (x (i + 1) - x (i - 1)) - 1)
          / ((x i - x (i - 1)) / (x (i + 1) - x (i - 1)) * (spline_forward x y y2 m).1 (i - 1) + 2)
    ∧ (spline_forward x y y2 m).2 i
        = (6 * ((y (i + 1) - y i) / (x (i + 1) - x i) - (y i - y (i - 1)) / (x i - x (i - 1)))
              / (x (i + 1) - x (i - 1))
            - (x i - x (i - 1)) / (x (i + 1) - x (i - 1)) * (spline_forward x y y2 m).2 (i - 1))
          / ((x i - x (i - 1)) / (x (i + 1) - x (i - 1)) * (spline_forward x y y2 m).1 (i - 1) + 2) := by
  obtain ⟨j, rfl⟩ : ∃ j, i = j + 1 := ⟨i - 1, by omega⟩
  rw [spline_forward_fst_stable x y y2 m (j + 1) him, spline_forward_snd_stable x y y2 m (j + 1) him,
    spline_forward_fst_stable x y y2 m (j + 1 - 1) (by omega),
    spline_forward_snd_stable x y y2 m (j + 1 - 1) (by omega)]
  simp only [spline_forward, Function.update_same, Nat.add_sub_cancel]
  exact ⟨trivial, trivial⟩

/-- Invariant of the forward elimination on strictly increasing abscissae: the
decomposition factor stored in `y2[m]` lies in `(-1, 0]`. -/
theorem spline_forward_bounds (x y y2 : Nat → K) (m : Nat) (hx : ∀ i, i ≤ m → x i < x (i + 1)) :
    -1 < (spline_forward x y y2 m).1 m ∧ (spline_forward x y y2 m).1 m ≤ 0 := by
  induction m with
  | zero => simp [spline_forward]
  | succ m ih =>
    obtain ⟨h1, h2⟩ := ih (fun i hi => hx i (by omega))
    have ha : 0 < x (m + 1) - x m := sub_pos.mpr (hx m (by omega))
    have hb : 0 < x (m + 2) - x (m + 1) := sub_pos.mpr (hx (m + 1) (by omega))
    have hab : 0 < x (m + 2) - x m := by linarith
    have hsig0 : 0 < (x (m + 1) - x m) / (x (m + 2) - x m) := div_pos ha hab
    have hsig1 : (x (m + 1) - x m) / (x (m + 2) - x m) < 1 := by
      rw [div_lt_one hab]; linarith
    simp only [spline_forward, Function.update_same, Nat.add_sub_cancel]
    set sig := (x (m + 1) - x m) / (x (m + 1 + 1) - x m) with hsig
    set d := (spline_forward x y y2 m).1 m with hd
    have hp : 1 < sig * d + 2 := by nlinarith
    have hp0 : 0 < sig * d + 2 := by linarith
    constructor
    · rw [lt_div_iff₀ hp0]; nlinarith
    · apply div_nonpos_of_nonpos_of_nonneg <;> linarith


/-! ## Theorems on `spline` -/

/-- C6. For every `n ≥ 2`, strictly increasing `x` and every `y`, the coefficient vector
written by `spline(x, y, n, y2)` has `y2[0] = 0` and `y2[n-1] = 0` (natural boundary
conditions), whatever `y2` held before the call. -/
theorem spline_natural_boundary (x y y2 : Nat → K) (n : Nat) (hn : 2 ≤ n)
    (_hx : ∀ i, i + 1 < n → x i < x (i + 1)) :
    spline x y n y2 0 = 0 ∧ spline x y n y2 (n - 1) = 0 := by
  refine ⟨?_, spline_last x y y2 n⟩
  rw [spline_rec x y y2 n 0 (by omega), (spline_forward_zero x y y2 (n - 2)).1,
    (spline_forward_zero x y y2 (n - 2)).2]
  simp

theorem spline_natural_boundary_witness :
    (2 ≤ 3) ∧ (∀ i, i + 1 < 3 → (vec [0, 1, 2] : Nat → ℚ) i < vec [0, 1, 2] (i + 1))
      ∧ spline (vec [0, 1, 2]) (vec [1, 0, 0]) 3 (vec [5, 5, 5]) 0 = (0 : ℚ)
      ∧ spline (vec [0, 1, 2]) (vec [1, 0, 0]) 3 (vec [5, 5, 5]) (3 - 1) = (0 : ℚ) :=
  have h : ∀ i, i + 1 < 3 → (vec [0, 1, 2] : Nat → ℚ) i < vec [0, 1, 2] (i + 1) := by
    intro i hi
    have hi2 : i < 2 := by omega
    interval_cases i <;> norm_num [vec]
  ⟨by decide, h, spline_natural_boundary (vec [0, 1, 2]) (vec [1, 0, 0]) (vec [5, 5, 5]) 3 (by decide) h⟩

/-- The output of `spline` on strictly increasing abscissae satisfies the equations of the
natural cubic spline at the interior nodes. -/
theorem spline_system (x y y2 : Nat → K) (n : Nat) (hn : 3 ≤ n)
    (hx : ∀ i, i + 1 < n → x i < x (i + 1)) (i : Nat) (hi1 : 1 ≤ i) (hi2 : i ≤ n - 2) :
    (x i - x (i - 1)) / 6 * spline x y n y2 (i - 1)
        + (x (i + 1) - x (i - 1)) / 3 * spline x y n y2 i
        + (x (i + 1) - x i) / 6 * spline x y n y2 (i + 1)
      = (y (i + 1) - y i) / (x (i + 1) - x i) - (y i - y (i - 1)) / (x i - x (i - 1)) := by
  obtain ⟨j, rfl⟩ : ∃ j, i = j + 1 := ⟨i - 1, by omega⟩
  simp only [Nat.add_sub_cancel]
  have hY0 := spline_rec x y y2 n j (by omega)
  have hY1 := spline_rec x y y2 n (j + 1) (by omega)
  obtain ⟨hd1, hu1⟩ := spline_forward_step x y y2 (n - 2) (j + 1) (by omega) hi2
  simp only [Nat.add_sub_cancel] at hd1 hu1
  have hbd : -1 < (spline_forward x y y2 (n - 2)).1 j ∧ (spline_forward x y y2 (n - 2)).1 j ≤ 0 := by
    rw [spline_forward_fst_stable x y y2 (n - 2) j (by omega)]
    exact spline_forward_bounds x y y2 j (fun i hi => hx i (by omega))
  have ha : 0 < x (j + 1) - x j := sub_pos.mpr (hx j (by omega))
  have hb : 0 < x (j + 1 + 1) - x (j + 1) := sub_pos.mpr (hx (j + 1) (by omega))
  have hab : 0 < x (j + 1 + 1) - x j := by linarith
  have hc : x (j + 1 + 1) - x (j + 1) = (x (j + 1 + 1) - x j) - (x (j + 1) - x j) := by ring
  rw [hc] at hb ⊢
  generalize spline x y n y2 j = Y0 at hY0 ⊢
  generalize spline x y n y2 (j + 1) = Y1 at hY0 hY1 ⊢
  generalize spline x y n y2 (j + 1 + 1) = Y2 at hY1 ⊢
  generalize (spline_forward x y y2 (n - 2)).1 j = d0 at hY0 hd1 hu1 hbd
  generalize (spline_forward x y y2 (n - 2)).2 j = u0 at hY0 hu1
  generalize (spline_forward x y y2 (n - 2)).1 (j + 1) = d1 at hY1 hd1
  generalize (spline_forward x y y2 (n - 2)).2 (j + 1) = u1 at hY1 hu1
  rw [hc] at hu1
  generalize (y (j + 1 + 1) - y (j + 1)) / ((x (j + 1 + 1) - x j) - (x (j + 1) - x j))
    - (y (j + 1) - y j) / (x (j + 1) - x j) = r at hu1 ⊢
  generalize x (j + 1) - x j = a at *
  generalize x (j + 1 + 1) - x j = c at *
  have hsig0 : 0 < a / c := div_pos ha hab
  have hsig1 : a / c < 1 := by rw [div_lt_one hab]; linarith
  have hp : 0 < a / c * d0 + 2 := by nlinarith [hbd.1, hbd.2]
  have hc0 : c ≠ 0 := ne_of_gt hab
  have hp0 : a / c * d0 + 2 ≠ 0 := ne_of_gt hp
  have e1 : Y1 * (a / c * d0 + 2) = (a / c - 1) * Y2 + (6 * r / c - a / c * u0) := by
    rw [hY1, hd1, hu1]
    generalize a / c * d0 + 2 = P at hp0
    field_simp
    ring
  have e2 : 6 * r = a * Y0 + 2 * c * Y1 + (c - a) * Y2 := by
    have h3 : Y1 * (a / c * d0 + 2) * c = ((a / c - 1) * Y2 + (6 * r / c - a / c * u0)) * c := by
      rw [e1]
    have h4 : Y1 * (a / c * d0 + 2) * c = Y1 * (a * d0 + 2 * c) := by
      field_simp
    have h5 : ((a / c - 1) * Y2 + (6 * r / c - a / c * u0)) * c = (a - c) * Y2 + (6 * r - a * u0) := by
      field_simp
    rw [h4, h5] at h3
    rw [hY0]
    linear_combination -h3
  linear_combination (1 / 6 : K) * e2 * (-1)

/-- C7. For every `n ≥ 3`, strictly increasing `x` and every `y`, the output of `spline`
solves the natural cubic spline system: at every interior node `1 ≤ i ≤ n-2`,
`(x[i]-x[i-1])/6 * y2[i-1] + (x[i+1]-x[i-1])/3 * y2[i] + (x[i+1]-x[i])/6 * y2[i+1]
  = (y[i+1]-y[i])/(x[i+1]-x[i]) - (y[i]-y[i-1])/(x[i]-x[i-1])`. -/
theorem spline_solves_system (x y y2 : Nat → K) (n : Nat) (hn : 3 ≤ n)
    (hx : ∀ i, i + 1 < n → x i < x (i + 1)) (i : Nat) (hi1 : 1 ≤ i) (hi2 : i ≤ n - 2) :
    (x i - x (i - 1)) / 6 * spline x y n y2 (i - 1)
        + (x (i + 1) - x (i - 1)) / 3 * spline x y n y2 i
        + (x (i + 1) - x i) / 6 * spline x y n y2 (i + 1)
      = (y (i + 1) - y i) / (x (i + 1) - x i) - (y i - y (i - 1)) / (x i - x (i - 1)) :=
  spline_system x y y2 n hn hx i hi1 hi2

theorem spline_solves_system_witness :
    (3 ≤ 3) ∧ (∀ i, i + 1 < 3 → (vec [0, 1, 2] : Nat → ℚ) i < vec [0, 1, 2] (i + 1))
      ∧ 1 ≤ 1 ∧ 1 ≤ 3 - 2
      ∧ ((vec [0, 1, 2] : Nat → ℚ) 1 - vec [0, 1, 2] (1 - 1)) / 6
            * spline (vec [0, 1, 2]) (vec [1, 0, 0]) 3 (vec [5, 5, 5]) (1 - 1)
          + ((vec [0, 1, 2] : Nat → ℚ) (1 + 1) - vec [0, 1, 2] (1 - 1)) / 3
            * spline (vec [0, 1, 2]) (vec [1, 0, 0]) 3 (vec [5, 5, 5]) 1
          + ((vec [0, 1, 2] : Nat → ℚ) (1 + 1) - vec [0, 1, 2] 1) / 6
            * spline (vec [0, 1, 2]) (vec [1, 0, 0]) 3 (vec [5, 5, 5]) (1 + 1)
        = ((vec [1, 0, 0] : Nat → ℚ) (1 + 1) - vec [1, 0, 0] 1)
            / ((vec [0, 1, 2] : Nat → ℚ) (1 + 1) - vec [0, 1, 2] 1)
          - ((vec [1, 0, 0] : Nat → ℚ) 1 - vec [1, 0, 0] (1 - 1))
            / ((vec [0, 1, 2] : Nat → ℚ) 1 - vec [0, 1, 2] (1 - 1)) :=
  have h : ∀ i, i + 1 < 3 → (vec [0, 1, 2] : Nat → ℚ) i < vec [0, 1, 2] (i + 1) := by
    intro i hi
    have hi2 : i < 2 := by omega
    interval_cases i <;> norm_num [vec]
  ⟨by decide, h, by decide, by decide,
    spline_solves_system (vec [0, 1, 2]) (vec [1, 0, 0]) (vec [5, 5, 5]) 3 (by decide) h 1
      (by decide) (by decide)⟩


/-! ## Lemmas for the zero attenuation profile -/

theorem spline_forward_snd_zero (x y2 : Nat → K) (m : Nat) :
    (spline_forward x (fun _ => 0) y2 m).2 = fun _ => 0 := by
  induction m with
  | zero => funext k; simp [spline_forward]
  | succ m ih =>
    funext k
    simp only [spline_forward, ih]
    by_cases hk : k = m + 1
    · subst hk; simp
    · rw [Function.update_noteq hk]

/-- The spline coefficients of the zero profile are zero at every index of the vector. -/
theorem spline_zero (x y2 : Nat → K) (n k : Nat) (hk : k < n) :
    spline x (fun _ => 0) n y2 k = 0 := by
  have key : ∀ d, d < n → spline x (fun _ => 0) n y2 (n - 1 - d) = 0 := by
    intro d
    induction d with
    | zero => intro _; exact spline_last x _ y2 n
    | succ d ih =>
      intro hd
      rw [spline_rec x _ y2 n (n - 1 - (d + 1)) (by omega), spline_forward_snd_zero]
      have e : n - 1 - (d + 1) + 1 = n - 1 - d := by omega
      rw [e, ih (by omega)]
      simp
  have e : k = n - 1 - (n - 1 - k) := by omega
  rw [e]
  exact key _ (by omega)

theorem mirror_zero (sp : Nat) (v : Nat → K) (hv : ∀ k, k < sp → v k = 0) (j : Nat) :
    mirror sp v j = 0 := by
  unfold mirror
  split
  · exact hv _ (by omega)
  · rfl

theorem hilbert_der_double_loop_zero (x : K) (f ddf f1 ddf1 p lg : Nat → K) (m : Nat)
    (hf : ∀ k, k ≤ m → f k = 0) (hddf : ∀ k, k ≤ m → ddf k = 0)
    (hf1 : ∀ k, k ≤ m → f1 k = 0) (hddf1 : ∀ k, k ≤ m → ddf1 k = 0) :
    hilbert_der_double_loop x f ddf f1 ddf1 p lg m = (0, 0) := by
  induction m with
  | zero => rfl
  | succ m ih =>
    simp only [hilbert_der_double_loop]
    rw [ih (fun k hk => hf k (by omega)) (fun k hk => hddf k (by omega))
      (fun k hk => hf1 k (by omega)) (fun k hk => hddf1 k (by omega)),
      hf m (by omega), hf (m + 1) le_rfl, hddf m (by omega), hddf (m + 1) le_rfl,
      hf1 m (by omega), hf1 (m + 1) le_rfl, hddf1 m (by omega), hddf1 (m + 1) le_rfl]
    simp

theorem hilbert_der_double_zero (x : K) (f ddf f1 ddf1 p lg : Nat → K) (sp : Nat)
    (hf : ∀ k, k < sp → f k = 0) (hddf : ∀ k, k < sp → ddf k = 0)
    (hf1 : ∀ k, k < sp → f1 k = 0) (hddf1 : ∀ k, k < sp → ddf1 k = 0) (hsp : 1 ≤ sp) :
    hilbert_der_double x f ddf f1 ddf1 p sp lg = (0, 0) := by
  unfold hilbert_der_double
  rw [hilbert_der_double_loop_zero x f ddf f1 ddf1 p lg (sp - 1)
    (fun k hk => hf k (by omega)) (fun k hk => hddf k (by omega))
    (fun k hk => hf1 k (by omega)) (fun k hk => hddf1 k (by omega))]
  simp

theorem toInt_zero [FloorRing K] : toInt (0 : K) = 0 := by
  simp [toInt]

theorem integ_loop_zero [FloorRing K] (ff : Nat → K) (m : Nat) (h : ∀ k, k ≤ m → ff k = 0) :
    integ_loop ff m = 0 := by
  induction m with
  | zero => simp [integ_loop, h 0 le_rfl, toInt_zero]
  | succ m ih =>
    simp [integ_loop, ih (fun k hk => h k (by omega)), h (m + 1) le_rfl, toInt_zero]

theorem integ_zero [FloorRing K] (dist : K) (n : Nat) (ff : Nat → K) (h : ∀ k, k < n → ff k = 0)
    (hn : 1 ≤ n) : integ dist n ff = 0 := by
  unfold integ
  rw [integ_loop_zero ff (n - 1) (fun k hk => h k (by omega))]
  simp

/-- An in-disk point has `|rho| < 1` (real arithmetic, real `sqrt`, `sin`, `cos`). -/
theorem abs_rho_lt_one (x1 x2 th : ℝ)
    (h : ¬ skipped ⟨Real.sqrt, Real.sin, Real.cos, Real.log, Real.exp, Real.pi⟩ x1 x2) :
    |rho_of ⟨Real.sqrt, Real.sin, Real.cos, Real.log, Real.exp, Real.pi⟩ x1 x2 th| < 1 := by
  simp only [skipped, not_or, not_le, ge_iff_le] at h
  obtain ⟨h2, h1⟩ := h
  have h3 : x1 ^ 2 < 1 - x2 * x2 := by
    have := (Real.lt_sqrt (abs_nonneg x1)).mp h1
    rwa [sq_abs] at this
  have hsc := Real.sin_sq_add_cos_sq th
  simp only [rho_of]
  rw [← sq_lt_one_iff_abs_lt_one]
  nlinarith [sq_nonneg (x2 * Real.sin th + x1 * Real.cos th)]

/-- For `|rho| < 1` and `sp ≥ 2` the bracket index and its successor are indices of the
radial grid. -/
theorem bracket_toNat_lt [FloorRing K] (rho : K) (sp : Nat) (hsp : 2 ≤ sp) (h : |rho| < 1) :
    (bracket rho sp).toNat + 1 < sp := by
  obtain ⟨h1, h2⟩ := abs_lt.mp h
  have hs : (1 : K) ≤ (sp : K) - 1 := by
    have : (2 : K) ≤ (sp : K) := by exact_mod_cast hsp
    linarith
  have hlt : bracket rho sp < (sp : Int) - 1 := by
    unfold bracket
    rw [Int.floor_lt]
    push_cast
    nlinarith
  have hge : 0 ≤ bracket rho sp := by
    unfold bracket
    apply Int.floor_nonneg.mpr
    apply div_nonneg _ (by norm_num)
    apply mul_nonneg <;> linarith
  omega


/-! ## Theorem on the attenuation factor -/

/-- C3. If every attenuation sample is zero (the view's profile `f` and the cache `f_cache`
are identically `0`), then for every view angle, every in-disk image point and every radial
grid (`sp ≥ 2` nodes) the attenuation factor `I = exp(f_node - F)` computed in
`actual_reconstruct` equals `1`. The coefficient vectors are the outputs of `spline` on the
zero profiles (whatever they held before), the mirrored caches are built by index reversal
as in the source, and `sqrt`, `sin`, `cos`, `log`, `exp`, `pi` are the real ones. -/
theorem attenuation_factor_zero_profile (sp : Nat) (hsp : 2 ≤ sp) (p t : Nat → ℝ)
    (th x1 x2 : ℝ)
    (hin : ¬ skipped ⟨Real.sqrt, Real.sin, Real.cos, Real.log, Real.exp, Real.pi⟩ x1 x2)
    (ddf0 : Nat → ℝ) (ddfc0 : Nat → Nat → ℝ) :
    attenuation_I ⟨Real.sqrt, Real.sin, Real.cos, Real.log, Real.exp, Real.pi⟩ p sp t th x1 x2
        (fun _ => 0) (spline p (fun _ => 0) sp ddf0)
        (fun _ _ => 0) (fun it => spline p (fun _ => 0) sp (ddfc0 it))
        (fun _ => mirror sp (fun _ => 0))
        (fun it => mirror sp (spline p (fun _ => 0) sp (ddfc0 it)))
      = 1 := by
  have hrho := abs_rho_lt_one x1 x2 th hin
  have hi := bracket_toNat_lt _ sp hsp hrho
  have hnode : f_node_of p sp
      (rho_of ⟨Real.sqrt, Real.sin, Real.cos, Real.log, Real.exp, Real.pi⟩ x1 x2 th)
      (fun _ => 0) (spline p (fun _ => 0) sp ddf0) = 0 := by
    simp only [f_node_of]
    rw [spline_zero p ddf0 sp _ (by omega), spline_zero p ddf0 sp _ hi]
    simp
  have hdh : ∀ tauk : ℝ, ∀ k,
      dh_samples ⟨Real.sqrt, Real.sin, Real.cos, Real.log, Real.exp, Real.pi⟩ p sp tauk
        (rho_of ⟨Real.sqrt, Real.sin, Real.cos, Real.log, Real.exp, Real.pi⟩ x1 x2 th) th t
        (fun _ _ => 0) (fun it => spline p (fun _ => 0) sp (ddfc0 it))
        (fun _ => mirror sp (fun _ => 0))
        (fun it => mirror sp (spline p (fun _ => 0) sp (ddfc0 it))) k = 0 := by
    intro tauk k
    have hz : ∀ (x : ℝ) (lg : Nat → ℝ) (it : Nat),
        hilbert_der_double x (fun _ => 0) (spline p (fun _ => 0) sp (ddfc0 it))
          (mirror sp (fun _ => 0)) (mirror sp (spline p (fun _ => 0) sp (ddfc0 it))) p sp lg
          = (0, 0) := by
      intro x lg it
      apply hilbert_der_double_zero
      · intro k _; rfl
      · intro k hk; exact spline_zero p _ sp k hk
      · intro k _; exact mirror_zero sp _ (fun _ _ => rfl) k
      · intro k _; exact mirror_zero sp _ (fun j hj => spline_zero p _ sp j hj) k
      · omega
    unfold dh_samples
    split <;> rw [hz]
  have hF : attenuation_F ⟨Real.sqrt, Real.sin, Real.cos, Real.log, Real.exp, Real.pi⟩ p sp t th
      x1 x2 (fun _ _ => 0) (fun it => spline p (fun _ => 0) sp (ddfc0 it))
      (fun _ => mirror sp (fun _ => 0))
      (fun it => mirror sp (spline p (fun _ => 0) sp (ddfc0 it))) = 0 := by
    simp only [attenuation_F]
    rw [integ_zero _ Nt _ (fun k _ => hdh _ k) (by decide),
      integ_zero _ Nt _ (fun k _ => hdh _ k) (by decide)]
    simp
  simp only [attenuation_I]
  rw [hnode, hF]
  simp

theorem attenuation_factor_zero_profile_witness :
    (2 ≤ 3)
      ∧ (¬ skipped ⟨Real.sqrt, Real.sin, Real.cos, Real.log, Real.exp, Real.pi⟩ (0 : ℝ) 0)
      ∧ attenuation_I ⟨Real.sqrt, Real.sin, Real.cos, Real.log, Real.exp, Real.pi⟩
          (vec [-1, 0, 1]) 3 (fun _ => 0) 0 0 0
          (fun _ => 0) (spline (vec [-1, 0, 1]) (fun _ => 0) 3 (vec [5, 5, 5]))
          (fun _ _ => 0) (fun _ => spline (vec [-1, 0, 1]) (fun _ => 0) 3 (vec [5, 5, 5]))
          (fun _ => mirror 3 (fun _ => 0))
          (fun _ => mirror 3 (spline (vec [-1, 0, 1]) (fun _ => 0) 3 (vec [5, 5, 5])))
        = 1 :=
  have h : ¬ skipped ⟨Real.sqrt, Real.sin, Real.cos, Real.log, Real.exp, Real.pi⟩ (0 : ℝ) 0 := by
    simp [skipped]
  ⟨by decide, h,
    attenuation_factor_zero_profile 3 (by decide) (vec [-1, 0, 1]) (fun _ => 0) 0 0 0 h
      (vec [5, 5, 5]) (fun _ => vec [5, 5, 5])⟩

/-! ## Lemmas on `splint` and `hilbert_node` -/

/-- The fuel given to the bisection loop suffices: when `fuel + 1` is at least the initial
gap `khi - klo`, the loop has ended on its own condition, with `khi - klo ≤ 1`. -/
theorem splint_search_gap (xa : Nat → K) (x : K) (fuel klo khi : Nat) (h : khi - klo ≤ fuel + 1) :
    (splint_search xa x fuel klo khi).2 - (splint_search xa x fuel klo khi).1 ≤ 1 := by
  induction fuel generalizing klo khi with
  | zero => simpa [splint_search] using h
  | succ fuel ih =>
    simp only [splint_search]
    split
    · split
      · exact ih _ _ (by omega)
      · exact ih _ _ (by omega)
    · simp only; omega

/-- The loop of `hilbert_node` accumulates the per-interval terms of the specification. -/
theorem hilbert_node_loop_eq_sum (x : K) (f ddf p : Nat → K) (m : Nat) :
    hilbert_node_loop x f ddf p m = ∑ i in Finset.range m, E_term x f ddf p i := by
  induction m with
  | zero => simp [hilbert_node_loop]
  | succ m ih =>
    rw [Finset.sum_range_succ, ← ih]
    simp only [hilbert_node_loop, E_term]
    ring

/-! ## Evaluations at the inputs where the source departs from the specification -/

/-- C1. At the constant array of value `1/2` with `n = 1` and `step = 1`, `integ` returns
`0` and not `c * step = 1/2`: the accumulator `intg` is declared `int`, so the sample is
truncated when it is stored. -/
theorem integ_constant_half :
    integ (1 : ℚ) 1 (fun _ => 1 / 2) = 0 ∧ ((1 / 2 : ℚ) * 1 ≠ 0) := by
  norm_num [integ, integ_loop, toInt]

/-- C2. At the samples `[1/2, 1/2]` with `dist = 2` and `n = 2`, `integ` returns `0` and
not `(ff[0] + ff[1]) * dist / n = 1`: the first sample and the partial sum are truncated
to an integer before the final scaling. -/
theorem integ_two_halves :
    integ (2 : ℚ) 2 (vec [1 / 2, 1 / 2]) = 0
      ∧ (((vec [1 / 2, 1 / 2] : Nat → ℚ) 0 + vec [1 / 2, 1 / 2] 1) * 2 / 2 = 1) := by
  norm_num [integ, integ_loop, toInt, vec]

/-- C4. On the abscissae `[0, 1, 2]` with values `[1, 0, 0]` and the coefficients computed
by `spline`, `splint` at the first sample point `xa[0] = 0` returns `3/2` and not
`ya[0] = 1`: the search starts from `klo = 1`, so it ends on the interval `[xa[1], xa[2]]`
and the cubic of that interval is extrapolated. At the last sample point `xa[2]` the search
ends with `khi = 3 = n`, an index outside the arrays. -/
theorem splint_first_sample :
    splint (vec [0, 1, 2]) (vec [1, 0, 0])
        (spline (vec [0, 1, 2]) (vec [1, 0, 0]) 3 (fun _ => 0)) 3 ((vec [0, 1, 2] : Nat → ℚ) 0)
      = 3 / 2
    ∧ (vec [1, 0, 0] : Nat → ℚ) 0 = 1
    ∧ splint_search (vec [0, 1, 2] : Nat → ℚ) (vec [0, 1, 2] 2) 3 1 3 = (2, 3) := by
  refine ⟨?_, ?_, ?_⟩
  · norm_num [splint, splint_search, spline, spline_forward, spline_back, vec, Function.update]
  · norm_num [vec]
  · norm_num [splint_search, vec]

/-- C5. On the strictly increasing abscissae `[0, 1, 2]` (`n = 3`) and `x = 1/2`, which
satisfies `xa[0] ≤ x < xa[n-1]`, the search of `splint` ends on `klo = 1`, `khi = 2`, and
`xa[klo] = 1 > x`: the interval found does not contain `x`. -/
theorem splint_search_below_second_node :
    (vec [0, 1, 2] : Nat → ℚ) 0 ≤ 1 / 2 ∧ (1 / 2 : ℚ) < vec [0, 1, 2] (3 - 1)
      ∧ splint_search (vec [0, 1, 2] : Nat → ℚ) (1 / 2) 3 1 3 = (1, 2)
      ∧ ¬ ((vec [0, 1, 2] : Nat → ℚ) 1 ≤ 1 / 2) := by
  refine ⟨?_, ?_, ?_, ?_⟩
  · norm_num [vec]
  · norm_num [vec]
  · norm_num [splint_search, vec]
  · norm_num [vec]

/-- C9. With `sp = 4` samples `f = [0, 1, 2, 3]`, `ddf = 0`, on the uniform grid, the
source's `hilbert_node` returns `0` both at `x = 1` and at `x = 0` (with `fn = 5`),
whereas the formula of the specification gives `2`: the factor `2 / (sp - 1)` is the
integer quotient `2 / 3 = 0`, not the grid spacing `2/3`. -/
theorem hilbert_node_four_samples :
    hilbert_node ⟨Real.sqrt, Real.sin, Real.cos, Real.log, Real.exp, Real.pi⟩ 1
        (vec [0, 1, 2, 3]) (fun _ => 0) (vec [-1, -1 / 3, 1 / 3, 1]) 4 5 = 0
    ∧ hilbert_node_spec ⟨Real.sqrt, Real.sin, Real.cos, Real.log, Real.exp, Real.pi⟩ 1
        (vec [0, 1, 2, 3]) (fun _ => 0) (vec [-1, -1 / 3, 1 / 3, 1]) 4 5 = 2
    ∧ hilbert_node ⟨Real.sqrt, Real.sin, Real.cos, Real.log, Real.exp, Real.pi⟩ 0
        (vec [0, 1, 2, 3]) (fun _ => 0) (vec [-1, -1 / 3, 1 / 3, 1]) 4 5 = 0
    ∧ hilbert_node_spec ⟨Real.sqrt, Real.sin, Real.cos, Real.log, Real.exp, Real.pi⟩ 0
        (vec [0, 1, 2, 3]) (fun _ => 0) (vec [-1, -1 / 3, 1 / 3, 1]) 4 5 = 2 := by
  refine ⟨?_, ?_, ?_, ?_⟩
  · norm_num [hilbert_node]
  · norm_num [hilbert_node_spec, Finset.sum_range_succ, E_term, vec]
  · norm_num [hilbert_node]
  · norm_num [hilbert_node_spec, Finset.sum_range_succ, E_term, vec]

/-- C10. With `sp = 3`, `f = [0, 1, 0]`, `ddf = 0`, the grid `[-1, 0, 1]`, `x = 1/2` and the
table `lg = [0, 1, 0]`, the source's `hilbert` returns `0` whereas the per-interval sum of
the specification is `1`: the difference `(D_0 - D_1) * lg[1]` is never accumulated (the
loop weights `D_{i-1} - D_i` by `lg[i+1]` and stops before `i = sp - 2`). -/
theorem hilbert_three_samples :
    hilbert (1 / 2 : ℚ) (vec [0, 1, 0]) (fun _ => 0) (vec [-1, 0, 1]) 3 (vec [0, 1, 0]) = 0
    ∧ hilbert_spec (1 / 2 : ℚ) (vec [0, 1, 0]) (fun _ => 0) (vec [-1, 0, 1]) 3 (vec [0, 1, 0])
        = 1 := by
  refine ⟨?_, ?_⟩
  · norm_num [hilbert, hilbert_loop, vec]
  · norm_num [hilbert_spec, Finset.sum_range_succ, E_term, D_term, vec]

/-! ## What the loop of `hilbert` accumulates -/

/-- The variable `Di` of `hilbert` holds the per-interval quantity of the last interval
visited. -/
theorem hilbert_loop_snd (x : K) (f ddf p lg : Nat → K) (m : Nat) :
    (hilbert_loop x f ddf p lg m).2 = D_term x f ddf p m := by
  cases m <;> rfl

/-- One iteration of the loop of `hilbert`, in terms of the per-interval quantities. -/
theorem hilbert_loop_succ (x : K) (f ddf p lg : Nat → K) (m : Nat) :
    (hilbert_loop x f ddf p lg (m + 1)).1
      = (hilbert_loop x f ddf p lg m).1 + E_term x f ddf p (m + 1)
        + ((hilbert_loop x f ddf p lg m).2 - D_term x f ddf p (m + 1)) * lg (m + 1 + 1) := by
  rw [hilbert_loop]
  unfold E_term D_term
  ring

/-- The accumulator `dh` of `hilbert` after the iterations `i = 1 .. m`: the polynomial
terms of the intervals `0 .. m`, the boundary term `-D_0 * lg[0]`, and each difference
`D_i - D_{i+1}` weighted by `lg[i+2]`. -/
theorem hilbert_loop_fst (x : K) (f ddf p lg : Nat → K) (m : Nat) :
    (hilbert_loop x f ddf p lg m).1
      = ∑ i in Finset.range (m + 1), E_term x f ddf p i - D_term x f ddf p 0 * lg 0
        + ∑ i in Finset.range m, (D_term x f ddf p i - D_term x f ddf p (i + 1)) * lg (i + 2) := by
  induction m with
  | zero =>
    rw [Finset.sum_range_succ, Finset.sum_range_zero, Finset.sum_range_zero]
    simp only [hilbert_loop, E_term, D_term]
    ring
  | succ m ih =>
    rw [hilbert_loop_succ, ih, hilbert_loop_snd]
    simp only [Finset.sum_range_succ]
    ring

/-- The value of `hilbert` for `sp ≥ 3` in terms of the per-interval quantities. -/
theorem hilbert_eq_sum (x : K) (f ddf p lg : Nat → K) (sp : Nat) (hsp : 3 ≤ sp) :
    hilbert x f ddf p sp lg
      = 2 / ((sp : K) - 1)
        * (∑ i in Finset.range (sp - 1), E_term x f ddf p i - D_term x f ddf p 0 * lg 0
            + ∑ i in Finset.range (sp - 3),
                (D_term x f ddf p i - D_term x f ddf p (i + 1)) * lg (i + 2)
            + D_term x f ddf p (sp - 2) * lg (sp - 1)) := by
  obtain ⟨m, rfl⟩ : ∃ m, sp = m + 3 := ⟨sp - 3, by omega⟩
  have e1 : m + 3 - 3 = m := by omega
  have e2 : m + 3 - 2 = m + 1 := by omega
  have e3 : m + 3 - 1 = m + 1 + 1 := by omega
  have h : hilbert x f ddf p (m + 3) lg
      = 2 / (((m + 3 : Nat) : K) - 1)
        * ((hilbert_loop x f ddf p lg (m + 3 - 3)).1 + E_term x f ddf p (m + 3 - 2)
            + D_term x f ddf p (m + 3 - 2) * lg (m + 3 - 1)) := by
    unfold hilbert E_term D_term
    ring
  rw [h, e1, e2, e3, hilbert_loop_fst, Finset.sum_range_succ _ (m + 1)]
  ring


/-! ## The sampling tables and the data loading -/

/-- C19, as stated, fails: with `sth = 12` views and `it = 1`, `Nmul = 12 / 8 = 1` and the
view `Nmul * it = 1` has angle `th[1] = pi/6`, not the secondary angle `t[1] = pi/4`. -/
theorem cache_view_angle_twelve_views :
    (1 < Nt / 2)
      ∧ grid_th ⟨Real.sqrt, Real.sin, Real.cos, Real.log, Real.exp, Real.pi⟩ 12 (Nmul 12 * 1)
        ≠ grid_t ⟨Real.sqrt, Real.sin, Real.cos, Real.log, Real.exp, Real.pi⟩ 1 := by
  refine ⟨by decide, ?_⟩
  have hN : Nmul 12 * 1 = 1 := by decide
  rw [hN]
  intro h
  simp only [grid_th, grid_t, Nt] at h
  have hpi := Real.pi_pos
  norm_num at h
  linarith

/-- C19, amended. For every number of views `sth` that is a positive multiple of `Nt = 8`
and every secondary-angle index `it < Nt/2`, the view `Nmul * it` from which
`f_cache[.][it]` is loaded has angle `th[Nmul * it]` equal to the secondary angle
`t[it] = it * 2 * pi / Nt`. -/
theorem cache_view_angle (M : Libm K) (sth : Nat) (hdvd : Nt ∣ sth) (hpos : 0 < sth)
    (it : Nat) (_hit : it < Nt / 2) :
    grid_th M sth (Nmul sth * it) = grid_t M it := by
  obtain ⟨m, rfl⟩ := hdvd
  have hm : 0 < m := by
    rcases Nat.eq_zero_or_pos m with h | h
    · subst h; simp at hpos
    · exact h
  have hN : Nmul (Nt * m) = m := by
    unfold Nmul
    exact Nat.mul_div_cancel_left m (by decide)
  have hm0 : (m : K) ≠ 0 := Nat.cast_ne_zero.mpr (by omega)
  rw [hN]
  simp only [grid_th, grid_t, Nt]
  push_cast
  field_simp
  ring

theorem cache_view_angle_witness :
    (Nt ∣ 16) ∧ (0 < 16) ∧ (3 < Nt / 2)
      ∧ grid_th (⟨id, id, id, id, id, 3⟩ : Libm ℚ) 16 (Nmul 16 * 3)
        = grid_t (⟨id, id, id, id, id, 3⟩ : Libm ℚ) 3 :=
  ⟨by decide, by decide, by decide,
    cache_view_angle (⟨id, id, id, id, id, 3⟩ : Libm ℚ) 16 (by decide) (by decide) 3 (by decide)⟩

/-- C20. With the attenuation data equal to `1` everywhere and `sth = 8` views, the cached
value `f_cache[0][1][0]` is `1` whereas the profile value `f[0][0]` built for the same view
`ith = Nmul * 1 = 1` is `1/10`: the view load multiplies the sample by `0.1`, the cache fill
stores it unscaled. -/
theorem cache_scale_differs :
    f_cache_of (fun _ _ _ => (1 : ℚ)) 8 0 1 0 = 1
      ∧ view_f (fun _ _ _ => (1 : ℚ)) (Nmul 8 * 1) 0 0 = 1 / 10 := by
  refine ⟨rfl, ?_⟩
  norm_num [view_f]

/-! ## The support disk -/

/-- A point is processed exactly when it lies strictly inside the unit circle (real
arithmetic, real `sqrt`). -/
theorem not_skipped_iff (x1 x2 : ℝ) :
    ¬ skipped ⟨Real.sqrt, Real.sin, Real.cos, Real.log, Real.exp, Real.pi⟩ x1 x2
      ↔ x1 ^ 2 + x2 ^ 2 < 1 := by
  simp only [skipped, not_or, not_le, ge_iff_le]
  constructor
  · rintro ⟨_, h1⟩
    have := (Real.lt_sqrt (abs_nonneg x1)).mp h1
    rw [sq_abs] at this
    linarith
  · intro h
    have h2 : |x2| < 1 := by
      rw [← sq_lt_one_iff_abs_lt_one]
      nlinarith [sq_nonneg x1]
    refine ⟨h2, ?_⟩
    rw [Real.lt_sqrt (abs_nonneg x1), sq_abs]
    linarith

/-! ## The attenuation exponent -/

/-- The exponent computed by the source is the opposite of `w * (Q1 + Q2) / (4 pi^2)`. -/
theorem attenuation_F_eq_neg_spec [FloorRing K] (M : Libm K) (p : Nat → K) (sp : Nat)
    (t : Nat → K) (th x1 x2 : K) (f_cache ddf_cache f1_cache ddf1_cache : Nat → Nat → K) :
    attenuation_F M p sp t th x1 x2 f_cache ddf_cache f1_cache ddf1_cache
      = -attenuation_F_spec M p sp t th x1 x2 f_cache ddf_cache f1_cache ddf1_cache := by
  simp only [attenuation_F, attenuation_F_spec, attenuation_w, attenuation_Q1, attenuation_Q2]
  ring

/-- The samples `dh1`, `dh2` at the centre of the image for the view angle `0`, with all
secondary angles `0`, on the grid `[-1, 0, 1]` and the caches `f_cache = f1_cache =
[-1, 0, 0]`, `ddf_cache = ddf1_cache = 0`: every sample is `1`. -/
theorem dh_samples_centre (tauk : ℝ) (k : Nat) :
    dh_samples ⟨Real.sqrt, Real.sin, Real.cos, Real.log, Real.exp, Real.pi⟩ (vec [-1, 0, 1]) 3
      tauk 0 0 (fun _ => 0) (fun _ => vec [-1, 0, 0]) (fun _ _ => 0) (fun _ => vec [-1, 0, 0])
      (fun _ _ => 0) k = 1 := by
  unfold dh_samples
  split <;>
    norm_num [hilbert_der_double, hilbert_der_double_loop, rho_k, lg_cache, vec]

theorem integ_ones (dist : ℝ) : integ dist Nt (fun _ => 1) = dist := by
  norm_num [integ, integ_loop, toInt, Nt]

/-- C13, as stated, fails: at the centre of the image, view angle `0`, with the caches
`[-1, 0, 0]` on the grid `[-1, 0, 1]`, both quadrature results are `2 pi` and `w = 1/2`;
the exponent computed by the source is `-1/(2 pi)`, not `w * (Q1 + Q2) / (4 pi^2) = 1/(2 pi)`. -/
theorem attenuation_F_sign :
    attenuation_F ⟨Real.sqrt, Real.sin, Real.cos, Real.log, Real.exp, Real.pi⟩ (vec [-1, 0, 1]) 3
        (fun _ => 0) 0 0 0 (fun _ => vec [-1, 0, 0]) (fun _ _ => 0) (fun _ => vec [-1, 0, 0])
        (fun _ _ => 0)
      ≠ attenuation_F_spec ⟨Real.sqrt, Real.sin, Real.cos, Real.log, Real.exp, Real.pi⟩
        (vec [-1, 0, 1]) 3 (fun _ => 0) 0 0 0 (fun _ => vec [-1, 0, 0]) (fun _ _ => 0)
        (fun _ => vec [-1, 0, 0]) (fun _ _ => 0) := by
  rw [attenuation_F_eq_neg_spec]
  have hQ1 : attenuation_Q1 ⟨Real.sqrt, Real.sin, Real.cos, Real.log, Real.exp, Real.pi⟩
      (vec [-1, 0, 1]) 3 (fun _ => 0) 0 0 0 (fun _ => vec [-1, 0, 0]) (fun _ _ => 0)
      (fun _ => vec [-1, 0, 0]) (fun _ _ => 0) = 2 * Real.pi := by
    unfold attenuation_Q1
    have e : rho_of ⟨Real.sqrt, Real.sin, Real.cos, Real.log, Real.exp, Real.pi⟩ (0 : ℝ) 0 0 = 0 := by
      simp [rho_of]
    rw [e]
    have := funext (dh_samples_centre (tau1_of ⟨Real.sqrt, Real.sin, Real.cos, Real.log, Real.exp, Real.pi⟩
      (bound_a ⟨Real.sqrt, Real.sin, Real.cos, Real.log, Real.exp, Real.pi⟩ 0
        (tau_of ⟨Real.sqrt, Real.sin, Real.cos, Real.log, Real.exp, Real.pi⟩ (0 : ℝ) 0 0))
      (bound_b ⟨Real.sqrt, Real.sin, Real.cos, Real.log, Real.exp, Real.pi⟩ 0
        (tau_of ⟨Real.sqrt, Real.sin, Real.cos, Real.log, Real.exp, Real.pi⟩ (0 : ℝ) 0 0))))
    rw [this]
    exact integ_ones _
  have hQ2 : attenuation_Q2 ⟨Real.sqrt, Real.sin, Real.cos, Real.log, Real.exp, Real.pi⟩
      (vec [-1, 0, 1]) 3 (fun _ => 0) 0 0 0 (fun _ => vec [-1, 0, 0]) (fun _ _ => 0)
      (fun _ => vec [-1, 0, 0]) (fun _ _ => 0) = 2 * Real.pi := by
    unfold attenuation_Q2
    have e : rho_of ⟨Real.sqrt, Real.sin, Real.cos, Real.log, Real.exp, Real.pi⟩ (0 : ℝ) 0 0 = 0 := by
      simp [rho_of]
    rw [e]
    have := funext (dh_samples_centre (tau2_of ⟨Real.sqrt, Real.sin, Real.cos, Real.log, Real.exp, Real.pi⟩
      (bound_a ⟨Real.sqrt, Real.sin, Real.cos, Real.log, Real.exp, Real.pi⟩ 0
        (tau_of ⟨Real.sqrt, Real.sin, Real.cos, Real.log, Real.exp, Real.pi⟩ (0 : ℝ) 0 0))
      (bound_b ⟨Real.sqrt, Real.sin, Real.cos, Real.log, Real.exp, Real.pi⟩ 0
        (tau_of ⟨Real.sqrt, Real.sin, Real.cos, Real.log, Real.exp, Real.pi⟩ (0 : ℝ) 0 0))))
    rw [this]
    exact integ_ones _
  have hw : attenuation_w ⟨Real.sqrt, Real.sin, Real.cos, Real.log, Real.exp, Real.pi⟩
      (0 : ℝ) 0 0 = 1 / 2 := by
    simp [attenuation_w, weight_w, bound_a, bound_b, rho_of, tau_of]
  have hpi := Real.pi_pos
  have hs : attenuation_F_spec ⟨Real.sqrt, Real.sin, Real.cos, Real.log, Real.exp, Real.pi⟩
      (vec [-1, 0, 1]) 3 (fun _ => 0) 0 0 0 (fun _ => vec [-1, 0, 0]) (fun _ _ => 0)
      (fun _ => vec [-1, 0, 0]) (fun _ _ => 0) = 1 / (2 * Real.pi) := by
    unfold attenuation_F_spec
    rw [hQ1, hQ2, hw]
    field_simp
    ring
  rw [hs]
  have : 0 < 1 / (2 * Real.pi) := by positivity
  linarith

/-- C13, amended. In `actual_reconstruct` the attenuation exponent is
`F = -w * (Q1 + Q2) / (4 pi^2)`, where `Q1 = integ(2 pi, Nt, dh1)` and
`Q2 = integ(2 pi, Nt, dh2)` are the quadrature results of the two abscissae and
`w = (b - a) / 2`, and the factor applied to the raw inversion value is
`I = exp(f_node - F)`. -/
theorem attenuation_exponent [FloorRing K] (M : Libm K) (p : Nat → K) (sp : Nat)
    (t : Nat → K) (th x1 x2 : K) (f ddf : Nat → K)
    (f_cache ddf_cache f1_cache ddf1_cache : Nat → Nat → K) :
    attenuation_F M p sp t th x1 x2 f_cache ddf_cache f1_cache ddf1_cache
        = -(attenuation_w M th x1 x2
            * (attenuation_Q1 M p sp t th x1 x2 f_cache ddf_cache f1_cache ddf1_cache
              + attenuation_Q2 M p sp t th x1 x2 f_cache ddf_cache f1_cache ddf1_cache))
          / (4 * M.pi ^ 2)
      ∧ attenuation_w M th x1 x2
        = (bound_b M (rho_of M x1 x2 th) (tau_of M x1 x2 th)
            - bound_a M (rho_of M x1 x2 th) (tau_of M x1 x2 th)) / 2
      ∧ attenuation_I M p sp t th x1 x2 f ddf f_cache ddf_cache f1_cache ddf1_cache
        = M.exp (f_node_of p sp (rho_of M x1 x2 th) f ddf
            - attenuation_F M p sp t th x1 x2 f_cache ddf_cache f1_cache ddf1_cache) := by
  refine ⟨?_, ?_, rfl⟩
  · simp only [attenuation_F, attenuation_w, attenuation_Q1, attenuation_Q2]
    ring
  · simp only [attenuation_w, weight_w]
    ring

/-! ## The one-sided differences -/

theorem eval_of_natDegree_le_two (q : Polynomial K) (hq : q.natDegree ≤ 2) (x : K) :
    q.eval x = q.coeff 0 + q.coeff 1 * x + q.coeff 2 * x ^ 2 := by
  rw [Polynomial.eval_eq_sum_range' (show q.natDegree < 3 by omega)]
  simp [Finset.sum_range_succ]

theorem eval_derivative_of_natDegree_le_two (q : Polynomial K) (hq : q.natDegree ≤ 2) (x : K) :
    (Polynomial.derivative q).eval x = q.coeff 1 + 2 * q.coeff 2 * x := by
  have h : (Polynomial.derivative q).natDegree < 2 := by
    have := Polynomial.natDegree_derivative_le q
    omega
  rw [Polynomial.eval_eq_sum_range' h]
  simp only [Finset.sum_range_succ, Finset.sum_range_zero, Polynomial.coeff_derivative]
  push_cast
  ring

/-- C17. With grid spacing `d = 2/(sx-1)`, the forward expression
`(-3*r[k] + 4*r[k+1] - r[k+2])/(2d)` and the backward expression
`(3*r[k] - 4*r[k-1] + r[k-2])/(2d)` used in `actual_reconstruct` equal the exact derivative
at node `k` whenever `r` is the restriction to the grid `x1` of a polynomial `q` of degree
at most 2. -/
theorem one_sided_differences_exact (sx : Nat) (hsx : 2 ≤ sx) (q : Polynomial K)
    (hq : q.natDegree ≤ 2) (r : Int → K)
    (hr : ∀ j : Nat, j < sx → r (j : Int) = q.eval (grid_x1 sx j)) (k : Nat) (hk : k < sx) :
    (k + 2 < sx → diff_forward sx r k = (Polynomial.derivative q).eval (grid_x1 sx k))
      ∧ (2 ≤ k → diff_backward sx r k = (Polynomial.derivative q).eval (grid_x1 sx k)) := by
  have hs : ((sx : K) - 1) ≠ 0 := by
    have : (2 : K) ≤ (sx : K) := by exact_mod_cast hsx
    have : (0 : K) < (sx : K) - 1 := by linarith
    exact ne_of_gt this
  constructor
  · intro hk2
    have e1 : ((k : Int) + 1) = ((k + 1 : Nat) : Int) := by push_cast; ring
    have e2 : ((k : Int) + 2) = ((k + 2 : Nat) : Int) := by push_cast; ring
    simp only [diff_forward]
    rw [e1, e2, hr k hk, hr (k + 1) (by omega), hr (k + 2) hk2,
      eval_of_natDegree_le_two q hq, eval_of_natDegree_le_two q hq,
      eval_of_natDegree_le_two q hq, eval_derivative_of_natDegree_le_two q hq]
    simp only [grid_x1]
    push_cast
    field_simp
    ring
  · intro hk2
    obtain ⟨m, rfl⟩ : ∃ m, k = m + 2 := ⟨k - 2, by omega⟩
    have e1 : (((m + 2 : Nat) : Int) - 1) = ((m + 1 : Nat) : Int) := by push_cast; ring
    have e2 : (((m + 2 : Nat) : Int) - 2) = ((m : Nat) : Int) := by push_cast; ring
    simp only [diff_backward]
    rw [e1, e2, hr (m + 2) hk, hr (m + 1) (by omega), hr m (by omega),
      eval_of_natDegree_le_two q hq, eval_of_natDegree_le_two q hq,
      eval_of_natDegree_le_two q hq, eval_derivative_of_natDegree_le_two q hq]
    simp only [grid_x1]
    push_cast
    field_simp
    ring

theorem one_sided_differences_exact_witness :
    (2 ≤ 5) ∧ ((Polynomial.X ^ 2 : Polynomial ℚ).natDegree ≤ 2)
      ∧ (∀ j : Nat, j < 5 →
          (fun i : Int => (Polynomial.X ^ 2 : Polynomial ℚ).eval (grid_x1 5 i.toNat)) (j : Int)
            = (Polynomial.X ^ 2 : Polynomial ℚ).eval (grid_x1 5 j))
      ∧ (2 < 5)
      ∧ ((2 + 2 < 5 →
            diff_forward 5
                (fun i : Int => (Polynomial.X ^ 2 : Polynomial ℚ).eval (grid_x1 5 i.toNat))
                ((2 : Nat) : Int)
              = (Polynomial.derivative (Polynomial.X ^ 2 : Polynomial ℚ)).eval (grid_x1 5 2))
          ∧ (2 ≤ 2 →
            diff_backward 5
                (fun i : Int => (Polynomial.X ^ 2 : Polynomial ℚ).eval (grid_x1 5 i.toNat))
                ((2 : Nat) : Int)
              = (Polynomial.derivative (Polynomial.X ^ 2 : Polynomial ℚ)).eval (grid_x1 5 2))) :=
  have hq : (Polynomial.X ^ 2 : Polynomial ℚ).natDegree ≤ 2 := Polynomial.natDegree_X_pow_le 2
  have hr : ∀ j : Nat, j < 5 →
      (fun i : Int => (Polynomial.X ^ 2 : Polynomial ℚ).eval (grid_x1 5 i.toNat)) (j : Int)
        = (Polynomial.X ^ 2 : Polynomial ℚ).eval (grid_x1 5 j) := by
    intro j _
    simp
  ⟨by decide, hq, hr, by decide,
    one_sided_differences_exact 5 (by decide) (Polynomial.X ^ 2) hq _ hr 2 (by decide)⟩

/-! ## The two-point quadrature rule -/

/-- C14. For every `a ≤ b`, the abscissae `tau1 = a + (b-a)(1/2 - sqrt(3)/6)`,
`tau2 = a + (b-a)(1/2 + sqrt(3)/6)` and the weight `w = (b-a)/2` computed in
`actual_reconstruct` are the two-point Gauss-Legendre rule on `[a, b]`:
`w * (q(tau1) + q(tau2))` equals the integral of `q` over `[a, b]` for every polynomial `q`
of degree at most 3 (real arithmetic, real `sqrt`). -/
theorem gauss_legendre_two_point (a b : ℝ) (_hab : a ≤ b) (q : Polynomial ℝ)
    (hq : q.natDegree ≤ 3) :
    weight_w a b
        * (q.eval (tau1_of ⟨Real.sqrt, Real.sin, Real.cos, Real.log, Real.exp, Real.pi⟩ a b)
          + q.eval (tau2_of ⟨Real.sqrt, Real.sin, Real.cos, Real.log, Real.exp, Real.pi⟩ a b))
      = ∫ x in a..b, q.eval x := by
  have hev : ∀ x : ℝ, q.eval x
      = q.coeff 0 + q.coeff 1 * x + q.coeff 2 * x ^ 2 + q.coeff 3 * x ^ 3 := by
    intro x
    rw [Polynomial.eval_eq_sum_range' (show q.natDegree < 4 by omega)]
    simp [Finset.sum_range_succ]
  have hint : ∫ x in a..b, q.eval x
      = q.coeff 0 * (b - a) + q.coeff 1 * ((b ^ 2 - a ^ 2) / 2)
        + q.coeff 2 * ((b ^ 3 - a ^ 3) / 3) + q.coeff 3 * ((b ^ 4 - a ^ 4) / 4) := by
    simp only [hev]
    rw [intervalIntegral.integral_add, intervalIntegral.integral_add,
      intervalIntegral.integral_add, intervalIntegral.integral_const,
      intervalIntegral.integral_const_mul, intervalIntegral.integral_const_mul,
      intervalIntegral.integral_const_mul, integral_id, integral_pow, integral_pow]
    · simp only [smul_eq_mul]
      norm_num
      ring
    all_goals
      apply Continuous.intervalIntegrable
      continuity
  rw [hint, hev, hev]
  simp only [weight_w, tau1_of, tau2_of]
  have h3 : Real.sqrt 3 ^ 2 = 3 := Real.sq_sqrt (by norm_num)
  have h33 : Real.sqrt 3 ^ 3 = 3 * Real.sqrt 3 := by
    rw [pow_succ, h3]
  generalize Real.sqrt 3 = s at h3 h33
  have e2 : ∀ u v : ℝ, (u + v * s) ^ 2 = u ^ 2 + 2 * u * v * s + v ^ 2 * 3 := by
    intro u v
    linear_combination v ^ 2 * h3
  have e3 : ∀ u v : ℝ, (u + v * s) ^ 3
      = u ^ 3 + 3 * u ^ 2 * v * s + 3 * u * v ^ 2 * 3 + v ^ 3 * (3 * s) := by
    intro u v
    linear_combination (3 * u * v ^ 2) * h3 + v ^ 3 * h33
  have t1 : a + (b - a) * (1 / 2 - s / 6) = (a + b) / 2 + (-(b - a) / 6) * s := by ring
  have t2 : a + (b - a) * (1 / 2 + s / 6) = (a + b) / 2 + ((b - a) / 6) * s := by ring
  rw [t1, t2, e2, e2, e3, e3]
  ring

theorem gauss_legendre_two_point_witness :
    ((0 : ℝ) ≤ 1) ∧ ((Polynomial.X ^ 3 : Polynomial ℝ).natDegree ≤ 3)
      ∧ weight_w (0 : ℝ) 1
          * ((Polynomial.X ^ 3 : Polynomial ℝ).eval
              (tau1_of ⟨Real.sqrt, Real.sin, Real.cos, Real.log, Real.exp, Real.pi⟩ 0 1)
            + (Polynomial.X ^ 3 : Polynomial ℝ).eval
              (tau2_of ⟨Real.sqrt, Real.sin, Real.cos, Real.log, Real.exp, Real.pi⟩ 0 1))
        = ∫ x in (0 : ℝ)..1, (Polynomial.X ^ 3 : Polynomial ℝ).eval x :=
  ⟨zero_le_one, Polynomial.natDegree_X_pow_le 3,
    gauss_legendre_two_point 0 1 zero_le_one (Polynomial.X ^ 3) (Polynomial.natDegree_X_pow_le 3)⟩

/-! ## `hilbert` on constant samples -/

theorem grid_p_sub_succ (sp : Nat) (hsp : 2 ≤ sp) (i : Nat) :
    (grid_p sp i : K) - grid_p sp (i + 1) = -(2 / ((sp : K) - 1)) := by
  have hs : ((sp : K) - 1) ≠ 0 := by
    have : (2 : K) ≤ (sp : K) := by exact_mod_cast hsp
    have : (0 : K) < (sp : K) - 1 := by linarith
    exact ne_of_gt this
  simp only [grid_p]
  push_cast
  field_simp
  ring

theorem grid_p_zero (sp : Nat) : (grid_p sp 0 : K) = -1 := by
  simp [grid_p]

theorem grid_p_last (sp : Nat) (hsp : 2 ≤ sp) : (grid_p sp (sp - 1) : K) = 1 := by
  have hs : ((sp : K) - 1) ≠ 0 := by
    have : (2 : K) ≤ (sp : K) := by exact_mod_cast hsp
    have : (0 : K) < (sp : K) - 1 := by linarith
    exact ne_of_gt this
  have e : ((sp - 1 : Nat) : K) = (sp : K) - 1 := by
    rw [Nat.cast_sub (by omega)]
    simp
  simp only [grid_p, e]
  field_simp
  ring

/-- On constant samples with zero second derivatives the polynomial term vanishes. -/
theorem E_term_const (x c : K) (p : Nat → K) (i : Nat) :
    E_term x (fun _ => c) (fun _ => 0) p i = 0 := by
  simp [E_term]

/-- On constant samples with zero second derivatives the per-interval quantity is the
constant, on every interval of positive length. -/
theorem D_term_const (x c : K) (p : Nat → K) (i : Nat) (h : p i - p (i + 1) ≠ 0) :
    D_term x (fun _ => c) (fun _ => 0) p i = c := by
  simp only [D_term]
  field_simp
  ring

/-- The value of `hilbert` on constant samples, for any table `lg`. -/
theorem hilbert_const (x c : K) (sp : Nat) (hsp : 3 ≤ sp) (lg : Nat → K) :
    hilbert x (fun _ => c) (fun _ => 0) (grid_p sp) sp lg
      = 2 / ((sp : K) - 1) * (c * (lg (sp - 1) - lg 0)) := by
  have hne : ∀ i, (grid_p sp i : K) - grid_p sp (i + 1) ≠ 0 := by
    intro i
    rw [grid_p_sub_succ sp (by omega) i]
    have : (2 : K) ≤ (sp : K) - 1 := by
      have : (3 : K) ≤ (sp : K) := by exact_mod_cast hsp
      linarith
    have : (0 : K) < 2 / ((sp : K) - 1) := by positivity
    exact neg_ne_zero.mpr (ne_of_gt this)
  rw [hilbert_eq_sum x _ _ _ lg sp hsp]
  simp only [E_term_const, D_term_const x c (grid_p sp) _ (hne _), Finset.sum_const_zero, sub_self,
    zero_mul]
  ring

/-- The value of `hilbert` on constant samples with the table `lg[j] = log|x - p[j]|`. -/
theorem hilbert_const_log (x c : ℝ) (hx : |x| < 1) (sp : Nat) (hsp : 3 ≤ sp) :
    hilbert x (fun _ => c) (fun _ => 0) (grid_p sp) sp
        (log_table ⟨Real.sqrt, Real.sin, Real.cos, Real.log, Real.exp, Real.pi⟩ x (grid_p sp))
      = 2 / ((sp : ℝ) - 1) * (c * Real.log ((1 - x) / (1 + x))) := by
  obtain ⟨h1, h2⟩ := abs_lt.mp hx
  rw [hilbert_const x c sp hsp]
  simp only [log_table, grid_p_zero, grid_p_last sp (show 2 ≤ sp by omega)]
  rw [Real.log_div (by linarith) (by linarith), Real.log_abs, Real.log_abs]
  have e1 : x - 1 = -(1 - x) := by ring
  have e2 : x - -1 = 1 + x := by ring
  rw [e1, Real.log_neg_eq_log, e2]

theorem tendsto_two_div_sub_one_mul (C : ℝ) :
    Filter.Tendsto (fun sp : ℕ => 2 / ((sp : ℝ) - 1) * C) Filter.atTop (nhds 0) := by
  have h1 : Filter.Tendsto (fun sp : ℕ => (sp : ℝ) - 1) Filter.atTop Filter.atTop :=
    Filter.tendsto_atTop_add_const_right _ (-1) tendsto_natCast_atTop_atTop
  have h2 : Filter.Tendsto (fun sp : ℕ => (2 : ℝ) / ((sp : ℝ) - 1)) Filter.atTop (nhds 0) :=
    tendsto_const_nhds.div_atTop h1
  simpa using h2.mul_const C

/-- On constant samples `hilbert` tends to `0` as the sample count grows. -/
theorem hilbert_const_tendsto_zero (x c : ℝ) (hx : |x| < 1) :
    Filter.Tendsto
      (fun sp : ℕ => hilbert x (fun _ => c) (fun _ => 0) (grid_p sp) sp
        (log_table ⟨Real.sqrt, Real.sin, Real.cos, Real.log, Real.exp, Real.pi⟩ x (grid_p sp)))
      Filter.atTop (nhds 0) := by
  refine (tendsto_two_div_sub_one_mul (c * Real.log ((1 - x) / (1 + x)))).congr' ?_
  filter_upwards [Filter.eventually_ge_atTop 3] with sp hsp
  exact (hilbert_const_log x c hx sp hsp).symm

theorem hilbert_node_loop_const (x c : K) (p : Nat → K) (m : Nat) :
    hilbert_node_loop x (fun _ => c) (fun _ => 0) p m = 0 := by
  induction m with
  | zero => rfl
  | succ m ih => simp [hilbert_node_loop, ih]

/-- On constant samples with zero coefficients `hilbert_node`, for `|x| ≠ 1`, returns
`fn * log((1 - x)/(1 + x))`: its interval sum vanishes, whatever factor multiplies it. -/
theorem hilbert_node_const (M : Libm K) (x c : K) (p : Nat → K) (sp : Nat) (fn : K)
    (hx : |x| ≠ 1) :
    hilbert_node M x (fun _ => c) (fun _ => 0) p sp fn = fn * M.log ((1 - x) / (1 + x)) := by
  simp only [hilbert_node, hilbert_node_loop_const, if_neg hx]
  ring

/-- C11. For the constant samples `c = 1` with `ddf = 0` and `x = 1/2`, on the uniform grids
with the table `lg[j] = log|x - p[j]|`, the value `hilbert(x, f, ddf, p, sp, lg)` is, for
every `sp ≥ 3`, the analytic finite Hilbert transform `c * log((1 - x)/(1 + x)) = log(1/3)`
multiplied by the grid spacing `2/(sp - 1)`: the per-interval sum, which already is the
transform, is scaled by the final statement `dh = 2.0 / (sp - 1) * dh`. The values therefore
do not tend to the analytic transform as `sp` tends to infinity, whereas the sibling
`hilbert_node` returns `fn * log((1 - x)/(1 + x))`, the analytic transform for `fn = c`, on
the same samples for every `sp`. -/
theorem hilbert_const_not_tendsto_analytic :
    (∀ sp : ℕ, 3 ≤ sp →
        hilbert (1 / 2 : ℝ) (fun _ => 1) (fun _ => 0) (grid_p sp) sp
            (log_table ⟨Real.sqrt, Real.sin, Real.cos, Real.log, Real.exp, Real.pi⟩ (1 / 2)
              (grid_p sp))
          = 2 / ((sp : ℝ) - 1) * (1 * Real.log ((1 - 1 / 2) / (1 + 1 / 2))))
      ∧ ¬ Filter.Tendsto
        (fun sp : ℕ => hilbert (1 / 2 : ℝ) (fun _ => 1) (fun _ => 0) (grid_p sp) sp
          (log_table ⟨Real.sqrt, Real.sin, Real.cos, Real.log, Real.exp, Real.pi⟩ (1 / 2)
            (grid_p sp)))
        Filter.atTop (nhds (1 * Real.log ((1 - 1 / 2) / (1 + 1 / 2))))
      ∧ ∀ sp : ℕ,
        hilbert_node ⟨Real.sqrt, Real.sin, Real.cos, Real.log, Real.exp, Real.pi⟩ (1 / 2 : ℝ)
            (fun _ => 1) (fun _ => 0) (grid_p sp) sp 1
          = 1 * Real.log ((1 - 1 / 2) / (1 + 1 / 2)) := by
  have hx : |(1 / 2 : ℝ)| < 1 := by
    rw [abs_lt]
    constructor <;> norm_num
  refine ⟨fun sp hsp => hilbert_const_log (1 / 2) 1 hx sp hsp, ?_, ?_⟩
  · intro h
    have h0 := hilbert_const_tendsto_zero (1 / 2) 1 hx
    have e := tendsto_nhds_unique h h0
    have hneg : Real.log ((1 - 1 / 2) / (1 + 1 / 2)) < 0 :=
      Real.log_neg (by norm_num) (by norm_num)
    rw [one_mul] at e
    linarith
  · intro sp
    exact hilbert_node_const _ (1 / 2) 1 (grid_p sp) sp 1 (by
      rw [abs_of_pos (by norm_num : (0 : ℝ) < 1 / 2)]
      norm_num)

/-! ## `hilbert_der_double` as a derivative -/

theorem hasDerivAt_cubic (d0 d1 d2 d3 x : ℝ) :
    HasDerivAt (fun y : ℝ => d0 + d1 * y + d2 * y ^ 2 + d3 * y ^ 3)
      (d1 + 2 * d2 * x + 3 * d3 * x ^ 2) x := by
  have h := (((hasDerivAt_const x d0).add ((hasDerivAt_id x).const_mul d1)).add
    (((hasDerivAt_id x).pow 2).const_mul d2)).add (((hasDerivAt_id x).pow 3).const_mul d3)
  convert h using 1
  simp only [id]
  ring

/-- The derivative of the log kernel of one interval. -/
theorem hasDerivAt_log_quotient (a b x : ℝ) (ha : a - x ≠ 0) (hb : b - x ≠ 0) :
    HasDerivAt (fun y : ℝ => Real.log |(b - y) / (a - y)|)
      ((b - a) / ((a - x) * (b - x))) x := by
  have hn : HasDerivAt (fun y : ℝ => b - y) (-1) x := by
    simpa using (hasDerivAt_id x).const_sub b
  have hd : HasDerivAt (fun y : ℝ => a - y) (-1) x := by
    simpa using (hasDerivAt_id x).const_sub a
  have hq := hn.div hd ha
  have hne : (b - x) / (a - x) ≠ 0 := div_ne_zero hb ha
  have hl := hq.log hne
  simp only [Real.log_abs]
  convert hl using 1
  field_simp
  ring

/-- The derivative of the closed form of one interval is the amount `hilbert_der_double`
adds for that interval. -/
theorem hasDerivAt_interval_term (f ddf p : Nat → ℝ) (i : Nat) (x : ℝ)
    (hab : p i - p (i + 1) ≠ 0) (ha : p i - x ≠ 0) (hb : p (i + 1) - x ≠ 0) :
    HasDerivAt
      (fun y : ℝ => E_term y f ddf p i + D_term y f ddf p i * Real.log |(p (i + 1) - y) / (p i - y)|)
      (f i / (p i - x) - f (i + 1) / (p (i + 1) - x)
        - 1 / 4 * (p i - 3 * p (i + 1) + 2 * x) * ddf i
        - 1 / 4 * (3 * p i - p (i + 1) - 2 * x) * ddf (i + 1)
        + ((f i - f (i + 1)) / (p i - p (i + 1))
            - 1 / 6 * (p i - p (i + 1)
                - (3 * (p (i + 1) - x) * (p (i + 1) - x)) / (p i - p (i + 1))) * ddf i
            + 1 / 6 * (p i - p (i + 1)
                - (3 * (p i - x) * (p i - x)) / (p i - p (i + 1))) * ddf (i + 1))
          * Real.log |(p (i + 1) - x) / (p i - x)|) x := by
  generalize hA : p i = a at *
  generalize hB : p (i + 1) = b at *
  generalize hf0 : f i = f0
  generalize hf1 : f (i + 1) = f1
  generalize hg0 : ddf i = g0
  generalize hg1 : ddf (i + 1) = g1
  have hE : (fun y : ℝ => E_term y f ddf p i)
      = fun y : ℝ => (f1 - f0 + 1 / 36 * (4 * a ^ 2 - 5 * a * b - 5 * b ^ 2) * g0
            + 1 / 36 * (5 * a ^ 2 + 5 * a * b - 4 * b ^ 2) * g1)
          + (1 / 36 * (-3 * (a - 5 * b)) * g0 + 1 / 36 * (-3 * (5 * a - b)) * g1) * y
          + (1 / 36 * (-6) * g0 + 1 / 36 * 6 * g1) * y ^ 2 + 0 * y ^ 3 := by
    funext y
    simp only [E_term, hA, hB, hf0, hf1, hg0, hg1]
    ring
  have hD : (fun y : ℝ => D_term y f ddf p i)
      = fun y : ℝ => (-1 / (a - b) * (b * f0 - a * f1 - 1 / 6 * (a * b * ((a - 2 * b) * g0 + (2 * a - b) * g1))))
          + (-1 / (a - b) * (-f0 + f1 - 1 / 6 * (a * b * (g0 - g1)
              - (a + b) * ((a - 2 * b) * g0 + (2 * a - b) * g1)))) * y
          + (-1 / (a - b) * (-(1 / 6) * (-(a + b) * (g0 - g1) + ((a - 2 * b) * g0 + (2 * a - b) * g1)))) * y ^ 2
          + (-1 / (a - b) * (-(1 / 6) * (g0 - g1))) * y ^ 3 := by
    funext y
    simp only [D_term, hA, hB, hf0, hf1, hg0, hg1]
    ring
  have h1 := hasDerivAt_cubic
    (f1 - f0 + 1 / 36 * (4 * a ^ 2 - 5 * a * b - 5 * b ^ 2) * g0
      + 1 / 36 * (5 * a ^ 2 + 5 * a * b - 4 * b ^ 2) * g1)
    (1 / 36 * (-3 * (a - 5 * b)) * g0 + 1 / 36 * (-3 * (5 * a - b)) * g1)
    (1 / 36 * (-6) * g0 + 1 / 36 * 6 * g1) 0 x
  have h2 := hasDerivAt_cubic
    (-1 / (a - b) * (b * f0 - a * f1 - 1 / 6 * (a * b * ((a - 2 * b) * g0 + (2 * a - b) * g1))))
    (-1 / (a - b) * (-f0 + f1 - 1 / 6 * (a * b * (g0 - g1)
      - (a + b) * ((a - 2 * b) * g0 + (2 * a - b) * g1))))
    (-1 / (a - b) * (-(1 / 6) * (-(a + b) * (g0 - g1) + ((a - 2 * b) * g0 + (2 * a - b) * g1))))
    (-1 / (a - b) * (-(1 / 6) * (g0 - g1))) x
  rw [← hE] at h1
  rw [← hD] at h2
  have h3 := hasDerivAt_log_quotient a b x ha hb
  have h4 := h1.add (h2.mul h3)
  convert h4 using 1
  simp only [D_term, hA, hB, hf0, hf1, hg0, hg1]
  generalize Real.log |(b - x) / (a - x)| = L
  field_simp
  ring

/-- The second accumulator of `hilbert_der_double` is the first accumulator of the call
with the two sample sets exchanged. -/
theorem hilbert_der_double_loop_swap (x : K) (f ddf f1 ddf1 p lg : Nat → K) (m : Nat) :
    (hilbert_der_double_loop x f ddf f1 ddf1 p lg m).2
      = (hilbert_der_double_loop x f1 ddf1 f ddf p lg m).1 := by
  have key : ∀ m, (hilbert_der_double_loop x f ddf f1 ddf1 p lg m).2
        = (hilbert_der_double_loop x f1 ddf1 f ddf p lg m).1
      ∧ (hilbert_der_double_loop x f ddf f1 ddf1 p lg m).1
        = (hilbert_der_double_loop x f1 ddf1 f ddf p lg m).2 := by
    intro m
    induction m with
    | zero => exact ⟨rfl, rfl⟩
    | succ m ih =>
      simp only [hilbert_der_double_loop]
      rw [ih.1, ih.2]
      exact ⟨rfl, rfl⟩
  exact (key m).1

/-- On the grid, away from the nodes and with the quotient log table, the first accumulator
of `hilbert_der_double` after `m` iterations is the derivative of the sum of the closed
forms of the first `m` intervals. -/
theorem hilbert_der_double_loop_hasDerivAt (sp : Nat) (hsp : 3 ≤ sp) (x : ℝ)
    (f ddf f1 ddf1 lg : Nat → ℝ)
    (hx : ∀ j, j < sp → 2 / 1000000 < |grid_p sp j - x|)
    (hlg : ∀ i, i + 1 < sp → lg i = Real.log |(grid_p sp (i + 1) - x) / (grid_p sp i - x)|)
    (m : Nat) (hm : m + 1 ≤ sp) :
    HasDerivAt
      (fun y : ℝ => ∑ i in Finset.range m,
        (E_term y f ddf (grid_p sp) i
          + D_term y f ddf (grid_p sp) i
            * Real.log |(grid_p sp (i + 1) - y) / (grid_p sp i - y)|))
      (hilbert_der_double_loop x f ddf f1 ddf1 (grid_p sp) lg m).1 x := by
  induction m with
  | zero =>
    simp only [Finset.range_zero, Finset.sum_empty, hilbert_der_double_loop]
    exact hasDerivAt_const x 0
  | succ m ih =>
    have hfun : (fun y : ℝ => ∑ i in Finset.range (m + 1),
        (E_term y f ddf (grid_p sp) i
          + D_term y f ddf (grid_p sp) i
            * Real.log |(grid_p sp (i + 1) - y) / (grid_p sp i - y)|))
        = fun y : ℝ => (∑ i in Finset.range m,
            (E_term y f ddf (grid_p sp) i
              + D_term y f ddf (grid_p sp) i
                * Real.log |(grid_p sp (i + 1) - y) / (grid_p sp i - y)|))
          + (E_term y f ddf (grid_p sp) m
              + D_term y f ddf (grid_p sp) m
                * Real.log |(grid_p sp (m + 1) - y) / (grid_p sp m - y)|) := by
      funext y
      rw [Finset.sum_range_succ]
    have h0 := hx m (by omega)
    have h1 := hx (m + 1) (by omega)
    have hdp : (grid_p sp 1 : ℝ) - grid_p sp 2 = grid_p sp m - grid_p sp (m + 1) := by
      rw [grid_p_sub_succ sp (by omega) 1, grid_p_sub_succ sp (by omega) m]
    have hab : (grid_p sp m : ℝ) - grid_p sp (m + 1) ≠ 0 := by
      rw [grid_p_sub_succ sp (by omega) m]
      have : (2 : ℝ) ≤ (sp : ℝ) - 1 := by
        have : (3 : ℝ) ≤ (sp : ℝ) := by exact_mod_cast hsp
        linarith
      have : (0 : ℝ) < 2 / ((sp : ℝ) - 1) := by positivity
      exact neg_ne_zero.mpr (ne_of_gt this)
    have ha : (grid_p sp m : ℝ) - x ≠ 0 := by
      intro h
      rw [h, abs_zero] at h0
      norm_num at h0
    have hb : (grid_p sp (m + 1) : ℝ) - x ≠ 0 := by
      intro h
      rw [h, abs_zero] at h1
      norm_num at h1
    have hstep := (ih (by omega)).add (hasDerivAt_interval_term f ddf (grid_p sp) m x hab ha hb)
    rw [hfun]
    convert hstep using 1
    simp only [hilbert_der_double_loop]
    rw [if_pos h0, if_pos h1, hdp, hlg m (by omega)]
    ring

/-- C12. On the uniform grid with `sp ≥ 3`, for every `x` farther than `2e-6` from every
node and with `lg[i] = log|(p[i+1] - x)/(p[i] - x)|`, the output `dh` of
`hilbert_der_double(x, f, ddf, f1, ddf1, p, sp, lg)` is the derivative with respect to `x`
of `(2/(sp-1)) * SUM_{i=0}^{sp-2} [E_i(x) + D_i(x) * log|(p[i+1] - x)/(p[i] - x)|]`, and
the output `dh1` is the derivative of the same expression for `(f1, ddf1)`. -/
theorem hilbert_der_double_is_derivative (sp : Nat) (hsp : 3 ≤ sp) (x : ℝ)
    (f ddf f1 ddf1 lg : Nat → ℝ)
    (hx : ∀ j, j < sp → 2 / 1000000 < |grid_p sp j - x|)
    (hlg : ∀ i, i + 1 < sp → lg i = Real.log |(grid_p sp (i + 1) - x) / (grid_p sp i - x)|) :
    HasDerivAt
        (fun y : ℝ => hilbert_quotient_form
          ⟨Real.sqrt, Real.sin, Real.cos, Real.log, Real.exp, Real.pi⟩ y f ddf (grid_p sp) sp)
        (hilbert_der_double x f ddf f1 ddf1 (grid_p sp) sp lg).1 x
      ∧ HasDerivAt
        (fun y : ℝ => hilbert_quotient_form
          ⟨Real.sqrt, Real.sin, Real.cos, Real.log, Real.exp, Real.pi⟩ y f1 ddf1 (grid_p sp) sp)
        (hilbert_der_double x f ddf f1 ddf1 (grid_p sp) sp lg).2 x := by
  constructor
  · have h := hilbert_der_double_loop_hasDerivAt sp hsp x f ddf f1 ddf1 lg hx hlg (sp - 1)
      (by omega)
    exact h.const_mul (2 / ((sp : ℝ) - 1))
  · have h := hilbert_der_double_loop_hasDerivAt sp hsp x f1 ddf1 f ddf lg hx hlg (sp - 1)
      (by omega)
    have h2 := h.const_mul (2 / ((sp : ℝ) - 1))
    simp only [hilbert_der_double, hilbert_der_double_loop_swap x f ddf f1 ddf1]
    exact h2

theorem hilbert_der_double_is_derivative_witness :
    (3 ≤ 3)
      ∧ (∀ j, j < 3 → 2 / 1000000 < |(grid_p 3 j : ℝ) - 1 / 2|)
      ∧ (∀ i, i + 1 < 3 →
          (fun i : Nat => Real.log |((grid_p 3 (i + 1) : ℝ) - 1 / 2) / (grid_p 3 i - 1 / 2)|) i
            = Real.log |((grid_p 3 (i + 1) : ℝ) - 1 / 2) / (grid_p 3 i - 1 / 2)|)
      ∧ (HasDerivAt
          (fun y : ℝ => hilbert_quotient_form
            ⟨Real.sqrt, Real.sin, Real.cos, Real.log, Real.exp, Real.pi⟩ y (vec [0, 1, 0])
            (vec [0, 3, 0]) (grid_p 3) 3)
          (hilbert_der_double (1 / 2) (vec [0, 1, 0]) (vec [0, 3, 0]) (vec [0, 2, 0])
            (vec [0, 6, 0]) (grid_p 3) 3
            (fun i : Nat =>
              Real.log |((grid_p 3 (i + 1) : ℝ) - 1 / 2) / (grid_p 3 i - 1 / 2)|)).1 (1 / 2)
        ∧ HasDerivAt
          (fun y : ℝ => hilbert_quotient_form
            ⟨Real.sqrt, Real.sin, Real.cos, Real.log, Real.exp, Real.pi⟩ y (vec [0, 2, 0])
            (vec [0, 6, 0]) (grid_p 3) 3)
          (hilbert_der_double (1 / 2) (vec [0, 1, 0]) (vec [0, 3, 0]) (vec [0, 2, 0])
            (vec [0, 6, 0]) (grid_p 3) 3
            (fun i : Nat =>
              Real.log |((grid_p 3 (i + 1) : ℝ) - 1 / 2) / (grid_p 3 i - 1 / 2)|)).2 (1 / 2)) :=
  have hx : ∀ j, j < 3 → 2 / 1000000 < |(grid_p 3 j : ℝ) - 1 / 2| := by
    intro j hj
    interval_cases j <;> norm_num [grid_p, abs_of_neg, abs_of_pos]
  have hlg : ∀ i, i + 1 < 3 →
      (fun i : Nat => Real.log |((grid_p 3 (i + 1) : ℝ) - 1 / 2) / (grid_p 3 i - 1 / 2)|) i
        = Real.log |((grid_p 3 (i + 1) : ℝ) - 1 / 2) / (grid_p 3 i - 1 / 2)| :=
    fun _ _ => rfl
  ⟨le_refl 3, hx, hlg,
    hilbert_der_double_is_derivative 3 (le_refl 3) (1 / 2) (vec [0, 1, 0]) (vec [0, 3, 0])
      (vec [0, 2, 0]) (vec [0, 6, 0]) _ hx hlg⟩

/-! ## The points read by the one-sided differences -/

/-- The coordinate of a grid node as a quotient of integers. -/
theorem grid_x1_int (sx : Nat) (hsx : 2 ≤ sx) (i : Int) (hi : 0 ≤ i) :
    (grid_x1 sx i.toNat : ℝ) = ((2 * i - ((sx : Int) - 1) : Int) : ℝ) / (((sx : Int) - 1 : Int) : ℝ) := by
  have hs : ((sx : ℝ) - 1) ≠ 0 := by
    have : (2 : ℝ) ≤ (sx : ℝ) := by exact_mod_cast hsx
    have : (0 : ℝ) < (sx : ℝ) - 1 := by linarith
    exact ne_of_gt this
  have e : ((i.toNat : Nat) : ℝ) = ((i : Int) : ℝ) := by
    have := Int.toNat_of_nonneg hi
    exact_mod_cast congrArg (fun z : Int => (z : ℝ)) this
  simp only [grid_x1, e]
  push_cast
  field_simp
  ring

theorem grid_x2_eq_grid_x1 (sx : Nat) (hsx : 2 ≤ sx) (i : Int) (hi : i < sx) :
    (grid_x2 sx i.toNat : ℝ) = grid_x1 sx i.toNat := by
  have : i.toNat < sx := by omega
  simp [grid_x2, grid_x1, this]

/-- On a square grid, a point is processed exactly when its integer coordinates
`(2 ix1 - (sx-1), 2 ix2 - (sx-1))` lie strictly inside the circle of radius `sx - 1`. -/
theorem processed_iff_int (sx : Nat) (hsx : 2 ≤ sx) (i j : Int) :
    processed ⟨Real.sqrt, Real.sin, Real.cos, Real.log, Real.exp, Real.pi⟩ sx sx i j
      ↔ 0 ≤ i ∧ i < sx ∧ 0 ≤ j ∧ j < sx
        ∧ (2 * i - ((sx : Int) - 1)) ^ 2 + (2 * j - ((sx : Int) - 1)) ^ 2 < ((sx : Int) - 1) ^ 2 := by
  unfold processed
  constructor
  · rintro ⟨h1, h2, h3, h4, h5⟩
    refine ⟨h1, h2, h3, h4, ?_⟩
    rw [not_skipped_iff, grid_x2_eq_grid_x1 sx hsx j h4, grid_x1_int sx hsx i h1,
      grid_x1_int sx hsx j h3] at h5
    have hN : (0 : ℝ) < (((sx : Int) - 1 : Int) : ℝ) := by
      have : (2 : ℝ) ≤ (sx : ℝ) := by exact_mod_cast hsx
      push_cast
      linarith
    rw [div_pow, div_pow, ← add_div, div_lt_one (by positivity)] at h5
    exact_mod_cast h5
  · rintro ⟨h1, h2, h3, h4, h5⟩
    refine ⟨h1, h2, h3, h4, ?_⟩
    rw [not_skipped_iff, grid_x2_eq_grid_x1 sx hsx j h4, grid_x1_int sx hsx i h1,
      grid_x1_int sx hsx j h3]
    have hN : (0 : ℝ) < (((sx : Int) - 1 : Int) : ℝ) := by
      have : (2 : ℝ) ≤ (sx : ℝ) := by exact_mod_cast hsx
      push_cast
      linarith
    rw [div_pow, div_pow, ← add_div, div_lt_one (by positivity)]
    exact_mod_cast h5

/-- The sign test of the one-sided difference in integer coordinates. -/
theorem grid_x1_neg_iff (sx : Nat) (hsx : 2 ≤ sx) (i : Int) (hi : 0 ≤ i) :
    (grid_x1 sx i.toNat : ℝ) < 0 ↔ 2 * i - ((sx : Int) - 1) < 0 := by
  rw [grid_x1_int sx hsx i hi]
  have hN : (0 : ℝ) < (((sx : Int) - 1 : Int) : ℝ) := by
    have : (2 : ℝ) ≤ (sx : ℝ) := by exact_mod_cast hsx
    push_cast
    linarith
  rw [div_neg_iff]
  constructor
  · rintro (⟨_, h⟩ | ⟨h, _⟩)
    · linarith
    · exact_mod_cast h
  · intro h
    right
    exact ⟨by exact_mod_cast h, hN⟩

/-- Integer form of the statement on the reads: inside the circle of radius `N ≥ 5`, at a
lattice point `(2a - N, 2b - N)`, the two further points along the first axis, taken toward
the centre, are inside the circle and in range. -/
theorem reads_inside_int (N a b : Int) (hN : 5 ≤ N) (ha0 : 0 ≤ a) (haN : a ≤ N)
    (hb0 : 0 ≤ b) (hbN : b ≤ N) (h : (2 * a - N) ^ 2 + (2 * b - N) ^ 2 < N ^ 2) :
    (2 * a - N < 0 →
        a + 2 ≤ N ∧ (2 * (a + 1) - N) ^ 2 + (2 * b - N) ^ 2 < N ^ 2
          ∧ (2 * (a + 2) - N) ^ 2 + (2 * b - N) ^ 2 < N ^ 2)
      ∧ (¬ 2 * a - N < 0 →
        0 ≤ a - 2 ∧ (2 * (a - 1) - N) ^ 2 + (2 * b - N) ^ 2 < N ^ 2
          ∧ (2 * (a - 2) - N) ^ 2 + (2 * b - N) ^ 2 < N ^ 2) := by
  have hb1 : 1 ≤ b := by
    by_contra hc
    have : b = 0 := by omega
    subst this
    nlinarith [sq_nonneg (2 * a - N)]
  have hb2 : b ≤ N - 1 := by
    by_contra hc
    have : b = N := by omega
    subst this
    nlinarith [sq_nonneg (2 * a - b)]
  have hv : (2 * b - N) ^ 2 ≤ (N - 2) ^ 2 := by nlinarith
  constructor
  · intro hu
    refine ⟨by omega, by nlinarith, ?_⟩
    by_cases hu2 : 2 * a - N ≤ -2
    · nlinarith
    · have : 2 * a - N = -1 := by omega
      have e : 2 * (a + 2) - N = 3 := by omega
      rw [e]
      nlinarith
  · intro hu
    refine ⟨by omega, ?_, ?_⟩
    · by_cases hu1 : 1 ≤ 2 * a - N
      · nlinarith
      · have e : 2 * (a - 1) - N = -2 := by omega
        rw [e]
        nlinarith
    · by_cases hu2 : 2 ≤ 2 * a - N
      · nlinarith
      · by_cases hu1 : 2 * a - N = 1
        · have e : 2 * (a - 2) - N = -3 := by omega
          rw [e]
          nlinarith
        · have e : 2 * (a - 2) - N = -4 := by omega
          have hN6 : 6 ≤ N := by omega
          rw [e]
          nlinarith

/-- C16, as stated, fails: on the `4 x 4` grid the point `(ix1, ix2) = (1, 1)`, at
`(-1/3, -1/3)`, is processed, its coordinate `x1` is negative so the difference along `x1`
reads the indices `2` and `3`, and the point `(3, 1)`, at `(1, -1/3)`, is skipped: the
value read there was not computed for the current view. -/
theorem one_sided_reads_small_grid :
    processed ⟨Real.sqrt, Real.sin, Real.cos, Real.log, Real.exp, Real.pi⟩ 4 4 1 1
      ∧ diff_reads (grid_x1 4 (1 : Int).toNat : ℝ) 1 = (2, 3)
      ∧ ¬ processed ⟨Real.sqrt, Real.sin, Real.cos, Real.log, Real.exp, Real.pi⟩ 4 4 3 1 := by
  refine ⟨?_, ?_, ?_⟩
  · rw [processed_iff_int 4 (by decide)]
    decide
  · have h : (grid_x1 4 (1 : Int).toNat : ℝ) < 0 := by
      norm_num [grid_x1]
    simp only [diff_reads, if_pos h]
    norm_num
  · rw [processed_iff_int 4 (by decide)]
    decide

/-- C16, amended. For every square grid with `sx = sy ≥ 6` and every in-disk grid point
`(ix1, ix2)`, the two further points read by the one-sided difference along `x1`
(`ix1+1` and `ix1+2` when `x1 < 0`, `ix1-1` and `ix1-2` otherwise) and along `x2` (likewise
by the sign of `x2`) are themselves in-disk grid points, so the differences read only values
of the intermediate volume that were computed for the current view. -/
theorem one_sided_reads_processed (sx : Nat) (hsx : 6 ≤ sx) (ix1 ix2 : Int)
    (h : processed ⟨Real.sqrt, Real.sin, Real.cos, Real.log, Real.exp, Real.pi⟩ sx sx ix1 ix2) :
    processed ⟨Real.sqrt, Real.sin, Real.cos, Real.log, Real.exp, Real.pi⟩ sx sx
        (diff_reads (grid_x1 sx ix1.toNat : ℝ) ix1).1 ix2
      ∧ processed ⟨Real.sqrt, Real.sin, Real.cos, Real.log, Real.exp, Real.pi⟩ sx sx
        (diff_reads (grid_x1 sx ix1.toNat : ℝ) ix1).2 ix2
      ∧ processed ⟨Real.sqrt, Real.sin, Real.cos, Real.log, Real.exp, Real.pi⟩ sx sx ix1
        (diff_reads (grid_x2 sx ix2.toNat : ℝ) ix2).1
      ∧ processed ⟨Real.sqrt, Real.sin, Real.cos, Real.log, Real.exp, Real.pi⟩ sx sx ix1
        (diff_reads (grid_x2 sx ix2.toNat : ℝ) ix2).2 := by
  have hs2 : 2 ≤ sx := by omega
  obtain ⟨h1, h2, h3, h4, h5⟩ := (processed_iff_int sx hs2 ix1 ix2).mp h
  have hN : (5 : Int) ≤ (sx : Int) - 1 := by omega
  have h5' : (2 * ix2 - ((sx : Int) - 1)) ^ 2 + (2 * ix1 - ((sx : Int) - 1)) ^ 2
      < ((sx : Int) - 1) ^ 2 := by linarith
  obtain ⟨A1, A2⟩ := reads_inside_int ((sx : Int) - 1) ix1 ix2 hN h1 (by omega) h3 (by omega) h5
  obtain ⟨B1, B2⟩ := reads_inside_int ((sx : Int) - 1) ix2 ix1 hN h3 (by omega) h1 (by omega) h5'
  simp only [processed_iff_int sx hs2]
  rw [grid_x2_eq_grid_x1 sx hs2 ix2 h4]
  refine ⟨?_, ?_, ?_, ?_⟩
  · by_cases hx : (grid_x1 sx ix1.toNat : ℝ) < 0
    · obtain ⟨a1, a2, _⟩ := A1 ((grid_x1_neg_iff sx hs2 ix1 h1).mp hx)
      simp only [diff_reads, if_pos hx]
      exact ⟨by omega, by omega, h3, h4, a2⟩
    · obtain ⟨a1, a2, _⟩ := A2 (fun hc => hx ((grid_x1_neg_iff sx hs2 ix1 h1).mpr hc))
      simp only [diff_reads, if_neg hx]
      exact ⟨by omega, by omega, h3, h4, a2⟩
  · by_cases hx : (grid_x1 sx ix1.toNat : ℝ) < 0
    · obtain ⟨a1, _, a3⟩ := A1 ((grid_x1_neg_iff sx hs2 ix1 h1).mp hx)
      simp only [diff_reads, if_pos hx]
      exact ⟨by omega, by omega, h3, h4, a3⟩
    · obtain ⟨a1, _, a3⟩ := A2 (fun hc => hx ((grid_x1_neg_iff sx hs2 ix1 h1).mpr hc))
      simp only [diff_reads, if_neg hx]
      exact ⟨by omega, by omega, h3, h4, a3⟩
  · by_cases hx : (grid_x1 sx ix2.toNat : ℝ) < 0
    · obtain ⟨b1, b2, _⟩ := B1 ((grid_x1_neg_iff sx hs2 ix2 h3).mp hx)
      simp only [diff_reads, if_pos hx]
      exact ⟨h1, h2, by omega, by omega, by linarith⟩
    · obtain ⟨b1, b2, _⟩ := B2 (fun hc => hx ((grid_x1_neg_iff sx hs2 ix2 h3).mpr hc))
      simp only [diff_reads, if_neg hx]
      exact ⟨h1, h2, by omega, by omega, by linarith⟩
  · by_cases hx : (grid_x1 sx ix2.toNat : ℝ) < 0
    · obtain ⟨b1, _, b3⟩ := B1 ((grid_x1_neg_iff sx hs2 ix2 h3).mp hx)
      simp only [diff_reads, if_pos hx]
      exact ⟨h1, h2, by omega, by omega, by linarith⟩
    · obtain ⟨b1, _, b3⟩ := B2 (fun hc => hx ((grid_x1_neg_iff sx hs2 ix2 h3).mpr hc))
      simp only [diff_reads, if_neg hx]
      exact ⟨h1, h2, by omega, by omega, by linarith⟩

theorem one_sided_reads_processed_witness :
    (6 ≤ 6)
      ∧ processed ⟨Real.sqrt, Real.sin, Real.cos, Real.log, Real.exp, Real.pi⟩ 6 6 2 1
      ∧ (processed ⟨Real.sqrt, Real.sin, Real.cos, Real.log, Real.exp, Real.pi⟩ 6 6
          (diff_reads (grid_x1 6 (2 : Int).toNat : ℝ) 2).1 1
        ∧ processed ⟨Real.sqrt, Real.sin, Real.cos, Real.log, Real.exp, Real.pi⟩ 6 6
          (diff_reads (grid_x1 6 (2 : Int).toNat : ℝ) 2).2 1
        ∧ processed ⟨Real.sqrt, Real.sin, Real.cos, Real.log, Real.exp, Real.pi⟩ 6 6 2
          (diff_reads (grid_x2 6 (1 : Int).toNat : ℝ) 1).1
        ∧ processed ⟨Real.sqrt, Real.sin, Real.cos, Real.log, Real.exp, Real.pi⟩ 6 6 2
          (diff_reads (grid_x2 6 (1 : Int).toNat : ℝ) 1).2) :=
  have h : processed ⟨Real.sqrt, Real.sin, Real.cos, Real.log, Real.exp, Real.pi⟩ 6 6 2 1 := by
    rw [processed_iff_int 6 (by decide)]
    decide
  ⟨le_refl 6, h, one_sided_reads_processed 6 (le_refl 6) 2 1 h⟩

/-! ## `spline` overwrites its output argument -/

theorem spline_forward_congr (x y y2 y2' : Nat → K) (m : Nat) :
    (∀ k, k ≤ m → (spline_forward x y y2 m).1 k = (spline_forward x y y2' m).1 k)
      ∧ (spline_forward x y y2 m).2 = (spline_forward x y y2' m).2 := by
  induction m with
  | zero =>
    refine ⟨?_, rfl⟩
    intro k hk
    obtain rfl : k = 0 := by omega
    simp [spline_forward]
  | succ m ih =>
    obtain ⟨ih1, ih2⟩ := ih
    simp only [spline_forward, Nat.add_sub_cancel]
    rw [ih2, ih1 m le_rfl]
    refine ⟨?_, rfl⟩
    intro k hk
    by_cases hkm : k = m + 1
    · subst hkm
      simp
    · rw [Function.update_noteq hkm, Function.update_noteq hkm]
      exact ih1 k (by omega)

theorem spline_back_congr (u : Nat → K) (m : Nat) (Y Y' : Nat → K)
    (h : ∀ k, k ≤ m → Y k = Y' k) (k : Nat) (hk : k ≤ m) :
    spline_back u m Y k = spline_back u m Y' k := by
  have key : ∀ d, d ≤ m → spline_back u m Y (m - d) = spline_back u m Y' (m - d) := by
    intro d
    induction d with
    | zero =>
      intro _
      rw [Nat.sub_zero, spline_back_ge u m Y m le_rfl, spline_back_ge u m Y' m le_rfl]
      exact h m le_rfl
    | succ d ih =>
      intro hd
      have e : m - (d + 1) + 1 = m - d := by omega
      rw [spline_back_lt u m Y _ (by omega), spline_back_lt u m Y' _ (by omega), e,
        ih (by omega), h _ (by omega)]
  have e : k = m - (m - k) := by omega
  rw [e]
  exact key _ (by omega)

/-- The entries of the result of `spline` at the indices `0 .. n-1` do not depend on what
the output vector held before the call. -/
theorem spline_low_congr (x y y2 y2' : Nat → K) (n k : Nat) (hk : k ≤ n - 1) :
    spline x y n y2 k = spline x y n y2' k := by
  unfold spline
  obtain ⟨h1, h2⟩ := spline_forward_congr x y y2 y2' (n - 2)
  rw [h2, h1 (n - 2) le_rfl]
  apply spline_back_congr _ _ _ _ _ k hk
  intro j hj
  by_cases hjn : j = n - 1
  · subst hjn
    simp
  · rw [Function.update_noteq hjn, Function.update_noteq hjn]
    exact h1 j (by omega)

/-- Beyond the index `n - 1` the call of `spline` leaves the output vector as it was. -/
theorem spline_padding (x y y2 : Nat → K) (n k : Nat) (hk : n - 1 < k) :
    spline x y n y2 k = y2 k := by
  unfold spline
  rw [spline_back_ge _ _ _ _ (by omega), Function.update_noteq (by omega),
    spline_forward_fst_gt _ _ _ _ _ (by omega)]

theorem spline_congr (x y y2 y2' : Nat → K) (n : Nat) (h : ∀ k, n - 1 < k → y2 k = y2' k) :
    spline x y n y2 = spline x y n y2' := by
  funext k
  rcases Nat.lt_or_ge (n - 1) k with hk | hk
  · rw [spline_padding x y y2 n k hk, spline_padding x y y2' n k hk]
    exact h k hk
  · exact spline_low_congr x y y2 y2' n k hk

/-! ## The view loop does not depend on the order of the views -/

theorem same_frame_refl (M : Libm K) (S : Sizes) (a : AxialState K) : same_frame M S a a :=
  ⟨fun _ _ => rfl, fun _ _ => rfl, fun _ _ => rfl, fun _ _ => rfl, fun _ _ _ => rfl⟩

theorem same_frame_trans (M : Libm K) (S : Sizes) (a b c : AxialState K)
    (hab : same_frame M S a b) (hbc : same_frame M S b c) : same_frame M S a c := by
  obtain ⟨a1, a2, a3, a4, a5⟩ := hab
  obtain ⟨b1, b2, b3, b4, b5⟩ := hbc
  exact ⟨fun k hk => (a1 k hk).trans (b1 k hk), fun k hk => (a2 k hk).trans (b2 k hk),
    fun k hk => (a3 k hk).trans (b3 k hk), fun k hk => (a4 k hk).trans (b4 k hk),
    fun i j h => (a5 i j h).trans (b5 i j h)⟩

/-- An iteration of the view loop changes nothing outside what it overwrites. -/
theorem view_step_axial_frame [FloorRing K] (M : Libm K) (S : Sizes)
    (proj atten : Nat → Nat → Nat → K) (ia : Nat) (s : AxialState K) (ith : Nat) :
    same_frame M S s (view_step_axial M S proj atten ia s ith) := by
  refine ⟨?_, ?_, ?_, ?_, ?_⟩
  · intro k hk
    exact (spline_padding _ _ _ _ k hk).symm
  · intro k hk
    exact (spline_padding _ _ _ _ k hk).symm
  · intro k hk
    exact (spline_padding _ _ _ _ k hk).symm
  · intro k hk
    exact (spline_padding _ _ _ _ k hk).symm
  · intro i j h
    simp only [view_step_axial, if_neg h]

/-- The image after an iteration of the view loop, in terms of the intermediate volume the
iteration has written. -/
theorem view_step_axial_image [FloorRing K] (M : Libm K) (S : Sizes)
    (proj atten : Nat → Nat → Nat → K) (ia : Nat) (s : AxialState K) (ith : Nat) (i j : Int) :
    (view_step_axial M S proj atten ia s ith).image i j
      = if processed M S.sx S.sy i j then
          s.image i j
            + 1 / (4 * M.pi)
              * (diff_one_sided S.sx (grid_x1 S.sx i.toNat)
                    (fun k => (view_step_axial M S proj atten ia s ith).rx k j) i
                  * M.sin (grid_th M S.sth ith)
                - diff_one_sided S.sy (grid_x2 S.sx j.toNat)
                    (fun k => (view_step_axial M S proj atten ia s ith).rx i k) j
                  * M.cos (grid_th M S.sth ith))
              * (2 * M.pi / (S.sth : K)) * (623 / 100)
        else s.image i j :=
  rfl

/-- From two states with the same frame, an iteration of the view loop writes the same
vectors and the same intermediate volume, and adds the same amount to every voxel. -/
theorem view_step_axial_congr [FloorRing K] (M : Libm K) (S : Sizes)
    (proj atten : Nat → Nat → Nat → K) (ia : Nat) (a b : AxialState K) (ith : Nat)
    (h : same_frame M S a b) :
    (view_step_axial M S proj atten ia a ith).rx = (view_step_axial M S proj atten ia b ith).rx
      ∧ ∀ i j, (view_step_axial M S proj atten ia a ith).image i j
          = a.image i j + ((view_step_axial M S proj atten ia b ith).image i j - b.image i j) := by
  obtain ⟨h1, h2, h3, h4, h5⟩ := h
  have e1 := spline_congr (grid_p S.sp) (view_g proj ith ia) a.ddg b.ddg S.sp h1
  have e2 := spline_congr (grid_p S.sp) (view_f atten ith ia) a.ddf b.ddf S.sp h2
  have e3 := fun y => spline_congr (grid_p S.sp) y a.ddfc b.ddfc S.sp h3
  have e4 := fun y => spline_congr (grid_p S.sp) y a.ddfs b.ddfs S.sp h4
  have hrx : (view_step_axial M S proj atten ia a ith).rx
      = (view_step_axial M S proj atten ia b ith).rx := by
    funext i j
    simp only [view_step_axial]
    rw [e1, e2, e3, e4]
    split
    · rfl
    · rename_i hp
      exact h5 i j hp
  refine ⟨hrx, ?_⟩
  intro i j
  rw [view_step_axial_image, view_step_axial_image, hrx]
  split
  · ring
  · ring

/-- The image slice after the views of a list, from any state with the frame of the
initial state: each view adds what it adds when it is run alone from the initial state. -/
theorem foldl_view_step_axial_image [FloorRing K] (M : Libm K) (S : Sizes)
    (proj atten : Nat → Nat → Nat → K) (ia : Nat) (order : List Nat) (s : AxialState K)
    (h : same_frame M S AxialState.initial s) (i j : Int) :
    (order.foldl (view_step_axial M S proj atten ia) s).image i j
      = s.image i j
        + (order.map
            (fun v => (view_step_axial M S proj atten ia AxialState.initial v).image i j)).sum := by
  induction order generalizing s with
  | nil => simp
  | cons v l ih =>
    simp only [List.foldl_cons, List.map_cons, List.sum_cons]
    rw [ih _ (same_frame_trans M S _ _ _ h (view_step_axial_frame M S proj atten ia s v)),
      (view_step_axial_congr M S proj atten ia s AxialState.initial v
        (by
          obtain ⟨a1, a2, a3, a4, a5⟩ := h
          exact ⟨fun k hk => (a1 k hk).symm, fun k hk => (a2 k hk).symm,
            fun k hk => (a3 k hk).symm, fun k hk => (a4 k hk).symm,
            fun i j hp => (a5 i j hp).symm⟩)).2 i j]
    simp only [AxialState.initial]
    ring

theorem foldl_view_step_apply [FloorRing K] (M : Libm K) (S : Sizes)
    (proj atten : Nat → Nat → Nat → K) (order : List Nat) (s : Nat → AxialState K) (ia : Nat) :
    order.foldl (view_step M S proj atten) s ia
      = if ia < S.sa then order.foldl (view_step_axial M S proj atten ia) (s ia) else s ia := by
  induction order generalizing s with
  | nil => simp
  | cons v l ih =>
    simp only [List.foldl_cons]
    rw [ih]
    by_cases hia : ia < S.sa
    · simp [view_step, hia]
    · simp [view_step, hia]

/-- The image slice after the views of a list is the sum of the contributions of the
views. -/
theorem run_views_image [FloorRing K] (M : Libm K) (S : Sizes)
    (proj atten : Nat → Nat → Nat → K) (order : List Nat) (ia : Nat) (i j : Int) :
    (run_views M S proj atten order ia).image i j
      = (order.map (fun v => view_contribution M S proj atten ia v i j)).sum := by
  unfold run_views
  rw [foldl_view_step_apply]
  by_cases hia : ia < S.sa
  · simp only [if_pos hia, view_contribution, view_step]
    rw [foldl_view_step_axial_image M S proj atten ia order _ (same_frame_refl M S _)]
    simp [AxialState.initial]
  · simp only [if_neg hia, view_contribution, view_step]
    have : (order.map (fun _ : Nat => (AxialState.initial : AxialState K).image i j)).sum = 0 := by
      induction order with
      | nil => rfl
      | cons v l ih => simp [AxialState.initial] at ih ⊢
    rw [this]
    rfl

/-- C18. In exact arithmetic the image produced by the view loop of `actual_reconstruct`
is the sum over the views of a contribution that depends only on that view (its profiles,
its angle and the read-only caches), never on the views processed before it: running the
view loop in any permuted order yields the same output image. -/
theorem view_loop_order_independent [FloorRing K] (M : Libm K) (S : Sizes)
    (proj atten : Nat → Nat → Nat → K) (order order' : List Nat) (h : order.Perm order') :
    (∀ ia i j, (run_views M S proj atten order ia).image i j
        = (order.map (fun v => view_contribution M S proj atten ia v i j)).sum)
      ∧ (∀ ia, (run_views M S proj atten order ia).image
        = (run_views M S proj atten order' ia).image) := by
  refine ⟨fun ia i j => run_views_image M S proj atten order ia i j, ?_⟩
  intro ia
  funext i j
  rw [run_views_image, run_views_image]
  exact (h.map _).sum_eq

theorem view_loop_order_independent_witness :
    ([0, 1, 2] : List Nat).Perm [2, 0, 1]
      ∧ ((∀ ia i j,
          (run_views (⟨id, id, id, id, id, 3⟩ : Libm ℚ) ⟨5, 3, 1, 7, 7⟩
              (fun v _ ip => (v + ip : ℚ)) (fun _ _ _ => 1) [0, 1, 2] ia).image i j
            = (([0, 1, 2] : List Nat).map
                (fun v => view_contribution (⟨id, id, id, id, id, 3⟩ : Libm ℚ) ⟨5, 3, 1, 7, 7⟩
                  (fun v _ ip => (v + ip : ℚ)) (fun _ _ _ => 1) ia v i j)).sum)
        ∧ (∀ ia,
          (run_views (⟨id, id, id, id, id, 3⟩ : Libm ℚ) ⟨5, 3, 1, 7, 7⟩
              (fun v _ ip => (v + ip : ℚ)) (fun _ _ _ => 1) [0, 1, 2] ia).image
            = (run_views (⟨id, id, id, id, id, 3⟩ : Libm ℚ) ⟨5, 3, 1, 7, 7⟩
              (fun v _ ip => (v + ip : ℚ)) (fun _ _ _ => 1) [2, 0, 1] ia).image)) :=
  have h : ([0, 1, 2] : List Nat).Perm [2, 0, 1] := by decide
  ⟨h, view_loop_order_independent (⟨id, id, id, id, id, 3⟩ : Libm ℚ) ⟨5, 3, 1, 7, 7⟩
    (fun v _ ip => (v + ip : ℚ)) (fun _ _ _ => 1) [0, 1, 2] [2, 0, 1] h⟩

/-! ## `set_up` -/

theorem tmod_two_eq_zero_iff (n : Int) (hn : 0 ≤ n) : Int.tmod n 2 = 0 ↔ Even n := by
  rw [Int.tmod_eq_emod hn (by decide), Int.even_iff]

/-- C21, as stated, fails: with `num_segments_to_combine = -2`, an even value, `set_up`
returns `Succeeded::yes` and leaves the value as it is. -/
theorem set_up_minus_two :
    Even (-2 : Int) ∧ set_up Succeeded.yes none (-2) = Except.ok (Succeeded.yes, -2) := by
  refine ⟨by decide, ?_⟩
  simp [set_up]

/-- C21, amended. After a successful `base_type::set_up`, `set_up` fails with a fatal error
exactly for the even values `num_segments_to_combine ≥ 0`; it accepts (returns
`Succeeded::yes`) every other value: the odd values (among them `-1`, which requests
automatic selection) and the negative even values. -/
theorem set_up_fails_iff (cyl : Option CylindricalInfo) (n : Int) :
    ((set_up Succeeded.yes cyl n).toBool = false ↔ 0 ≤ n ∧ Even n)
      ∧ (¬ (0 ≤ n ∧ Even n) → ∃ m, set_up Succeeded.yes cyl n = Except.ok (Succeeded.yes, m)) := by
  by_cases h : 0 ≤ n ∧ Even n
  · have h' : n ≥ 0 ∧ Int.tmod n 2 = 0 := ⟨h.1, (tmod_two_eq_zero_iff n h.1).mpr h.2⟩
    refine ⟨⟨fun _ => h, fun _ => ?_⟩, fun hc => absurd h hc⟩
    simp [set_up, h', Except.toBool]
  · have h' : ¬ (n ≥ 0 ∧ Int.tmod n 2 = 0) := by
      rintro ⟨h1, h2⟩
      exact h ⟨h1, (tmod_two_eq_zero_iff n h1).mp h2⟩
    have hex : ∃ m, set_up Succeeded.yes cyl n = Except.ok (Succeeded.yes, m) := by
      simp only [set_up, if_neg h']
      by_cases hn : n = -1
      · cases cyl with
        | none => exact ⟨1, by simp [hn]⟩
        | some c =>
          by_cases hc : c.min_ring_difference ≠ c.max_ring_difference ∨ c.num_segments = 1
          · exact ⟨1, by simp [hn, hc]⟩
          · exact ⟨3, by simp [hn, hc]⟩
      · exact ⟨n, by simp [hn]⟩
    refine ⟨⟨fun hb => ?_, fun hc => absurd hc h⟩, fun _ => hex⟩
    obtain ⟨m, hm⟩ := hex
    rw [hm] at hb
    simp [Except.toBool] at hb

/-- C22, as stated, fails: with data that have no axial compression (minimum and maximum
ring difference of segment 0 both `0`) and a single segment, `set_up` replaces `-1` by `1`,
not by `3`. -/
theorem set_up_single_segment :
    (⟨0, 0, 1⟩ : CylindricalInfo).min_ring_difference
        = (⟨0, 0, 1⟩ : CylindricalInfo).max_ring_difference
      ∧ set_up Succeeded.yes (some ⟨0, 0, 1⟩) (-1) = Except.ok (Succeeded.yes, 1) := by
  refine ⟨rfl, ?_⟩
  simp [set_up]

/-- C22, amended. When `num_segments_to_combine` is `-1` on entry, `set_up` replaces it by
`3` if the data are cylindrical, have no axial compression (segment 0 has minimum ring
difference equal to its maximum ring difference) and have more than one segment, and by `1`
otherwise. -/
theorem set_up_automatic (cyl : Option CylindricalInfo) :
    set_up Succeeded.yes cyl (-1)
      = Except.ok (Succeeded.yes,
          match cyl with
          | none => 1
          | some c =>
            if c.min_ring_difference = c.max_ring_difference ∧ c.num_segments ≠ 1 then 3 else 1) := by
  cases cyl with
  | none => simp [set_up]
  | some c =>
    by_cases h1 : c.min_ring_difference = c.max_ring_difference
    · by_cases h2 : c.num_segments = 1
      · simp [set_up, h1, h2]
      · simp [set_up, h1, h2]
    · simp [set_up, h1]

/-! ## The checks of `actual_reconstruct` -/

/-- C23. If segment 0 has `|tan(theta)| > 1e-4`, or the projection data are not
arc-corrected cylindrical data, `actual_reconstruct` fails (it returns `Succeeded::no` in
the first case, it raises an error in the second when the first does not apply) without
having modified the output image: the density holds exactly what it held before the call. -/
theorem actual_reconstruct_fails_unmodified [FloorRing K] (M : Libm K) (S : Sizes)
    (geometry : Geometry) (n : Int) (tan_theta : K) (proj atten : Nat → Nat → Nat → K)
    (density : Nat → Int → Int → K)
    (h : 1 / 10000 < |tan_theta| ∨ geometry ≠ Geometry.cylindrical_arc_corrected) :
    (actual_reconstruct M S geometry n tan_theta proj atten density).density = density
      ∧ (actual_reconstruct M S geometry n tan_theta proj atten density).outcome
        ≠ Except.ok Succeeded.yes
      ∧ ((actual_reconstruct M S geometry n tan_theta proj atten density).outcome
          = Except.ok Succeeded.no
        ∨ (actual_reconstruct M S geometry n tan_theta proj atten density).outcome.toBool
          = false) := by
  unfold actual_reconstruct
  by_cases h1 : n > 1 ∧ geometry = Geometry.other
  · rw [if_pos h1]
    exact ⟨rfl, by simp, Or.inr rfl⟩
  · rw [if_neg h1]
    by_cases h2 : |tan_theta| > 1 / 10000
    · rw [if_pos h2]
      exact ⟨rfl, by simp, Or.inl rfl⟩
    · have h3 : geometry ≠ Geometry.cylindrical_arc_corrected := by
        rcases h with h | h
        · exact absurd h h2
        · exact h
      rw [if_neg h2, if_pos h3]
      exact ⟨rfl, by simp, Or.inr rfl⟩

theorem actual_reconstruct_fails_unmodified_witness :
    ((1 : ℚ) / 10000 < |(1 / 2 : ℚ)|
        ∨ Geometry.cylindrical_arc_corrected ≠ Geometry.cylindrical_arc_corrected)
      ∧ ((actual_reconstruct (⟨id, id, id, id, id, 3⟩ : Libm ℚ) ⟨5, 3, 1, 7, 7⟩
          Geometry.cylindrical_arc_corrected 1 (1 / 2) (fun _ _ _ => 1) (fun _ _ _ => 0)
          (fun _ _ _ => 5)).density = fun _ _ _ => 5)
      ∧ (actual_reconstruct (⟨id, id, id, id, id, 3⟩ : Libm ℚ) ⟨5, 3, 1, 7, 7⟩
          Geometry.cylindrical_arc_corrected 1 (1 / 2) (fun _ _ _ => 1) (fun _ _ _ => 0)
          (fun _ _ _ => 5)).outcome ≠ Except.ok Succeeded.yes
      ∧ ((actual_reconstruct (⟨id, id, id, id, id, 3⟩ : Libm ℚ) ⟨5, 3, 1, 7, 7⟩
          Geometry.cylindrical_arc_corrected 1 (1 / 2) (fun _ _ _ => 1) (fun _ _ _ => 0)
          (fun _ _ _ => 5)).outcome = Except.ok Succeeded.no
        ∨ (actual_reconstruct (⟨id, id, id, id, id, 3⟩ : Libm ℚ) ⟨5, 3, 1, 7, 7⟩
          Geometry.cylindrical_arc_corrected 1 (1 / 2) (fun _ _ _ => 1) (fun _ _ _ => 0)
          (fun _ _ _ => 5)).outcome.toBool = false) :=
  have h : (1 : ℚ) / 10000 < |(1 / 2 : ℚ)|
      ∨ Geometry.cylindrical_arc_corrected ≠ Geometry.cylindrical_arc_corrected :=
    Or.inl (by norm_num [abs_of_pos])
  ⟨h, actual_reconstruct_fails_unmodified (⟨id, id, id, id, id, 3⟩ : Libm ℚ) ⟨5, 3, 1, 7, 7⟩
    Geometry.cylindrical_arc_corrected 1 (1 / 2) (fun _ _ _ => 1) (fun _ _ _ => 0)
    (fun _ _ _ => 5) h⟩

/-! ## The grid setup -/

/-- C24. With `sx = 3` and `sy = 2` the grid setup writes `x2[2]`, beyond the vector of
length `sy = 2`; with `sx = 2` and `sy = 3` it leaves `x2 = [-1, 1, 0]`, so `x2[1] = 1`
instead of `-1 + 2*1/(sy-1) = 0`, the sequence is not increasing and does not end at `1`:
the loop over `x2` takes both its bound and its spacing from `sx`. -/
theorem grid_x2_uses_sx :
    (2 ∈ x2_write_indices 3 ∧ ¬ (2 < 2))
      ∧ (grid_x2 2 1 : ℚ) = 1 ∧ (-1 + 2 * ((1 : Nat) : ℚ) / (((3 : Nat) : ℚ) - 1) = 0)
      ∧ (grid_x2 2 2 : ℚ) < grid_x2 2 1
      ∧ (grid_x2 2 (3 - 1) : ℚ) = 0 := by
  refine ⟨⟨by decide, by decide⟩, ?_, ?_, ?_, ?_⟩ <;> norm_num [grid_x2]

/-! ## The bracket index -/

theorem tmod_cases (x n : Int) (hn : 0 < n) (h0 : 0 ≤ x) (h3 : x < 3 * n) :
    (x < n ∧ Int.tmod x n = x) ∨ (n ≤ x ∧ x < 2 * n ∧ Int.tmod x n = x - n)
      ∨ (2 * n ≤ x ∧ Int.tmod x n = x - 2 * n) := by
  rw [Int.tmod_eq_emod h0 hn.le]
  by_cases h1 : x < n
  · exact Or.inl ⟨h1, Int.emod_eq_of_lt h0 h1⟩
  · by_cases h2 : x < 2 * n
    · refine Or.inr (Or.inl ⟨by omega, h2, ?_⟩)
      have : x % n = (x - n) % n := by
        rw [Int.sub_emod, Int.emod_self, sub_zero, Int.emod_emod_of_dvd _ (dvd_refl n)]
      rw [this]
      exact Int.emod_eq_of_lt (by omega) (by omega)
    · refine Or.inr (Or.inr ⟨by omega, ?_⟩)
      have : x % n = (x - 2 * n) % n := by
        rw [Int.sub_emod, Int.mul_emod_left, sub_zero, Int.emod_emod_of_dvd _ (dvd_refl n)]
      rw [this]
      exact Int.emod_eq_of_lt (by omega) (by omega)

theorem tdiv_two_mul (m : Int) (hm : 0 ≤ m) : Int.tdiv (2 * m) 2 = m := by
  rw [Int.tdiv_eq_ediv (by omega) (by decide)]
  omega

theorem tdiv_three_mul (m : Int) (hm : 0 ≤ m) : Int.tdiv (3 * (2 * m)) 2 = 3 * m := by
  rw [Int.tdiv_eq_ediv (by omega) (by decide)]
  omega

/-- C26. For every even number `N` of detectors per ring, every view `0 ≤ v < N/2` and
every tangential position `-N/2 < tp < N/2`: the entry `(det1, det2)` of
`uncompressed_view_tangpos_to_det1det2` at `(v, tp)` has `det1 ≠ det2`, and the iteration of
`initialise_det1det2_to_uncompressed_view_tangpos` at `(det1, det2)` ends with
`view_num = v`, `tang_pos_num = tp` and the local `swap_detectors = 0`, so that the stored
entry is `(v, tp, true)`: the second table inverts the first. -/
theorem det1det2_inverts_view_tangpos (N v tp : Int) (hN : Even N) (hv0 : 0 ≤ v)
    (hv : v < N / 2) (htp0 : -(N / 2) < tp) (htp : tp < N / 2) :
    (uncompressed_view_tangpos_to_det1det2 N v tp).det1_num
        ≠ (uncompressed_view_tangpos_to_det1det2 N v tp).det2_num
      ∧ det1det2_locals N (uncompressed_view_tangpos_to_det1det2 N v tp).det1_num
          (uncompressed_view_tangpos_to_det1det2 N v tp).det2_num = ⟨v, tp, 0⟩
      ∧ det1det2_to_uncompressed_view_tangpos N
          (uncompressed_view_tangpos_to_det1det2 N v tp).det1_num
          (uncompressed_view_tangpos_to_det1det2 N v tp).det2_num = some ⟨v, tp, true⟩ := by
  obtain ⟨m, hm⟩ := hN
  have hNm : N = 2 * m := by omega
  subst hNm
  have hm0 : 0 < m := by omega
  have key : (uncompressed_view_tangpos_to_det1det2 (2 * m) v tp).det1_num
        ≠ (uncompressed_view_tangpos_to_det1det2 (2 * m) v tp).det2_num
      ∧ det1det2_locals (2 * m) (uncompressed_view_tangpos_to_det1det2 (2 * m) v tp).det1_num
          (uncompressed_view_tangpos_to_det1det2 (2 * m) v tp).det2_num = ⟨v, tp, 0⟩ := by
    simp only [uncompressed_view_tangpos_to_det1det2, det1det2_locals, shift_right_one,
      tdiv_two_mul m hm0.le, tdiv_three_mul m hm0.le]
    have c1 := tmod_cases (v + tp / 2 + 2 * m) (2 * m) (by omega) (by omega) (by omega)
    have c2 := tmod_cases (v - (tp + 1) / 2 + m) (2 * m) (by omega) (by omega) (by omega)
    generalize Int.tmod (v + tp / 2 + 2 * m) (2 * m) = d1 at c1 ⊢
    generalize Int.tmod (v - (tp + 1) / 2 + m) (2 * m) = d2 at c2 ⊢
    have hsum : tp / 2 + (tp + 1) / 2 = tp := by omega
    have e1 : 0 ≤ d1 ∧ d1 < 2 * m ∧ (d1 = v + tp / 2 ∨ d1 = v + tp / 2 + 2 * m) := by omega
    have e2 : 0 ≤ d2 ∧ d2 < 2 * m
        ∧ (d2 = v - (tp + 1) / 2 + m ∨ d2 = v - (tp + 1) / 2 - m) := by omega
    clear c1 c2
    have hne : d1 ≠ d2 := by omega
    have c3 := tmod_cases (d1 - d2 + 3 * m) (2 * m) (by omega) (by omega) (by omega)
    generalize Int.tmod (d1 - d2 + 3 * m) (2 * m) = t at c3 ⊢
    have ht : t = tp ∧ 0 ≤ tp ∨ t = tp + 2 * m ∧ tp < 0 := by
      obtain ⟨_, _, e1 | e1⟩ := e1 <;> obtain ⟨_, _, e2 | e2⟩ := e2 <;>
        rcases c3 with ⟨_, e3⟩ | ⟨_, _, e3⟩ | ⟨_, e3⟩ <;> omega
    clear c3
    have c4 := tmod_cases (d1 - t / 2 + 2 * m) (2 * m) (by omega) (by omega) (by omega)
    generalize Int.tmod (d1 - t / 2 + 2 * m) (2 * m) = w at c4 ⊢
    have hw : w = v ∧ t = tp ∨ w = v + m ∧ t = tp + 2 * m := by
      obtain ⟨_, _, e1 | e1⟩ := e1 <;> rcases ht with ⟨ht, _⟩ | ⟨ht, _⟩ <;>
        rcases c4 with ⟨_, e4⟩ | ⟨_, _, e4⟩ | ⟨_, e4⟩ <;> omega
    refine ⟨hne, ?_⟩
    rcases hw with ⟨hw, ht3⟩ | ⟨hw, ht3⟩
    · subst hw ht3
      rw [if_pos (by omega), if_neg (by omega)]
    · subst hw ht3
      rw [if_neg (by omega), if_pos (by omega)]
      congr 1 <;> omega
  refine ⟨key.1, key.2, ?_⟩
  rw [det1det2_to_uncompressed_view_tangpos, if_neg key.1, key.2]
  rfl

theorem det1det2_inverts_view_tangpos_witness :
    Even (8 : Int) ∧ (0 : Int) ≤ 1 ∧ (1 : Int) < 8 / 2 ∧ -((8 : Int) / 2) < -3 ∧ (-3 : Int) < 8 / 2
      ∧ ((uncompressed_view_tangpos_to_det1det2 8 1 (-3)).det1_num
          ≠ (uncompressed_view_tangpos_to_det1det2 8 1 (-3)).det2_num
        ∧ det1det2_locals 8 (uncompressed_view_tangpos_to_det1det2 8 1 (-3)).det1_num
            (uncompressed_view_tangpos_to_det1det2 8 1 (-3)).det2_num = ⟨1, -3, 0⟩
        ∧ det1det2_to_uncompressed_view_tangpos 8
            (uncompressed_view_tangpos_to_det1det2 8 1 (-3)).det1_num
            (uncompressed_view_tangpos_to_det1det2 8 1 (-3)).det2_num = some ⟨1, -3, true⟩) :=
  ⟨by decide, by decide, by decide, by decide, by decide,
    det1det2_inverts_view_tangpos 8 1 (-3) (by decide) (by decide) (by decide) (by decide)
      (by decide)⟩

/-- C27. For every even `N` and every pair of distinct detectors `det1 ≠ det2` in `[0, N)`,
the iteration of `initialise_det1det2_to_uncompressed_view_tangpos` at `(det1, det2)` ends
with `0 ≤ view_num < N/2`, `-N/2 < tang_pos_num < N/2` and `swap_detectors` equal to `0` or
`1`, and the entry of `uncompressed_view_tangpos_to_det1det2` at `(view_num, tang_pos_num)`
is `(det1, det2)` when `swap_detectors` is `0` and `(det2, det1)` when it is `1`. -/
theorem view_tangpos_denotes_same_pair (N det1 det2 : Int) (hN : Even N) (h10 : 0 ≤ det1)
    (h1 : det1 < N) (h20 : 0 ≤ det2) (h2 : det2 < N) (hne : det1 ≠ det2) :
    0 ≤ (det1det2_locals N det1 det2).view_num
      ∧ (det1det2_locals N det1 det2).view_num < N / 2
      ∧ -(N / 2) < (det1det2_locals N det1 det2).tang_pos_num
      ∧ (det1det2_locals N det1 det2).tang_pos_num < N / 2
      ∧ uncompressed_view_tangpos_to_det1det2 N (det1det2_locals N det1 det2).view_num
          (det1det2_locals N det1 det2).tang_pos_num
        = (if (det1det2_locals N det1 det2).swap_detectors = 0 then ⟨det1, det2⟩
            else ⟨det2, det1⟩)
      ∧ ((det1det2_locals N det1 det2).swap_detectors = 0
        ∨ (det1det2_locals N det1 det2).swap_detectors = 1) := by
  obtain ⟨m, hm⟩ := hN
  have hNm : N = 2 * m := by omega
  subst hNm
  have hm0 : 0 < m := by omega
  have hdiv : 2 * m / 2 = m := by omega
  rw [hdiv]
  simp only [det1det2_locals, tdiv_two_mul m hm0.le, tdiv_three_mul m hm0.le, shift_right_one]
  have c3 := tmod_cases (det1 - det2 + 3 * m) (2 * m) (by omega) (by omega) (by omega)
  generalize Int.tmod (det1 - det2 + 3 * m) (2 * m) = t at c3 ⊢
  have c4 := tmod_cases (det1 - t / 2 + 2 * m) (2 * m) (by omega) (by omega) (by omega)
  generalize Int.tmod (det1 - t / 2 + 2 * m) (2 * m) = w at c4 ⊢
  have fin : ∀ vw tg sw : Int, 0 ≤ vw → vw < m → -m < tg → tg < m →
      (sw = 0 ∧ (vw + tg / 2 + 2 * m = det1 ∨ vw + tg / 2 + 2 * m = det1 + 2 * m)
          ∧ (vw - (tg + 1) / 2 + m = det2 ∨ vw - (tg + 1) / 2 + m = det2 + 2 * m)
        ∨ sw = 1 ∧ (vw + tg / 2 + 2 * m = det2 ∨ vw + tg / 2 + 2 * m = det2 + 2 * m)
          ∧ (vw - (tg + 1) / 2 + m = det1 ∨ vw - (tg + 1) / 2 + m = det1 + 2 * m)) →
      0 ≤ vw ∧ vw < m ∧ -m < tg ∧ tg < m
        ∧ uncompressed_view_tangpos_to_det1det2 (2 * m) vw tg
          = (if sw = 0 then ⟨det1, det2⟩ else ⟨det2, det1⟩)
        ∧ (sw = 0 ∨ sw = 1) := by
    intro vw tg sw hv0 hv ht0 ht hr
    refine ⟨hv0, hv, ht0, ht, ?_, by omega⟩
    simp only [uncompressed_view_tangpos_to_det1det2, shift_right_one, tdiv_two_mul m hm0.le]
    have c1 := tmod_cases (vw + tg / 2 + 2 * m) (2 * m) (by omega) (by omega) (by omega)
    have c2 := tmod_cases (vw - (tg + 1) / 2 + m) (2 * m) (by omega) (by omega) (by omega)
    generalize Int.tmod (vw + tg / 2 + 2 * m) (2 * m) = d1 at c1 ⊢
    generalize Int.tmod (vw - (tg + 1) / 2 + m) (2 * m) = d2 at c2 ⊢
    rcases hr with ⟨hs, ha, hb⟩ | ⟨hs, ha, hb⟩
    · rw [if_pos hs]
      have e1 : d1 = det1 := by omega
      have e2 : d2 = det2 := by omega
      rw [e1, e2]
    · rw [if_neg (by omega)]
      have e1 : d1 = det2 := by omega
      have e2 : d2 = det1 := by omega
      rw [e1, e2]
  have ht1 : t = det1 - det2 + 3 * m ∨ t = det1 - det2 + m ∨ t = det1 - det2 - m := by omega
  have htr : 0 ≤ t ∧ t < 2 * m ∧ t ≠ m := by omega
  have hwr : 0 ≤ w ∧ w < 2 * m := by omega
  have hw1 : w = det1 - t / 2 + 2 * m ∨ w = det1 - t / 2 := by omega
  by_cases g1 : w < m
  · by_cases g2 : t ≥ m
    · have hq : (2 * m - t) / 2 + (t + 1) / 2 = m := by omega
      have hq2 : (2 * m - t + 1) / 2 + t / 2 = m := by omega
      rw [if_pos g1, if_pos g2]
      exact fin w (2 * m - t) 1 (by omega) (by omega) (by omega) (by omega) (by omega)
    · have hq : t / 2 + (t + 1) / 2 = t := by omega
      rw [if_pos g1, if_neg g2]
      exact fin w t 0 (by omega) (by omega) (by omega) (by omega) (by omega)
  · by_cases g2 : t ≥ m
    · have hq : t / 2 + (t + 1) / 2 = t := by omega
      have hq2 : (t - 2 * m) / 2 = t / 2 - m := by omega
      have hq3 : (t - 2 * m + 1) / 2 = (t + 1) / 2 - m := by omega
      rw [if_neg g1, if_pos g2]
      exact fin (w - m) (t - 2 * m) 0 (by omega) (by omega) (by omega) (by omega) (by omega)
    · have hq : (t * -1) / 2 + (t + 1) / 2 = 0 := by omega
      have hq2 : (t * -1 + 1) / 2 + t / 2 = 0 := by omega
      rw [if_neg g1, if_neg g2]
      exact fin (w - m) (t * -1) 1 (by omega) (by omega) (by omega) (by omega) (by omega)

theorem view_tangpos_denotes_same_pair_witness :
    Even (8 : Int) ∧ (0 : Int) ≤ 5 ∧ (5 : Int) < 8 ∧ (0 : Int) ≤ 2 ∧ (2 : Int) < 8
      ∧ (5 : Int) ≠ 2
      ∧ (0 ≤ (det1det2_locals 8 5 2).view_num
        ∧ (det1det2_locals 8 5 2).view_num < 8 / 2
        ∧ -(8 / 2) < (det1det2_locals 8 5 2).tang_pos_num
        ∧ (det1det2_locals 8 5 2).tang_pos_num < 8 / 2
        ∧ uncompressed_view_tangpos_to_det1det2 8 (det1det2_locals 8 5 2).view_num
            (det1det2_locals 8 5 2).tang_pos_num
          = (if (det1det2_locals 8 5 2).swap_detectors = 0 then ⟨5, 2⟩ else ⟨2, 5⟩)
        ∧ ((det1det2_locals 8 5 2).swap_detectors = 0
          ∨ (det1det2_locals 8 5 2).swap_detectors = 1)) :=
  ⟨by decide, by decide, by decide, by decide, by decide, by decide,
    view_tangpos_denotes_same_pair 8 5 2 (by decide) (by decide) (by decide) (by decide)
      (by decide) (by decide)⟩

/-! ## Zero attenuation: the inversion reduces to the Hilbert transform of the emission profile -/

theorem hilbert_loop_congr (x : K) (f f' ddf ddf' p lg : Nat → K) (m : Nat)
    (hf : ∀ k, k ≤ m + 1 → f k = f' k) (hddf : ∀ k, k ≤ m + 1 → ddf k = ddf' k) :
    hilbert_loop x f ddf p lg m = hilbert_loop x f' ddf' p lg m := by
  induction m with
  | zero =>
    simp only [hilbert_loop]
    rw [hf 0 (by omega), hf (0 + 1) (by omega), hddf 0 (by omega), hddf (0 + 1) (by omega)]
  | succ m ih =>
    simp only [hilbert_loop]
    rw [ih (fun k hk => hf k (by omega)) (fun k hk => hddf k (by omega)),
      hf (m + 1) (by omega), hf (m + 1 + 1) (by omega), hddf (m + 1) (by omega),
      hddf (m + 1 + 1) (by omega)]

/-- For `sp ≥ 2`, `hilbert` reads the samples and the coefficients at the indices `0 .. sp-1`
only. -/
theorem hilbert_congr (x : K) (f f' ddf ddf' p lg : Nat → K) (sp : Nat) (hsp : 2 ≤ sp)
    (hf : ∀ k, k < sp → f k = f' k) (hddf : ∀ k, k < sp → ddf k = ddf' k) :
    hilbert x f ddf p sp lg = hilbert x f' ddf' p sp lg := by
  simp only [hilbert]
  rw [hilbert_loop_congr x f f' ddf ddf' p lg (sp - 3) (fun k hk => hf k (by omega))
      (fun k hk => hddf k (by omega)),
    hf (sp - 2) (by omega), hf (sp - 2 + 1) (by omega), hddf (sp - 2) (by omega),
    hddf (sp - 2 + 1) (by omega)]

theorem hilbert_loop_zero (x : K) (p lg : Nat → K) (m : Nat) :
    hilbert_loop x (fun _ => 0) (fun _ => 0) p lg m = (0, 0) := by
  induction m with
  | zero => simp [hilbert_loop]
  | succ m ih => simp [hilbert_loop, ih]

/-- The function `hilbert` of a zero profile with zero coefficients at the indices
`0 .. sp-1` is zero. -/
theorem hilbert_zero (x : K) (f ddf p lg : Nat → K) (sp : Nat) (hsp : 2 ≤ sp)
    (hf : ∀ k, k < sp → f k = 0) (hddf : ∀ k, k < sp → ddf k = 0) :
    hilbert x f ddf p sp lg = 0 := by
  rw [hilbert_congr x f (fun _ => 0) ddf (fun _ => 0) p lg sp hsp hf hddf]
  simp [hilbert, hilbert_loop_zero]

theorem hilbert_node_loop_zero (x : K) (f ddf p : Nat → K) (m : Nat)
    (hf : ∀ k, k ≤ m → f k = 0) (hddf : ∀ k, k ≤ m → ddf k = 0) :
    hilbert_node_loop x f ddf p m = 0 := by
  induction m with
  | zero => rfl
  | succ m ih =>
    simp only [hilbert_node_loop]
    rw [ih (fun k hk => hf k (by omega)) (fun k hk => hddf k (by omega)),
      hf m (by omega), hf (m + 1) le_rfl, hddf m (by omega), hddf (m + 1) le_rfl]
    simp

/-- The function `hilbert_node` of a zero profile with zero coefficients, with `fn = 0`, is
zero. -/
theorem hilbert_node_zero (M : Libm K) (x : K) (f ddf p : Nat → K) (sp : Nat) (hsp : 1 ≤ sp)
    (hf : ∀ k, k < sp → f k = 0) (hddf : ∀ k, k < sp → ddf k = 0) :
    hilbert_node M x f ddf p sp 0 = 0 := by
  simp only [hilbert_node]
  rw [hilbert_node_loop_zero x f ddf p (sp - 1) (fun k hk => hf k (by omega))
    (fun k hk => hddf k (by omega))]
  simp

/-- With a zero attenuation profile, zero coefficients and zero caches, the attenuation
factor `I` is `1` at every in-disk point. -/
theorem attenuation_I_zero (sp : Nat) (hsp : 2 ≤ sp) (p t : Nat → ℝ) (th x1 x2 : ℝ)
    (hin : ¬ skipped ⟨Real.sqrt, Real.sin, Real.cos, Real.log, Real.exp, Real.pi⟩ x1 x2)
    (f ddf : Nat → ℝ) (f_cache ddf_cache f1_cache ddf1_cache : Nat → Nat → ℝ)
    (hf : ∀ k, k < sp → f k = 0) (hddf : ∀ k, k < sp → ddf k = 0)
    (h1 : ∀ it k, k < sp → f_cache it k = 0) (h2 : ∀ it k, k < sp → ddf_cache it k = 0)
    (h3 : ∀ it k, k < sp → f1_cache it k = 0) (h4 : ∀ it k, k < sp → ddf1_cache it k = 0) :
    attenuation_I ⟨Real.sqrt, Real.sin, Real.cos, Real.log, Real.exp, Real.pi⟩ p sp t th x1 x2
        f ddf f_cache ddf_cache f1_cache ddf1_cache = 1 := by
  have hrho := abs_rho_lt_one x1 x2 th hin
  have hi := bracket_toNat_lt _ sp hsp hrho
  have hnode : f_node_of p sp
      (rho_of ⟨Real.sqrt, Real.sin, Real.cos, Real.log, Real.exp, Real.pi⟩ x1 x2 th)
      f ddf = 0 := by
    simp only [f_node_of]
    rw [hf _ (by omega), hf _ hi, hddf _ (by omega), hddf _ hi]
    simp
  have hdh : ∀ tauk : ℝ, ∀ k,
      dh_samples ⟨Real.sqrt, Real.sin, Real.cos, Real.log, Real.exp, Real.pi⟩ p sp tauk
        (rho_of ⟨Real.sqrt, Real.sin, Real.cos, Real.log, Real.exp, Real.pi⟩ x1 x2 th) th t
        f_cache ddf_cache f1_cache ddf1_cache k = 0 := by
    intro tauk k
    have hz : ∀ (x : ℝ) (lg : Nat → ℝ) (it : Nat),
        hilbert_der_double x (f_cache it) (ddf_cache it) (f1_cache it) (ddf1_cache it) p sp lg
          = (0, 0) := fun x lg it =>
      hilbert_der_double_zero x _ _ _ _ p lg sp (h1 it) (h2 it) (h3 it) (h4 it) (by omega)
    unfold dh_samples
    split <;> rw [hz]
  have hF : attenuation_F ⟨Real.sqrt, Real.sin, Real.cos, Real.log, Real.exp, Real.pi⟩ p sp t th
      x1 x2 f_cache ddf_cache f1_cache ddf1_cache = 0 := by
    simp only [attenuation_F]
    rw [integ_zero _ Nt _ (fun k _ => hdh _ k) (by decide),
      integ_zero _ Nt _ (fun k _ => hdh _ k) (by decide)]
    simp
  simp only [attenuation_I]
  rw [hnode, hF]
  simp

/-- With a zero attenuation profile the value stored in the intermediate volume is the
`hilbert` value of the profile `fc` divided by `pi`. -/
theorem rx_value_zero_attenuation (sp : Nat) (hsp : 2 ≤ sp) (p t : Nat → ℝ) (th x1 x2 : ℝ)
    (hin : ¬ skipped ⟨Real.sqrt, Real.sin, Real.cos, Real.log, Real.exp, Real.pi⟩ x1 x2)
    (g ddg f ddf fc ddfc fs ddfs : Nat → ℝ)
    (f_cache ddf_cache f1_cache ddf1_cache : Nat → Nat → ℝ)
    (hf : ∀ k, k < sp → f k = 0) (hddf : ∀ k, k < sp → ddf k = 0)
    (hfs : ∀ k, k < sp → fs k = 0) (hddfs : ∀ k, k < sp → ddfs k = 0)
    (h1 : ∀ it k, k < sp → f_cache it k = 0) (h2 : ∀ it k, k < sp → ddf_cache it k = 0)
    (h3 : ∀ it k, k < sp → f1_cache it k = 0) (h4 : ∀ it k, k < sp → ddf1_cache it k = 0) :
    rx_value ⟨Real.sqrt, Real.sin, Real.cos, Real.log, Real.exp, Real.pi⟩ p sp t th x1 x2
        g ddg f ddf fc ddfc fs ddfs f_cache ddf_cache f1_cache ddf1_cache
      = hilbert (rho_of ⟨Real.sqrt, Real.sin, Real.cos, Real.log, Real.exp, Real.pi⟩ x1 x2 th)
          fc ddfc p sp
          (lg_of ⟨Real.sqrt, Real.sin, Real.cos, Real.log, Real.exp, Real.pi⟩ p
            (rho_of ⟨Real.sqrt, Real.sin, Real.cos, Real.log, Real.exp, Real.pi⟩ x1 x2 th))
        / Real.pi := by
  have hrho := abs_rho_lt_one x1 x2 th hin
  have hi := bracket_toNat_lt _ sp hsp hrho
  have hnode : f_node_of p sp
      (rho_of ⟨Real.sqrt, Real.sin, Real.cos, Real.log, Real.exp, Real.pi⟩ x1 x2 th)
      f ddf = 0 := by
    simp only [f_node_of]
    rw [hf _ (by omega), hf _ hi, hddf _ (by omega), hddf _ hi]
    simp
  simp only [rx_value]
  rw [attenuation_I_zero sp hsp p t th x1 x2 hin f ddf _ _ _ _ hf hddf h1 h2 h3 h4, hnode,
    hilbert_zero _ f ddf p _ sp hsp hf hddf, hilbert_zero _ fs ddfs p _ sp hsp hfs hddfs]
  simp only [mul_zero, zero_div, Real.exp_zero, Real.cos_zero, Real.sin_zero, neg_zero]
  ring

/-- With zero attenuation the node values `hilb` vanish. -/
theorem view_hilb_zero (sp : Nat) (hsp : 1 ≤ sp) (f ddf : Nat → ℝ) (hf : ∀ k, f k = 0)
    (hddf : ∀ k, k < sp → ddf k = 0) (ip : Nat) :
    view_hilb ⟨Real.sqrt, Real.sin, Real.cos, Real.log, Real.exp, Real.pi⟩ sp f ddf ip = 0 := by
  simp only [view_hilb]
  rw [hf ip]
  exact hilbert_node_zero _ _ f ddf _ sp hsp (fun k _ => hf k) hddf

/-- One iteration of the view loop with identically zero attenuation, from any state: the
value stored at a processed point, and the node values `hilb`, `fs`, `fc`. -/
theorem view_step_axial_zero_attenuation (S : Sizes) (hsp : 2 ≤ S.sp)
    (proj : Nat → Nat → Nat → ℝ) (ia : Nat) (s : AxialState ℝ) (ith : Nat) (ix1 ix2 : Int)
    (hp : processed ⟨Real.sqrt, Real.sin, Real.cos, Real.log, Real.exp, Real.pi⟩ S.sx S.sy
      ix1 ix2) :
    (view_step_axial ⟨Real.sqrt, Real.sin, Real.cos, Real.log, Real.exp, Real.pi⟩ S proj
        (fun _ _ _ => 0) ia s ith).rx ix1 ix2
      = hilbert
          (rho_of ⟨Real.sqrt, Real.sin, Real.cos, Real.log, Real.exp, Real.pi⟩
            (grid_x1 S.sx ix1.toNat) (grid_x2 S.sx ix2.toNat)
            (grid_th ⟨Real.sqrt, Real.sin, Real.cos, Real.log, Real.exp, Real.pi⟩ S.sth ith))
          (view_g proj ith ia) (spline (grid_p S.sp) (view_g proj ith ia) S.sp s.ddg)
          (grid_p S.sp) S.sp
          (lg_of ⟨Real.sqrt, Real.sin, Real.cos, Real.log, Real.exp, Real.pi⟩ (grid_p S.sp)
            (rho_of ⟨Real.sqrt, Real.sin, Real.cos, Real.log, Real.exp, Real.pi⟩
              (grid_x1 S.sx ix1.toNat) (grid_x2 S.sx ix2.toNat)
              (grid_th ⟨Real.sqrt, Real.sin, Real.cos, Real.log, Real.exp, Real.pi⟩ S.sth ith)))
        / Real.pi
      ∧ (∀ ip, view_hilb ⟨Real.sqrt, Real.sin, Real.cos, Real.log, Real.exp, Real.pi⟩ S.sp
          (view_f (fun _ _ _ => 0) ith ia)
          (spline (grid_p S.sp) (view_f (fun _ _ _ => 0) ith ia) S.sp s.ddf) ip = 0)
      ∧ (∀ ip, view_fs ⟨Real.sqrt, Real.sin, Real.cos, Real.log, Real.exp, Real.pi⟩ S.sp
          (view_g proj ith ia) (view_f (fun _ _ _ => 0) ith ia)
          (spline (grid_p S.sp) (view_f (fun _ _ _ => 0) ith ia) S.sp s.ddf) ip = 0)
      ∧ (∀ ip, view_fc ⟨Real.sqrt, Real.sin, Real.cos, Real.log, Real.exp, Real.pi⟩ S.sp
          (view_g proj ith ia) (view_f (fun _ _ _ => 0) ith ia)
          (spline (grid_p S.sp) (view_f (fun _ _ _ => 0) ith ia) S.sp s.ddf) ip
          = view_g proj ith ia ip) := by
  have hf : ∀ k, view_f (fun _ _ _ => (0 : ℝ)) ith ia k = 0 := by
    intro k
    simp [view_f]
  have hfe : view_f (fun _ _ _ => (0 : ℝ)) ith ia = fun _ => 0 := funext hf
  have hddf : ∀ k, k < S.sp →
      spline (grid_p S.sp) (view_f (fun _ _ _ => (0 : ℝ)) ith ia) S.sp s.ddf k = 0 := by
    intro k hk
    rw [hfe]
    exact spline_zero _ _ _ k hk
  have hhilb := view_hilb_zero S.sp (by omega) _ _ hf hddf
  have hfs : ∀ ip, view_fs ⟨Real.sqrt, Real.sin, Real.cos, Real.log, Real.exp, Real.pi⟩ S.sp
      (view_g proj ith ia) (view_f (fun _ _ _ => 0) ith ia)
      (spline (grid_p S.sp) (view_f (fun _ _ _ => 0) ith ia) S.sp s.ddf) ip = 0 := by
    intro ip
    simp only [view_fs]
    rw [hhilb ip]
    simp
  have hfc : ∀ ip, view_fc ⟨Real.sqrt, Real.sin, Real.cos, Real.log, Real.exp, Real.pi⟩ S.sp
      (view_g proj ith ia) (view_f (fun _ _ _ => 0) ith ia)
      (spline (grid_p S.sp) (view_f (fun _ _ _ => 0) ith ia) S.sp s.ddf) ip
      = view_g proj ith ia ip := by
    intro ip
    simp only [view_fc]
    rw [hhilb ip, hf ip]
    simp
  refine ⟨?_, hhilb, hfs, hfc⟩
  have hrx : (view_step_axial ⟨Real.sqrt, Real.sin, Real.cos, Real.log, Real.exp, Real.pi⟩ S
        proj (fun _ _ _ => 0) ia s ith).rx ix1 ix2
      = rx_value ⟨Real.sqrt, Real.sin, Real.cos, Real.log, Real.exp, Real.pi⟩ (grid_p S.sp)
          S.sp (grid_t ⟨Real.sqrt, Real.sin, Real.cos, Real.log, Real.exp, Real.pi⟩)
          (grid_th ⟨Real.sqrt, Real.sin, Real.cos, Real.log, Real.exp, Real.pi⟩ S.sth ith)
          (grid_x1 S.sx ix1.toNat) (grid_x2 S.sx ix2.toNat)
          (view_g proj ith ia) (spline (grid_p S.sp) (view_g proj ith ia) S.sp s.ddg)
          (view_f (fun _ _ _ => 0) ith ia)
          (spline (grid_p S.sp) (view_f (fun _ _ _ => 0) ith ia) S.sp s.ddf)
          (view_fc ⟨Real.sqrt, Real.sin, Real.cos, Real.log, Real.exp, Real.pi⟩ S.sp
            (view_g proj ith ia) (view_f (fun _ _ _ => 0) ith ia)
            (spline (grid_p S.sp) (view_f (fun _ _ _ => 0) ith ia) S.sp s.ddf))
          (spline (grid_p S.sp)
            (view_fc ⟨Real.sqrt, Real.sin, Real.cos, Real.log, Real.exp, Real.pi⟩ S.sp
              (view_g proj ith ia) (view_f (fun _ _ _ => 0) ith ia)
              (spline (grid_p S.sp) (view_f (fun _ _ _ => 0) ith ia) S.sp s.ddf)) S.sp s.ddfc)
          (view_fs ⟨Real.sqrt, Real.sin, Real.cos, Real.log, Real.exp, Real.pi⟩ S.sp
            (view_g proj ith ia) (view_f (fun _ _ _ => 0) ith ia)
            (spline (grid_p S.sp) (view_f (fun _ _ _ => 0) ith ia) S.sp s.ddf))
          (spline (grid_p S.sp)
            (view_fs ⟨Real.sqrt, Real.sin, Real.cos, Real.log, Real.exp, Real.pi⟩ S.sp
              (view_g proj ith ia) (view_f (fun _ _ _ => 0) ith ia)
              (spline (grid_p S.sp) (view_f (fun _ _ _ => 0) ith ia) S.sp s.ddf)) S.sp s.ddfs)
          (f_cache_of (fun _ _ _ => 0) S.sth ia) (ddf_cache_of (fun _ _ _ => 0) S.sp S.sth ia)
          (f1_cache_of (fun _ _ _ => 0) S.sp S.sth ia)
          (ddf1_cache_of (fun _ _ _ => 0) S.sp S.sth ia) := by
    simp only [view_step_axial, if_pos hp]
  have hfse : view_fs ⟨Real.sqrt, Real.sin, Real.cos, Real.log, Real.exp, Real.pi⟩ S.sp
      (view_g proj ith ia) (view_f (fun _ _ _ => 0) ith ia)
      (spline (grid_p S.sp) (view_f (fun _ _ _ => 0) ith ia) S.sp s.ddf) = fun _ => 0 :=
    funext hfs
  have hfce : view_fc ⟨Real.sqrt, Real.sin, Real.cos, Real.log, Real.exp, Real.pi⟩ S.sp
      (view_g proj ith ia) (view_f (fun _ _ _ => 0) ith ia)
      (spline (grid_p S.sp) (view_f (fun _ _ _ => 0) ith ia) S.sp s.ddf)
      = view_g proj ith ia := funext hfc
  have hcache : ∀ it k, ddf_cache_of (fun _ _ _ => (0 : ℝ)) S.sp S.sth ia it k = 0 ∨ S.sp ≤ k := by
    intro it k
    rcases Nat.lt_or_ge k S.sp with hk | hk
    · left
      simp only [ddf_cache_of]
      have e : f_cache_of (fun _ _ _ => (0 : ℝ)) S.sth ia it = fun _ => 0 := by
        funext j
        simp [f_cache_of]
      rw [e]
      exact spline_zero _ _ _ k hk
    · exact Or.inr hk
  rw [hrx, rx_value_zero_attenuation S.sp hsp _ _ _ _ _ hp.2.2.2.2 _ _ _ _ _ _ _ _ _ _ _ _
    (fun k _ => hf k) hddf (fun k _ => hfs k)
    (by intro k hk; rw [hfse]; exact spline_zero _ _ _ k hk)
    (by intro it k _; simp [f_cache_of])
    (by intro it k hk; exact (hcache it k).resolve_right (by omega))
    (by intro it k _; exact mirror_zero _ _ (fun j _ => by simp [f_cache_of]) k)
    (by intro it k _
        exact mirror_zero _ _ (fun j hj => (hcache it j).resolve_right (by omega)) k)]
  rw [hfce]
  congr 1
  exact hilbert_congr _ _ _ _ _ _ _ S.sp hsp (fun _ _ => rfl)
    (fun k hk => spline_low_congr _ _ _ _ _ k (by omega))

/-- C29. With identically zero attenuation and `sp ≥ 2`, in every iteration of the view loop
the node values `hilb` and `fs` vanish, `fc = g`, and the value stored in
`rx1x2th[ia][ix1][ix2]` at every processed (in-disk) grid point equals
`hilbert(rho, g[ia], ddg[ia], p, sp, lg) / pi`, where `ddg[ia]` is the output of `spline` on
`g[ia]`: the attenuated inversion formula reduces to the unattenuated Hilbert-transform
inversion of the emission profile alone. -/
theorem zero_attenuation_reduces_to_hilbert (S : Sizes) (hsp : 2 ≤ S.sp)
    (proj : Nat → Nat → Nat → ℝ) (ia : Nat) (s : AxialState ℝ) (ith : Nat) (ix1 ix2 : Int)
    (hp : processed ⟨Real.sqrt, Real.sin, Real.cos, Real.log, Real.exp, Real.pi⟩ S.sx S.sy
      ix1 ix2) :
    (view_step_axial ⟨Real.sqrt, Real.sin, Real.cos, Real.log, Real.exp, Real.pi⟩ S proj
        (fun _ _ _ => 0) ia s ith).rx ix1 ix2
      = hilbert
          (rho_of ⟨Real.sqrt, Real.sin, Real.cos, Real.log, Real.exp, Real.pi⟩
            (grid_x1 S.sx ix1.toNat) (grid_x2 S.sx ix2.toNat)
            (grid_th ⟨Real.sqrt, Real.sin, Real.cos, Real.log, Real.exp, Real.pi⟩ S.sth ith))
          (view_g proj ith ia) (spline (grid_p S.sp) (view_g proj ith ia) S.sp s.ddg)
          (grid_p S.sp) S.sp
          (lg_of ⟨Real.sqrt, Real.sin, Real.cos, Real.log, Real.exp, Real.pi⟩ (grid_p S.sp)
            (rho_of ⟨Real.sqrt, Real.sin, Real.cos, Real.log, Real.exp, Real.pi⟩
              (grid_x1 S.sx ix1.toNat) (grid_x2 S.sx ix2.toNat)
              (grid_th ⟨Real.sqrt, Real.sin, Real.cos, Real.log, Real.exp, Real.pi⟩ S.sth ith)))
        / Real.pi
      ∧ (∀ ip, view_hilb ⟨Real.sqrt, Real.sin, Real.cos, Real.log, Real.exp, Real.pi⟩ S.sp
          (view_f (fun _ _ _ => 0) ith ia)
          (spline (grid_p S.sp) (view_f (fun _ _ _ => 0) ith ia) S.sp s.ddf) ip = 0)
      ∧ (∀ ip, view_fs ⟨Real.sqrt, Real.sin, Real.cos, Real.log, Real.exp, Real.pi⟩ S.sp
          (view_g proj ith ia) (view_f (fun _ _ _ => 0) ith ia)
          (spline (grid_p S.sp) (view_f (fun _ _ _ => 0) ith ia) S.sp s.ddf) ip = 0)
      ∧ (∀ ip, view_fc ⟨Real.sqrt, Real.sin, Real.cos, Real.log, Real.exp, Real.pi⟩ S.sp
          (view_g proj ith ia) (view_f (fun _ _ _ => 0) ith ia)
          (spline (grid_p S.sp) (view_f (fun _ _ _ => 0) ith ia) S.sp s.ddf) ip
          = view_g proj ith ia ip) :=
  view_step_axial_zero_attenuation S hsp proj ia s ith ix1 ix2 hp

theorem zero_attenuation_reduces_to_hilbert_witness :
    (2 ≤ (⟨5, 8, 1, 5, 5⟩ : Sizes).sp)
      ∧ processed ⟨Real.sqrt, Real.sin, Real.cos, Real.log, Real.exp, Real.pi⟩
          (⟨5, 8, 1, 5, 5⟩ : Sizes).sx (⟨5, 8, 1, 5, 5⟩ : Sizes).sy 2 2
      ∧ (view_step_axial ⟨Real.sqrt, Real.sin, Real.cos, Real.log, Real.exp, Real.pi⟩
          ⟨5, 8, 1, 5, 5⟩ (fun _ _ _ => 1) (fun _ _ _ => 0) 0 AxialState.initial 0).rx 2 2
        = hilbert
            (rho_of ⟨Real.sqrt, Real.sin, Real.cos, Real.log, Real.exp, Real.pi⟩
              (grid_x1 5 (2 : Int).toNat) (grid_x2 5 (2 : Int).toNat)
              (grid_th ⟨Real.sqrt, Real.sin, Real.cos, Real.log, Real.exp, Real.pi⟩ 8 0))
            (view_g (fun _ _ _ => 1) 0 0)
            (spline (grid_p 5) (view_g (fun _ _ _ => 1) 0 0) 5 (fun _ => 0))
            (grid_p 5) 5
            (lg_of ⟨Real.sqrt, Real.sin, Real.cos, Real.log, Real.exp, Real.pi⟩ (grid_p 5)
              (rho_of ⟨Real.sqrt, Real.sin, Real.cos, Real.log, Real.exp, Real.pi⟩
                (grid_x1 5 (2 : Int).toNat) (grid_x2 5 (2 : Int).toNat)
                (grid_th ⟨Real.sqrt, Real.sin, Real.cos, Real.log, Real.exp, Real.pi⟩ 8 0)))
          / Real.pi :=
  have hp : processed ⟨Real.sqrt, Real.sin, Real.cos, Real.log, Real.exp, Real.pi⟩
      (⟨5, 8, 1, 5, 5⟩ : Sizes).sx (⟨5, 8, 1, 5, 5⟩ : Sizes).sy 2 2 := by
    rw [processed_iff_int 5 (by decide) 2 2]
    decide
  ⟨by decide, hp,
    (zero_attenuation_reduces_to_hilbert ⟨5, 8, 1, 5, 5⟩ (by decide) (fun _ _ _ => 1) 0
      AxialState.initial 0 2 2 hp).1⟩

/-! ## The per-interval closed form of `hilbert` is the integral of the spline piece -/

/-- The value of `splint` is the spline piece of the interval on which its search ends. -/
theorem splint_eq_spline_piece (xa ya y2a : Nat → K) (n : Nat) (x : K)
    (h : (splint_search xa x n 1 n).2 = (splint_search xa x n 1 n).1 + 1) :
    splint xa ya y2a n x = spline_piece xa ya y2a (splint_search xa x n 1 n).1 x := by
  simp only [splint, spline_piece, h]

theorem hasDerivAt_cubic_log (c0 c1 c2 c3 x y : ℝ) (hy : y - x ≠ 0) :
    HasDerivAt
      (fun y : ℝ => c1 * (y - x) + c2 * (y - x) ^ 2 + c3 * (y - x) ^ 3 + c0 * Real.log (y - x))
      (c1 + 2 * c2 * (y - x) + 3 * c3 * (y - x) ^ 2 + c0 / (y - x)) y := by
  have hsub : HasDerivAt (fun y : ℝ => y - x) 1 y := (hasDerivAt_id y).sub_const x
  have hlog : HasDerivAt (fun y : ℝ => Real.log (y - x)) ((y - x)⁻¹ * 1) y :=
    (Real.hasDerivAt_log hy).comp y hsub
  have h := (((hsub.const_mul c1).add ((hsub.pow 2).const_mul c2)).add
    ((hsub.pow 3).const_mul c3)).add (hlog.const_mul c0)
  convert h using 1
  simp only [Nat.cast_ofNat, Nat.reduceSub, pow_one, mul_one, div_eq_mul_inv]
  ring

theorem hasDerivAt_spline_piece_kernel (a b fa fb da db x y : ℝ) (hab : b - a ≠ 0)
    (hyx : y - x ≠ 0) :
    HasDerivAt
      (fun y : ℝ =>
        ((fb - fa) / (b - a)
            + (-(3 * ((b - x) / (b - a)) ^ 2 - 1) * da
                + (3 * ((x - a) / (b - a)) ^ 2 - 1) * db) * (b - a) / 6) * (y - x)
          + (((b - x) / (b - a) * da + (x - a) / (b - a) * db) / 4) * (y - x) ^ 2
          + ((db - da) / (b - a) / 18) * (y - x) ^ 3
          + ((b - x) / (b - a) * fa + (x - a) / (b - a) * fb
              + (((b - x) / (b - a) * ((b - x) / (b - a)) * ((b - x) / (b - a))
                    - (b - x) / (b - a)) * da
                  + ((x - a) / (b - a) * ((x - a) / (b - a)) * ((x - a) / (b - a))
                    - (x - a) / (b - a)) * db) * ((b - a) * (b - a)) / 6)
            * Real.log (y - x))
      (((b - y) / (b - a) * fa + (y - a) / (b - a) * fb
          + (((b - y) / (b - a) * ((b - y) / (b - a)) * ((b - y) / (b - a))
                - (b - y) / (b - a)) * da
              + ((y - a) / (b - a) * ((y - a) / (b - a)) * ((y - a) / (b - a))
                - (y - a) / (b - a)) * db) * ((b - a) * (b - a)) / 6) / (y - x)) y := by
  convert hasDerivAt_cubic_log _ _ _ _ x y hyx using 1
  field_simp
  ring

theorem spline_piece_kernel_integrable (a b fa fb da db x : ℝ)
    (hne : ∀ y ∈ Set.uIcc a b, y - x ≠ 0) :
    IntervalIntegrable
      (fun y : ℝ =>
        ((b - y) / (b - a) * fa + (y - a) / (b - a) * fb
            + (((b - y) / (b - a) * ((b - y) / (b - a)) * ((b - y) / (b - a))
                  - (b - y) / (b - a)) * da
                + ((y - a) / (b - a) * ((y - a) / (b - a)) * ((y - a) / (b - a))
                  - (y - a) / (b - a)) * db) * ((b - a) * (b - a)) / 6) / (y - x))
      MeasureTheory.volume a b := by
  apply ContinuousOn.intervalIntegrable
  apply ContinuousOn.div
  · fun_prop
  · fun_prop
  · exact hne

/-- C30. For every interval `[p_i, p_{i+1}]` with `p_i < p_{i+1}`, every `f[i]`, `f[i+1]`,
`ddf[i]`, `ddf[i+1]` and every `x` outside that closed interval, the per-interval closed form
used by `hilbert`, `E_i(x) + D_i(x) * log|(p_{i+1} - x)/(p_i - x)|`, equals the integral over
`[p_i, p_{i+1}]` of `S_i(y)/(y - x) dy`, where `S_i` is the interval's cubic spline piece,
the formula `splint` evaluates from the same four numbers. -/
theorem hilbert_interval_is_integral (f ddf p : Nat → ℝ) (i : Nat) (x : ℝ)
    (hp : p i < p (i + 1)) (hx : x < p i ∨ p (i + 1) < x) :
    E_term x f ddf p i + D_term x f ddf p i * Real.log |(p (i + 1) - x) / (p i - x)|
      = ∫ y in (p i)..(p (i + 1)), spline_piece p f ddf i y / (y - x) := by
  simp only [E_term, D_term, spline_piece]
  generalize p (i + 1) = b at hp hx ⊢
  generalize p i = a at hp hx ⊢
  generalize f (i + 1) = fb
  generalize f i = fa
  generalize ddf (i + 1) = db
  generalize ddf i = da
  have hab : b - a ≠ 0 := by
    intro h
    linarith
  have hab2 : a - b ≠ 0 := by
    intro h
    linarith
  have hne : ∀ y ∈ Set.uIcc a b, y - x ≠ 0 := by
    intro y hy
    rw [Set.uIcc_of_le hp.le] at hy
    obtain ⟨h1, h2⟩ := hy
    intro h
    rcases hx with hx | hx <;> linarith
  have ha : a - x ≠ 0 := hne a Set.left_mem_uIcc
  have hb : b - x ≠ 0 := hne b Set.right_mem_uIcc
  have hderiv := fun y (hy : y ∈ Set.uIcc a b) =>
    hasDerivAt_spline_piece_kernel a b fa fb da db x y hab (hne y hy)
  have hint := spline_piece_kernel_integrable a b fa fb da db x hne
  rw [intervalIntegral.integral_eq_sub_of_hasDerivAt hderiv hint, Real.log_abs,
    Real.log_div hb ha]
  field_simp
  ring

theorem hilbert_interval_is_integral_witness :
    ((vec [-1, 0, 1] : Nat → ℝ) 1 < (vec [-1, 0, 1] : Nat → ℝ) (1 + 1))
      ∧ ((-1 / 2 : ℝ) < (vec [-1, 0, 1] : Nat → ℝ) 1
        ∨ (vec [-1, 0, 1] : Nat → ℝ) (1 + 1) < -1 / 2)
      ∧ E_term (-1 / 2) (vec [1, 2, 4]) (vec [0, 3, 0]) (vec [-1, 0, 1]) 1
          + D_term (-1 / 2) (vec [1, 2, 4]) (vec [0, 3, 0]) (vec [-1, 0, 1]) 1
            * Real.log |((vec [-1, 0, 1] : Nat → ℝ) (1 + 1) - -1 / 2)
                / ((vec [-1, 0, 1] : Nat → ℝ) 1 - -1 / 2)|
        = ∫ y in ((vec [-1, 0, 1] : Nat → ℝ) 1)..((vec [-1, 0, 1] : Nat → ℝ) (1 + 1)),
            spline_piece (vec [-1, 0, 1]) (vec [1, 2, 4]) (vec [0, 3, 0]) 1 y / (y - -1 / 2) :=
  have h1 : (vec [-1, 0, 1] : Nat → ℝ) 1 < (vec [-1, 0, 1] : Nat → ℝ) (1 + 1) := by
    norm_num [vec]
  have h2 : (-1 / 2 : ℝ) < (vec [-1, 0, 1] : Nat → ℝ) 1
      ∨ (vec [-1, 0, 1] : Nat → ℝ) (1 + 1) < -1 / 2 := Or.inl (by norm_num [vec])
  ⟨h1, h2, hilbert_interval_is_integral (vec [1, 2, 4]) (vec [0, 3, 0]) (vec [-1, 0, 1]) 1
    (-1 / 2) h1 h2⟩

/-! ## Central symmetry of the image for zero attenuation -/

/-- The mirrored grid node has the opposite coordinate. -/
theorem grid_x1_mirror (n : Nat) (hn : 2 ≤ n) (b : Bool) (k : Int) (h0 : 0 ≤ k) (h1 : k < n) :
    (grid_x1 n (if b = true then (n : Int) - 1 - k else k).toNat : ℝ)
      = (if b = true then -1 else 1) * grid_x1 n k.toNat := by
  cases b
  · simp
  · simp only [if_true]
    rw [grid_x1_int n hn _ (by omega), grid_x1_int n hn k h0]
    push_cast
    ring

/-- Mirroring one or both indices of a grid point does not change whether it is processed. -/
theorem processed_mirror (n : Nat) (hn : 2 ≤ n) (b1 b2 : Bool) (i j : Int) :
    processed ⟨Real.sqrt, Real.sin, Real.cos, Real.log, Real.exp, Real.pi⟩ n n
        (if b1 = true then (n : Int) - 1 - i else i) (if b2 = true then (n : Int) - 1 - j else j)
      ↔ processed ⟨Real.sqrt, Real.sin, Real.cos, Real.log, Real.exp, Real.pi⟩ n n i j := by
  rw [processed_iff_int n hn, processed_iff_int n hn]
  have e : ∀ k : Int, (2 * ((n : Int) - 1 - k) - ((n : Int) - 1)) ^ 2
      = (2 * k - ((n : Int) - 1)) ^ 2 := by
    intro k
    ring
  cases b1 <;> cases b2 <;> simp only [if_true, if_false, Bool.false_eq_true, e] <;>
    constructor <;> rintro ⟨h1, h2, h3, h4, h5⟩ <;> exact ⟨by omega, by omega, by omega, by omega, h5⟩

/-- The one-sided difference of a mirrored row at the mirrored index, taken with the opposite
coordinate, is the opposite of the one-sided difference of the row, provided the coordinate is
not zero. -/
theorem diff_one_sided_mirror (n : Nat) (b : Bool) (x : ℝ) (r : Int → ℝ) (k : Int)
    (hx : b = true → x ≠ 0) :
    diff_one_sided n ((if b = true then -1 else 1) * x)
        (fun t => r (if b = true then (n : Int) - 1 - t else t))
        (if b = true then (n : Int) - 1 - k else k)
      = (if b = true then -1 else 1) * diff_one_sided n x r k := by
  cases b
  · simp
  · have hx0 := hx rfl
    simp only [if_true, diff_one_sided, diff_forward, diff_backward]
    have e0 : (n : Int) - 1 - ((n : Int) - 1 - k) = k := by ring
    have e1 : (n : Int) - 1 - ((n : Int) - 1 - k + 1) = k - 1 := by ring
    have e2 : (n : Int) - 1 - ((n : Int) - 1 - k + 2) = k - 2 := by ring
    have e3 : (n : Int) - 1 - ((n : Int) - 1 - k - 1) = k + 1 := by ring
    have e4 : (n : Int) - 1 - ((n : Int) - 1 - k - 2) = k + 2 := by ring
    rw [e0, e1, e2, e3, e4]
    rcases lt_or_gt_of_ne hx0 with h | h
    · rw [if_neg (by linarith), if_pos h]
      ring
    · rw [if_pos (by linarith), if_neg (by linarith)]
      ring

theorem list_range_map_sum (f : Nat → ℝ) (n : Nat) :
    ((List.range n).map f).sum = ∑ v in Finset.range n, f v := by
  induction n with
  | zero => simp
  | succ n ih => simp [List.range_succ, Finset.sum_range_succ, ih]

theorem sum_range_involution (N : Nat) (q : Nat → Nat) (F G : Nat → ℝ)
    (h1 : ∀ v, v < N → q v < N) (h2 : ∀ v, v < N → q (q v) = v)
    (h3 : ∀ v, v < N → G (q v) = F v) :
    ∑ v in Finset.range N, G v = ∑ v in Finset.range N, F v := by
  symm
  apply Finset.sum_nbij' q q
  · intro a ha
    exact Finset.mem_range.mpr (h1 a (Finset.mem_range.mp ha))
  · intro a ha
    exact Finset.mem_range.mpr (h1 a (Finset.mem_range.mp ha))
  · intro a ha
    exact h2 a (Finset.mem_range.mp ha)
  · intro a ha
    exact h2 a (Finset.mem_range.mp ha)
  · intro a ha
    exact (h3 a (Finset.mem_range.mp ha)).symm

/-- For an even number `2m` of views, the view angles `th[v] = v * 2 pi / (2m)` are
permuted by each of the maps `theta ↦ theta + pi`, `theta ↦ -theta`, `theta ↦ pi - theta`:
for each choice of signs there is an involution of the views that changes the sign of the
sine and of the cosine as chosen. -/
theorem view_pairing (m : Nat) (hm : 1 ≤ m) (b1 b2 : Bool) :
    ∃ q : Nat → Nat, (∀ v, v < 2 * m → q v < 2 * m) ∧ (∀ v, v < 2 * m → q (q v) = v)
      ∧ ∀ v, v < 2 * m →
        Real.cos (grid_th ⟨Real.sqrt, Real.sin, Real.cos, Real.log, Real.exp, Real.pi⟩
            (2 * m) (q v))
          = (if b2 = true then -1 else 1)
            * Real.cos (grid_th ⟨Real.sqrt, Real.sin, Real.cos, Real.log, Real.exp, Real.pi⟩
              (2 * m) v)
        ∧ Real.sin (grid_th ⟨Real.sqrt, Real.sin, Real.cos, Real.log, Real.exp, Real.pi⟩
            (2 * m) (q v))
          = (if b1 = true then -1 else 1)
            * Real.sin (grid_th ⟨Real.sqrt, Real.sin, Real.cos, Real.log, Real.exp, Real.pi⟩
              (2 * m) v) := by
  have hm0 : (m : ℝ) ≠ 0 := by
    have : (1 : ℝ) ≤ (m : ℝ) := by exact_mod_cast hm
    intro h
    linarith
  have hth : ∀ v : Nat,
      grid_th ⟨Real.sqrt, Real.sin, Real.cos, Real.log, Real.exp, Real.pi⟩ (2 * m) v
        = (v : ℝ) * Real.pi / (m : ℝ) := by
    intro v
    simp only [grid_th]
    push_cast
    field_simp
    ring
  simp only [hth]
  cases b1 <;> cases b2
  · exact ⟨fun v => v, fun v hv => hv, fun v _ => rfl, fun v _ => by simp⟩
  · refine ⟨fun v => if v ≤ m then m - v else 3 * m - v, ?_, ?_, ?_⟩
    · intro v hv
      simp only
      split_ifs <;> omega
    · intro v hv
      simp only
      split_ifs <;> omega
    · intro v hv
      simp only [if_true, if_false, Bool.false_eq_true]
      by_cases h : v ≤ m
      · rw [if_pos h]
        have e : (((m - v : Nat) : ℝ)) * Real.pi / (m : ℝ)
            = Real.pi - (v : ℝ) * Real.pi / (m : ℝ) := by
          rw [Nat.cast_sub h]
          field_simp
          ring
        rw [e, Real.cos_pi_sub, Real.sin_pi_sub]
        constructor <;> ring
      · rw [if_neg h]
        have e : (((3 * m - v : Nat) : ℝ)) * Real.pi / (m : ℝ)
            = Real.pi - (v : ℝ) * Real.pi / (m : ℝ) + 2 * Real.pi := by
          rw [Nat.cast_sub (by omega)]
          push_cast
          field_simp
          ring
        rw [e, Real.cos_add_two_pi, Real.sin_add_two_pi, Real.cos_pi_sub, Real.sin_pi_sub]
        constructor <;> ring
  · refine ⟨fun v => if v = 0 then 0 else 2 * m - v, ?_, ?_, ?_⟩
    · intro v hv
      simp only
      split_ifs <;> omega
    · intro v hv
      simp only
      split_ifs <;> omega
    · intro v hv
      simp only [if_true, if_false, Bool.false_eq_true]
      by_cases h : v = 0
      · rw [if_pos h, h]
        simp
      · rw [if_neg h]
        have e : (((2 * m - v : Nat) : ℝ)) * Real.pi / (m : ℝ)
            = 2 * Real.pi - (v : ℝ) * Real.pi / (m : ℝ) := by
          rw [Nat.cast_sub (by omega)]
          push_cast
          field_simp
          ring
        rw [e, Real.cos_two_pi_sub, Real.sin_two_pi_sub]
        constructor <;> ring
  · refine ⟨fun v => if v < m then v + m else v - m, ?_, ?_, ?_⟩
    · intro v hv
      simp only
      split_ifs <;> omega
    · intro v hv
      simp only
      split_ifs <;> omega
    · intro v hv
      simp only [if_true]
      by_cases h : v < m
      · rw [if_pos h]
        have e : (((v + m : Nat) : ℝ)) * Real.pi / (m : ℝ)
            = (v : ℝ) * Real.pi / (m : ℝ) + Real.pi := by
          push_cast
          field_simp
          ring
        rw [e, Real.cos_add_pi, Real.sin_add_pi]
        constructor <;> ring
      · rw [if_neg h]
        have e : (((v - m : Nat) : ℝ)) * Real.pi / (m : ℝ)
            = (v : ℝ) * Real.pi / (m : ℝ) - Real.pi := by
          rw [Nat.cast_sub (by omega)]
          field_simp
          ring
        rw [e, Real.cos_sub_pi, Real.sin_sub_pi]
        constructor <;> ring

/-- With zero attenuation and a projection profile that is the same for every view, the
intermediate volume of the view `w` at a mirrored point is that of the view `v` at the
point, when the cosine and the sine of the two view angles differ by the signs of the
mirroring. -/
theorem rx_mirror (sp sth sa n : Nat) (hn : 2 ≤ n) (hsp : 2 ≤ sp) (g : Nat → Nat → ℝ)
    (ia v w : Nat) (b1 b2 : Bool)
    (hc : Real.cos (grid_th ⟨Real.sqrt, Real.sin, Real.cos, Real.log, Real.exp, Real.pi⟩ sth w)
      = (if b2 = true then -1 else 1)
        * Real.cos (grid_th ⟨Real.sqrt, Real.sin, Real.cos, Real.log, Real.exp, Real.pi⟩ sth v))
    (hs : Real.sin (grid_th ⟨Real.sqrt, Real.sin, Real.cos, Real.log, Real.exp, Real.pi⟩ sth w)
      = (if b1 = true then -1 else 1)
        * Real.sin (grid_th ⟨Real.sqrt, Real.sin, Real.cos, Real.log, Real.exp, Real.pi⟩ sth v))
    (k l : Int) :
    (view_step_axial ⟨Real.sqrt, Real.sin, Real.cos, Real.log, Real.exp, Real.pi⟩
        ⟨sp, sth, sa, n, n⟩ (fun _ a ip => g a ip) (fun _ _ _ => 0) ia AxialState.initial w).rx
        (if b1 = true then (n : Int) - 1 - k else k) (if b2 = true then (n : Int) - 1 - l else l)
      = (view_step_axial ⟨Real.sqrt, Real.sin, Real.cos, Real.log, Real.exp, Real.pi⟩
        ⟨sp, sth, sa, n, n⟩ (fun _ a ip => g a ip) (fun _ _ _ => 0) ia AxialState.initial v).rx
        k l := by
  by_cases hp : processed ⟨Real.sqrt, Real.sin, Real.cos, Real.log, Real.exp, Real.pi⟩ n n k l
  · have hp' := (processed_mirror n hn b1 b2 k l).mpr hp
    rw [(view_step_axial_zero_attenuation ⟨sp, sth, sa, n, n⟩ hsp _ ia _ w _ _ hp').1,
      (view_step_axial_zero_attenuation ⟨sp, sth, sa, n, n⟩ hsp _ ia _ v _ _ hp).1]
    have hrho : rho_of ⟨Real.sqrt, Real.sin, Real.cos, Real.log, Real.exp, Real.pi⟩
        (grid_x1 n (if b1 = true then (n : Int) - 1 - k else k).toNat)
        (grid_x2 n (if b2 = true then (n : Int) - 1 - l else l).toNat)
        (grid_th ⟨Real.sqrt, Real.sin, Real.cos, Real.log, Real.exp, Real.pi⟩ sth w)
        = rho_of ⟨Real.sqrt, Real.sin, Real.cos, Real.log, Real.exp, Real.pi⟩
          (grid_x1 n k.toNat) (grid_x2 n l.toNat)
          (grid_th ⟨Real.sqrt, Real.sin, Real.cos, Real.log, Real.exp, Real.pi⟩ sth v) := by
      simp only [rho_of]
      rw [grid_x2_eq_grid_x1 n hn _ hp'.2.2.2.1, grid_x2_eq_grid_x1 n hn _ hp.2.2.2.1,
        grid_x1_mirror n hn b1 k hp.1 hp.2.1, grid_x1_mirror n hn b2 l hp.2.2.1 hp.2.2.2.1,
        hc, hs]
      cases b1 <;> cases b2 <;> simp
    simp only [hrho]
    rfl
  · have hp' : ¬ processed ⟨Real.sqrt, Real.sin, Real.cos, Real.log, Real.exp, Real.pi⟩ n n
        (if b1 = true then (n : Int) - 1 - k else k)
        (if b2 = true then (n : Int) - 1 - l else l) :=
      fun h => hp ((processed_mirror n hn b1 b2 k l).mp h)
    simp only [view_step_axial, if_neg hp, if_neg hp', AxialState.initial]

theorem grid_x1_ne_zero (n : Nat) (hn : 2 ≤ n) (i : Int) (h0 : 0 ≤ i)
    (h : 2 * i ≠ (n : Int) - 1) : (grid_x1 n i.toNat : ℝ) ≠ 0 := by
  rw [grid_x1_int n hn i h0]
  have hN : (((n : Int) - 1 : Int) : ℝ) ≠ 0 := by
    have : (2 : ℝ) ≤ (n : ℝ) := by exact_mod_cast hn
    push_cast
    intro h
    linarith
  apply div_ne_zero _ hN
  have : 2 * i - ((n : Int) - 1) ≠ 0 := by omega
  exact_mod_cast this

/-- With zero attenuation and a projection profile that is the same for every view, the
contribution of the view `w` at a mirrored point is that of the view `v` at the point, when
the cosine and the sine of the two view angles differ by the signs of the mirroring and no
mirrored coordinate is zero. -/
theorem view_contribution_mirror (sp sth sa n : Nat) (hn : 2 ≤ n) (hsp : 2 ≤ sp)
    (g : Nat → Nat → ℝ) (ia v w : Nat) (b1 b2 : Bool)
    (hc : Real.cos (grid_th ⟨Real.sqrt, Real.sin, Real.cos, Real.log, Real.exp, Real.pi⟩ sth w)
      = (if b2 = true then -1 else 1)
        * Real.cos (grid_th ⟨Real.sqrt, Real.sin, Real.cos, Real.log, Real.exp, Real.pi⟩ sth v))
    (hs : Real.sin (grid_th ⟨Real.sqrt, Real.sin, Real.cos, Real.log, Real.exp, Real.pi⟩ sth w)
      = (if b1 = true then -1 else 1)
        * Real.sin (grid_th ⟨Real.sqrt, Real.sin, Real.cos, Real.log, Real.exp, Real.pi⟩ sth v))
    (i j : Int) (h1 : b1 = true → 2 * i ≠ (n : Int) - 1)
    (h2 : b2 = true → 2 * j ≠ (n : Int) - 1) :
    view_contribution ⟨Real.sqrt, Real.sin, Real.cos, Real.log, Real.exp, Real.pi⟩
        ⟨sp, sth, sa, n, n⟩ (fun _ a ip => g a ip) (fun _ _ _ => 0) ia w
        (if b1 = true then (n : Int) - 1 - i else i) (if b2 = true then (n : Int) - 1 - j else j)
      = view_contribution ⟨Real.sqrt, Real.sin, Real.cos, Real.log, Real.exp, Real.pi⟩
        ⟨sp, sth, sa, n, n⟩ (fun _ a ip => g a ip) (fun _ _ _ => 0) ia v i j := by
  simp only [view_contribution, view_step]
  by_cases hia : ia < sa
  · rw [if_pos hia, if_pos hia, view_step_axial_image, view_step_axial_image]
    by_cases hp : processed ⟨Real.sqrt, Real.sin, Real.cos, Real.log, Real.exp, Real.pi⟩ n n i j
    · have hp' := (processed_mirror n hn b1 b2 i j).mpr hp
      rw [if_pos hp', if_pos hp]
      have inv1 : ∀ t : Int, (if b1 = true then (n : Int) - 1 - (if b1 = true then (n : Int) - 1 - t else t)
          else (if b1 = true then (n : Int) - 1 - t else t)) = t := by
        intro t
        cases b1 <;> simp
      have inv2 : ∀ t : Int, (if b2 = true then (n : Int) - 1 - (if b2 = true then (n : Int) - 1 - t else t)
          else (if b2 = true then (n : Int) - 1 - t else t)) = t := by
        intro t
        cases b2 <;> simp
      have e1 : (fun k => (view_step_axial ⟨Real.sqrt, Real.sin, Real.cos, Real.log, Real.exp, Real.pi⟩
            ⟨sp, sth, sa, n, n⟩ (fun _ a ip => g a ip) (fun _ _ _ => 0) ia AxialState.initial w).rx
            k (if b2 = true then (n : Int) - 1 - j else j))
          = fun t => (fun k => (view_step_axial
              ⟨Real.sqrt, Real.sin, Real.cos, Real.log, Real.exp, Real.pi⟩
              ⟨sp, sth, sa, n, n⟩ (fun _ a ip => g a ip) (fun _ _ _ => 0) ia AxialState.initial
              v).rx k j) (if b1 = true then (n : Int) - 1 - t else t) := by
        funext t
        have := rx_mirror sp sth sa n hn hsp g ia v w b1 b2 hc hs
          (if b1 = true then (n : Int) - 1 - t else t) j
        rw [inv1] at this
        exact this
      have e2 : (fun k => (view_step_axial ⟨Real.sqrt, Real.sin, Real.cos, Real.log, Real.exp, Real.pi⟩
            ⟨sp, sth, sa, n, n⟩ (fun _ a ip => g a ip) (fun _ _ _ => 0) ia AxialState.initial w).rx
            (if b1 = true then (n : Int) - 1 - i else i) k)
          = fun t => (fun k => (view_step_axial
              ⟨Real.sqrt, Real.sin, Real.cos, Real.log, Real.exp, Real.pi⟩
              ⟨sp, sth, sa, n, n⟩ (fun _ a ip => g a ip) (fun _ _ _ => 0) ia AxialState.initial
              v).rx i k) (if b2 = true then (n : Int) - 1 - t else t) := by
        funext t
        have := rx_mirror sp sth sa n hn hsp g ia v w b1 b2 hc hs i
          (if b2 = true then (n : Int) - 1 - t else t)
        rw [inv2] at this
        exact this
      simp only [] at e1 e2 ⊢
      rw [e1, e2]
      generalize (view_step_axial ⟨Real.sqrt, Real.sin, Real.cos, Real.log, Real.exp, Real.pi⟩
        ⟨sp, sth, sa, n, n⟩ (fun _ a ip => g a ip) (fun _ _ _ => 0) ia AxialState.initial
        v).rx = R
      rw [grid_x2_eq_grid_x1 n hn _ hp'.2.2.2.1, grid_x2_eq_grid_x1 n hn _ hp.2.2.2.1,
        grid_x1_mirror n hn b1 i hp.1 hp.2.1, grid_x1_mirror n hn b2 j hp.2.2.1 hp.2.2.2.1,
        diff_one_sided_mirror n b1 _ (fun k => R k j) i
          (fun hb => grid_x1_ne_zero n hn i hp.1 (h1 hb)),
        diff_one_sided_mirror n b2 _ (fun k => R i k) j
          (fun hb => grid_x1_ne_zero n hn j hp.2.2.1 (h2 hb)), hc, hs]
      simp only [AxialState.initial]
      cases b1 <;> cases b2 <;> simp
    · have hp' : ¬ processed ⟨Real.sqrt, Real.sin, Real.cos, Real.log, Real.exp, Real.pi⟩ n n
          (if b1 = true then (n : Int) - 1 - i else i)
          (if b2 = true then (n : Int) - 1 - j else j) :=
        fun h => hp ((processed_mirror n hn b1 b2 i j).mp h)
      rw [if_neg hp', if_neg hp]
      rfl
  · rw [if_neg hia, if_neg hia]
    rfl

/-- On a grid with fewer than two nodes per side no point is processed. -/
theorem not_processed_small (n : Nat) (hn : n < 2) (i j : Int) :
    ¬ processed ⟨Real.sqrt, Real.sin, Real.cos, Real.log, Real.exp, Real.pi⟩ n n i j := by
  rintro ⟨h1, h2, h3, h4, h5⟩
  have hn1 : n = 1 := by omega
  subst hn1
  have hj : j = 0 := by omega
  subst hj
  apply h5
  left
  norm_num [grid_x2]

/-- The contribution of a view at a point that is not processed is zero. -/
theorem view_contribution_not_processed [FloorRing K] (M : Libm K) (S : Sizes)
    (proj atten : Nat → Nat → Nat → K) (ia v : Nat) (i j : Int)
    (h : ¬ processed M S.sx S.sy i j) : view_contribution M S proj atten ia v i j = 0 := by
  simp only [view_contribution, view_step]
  by_cases hia : ia < S.sa
  · rw [if_pos hia, view_step_axial_image, if_neg h]
    rfl
  · rw [if_neg hia]
    rfl

/-- The image that `actual_reconstruct` produces on arc-corrected data without tilt is the
sum over the views `0 .. sth-1` of the contributions of the views. -/
theorem actual_reconstruct_density [FloorRing K] (M : Libm K) (S : Sizes) (nseg : Int)
    (proj atten : Nat → Nat → Nat → K) (density : Nat → Int → Int → K) (ia : Nat) (i j : Int) :
    (actual_reconstruct M S Geometry.cylindrical_arc_corrected nseg 0 proj atten
        density).outcome = Except.ok Succeeded.yes
      ∧ (actual_reconstruct M S Geometry.cylindrical_arc_corrected nseg 0 proj atten
        density).density ia i j
        = ((List.range S.sth).map (fun v => view_contribution M S proj atten ia v i j)).sum := by
  unfold actual_reconstruct
  rw [if_neg (by simp), if_neg (by norm_num), if_neg (by simp)]
  exact ⟨rfl, run_views_image M S proj atten _ ia i j⟩

/-- C25. With identically zero attenuation, an even number of views, `sx = sy` and the same
projection profile `g[ia]` for every view, the image produced by `actual_reconstruct`
(arc-corrected data without tilt, `sp ≥ 2`, real arithmetic) is symmetric about the centre:
for every axial position the voxel at the grid point `(ix1, ix2)` equals the voxel at the
mirrored grid point `(sx-1-ix1, sy-1-ix2)`, whose coordinates are `(-x1, -x2)`. This holds for
every profile, in particular for the radially even ones. -/
theorem zero_attenuation_image_symmetric (S : Sizes) (hsp : 2 ≤ S.sp) (hxy : S.sx = S.sy)
    (hsth : Even S.sth) (g : Nat → Nat → ℝ) (nseg : Int) (density : Nat → Int → Int → ℝ)
    (ia : Nat) (i j : Int) :
    (actual_reconstruct ⟨Real.sqrt, Real.sin, Real.cos, Real.log, Real.exp, Real.pi⟩ S
        Geometry.cylindrical_arc_corrected nseg 0 (fun _ a ip => g a ip) (fun _ _ _ => 0)
        density).density ia ((S.sx : Int) - 1 - i) ((S.sy : Int) - 1 - j)
      = (actual_reconstruct ⟨Real.sqrt, Real.sin, Real.cos, Real.log, Real.exp, Real.pi⟩ S
        Geometry.cylindrical_arc_corrected nseg 0 (fun _ a ip => g a ip) (fun _ _ _ => 0)
        density).density ia i j := by
  obtain ⟨sp, sth, sa, n, sy⟩ := S
  simp only at hsp hxy hsth
  subst hxy
  rw [(actual_reconstruct_density _ _ nseg _ _ density ia _ _).2,
    (actual_reconstruct_density _ _ nseg _ _ density ia _ _).2, list_range_map_sum,
    list_range_map_sum]
  simp only []
  by_cases hn : 2 ≤ n
  · obtain ⟨m, hm⟩ := hsth
    rcases Nat.eq_zero_or_pos m with hm0 | hm0
    · have : sth = 0 := by omega
      subst this
      simp
    · have hs : sth = 2 * m := by omega
      subst hs
      have e1 : (n : Int) - 1 - i
          = if decide (2 * i ≠ (n : Int) - 1) = true then (n : Int) - 1 - i else i := by
        by_cases h : 2 * i = (n : Int) - 1
        · simp only [h, ne_eq, not_true_eq_false, decide_False, Bool.false_eq_true, if_false]
          omega
        · simp [h]
      have e2 : (n : Int) - 1 - j
          = if decide (2 * j ≠ (n : Int) - 1) = true then (n : Int) - 1 - j else j := by
        by_cases h : 2 * j = (n : Int) - 1
        · simp only [h, ne_eq, not_true_eq_false, decide_False, Bool.false_eq_true, if_false]
          omega
        · simp [h]
      obtain ⟨q, hq1, hq2, hq3⟩ := view_pairing m hm0 (decide (2 * i ≠ (n : Int) - 1))
        (decide (2 * j ≠ (n : Int) - 1))
      rw [e1, e2]
      exact sum_range_involution (2 * m) q _ _ hq1 hq2 (fun v hv =>
        view_contribution_mirror sp (2 * m) sa n hn hsp g ia v (q v) _ _ (hq3 v hv).1
          (hq3 v hv).2 i j (fun hb => of_decide_eq_true hb) (fun hb => of_decide_eq_true hb))
  · have hz : ∀ (a b : Int) (v : Nat),
        view_contribution ⟨Real.sqrt, Real.sin, Real.cos, Real.log, Real.exp, Real.pi⟩
          ⟨sp, sth, sa, n, n⟩ (fun _ a ip => g a ip) (fun _ _ _ => 0) ia v a b = 0 :=
      fun a b v => view_contribution_not_processed _ _ _ _ ia v a b
        (not_processed_small n (by omega) a b)
    simp only [hz]

theorem zero_attenuation_image_symmetric_witness :
    (2 ≤ (⟨5, 8, 1, 5, 5⟩ : Sizes).sp)
      ∧ ((⟨5, 8, 1, 5, 5⟩ : Sizes).sx = (⟨5, 8, 1, 5, 5⟩ : Sizes).sy)
      ∧ Even (⟨5, 8, 1, 5, 5⟩ : Sizes).sth
      ∧ (actual_reconstruct ⟨Real.sqrt, Real.sin, Real.cos, Real.log, Real.exp, Real.pi⟩
          ⟨5, 8, 1, 5, 5⟩ Geometry.cylindrical_arc_corrected 1 0
          (fun _ _ ip => vec [0, 1, 2, 1, 0] ip) (fun _ _ _ => 0)
          (fun _ _ _ => 7)).density 0 (((⟨5, 8, 1, 5, 5⟩ : Sizes).sx : Int) - 1 - 1)
            (((⟨5, 8, 1, 5, 5⟩ : Sizes).sy : Int) - 1 - 2)
        = (actual_reconstruct ⟨Real.sqrt, Real.sin, Real.cos, Real.log, Real.exp, Real.pi⟩
          ⟨5, 8, 1, 5, 5⟩ Geometry.cylindrical_arc_corrected 1 0
          (fun _ _ ip => vec [0, 1, 2, 1, 0] ip) (fun _ _ _ => 0)
          (fun _ _ _ => 7)).density 0 1 2 :=
  ⟨by decide, rfl, by decide,
    zero_attenuation_image_symmetric ⟨5, 8, 1, 5, 5⟩ (by decide) rfl (by decide)
      (fun _ ip => vec [0, 1, 2, 1, 0] ip) 1 (fun _ _ _ => 7) 0 1 2⟩

/-! ## The integer factor of `hilbert_node` and the integer accumulator of `integ` -/

/-- C34. For every `sp ≥ 4` the value of `hilbert_node(x, f, ddf, p, sp, fn)` does not depend
on `f`, `ddf` or `p`: the factor `2 / (sp - 1)` is evaluated in integer arithmetic and is `0`,
so the result is `fn * log((1 - x) / (1 + x))` when `|x| ≠ 1` and `0` when `|x| = 1`. -/
theorem hilbert_node_integer_factor (M : Libm K) (x : K) (f ddf p : Nat → K) (sp : Nat)
    (hsp : 4 ≤ sp) (fn : K) :
    ((2 : Int) / ((sp : Int) - 1) = 0)
      ∧ hilbert_node M x f ddf p sp fn
        = (if |x| = 1 then 0 else fn * M.log ((1 - x) / (1 + x)))
      ∧ ∀ f' ddf' p' : Nat → K,
          hilbert_node M x f' ddf' p' sp fn = hilbert_node M x f ddf p sp fn := by
  have h0 : (2 : Int) / ((sp : Int) - 1) = 0 := Int.ediv_eq_zero_of_lt (by decide) (by omega)
  have key : ∀ f ddf p : Nat → K, hilbert_node M x f ddf p sp fn
      = (if |x| = 1 then 0 else fn * M.log ((1 - x) / (1 + x))) := by
    intro f ddf p
    simp only [hilbert_node, h0]
    split <;> simp
  exact ⟨h0, key f ddf p, fun f' ddf' p' => by rw [key, key]⟩

theorem hilbert_node_integer_factor_witness :
    (4 ≤ 4)
      ∧ ((2 : Int) / (((4 : Nat) : Int) - 1) = 0)
      ∧ hilbert_node (⟨id, id, id, id, id, 3⟩ : Libm ℚ) (1 / 2) (vec [1, 2, 3, 4])
          (vec [0, 1, 1, 0]) (vec [-1, 0, 1, 2]) 4 5
        = (if |(1 / 2 : ℚ)| = 1 then 0
            else 5 * (⟨id, id, id, id, id, 3⟩ : Libm ℚ).log ((1 - 1 / 2) / (1 + 1 / 2)))
      ∧ ∀ f' ddf' p' : Nat → ℚ,
          hilbert_node (⟨id, id, id, id, id, 3⟩ : Libm ℚ) (1 / 2) f' ddf' p' 4 5
            = hilbert_node (⟨id, id, id, id, id, 3⟩ : Libm ℚ) (1 / 2) (vec [1, 2, 3, 4])
              (vec [0, 1, 1, 0]) (vec [-1, 0, 1, 2]) 4 5 :=
  ⟨by decide,
    hilbert_node_integer_factor (⟨id, id, id, id, id, 3⟩ : Libm ℚ) (1 / 2) (vec [1, 2, 3, 4])
      (vec [0, 1, 1, 0]) (vec [-1, 0, 1, 2]) 4 (by decide) 5⟩

theorem toInt_of_abs_lt_one [FloorRing K] (v : K) (h : |v| < 1) : toInt v = 0 := by
  obtain ⟨h1, h2⟩ := abs_lt.mp h
  unfold toInt
  split
  · rename_i h0
    rw [Int.floor_eq_iff]
    exact ⟨by simpa using h0, by simpa using h2⟩
  · rename_i h0
    rw [Int.ceil_eq_iff]
    constructor
    · simpa using h1
    · have : v ≤ 0 := le_of_lt (not_le.mp h0)
      simpa using this

theorem integ_loop_of_abs_lt_one [FloorRing K] (ff : Nat → K) (m : Nat)
    (h : ∀ k, k ≤ m → |ff k| < 1) : integ_loop ff m = 0 := by
  induction m with
  | zero => exact toInt_of_abs_lt_one _ (h 0 le_rfl)
  | succ m ih =>
    simp only [integ_loop]
    rw [ih (fun k hk => h k (by omega))]
    simp only [Int.cast_zero, zero_add]
    exact toInt_of_abs_lt_one _ (h (m + 1) le_rfl)

/-- C35. The function `integ` keeps its running sum in an `int` and truncates toward zero
after every addition: for every count `max ≥ 1` and every `dist`, whenever all samples
satisfy `|ff[k]| < 1` the running sum stays `0` and the result of `integ(dist, max, ff)`
is `0`. -/
theorem integ_small_samples [FloorRing K] (dist : K) (max : Nat) (hmax : 1 ≤ max)
    (ff : Nat → K) (h : ∀ k, k < max → |ff k| < 1) :
    (∀ m, m < max → integ_loop ff m = 0) ∧ integ dist max ff = 0 := by
  have key : ∀ m, m < max → integ_loop ff m = 0 := fun m hm =>
    integ_loop_of_abs_lt_one ff m (fun k hk => h k (by omega))
  refine ⟨key, ?_⟩
  unfold integ
  rw [key (max - 1) (by omega)]
  simp

theorem integ_small_samples_witness :
    (1 ≤ 3) ∧ (∀ k, k < 3 → |(vec [1 / 2, -3 / 4, 9 / 10] : Nat → ℚ) k| < 1)
      ∧ (∀ m, m < 3 → integ_loop (vec [1 / 2, -3 / 4, 9 / 10] : Nat → ℚ) m = 0)
      ∧ integ (7 : ℚ) 3 (vec [1 / 2, -3 / 4, 9 / 10]) = 0 :=
  have h : ∀ k, k < 3 → |(vec [1 / 2, -3 / 4, 9 / 10] : Nat → ℚ) k| < 1 := by
    intro k hk
    interval_cases k <;> norm_num [vec, abs_lt]
  ⟨by decide, h, integ_small_samples 7 3 (by decide) (vec [1 / 2, -3 / 4, 9 / 10]) h⟩

/-! ## The secondary radial coordinates -/

theorem sqrt_three_bounds : (0 : ℝ) < Real.sqrt 3 ∧ Real.sqrt 3 < 3 := by
  have h0 : (0 : ℝ) < Real.sqrt 3 := Real.sqrt_pos.mpr (by norm_num)
  have h1 : Real.sqrt 3 * Real.sqrt 3 = 3 := Real.mul_self_sqrt (by norm_num)
  refine ⟨h0, ?_⟩
  by_contra h
  have : 3 ≤ Real.sqrt 3 := not_lt.mp h
  nlinarith

/-- The bounds on the secondary radial coordinates, in terms of the numbers involved:
`s = sqrt(1 - rho^2)`, `q = sqrt(3)`, `sn` and `cs` the sine and cosine of `theta - t`. -/
theorem secondary_rho_core (rho tau s q sn cs : ℝ) (hss : s * s = 1 - rho * rho) (hsn : 0 ≤ s)
    (h30 : 0 < q) (h33 : q < 3) (hcs2 : sn ^ 2 + cs ^ 2 = 1) (hrt : rho ^ 2 + tau ^ 2 < 1) :
    (if tau ≥ 0 then tau else -s)
      ≤ (if tau ≥ 0 then tau else -s)
        + ((if tau ≥ 0 then s else tau) - (if tau ≥ 0 then tau else -s)) * (1 / 2 - q / 6)
    ∧ (if tau ≥ 0 then tau else -s)
        + ((if tau ≥ 0 then s else tau) - (if tau ≥ 0 then tau else -s)) * (1 / 2 - q / 6)
      ≤ (if tau ≥ 0 then tau else -s)
        + ((if tau ≥ 0 then s else tau) - (if tau ≥ 0 then tau else -s)) * (1 / 2 + q / 6)
    ∧ (if tau ≥ 0 then tau else -s)
        + ((if tau ≥ 0 then s else tau) - (if tau ≥ 0 then tau else -s)) * (1 / 2 + q / 6)
      ≤ (if tau ≥ 0 then s else tau)
    ∧ |((if tau ≥ 0 then tau else -s)
        + ((if tau ≥ 0 then s else tau) - (if tau ≥ 0 then tau else -s)) * (1 / 2 - q / 6)) * sn
        + rho * cs| ≤ 1
    ∧ |((if tau ≥ 0 then tau else -s)
        + ((if tau ≥ 0 then s else tau) - (if tau ≥ 0 then tau else -s)) * (1 / 2 + q / 6)) * sn
        + rho * cs| ≤ 1 := by
  have hts : tau * tau < s * s := by nlinarith
  have key : ∀ a b c : ℝ, -s ≤ a → a ≤ b → b ≤ s → 0 ≤ c → c ≤ 1 →
      a ≤ a + (b - a) * c ∧ a + (b - a) * c ≤ b ∧ |(a + (b - a) * c) * sn + rho * cs| ≤ 1 := by
    intro a b c ha hab hb hc0 hc1
    have h1 : a ≤ a + (b - a) * c := by nlinarith
    have h2 : a + (b - a) * c ≤ b := by nlinarith
    refine ⟨h1, h2, ?_⟩
    generalize a + (b - a) * c = tk at h1 h2
    have htk : tk * tk ≤ s * s := by nlinarith
    have hsq : (tk * sn + rho * cs) ^ 2 ≤ 1 := by
      nlinarith [sq_nonneg (tk * cs - rho * sn), sq_nonneg sn, sq_nonneg cs]
    exact abs_le_one_iff_mul_self_le_one.mpr (by nlinarith)
  have hc1 : (0 : ℝ) ≤ 1 / 2 - q / 6 ∧ 1 / 2 - q / 6 ≤ 1 := ⟨by linarith, by linarith⟩
  have hc2 : (0 : ℝ) ≤ 1 / 2 + q / 6 ∧ 1 / 2 + q / 6 ≤ 1 := ⟨by linarith, by linarith⟩
  have mono : ∀ a b : ℝ, a ≤ b → a + (b - a) * (1 / 2 - q / 6) ≤ a + (b - a) * (1 / 2 + q / 6) := by
    intro a b hab
    nlinarith
  by_cases htau : tau ≥ 0
  · simp only [if_pos htau]
    have hb : tau ≤ s := by
      by_contra h
      have : s < tau := not_le.mp h
      nlinarith
    have hms : -s ≤ tau := by linarith
    obtain ⟨k1, _, k3⟩ := key tau s (1 / 2 - q / 6) hms hb le_rfl hc1.1 hc1.2
    obtain ⟨_, m2, m3⟩ := key tau s (1 / 2 + q / 6) hms hb le_rfl hc2.1 hc2.2
    exact ⟨k1, mono tau s hb, m2, k3, m3⟩
  · simp only [if_neg htau]
    have hneg : tau < 0 := not_le.mp htau
    have ha : -s ≤ tau := by
      by_contra h
      have : tau < -s := not_le.mp h
      nlinarith
    have hts2 : tau ≤ s := by linarith
    obtain ⟨k1, _, k3⟩ := key (-s) tau (1 / 2 - q / 6) le_rfl ha hts2 hc1.1 hc1.2
    obtain ⟨_, m2, m3⟩ := key (-s) tau (1 / 2 + q / 6) le_rfl ha hts2 hc2.1 hc2.2
    exact ⟨k1, mono (-s) tau ha, m2, k3, m3⟩

/-- C37. For every in-disk point, every view angle `theta` and every secondary angle `t`,
with `a`, `b`, `tau1`, `tau2` as computed in `actual_reconstruct`: `a ≤ tau1 ≤ tau2 ≤ b`,
`tau_k^2 ≤ 1 - rho^2`, and the secondary radial coordinates
`rho_k = tau_k * sin(theta - t) + rho * cos(theta - t)` satisfy `|rho1| ≤ 1` and `|rho2| ≤ 1`:
`hilbert_der_double` is evaluated inside `[p[0], p[sp-1]] = [-1, 1]` only. -/
theorem secondary_rho_in_support (x1 x2 th t : ℝ) (hin : x1 ^ 2 + x2 ^ 2 < 1) :
    bound_a ⟨Real.sqrt, Real.sin, Real.cos, Real.log, Real.exp, Real.pi⟩
        (rho_of ⟨Real.sqrt, Real.sin, Real.cos, Real.log, Real.exp, Real.pi⟩ x1 x2 th)
        (tau_of ⟨Real.sqrt, Real.sin, Real.cos, Real.log, Real.exp, Real.pi⟩ x1 x2 th)
      ≤ tau1_of ⟨Real.sqrt, Real.sin, Real.cos, Real.log, Real.exp, Real.pi⟩
        (bound_a ⟨Real.sqrt, Real.sin, Real.cos, Real.log, Real.exp, Real.pi⟩
          (rho_of ⟨Real.sqrt, Real.sin, Real.cos, Real.log, Real.exp, Real.pi⟩ x1 x2 th)
          (tau_of ⟨Real.sqrt, Real.sin, Real.cos, Real.log, Real.exp, Real.pi⟩ x1 x2 th))
        (bound_b ⟨Real.sqrt, Real.sin, Real.cos, Real.log, Real.exp, Real.pi⟩
          (rho_of ⟨Real.sqrt, Real.sin, Real.cos, Real.log, Real.exp, Real.pi⟩ x1 x2 th)
          (tau_of ⟨Real.sqrt, Real.sin, Real.cos, Real.log, Real.exp, Real.pi⟩ x1 x2 th))
    ∧ tau1_of ⟨Real.sqrt, Real.sin, Real.cos, Real.log, Real.exp, Real.pi⟩
        (bound_a ⟨Real.sqrt, Real.sin, Real.cos, Real.log, Real.exp, Real.pi⟩
          (rho_of ⟨Real.sqrt, Real.sin, Real.cos, Real.log, Real.exp, Real.pi⟩ x1 x2 th)
          (tau_of ⟨Real.sqrt, Real.sin, Real.cos, Real.log, Real.exp, Real.pi⟩ x1 x2 th))
        (bound_b ⟨Real.sqrt, Real.sin, Real.cos, Real.log, Real.exp, Real.pi⟩
          (rho_of ⟨Real.sqrt, Real.sin, Real.cos, Real.log, Real.exp, Real.pi⟩ x1 x2 th)
          (tau_of ⟨Real.sqrt, Real.sin, Real.cos, Real.log, Real.exp, Real.pi⟩ x1 x2 th))
      ≤ tau2_of ⟨Real.sqrt, Real.sin, Real.cos, Real.log, Real.exp, Real.pi⟩
        (bound_a ⟨Real.sqrt, Real.sin, Real.cos, Real.log, Real.exp, Real.pi⟩
          (rho_of ⟨Real.sqrt, Real.sin, Real.cos, Real.log, Real.exp, Real.pi⟩ x1 x2 th)
          (tau_of ⟨Real.sqrt, Real.sin, Real.cos, Real.log, Real.exp, Real.pi⟩ x1 x2 th))
        (bound_b ⟨Real.sqrt, Real.sin, Real.cos, Real.log, Real.exp, Real.pi⟩
          (rho_of ⟨Real.sqrt, Real.sin, Real.cos, Real.log, Real.exp, Real.pi⟩ x1 x2 th)
          (tau_of ⟨Real.sqrt, Real.sin, Real.cos, Real.log, Real.exp, Real.pi⟩ x1 x2 th))
    ∧ tau2_of ⟨Real.sqrt, Real.sin, Real.cos, Real.log, Real.exp, Real.pi⟩
        (bound_a ⟨Real.sqrt, Real.sin, Real.cos, Real.log, Real.exp, Real.pi⟩
          (rho_of ⟨Real.sqrt, Real.sin, Real.cos, Real.log, Real.exp, Real.pi⟩ x1 x2 th)
          (tau_of ⟨Real.sqrt, Real.sin, Real.cos, Real.log, Real.exp, Real.pi⟩ x1 x2 th))
        (bound_b ⟨Real.sqrt, Real.sin, Real.cos, Real.log, Real.exp, Real.pi⟩
          (rho_of ⟨Real.sqrt, Real.sin, Real.cos, Real.log, Real.exp, Real.pi⟩ x1 x2 th)
          (tau_of ⟨Real.sqrt, Real.sin, Real.cos, Real.log, Real.exp, Real.pi⟩ x1 x2 th))
      ≤ bound_b ⟨Real.sqrt, Real.sin, Real.cos, Real.log, Real.exp, Real.pi⟩
        (rho_of ⟨Real.sqrt, Real.sin, Real.cos, Real.log, Real.exp, Real.pi⟩ x1 x2 th)
        (tau_of ⟨Real.sqrt, Real.sin, Real.cos, Real.log, Real.exp, Real.pi⟩ x1 x2 th)
    ∧ |rho_k ⟨Real.sqrt, Real.sin, Real.cos, Real.log, Real.exp, Real.pi⟩
        (tau1_of ⟨Real.sqrt, Real.sin, Real.cos, Real.log, Real.exp, Real.pi⟩
          (bound_a ⟨Real.sqrt, Real.sin, Real.cos, Real.log, Real.exp, Real.pi⟩
            (rho_of ⟨Real.sqrt, Real.sin, Real.cos, Real.log, Real.exp, Real.pi⟩ x1 x2 th)
            (tau_of ⟨Real.sqrt, Real.sin, Real.cos, Real.log, Real.exp, Real.pi⟩ x1 x2 th))
          (bound_b ⟨Real.sqrt, Real.sin, Real.cos, Real.log, Real.exp, Real.pi⟩
            (rho_of ⟨Real.sqrt, Real.sin, Real.cos, Real.log, Real.exp, Real.pi⟩ x1 x2 th)
            (tau_of ⟨Real.sqrt, Real.sin, Real.cos, Real.log, Real.exp, Real.pi⟩ x1 x2 th)))
        (rho_of ⟨Real.sqrt, Real.sin, Real.cos, Real.log, Real.exp, Real.pi⟩ x1 x2 th) th t| ≤ 1
    ∧ |rho_k ⟨Real.sqrt, Real.sin, Real.cos, Real.log, Real.exp, Real.pi⟩
        (tau2_of ⟨Real.sqrt, Real.sin, Real.cos, Real.log, Real.exp, Real.pi⟩
          (bound_a ⟨Real.sqrt, Real.sin, Real.cos, Real.log, Real.exp, Real.pi⟩
            (rho_of ⟨Real.sqrt, Real.sin, Real.cos, Real.log, Real.exp, Real.pi⟩ x1 x2 th)
            (tau_of ⟨Real.sqrt, Real.sin, Real.cos, Real.log, Real.exp, Real.pi⟩ x1 x2 th))
          (bound_b ⟨Real.sqrt, Real.sin, Real.cos, Real.log, Real.exp, Real.pi⟩
            (rho_of ⟨Real.sqrt, Real.sin, Real.cos, Real.log, Real.exp, Real.pi⟩ x1 x2 th)
            (tau_of ⟨Real.sqrt, Real.sin, Real.cos, Real.log, Real.exp, Real.pi⟩ x1 x2 th)))
        (rho_of ⟨Real.sqrt, Real.sin, Real.cos, Real.log, Real.exp, Real.pi⟩ x1 x2 th) th t| ≤ 1 := by
  have hcs := Real.sin_sq_add_cos_sq th
  obtain ⟨h30, h33⟩ := sqrt_three_bounds
  have hrt : rho_of ⟨Real.sqrt, Real.sin, Real.cos, Real.log, Real.exp, Real.pi⟩ x1 x2 th ^ 2
      + tau_of ⟨Real.sqrt, Real.sin, Real.cos, Real.log, Real.exp, Real.pi⟩ x1 x2 th ^ 2 < 1 := by
    have : rho_of ⟨Real.sqrt, Real.sin, Real.cos, Real.log, Real.exp, Real.pi⟩ x1 x2 th ^ 2
        + tau_of ⟨Real.sqrt, Real.sin, Real.cos, Real.log, Real.exp, Real.pi⟩ x1 x2 th ^ 2
        = x1 ^ 2 + x2 ^ 2 := by
      simp only [rho_of, tau_of]
      linear_combination (x1 ^ 2 + x2 ^ 2) * hcs
    rw [this]
    exact hin
  have hs0 : 0 ≤ 1 - rho_of ⟨Real.sqrt, Real.sin, Real.cos, Real.log, Real.exp, Real.pi⟩ x1 x2 th
      * rho_of ⟨Real.sqrt, Real.sin, Real.cos, Real.log, Real.exp, Real.pi⟩ x1 x2 th := by
    nlinarith [sq_nonneg (tau_of ⟨Real.sqrt, Real.sin, Real.cos, Real.log, Real.exp, Real.pi⟩
      x1 x2 th)]
  exact secondary_rho_core _ _ _ _ _ _ (Real.mul_self_sqrt hs0) (Real.sqrt_nonneg _) h30 h33
    (Real.sin_sq_add_cos_sq (th - t)) hrt

theorem secondary_rho_in_support_witness :
    ((0 : ℝ) ^ 2 + (1 / 2 : ℝ) ^ 2 < 1)
      ∧ |rho_k ⟨Real.sqrt, Real.sin, Real.cos, Real.log, Real.exp, Real.pi⟩
        (tau1_of ⟨Real.sqrt, Real.sin, Real.cos, Real.log, Real.exp, Real.pi⟩
          (bound_a ⟨Real.sqrt, Real.sin, Real.cos, Real.log, Real.exp, Real.pi⟩
            (rho_of ⟨Real.sqrt, Real.sin, Real.cos, Real.log, Real.exp, Real.pi⟩ 0 (1 / 2) 0)
            (tau_of ⟨Real.sqrt, Real.sin, Real.cos, Real.log, Real.exp, Real.pi⟩ 0 (1 / 2) 0))
          (bound_b ⟨Real.sqrt, Real.sin, Real.cos, Real.log, Real.exp, Real.pi⟩
            (rho_of ⟨Real.sqrt, Real.sin, Real.cos, Real.log, Real.exp, Real.pi⟩ 0 (1 / 2) 0)
            (tau_of ⟨Real.sqrt, Real.sin, Real.cos, Real.log, Real.exp, Real.pi⟩ 0 (1 / 2) 0)))
        (rho_of ⟨Real.sqrt, Real.sin, Real.cos, Real.log, Real.exp, Real.pi⟩ 0 (1 / 2) 0) 0 1| ≤ 1 :=
  have h : (0 : ℝ) ^ 2 + (1 / 2 : ℝ) ^ 2 < 1 := by norm_num
  ⟨h, (secondary_rho_in_support 0 (1 / 2) 0 1 h).2.2.2.1⟩

/-! ## The operands of `%` in the detector tables -/

/-- C33. For every even `N ≥ 2`, every `v` in `[0, N/2)` and `tp` in `[-N/2+1, N/2]`, and
every `det1`, `det2` in `[0, N)`, each left operand of `%` computed in the two table
initialisations is non-negative (with `>>` the arithmetic shift), so the C++ remainder
coincides with the mathematical modulo, and every stored `det1_num` and `det2_num` lies in
`[0, N)`. -/
theorem modulo_operands_nonneg (N v tp det1 det2 : Int) (hN : Even N) (hN2 : 2 ≤ N)
    (hv0 : 0 ≤ v) (hv : v < N / 2) (htp0 : -(N / 2) + 1 ≤ tp) (htp : tp ≤ N / 2)
    (h10 : 0 ≤ det1) (h1 : det1 < N) (_h20 : 0 ≤ det2) (h2 : det2 < N) :
    (0 ≤ v + shift_right_one tp + N
      ∧ 0 ≤ v - shift_right_one (tp + 1) + Int.tdiv N 2
      ∧ 0 ≤ det1 - det2 + Int.tdiv (3 * N) 2
      ∧ 0 ≤ det1
          - shift_right_one (Int.tmod (det1 - det2 + Int.tdiv (3 * N) 2) N) + N)
    ∧ ((uncompressed_view_tangpos_to_det1det2 N v tp).det1_num
          = (v + shift_right_one tp + N) % N
      ∧ (uncompressed_view_tangpos_to_det1det2 N v tp).det2_num
          = (v - shift_right_one (tp + 1) + Int.tdiv N 2) % N
      ∧ Int.tmod (det1 - det2 + Int.tdiv (3 * N) 2) N
          = (det1 - det2 + Int.tdiv (3 * N) 2) % N
      ∧ Int.tmod
          (det1 - shift_right_one (Int.tmod (det1 - det2 + Int.tdiv (3 * N) 2) N) + N) N
          = (det1 - shift_right_one (Int.tmod (det1 - det2 + Int.tdiv (3 * N) 2) N) + N) % N)
    ∧ (0 ≤ (uncompressed_view_tangpos_to_det1det2 N v tp).det1_num
      ∧ (uncompressed_view_tangpos_to_det1det2 N v tp).det1_num < N
      ∧ 0 ≤ (uncompressed_view_tangpos_to_det1det2 N v tp).det2_num
      ∧ (uncompressed_view_tangpos_to_det1det2 N v tp).det2_num < N) := by
  obtain ⟨m, hm⟩ := hN
  have hNm : N = 2 * m := by omega
  subst hNm
  have hm0 : 0 < m := by omega
  have hN0 : (0 : Int) ≤ 2 * m := by omega
  have hNpos : (0 : Int) < 2 * m := by omega
  rw [tdiv_two_mul m hm0.le, tdiv_three_mul m hm0.le]
  simp only [uncompressed_view_tangpos_to_det1det2, shift_right_one, tdiv_two_mul m hm0.le]
  have o1 : 0 ≤ v + tp / 2 + 2 * m := by omega
  have o2 : 0 ≤ v - (tp + 1) / 2 + m := by omega
  have o3 : 0 ≤ det1 - det2 + 3 * m := by omega
  have e3 : Int.tmod (det1 - det2 + 3 * m) (2 * m) = (det1 - det2 + 3 * m) % (2 * m) :=
    Int.tmod_eq_emod o3 hN0
  have r3 : 0 ≤ (det1 - det2 + 3 * m) % (2 * m) := Int.emod_nonneg _ (by omega)
  have r3' : (det1 - det2 + 3 * m) % (2 * m) < 2 * m := Int.emod_lt_of_pos _ hNpos
  rw [e3]
  generalize (det1 - det2 + 3 * m) % (2 * m) = t at r3 r3'
  have o4 : 0 ≤ det1 - t / 2 + 2 * m := by omega
  rw [Int.tmod_eq_emod o1 hN0, Int.tmod_eq_emod o2 hN0, Int.tmod_eq_emod o4 hN0]
  exact ⟨⟨o1, o2, o3, o4⟩, ⟨rfl, rfl, rfl, rfl⟩,
    ⟨Int.emod_nonneg _ (by omega), Int.emod_lt_of_pos _ hNpos, Int.emod_nonneg _ (by omega),
      Int.emod_lt_of_pos _ hNpos⟩⟩

theorem modulo_operands_nonneg_witness :
    Even (8 : Int) ∧ (2 : Int) ≤ 8 ∧ (0 : Int) ≤ 0 ∧ (0 : Int) < 8 / 2
      ∧ -((8 : Int) / 2) + 1 ≤ -3 ∧ (-3 : Int) ≤ 8 / 2
      ∧ (0 : Int) ≤ 0 ∧ (0 : Int) < 8 ∧ (0 : Int) ≤ 7 ∧ (7 : Int) < 8
      ∧ (0 ≤ (uncompressed_view_tangpos_to_det1det2 8 0 (-3)).det1_num
        ∧ (uncompressed_view_tangpos_to_det1det2 8 0 (-3)).det1_num < 8
        ∧ 0 ≤ (uncompressed_view_tangpos_to_det1det2 8 0 (-3)).det2_num
        ∧ (uncompressed_view_tangpos_to_det1det2 8 0 (-3)).det2_num < 8) :=
  ⟨by decide, by decide, by decide, by decide, by decide, by decide, by decide, by decide,
    by decide, by decide,
    (modulo_operands_nonneg 8 0 (-3) 0 7 (by decide) (by decide) (by decide) (by decide)
      (by decide) (by decide) (by decide) (by decide) (by decide) (by decide)).2.2⟩

/-! ## The divisors of `spline` and the bisection of `splint` -/

/-- C40. For every `n ≥ 3` and strictly increasing `x`, no division in `spline` has a zero
divisor: at every iteration `1 ≤ i ≤ n-2` of the forward elimination the three differences
of abscissae are positive, `0 < sig < 1` and `-1 < y2[i-1] ≤ 0` hold (`y2[i-1]` being the
value the iteration reads), hence the pivot `p = sig * y2[i-1] + 2` satisfies `p > 1`; and
the final divisor `qn * y2[n-2] + 1` equals `1`. -/
theorem spline_divisors_nonzero (x y y2 : Nat → K) (n : Nat) (hn : 3 ≤ n)
    (hx : ∀ i, i + 1 < n → x i < x (i + 1)) (i : Nat) (hi1 : 1 ≤ i) (hi2 : i ≤ n - 2) :
    (0 < x (i + 1) - x (i - 1) ∧ 0 < x (i + 1) - x i ∧ 0 < x i - x (i - 1))
      ∧ (0 < (x i - x (i - 1)) / (x (i + 1) - x (i - 1))
        ∧ (x i - x (i - 1)) / (x (i + 1) - x (i - 1)) < 1)
      ∧ (-1 < (spline_forward x y y2 (i - 1)).1 (i - 1)
        ∧ (spline_forward x y y2 (i - 1)).1 (i - 1) ≤ 0)
      ∧ 1 < (x i - x (i - 1)) / (x (i + 1) - x (i - 1)) * (spline_forward x y y2 (i - 1)).1 (i - 1)
          + 2
      ∧ (0 : K) * (spline_forward x y y2 (n - 2)).1 (n - 2) + 1 = 1 := by
  obtain ⟨j, rfl⟩ : ∃ j, i = j + 1 := ⟨i - 1, by omega⟩
  simp only [Nat.add_sub_cancel]
  have ha : 0 < x (j + 1) - x j := sub_pos.mpr (hx j (by omega))
  have hb : 0 < x (j + 1 + 1) - x (j + 1) := sub_pos.mpr (hx (j + 1) (by omega))
  have hab : 0 < x (j + 1 + 1) - x j := by linarith
  have hsig0 : 0 < (x (j + 1) - x j) / (x (j + 1 + 1) - x j) := div_pos ha hab
  have hsig1 : (x (j + 1) - x j) / (x (j + 1 + 1) - x j) < 1 := by
    rw [div_lt_one hab]
    linarith
  obtain ⟨hd1, hd2⟩ := spline_forward_bounds x y y2 j (fun i hi => hx i (by omega))
  refine ⟨⟨hab, hb, ha⟩, ⟨hsig0, hsig1⟩, ⟨hd1, hd2⟩, ?_, by ring⟩
  nlinarith

theorem spline_divisors_nonzero_witness :
    (3 ≤ 3) ∧ (∀ i, i + 1 < 3 → (vec [0, 1, 3] : Nat → ℚ) i < vec [0, 1, 3] (i + 1))
      ∧ 1 ≤ 1 ∧ 1 ≤ 3 - 2
      ∧ 1 < ((vec [0, 1, 3] : Nat → ℚ) 1 - vec [0, 1, 3] (1 - 1))
            / ((vec [0, 1, 3] : Nat → ℚ) (1 + 1) - vec [0, 1, 3] (1 - 1))
          * (spline_forward (vec [0, 1, 3] : Nat → ℚ) (vec [1, 0, 0]) (vec [5, 5, 5]) (1 - 1)).1
            (1 - 1)
          + 2 :=
  have h : ∀ i, i + 1 < 3 → (vec [0, 1, 3] : Nat → ℚ) i < vec [0, 1, 3] (i + 1) := by
    intro i hi
    have hi2 : i < 2 := by omega
    interval_cases i <;> norm_num [vec]
  ⟨by decide, h, by decide, by decide,
    (spline_divisors_nonzero (vec [0, 1, 3]) (vec [1, 0, 0]) (vec [5, 5, 5]) 3 (by decide) h 1
      (by decide) (by decide)).2.2.2.1⟩

/-- Invariant of the bisection loop of `splint` for `x < xa[n-1]`: from a state with
`1 ≤ klo < khi ≤ n` and `klo ≤ n - 2`, the final state has the same properties; it keeps
`xa[klo] ≤ x`, and `x < xa[khi]` unless `khi = n`. -/
theorem splint_search_invariant (xa : Nat → K) (x : K) (n : Nat) (hx : x < xa (n - 1))
    (fuel klo khi : Nat) (h1 : 1 ≤ klo) (h2 : klo < khi) (h3 : khi ≤ n) (h4 : klo + 2 ≤ n) :
    1 ≤ (splint_search xa x fuel klo khi).1
      ∧ (splint_search xa x fuel klo khi).1 < (splint_search xa x fuel klo khi).2
      ∧ (splint_search xa x fuel klo khi).2 ≤ n
      ∧ (splint_search xa x fuel klo khi).1 + 2 ≤ n
      ∧ (xa klo ≤ x → xa (splint_search xa x fuel klo khi).1 ≤ x)
      ∧ ((khi < n → x < xa khi) →
          (splint_search xa x fuel klo khi).2 < n → x < xa (splint_search xa x fuel klo khi).2) := by
  induction fuel generalizing klo khi with
  | zero => exact ⟨h1, h2, h3, h4, fun h => h, fun h => h⟩
  | succ fuel ih =>
    simp only [splint_search]
    by_cases hgap : khi - klo > 1
    · rw [if_pos hgap]
      have hk1 : klo < (khi + klo) / 2 := by omega
      have hk2 : (khi + klo) / 2 < khi := by omega
      by_cases hcmp : xa ((khi + klo) / 2) > x
      · rw [if_pos hcmp]
        obtain ⟨a1, a2, a3, a4, a5, a6⟩ := ih klo ((khi + klo) / 2) h1 hk1 (by omega) h4
        exact ⟨a1, a2, a3, a4, a5, fun _ => a6 (fun _ => hcmp)⟩
      · rw [if_neg hcmp]
        have hle : xa ((khi + klo) / 2) ≤ x := not_lt.mp hcmp
        have hkn : (khi + klo) / 2 + 2 ≤ n := by
          by_contra hc
          have : (khi + klo) / 2 = n - 1 := by omega
          rw [this] at hle
          exact absurd hx (not_lt.mpr hle)
        obtain ⟨a1, a2, a3, a4, a5, a6⟩ := ih ((khi + klo) / 2) khi (by omega) hk2 h3 hkn
        exact ⟨a1, a2, a3, a4, fun _ => a5 hle, a6⟩
    · rw [if_neg hgap]
      exact ⟨h1, h2, h3, h4, fun h => h, fun h => h⟩

/-- More fuel than the gap needs does not change the result of the bisection loop. -/
theorem splint_search_fuel (xa : Nat → K) (x : K) (fuel fuel' klo khi : Nat)
    (h : khi - klo ≤ fuel + 1) (h' : fuel ≤ fuel') :
    splint_search xa x fuel' klo khi = splint_search xa x fuel klo khi := by
  induction fuel generalizing klo khi fuel' with
  | zero =>
    cases fuel' with
    | zero => rfl
    | succ m =>
      simp only [splint_search]
      rw [if_neg (by omega)]
  | succ fuel ih =>
    cases fuel' with
    | zero => omega
    | succ m =>
      simp only [splint_search]
      by_cases hgap : khi - klo > 1
      · rw [if_pos hgap, if_pos hgap]
        by_cases hcmp : xa ((khi + klo) / 2) > x
        · rw [if_pos hcmp, if_pos hcmp]
          exact ih m klo ((khi + klo) / 2) (by omega) (by omega)
        · rw [if_neg hcmp, if_neg hcmp]
          exact ih m ((khi + klo) / 2) khi (by omega) (by omega)
      · rw [if_neg hgap, if_neg hgap]

/-- C39. For every `n ≥ 3` and every `x < xa[n-1]`, the bisection loop of `splint` ends on
its own condition (whatever the fuel from `n` on, the result is the same and has
`khi - klo ≤ 1`) with `1 ≤ klo` and `khi = klo + 1 ≤ n - 1`, so every index at which `xa`,
`ya` and `y2a` are read lies in `0 .. n-1`. The hypothesis that `xa` is non-decreasing is
not needed. -/
theorem splint_search_in_range (xa : Nat → K) (x : K) (n : Nat) (hn : 3 ≤ n)
    (hx : x < xa (n - 1)) :
    1 ≤ (splint_search xa x n 1 n).1
      ∧ (splint_search xa x n 1 n).2 = (splint_search xa x n 1 n).1 + 1
      ∧ (splint_search xa x n 1 n).2 ≤ n - 1
      ∧ ¬ ((splint_search xa x n 1 n).2 - (splint_search xa x n 1 n).1 > 1)
      ∧ ∀ fuel, n ≤ fuel → splint_search xa x fuel 1 n = splint_search xa x n 1 n := by
  obtain ⟨a1, a2, a3, a4, _, _⟩ := splint_search_invariant xa x n hx n 1 n le_rfl (by omega)
    le_rfl (by omega)
  have hgap := splint_search_gap xa x n 1 n (by omega)
  exact ⟨a1, by omega, by omega, by omega,
    fun fuel hf => splint_search_fuel xa x n fuel 1 n (by omega) hf⟩

theorem splint_search_in_range_witness :
    (3 ≤ 4) ∧ ((1 / 2 : ℚ) < (vec [-1, 0, 1, 2] : Nat → ℚ) (4 - 1))
      ∧ 1 ≤ (splint_search (vec [-1, 0, 1, 2] : Nat → ℚ) (1 / 2) 4 1 4).1
      ∧ (splint_search (vec [-1, 0, 1, 2] : Nat → ℚ) (1 / 2) 4 1 4).2
        = (splint_search (vec [-1, 0, 1, 2] : Nat → ℚ) (1 / 2) 4 1 4).1 + 1
      ∧ (splint_search (vec [-1, 0, 1, 2] : Nat → ℚ) (1 / 2) 4 1 4).2 ≤ 4 - 1 :=
  have h : (1 / 2 : ℚ) < (vec [-1, 0, 1, 2] : Nat → ℚ) (4 - 1) := by norm_num [vec]
  ⟨by decide, h, (splint_search_in_range (vec [-1, 0, 1, 2]) (1 / 2) 4 (by decide) h).1,
    (splint_search_in_range (vec [-1, 0, 1, 2]) (1 / 2) 4 (by decide) h).2.1,
    (splint_search_in_range (vec [-1, 0, 1, 2]) (1 / 2) 4 (by decide) h).2.2.1⟩

/-! ## The two routes of spline evaluation -/

theorem grid_p_lt_iff (sp : Nat) (hsp : 2 ≤ sp) (a b : Nat) :
    (grid_p sp a : K) < grid_p sp b ↔ a < b := by
  have hd : (0 : K) < (sp : K) - 1 := by
    have : (2 : K) ≤ (sp : K) := by exact_mod_cast hsp
    linarith
  simp only [grid_p]
  rw [add_lt_add_iff_left, div_lt_div_iff_of_pos_right hd, mul_lt_mul_left (by norm_num : (0 : K) < 2),
    Nat.cast_lt]

/-- The directly computed index brackets `rho` on the uniform grid. -/
theorem bracket_bounds [FloorRing K] (rho : K) (sp : Nat) (hsp : 2 ≤ sp) (hrho : |rho| < 1) :
    grid_p sp (bracket rho sp).toNat ≤ rho ∧ rho < grid_p sp ((bracket rho sp).toNat + 1) := by
  obtain ⟨h1, h2⟩ := abs_lt.mp hrho
  have hs : (1 : K) ≤ (sp : K) - 1 := by
    have : (2 : K) ≤ (sp : K) := by exact_mod_cast hsp
    linarith
  have hs0 : (0 : K) < (sp : K) - 1 := by linarith
  have hge : 0 ≤ bracket rho sp := by
    unfold bracket
    apply Int.floor_nonneg.mpr
    apply div_nonneg _ (by norm_num)
    apply mul_nonneg <;> linarith
  have hcast : (((bracket rho sp).toNat : Nat) : K) = ((bracket rho sp : Int) : K) := by
    have := Int.toNat_of_nonneg hge
    exact_mod_cast congrArg (fun z : Int => (z : K)) this
  have hfl : ((bracket rho sp : Int) : K) ≤ (rho + 1) * ((sp : K) - 1) / 2 := Int.floor_le _
  have hfl2 : (rho + 1) * ((sp : K) - 1) / 2 < ((bracket rho sp : Int) : K) + 1 :=
    Int.lt_floor_add_one _
  constructor
  · simp only [grid_p, hcast]
    rw [← sub_nonneg]
    have e : rho - (-1 + 2 * ((bracket rho sp : Int) : K) / ((sp : K) - 1))
        = 2 * ((rho + 1) * ((sp : K) - 1) / 2 - ((bracket rho sp : Int) : K)) / ((sp : K) - 1) := by
      field_simp
      ring
    rw [e]
    apply div_nonneg _ hs0.le
    linarith
  · simp only [grid_p]
    push_cast
    rw [hcast, ← sub_pos]
    have e : -1 + 2 * (((bracket rho sp : Int) : K) + 1) / ((sp : K) - 1) - rho
        = 2 * (((bracket rho sp : Int) : K) + 1 - (rho + 1) * ((sp : K) - 1) / 2) / ((sp : K) - 1) := by
      field_simp
      ring
    rw [e]
    apply div_pos _ hs0
    linarith

/-- C38. On the uniform grid `p[j] = -1 + 2j/(sp-1)`, `sp ≥ 2`, for every `rho` with
`p[1] ≤ rho < 1`, the bisection of `splint(p, f, ddf, sp, rho)` ends on the interval
`klo = i`, `khi = i + 1` with `i = floor((rho + 1)(sp - 1)/2)` the directly computed index,
and the in-line interpolation `f_node = A*f[i] + B*f[i+1] + C*ddf[i] + D*ddf[i+1]` equals
`splint(p, f, ddf, sp, rho)`. -/
theorem f_node_eq_splint [FloorRing K] (sp : Nat) (hsp : 2 ≤ sp) (rho : K)
    (h1 : grid_p sp 1 ≤ rho) (h2 : rho < 1) (f ddf : Nat → K) :
    (splint_search (grid_p sp) rho sp 1 sp).1 = (bracket rho sp).toNat
      ∧ (splint_search (grid_p sp) rho sp 1 sp).2 = (bracket rho sp).toNat + 1
      ∧ f_node_of (grid_p sp) sp rho f ddf = splint (grid_p sp) f ddf sp rho := by
  have hsp3 : 3 ≤ sp := by
    by_contra hc
    have : sp = 2 := by omega
    subst this
    norm_num [grid_p] at h1
    linarith
  have hlast : (grid_p sp (sp - 1) : K) = 1 := grid_p_last sp hsp
  have hx : rho < grid_p sp (sp - 1) := by
    rw [hlast]
    exact h2
  obtain ⟨a1, a2, a3, a4, a5, a6⟩ := splint_search_invariant (grid_p sp) rho sp hx sp 1 sp
    le_rfl (by omega) le_rfl (by omega)
  have hgap := splint_search_gap (grid_p sp) rho sp 1 sp (by omega)
  have hkhi : (splint_search (grid_p sp) rho sp 1 sp).2
      = (splint_search (grid_p sp) rho sp 1 sp).1 + 1 := by omega
  have hlo := a5 h1
  have hhi := a6 (fun h => absurd h (lt_irrefl _)) (by omega)
  rw [hkhi] at hhi
  have hrho : |rho| < 1 := by
    rw [abs_lt]
    refine ⟨?_, h2⟩
    have h01 : (grid_p sp 0 : K) < grid_p sp 1 := (grid_p_lt_iff sp hsp 0 1).mpr (by decide)
    rw [grid_p_zero] at h01
    linarith
  obtain ⟨b1, b2⟩ := bracket_bounds rho sp hsp hrho
  have hidx : (splint_search (grid_p sp) rho sp 1 sp).1 = (bracket rho sp).toNat := by
    have c1 : (splint_search (grid_p sp) rho sp 1 sp).1 < (bracket rho sp).toNat + 1 :=
      (grid_p_lt_iff sp hsp _ _).mp (lt_of_le_of_lt hlo b2)
    have c2 : (bracket rho sp).toNat < (splint_search (grid_p sp) rho sp 1 sp).1 + 1 :=
      (grid_p_lt_iff sp hsp _ _).mp (lt_of_le_of_lt b1 hhi)
    omega
  refine ⟨hidx, by rw [hkhi, hidx], ?_⟩
  simp only [f_node_of, splint]
  rw [hkhi, hidx]
  have hh : (grid_p sp ((bracket rho sp).toNat + 1) : K) - grid_p sp (bracket rho sp).toNat ≠ 0 := by
    have := (grid_p_lt_iff (K := K) sp hsp (bracket rho sp).toNat ((bracket rho sp).toNat + 1)).mpr
      (by omega)
    intro h
    linarith
  generalize (grid_p sp ((bracket rho sp).toNat + 1) : K) = p2 at hh ⊢
  generalize (grid_p sp (bracket rho sp).toNat : K) = p1 at hh ⊢
  generalize f ((bracket rho sp).toNat + 1) = fb
  generalize f (bracket rho sp).toNat = fa
  generalize ddf ((bracket rho sp).toNat + 1) = db
  generalize ddf (bracket rho sp).toNat = da
  field_simp
  ring

theorem f_node_eq_splint_witness :
    (2 ≤ 5) ∧ ((grid_p 5 1 : ℚ) ≤ 1 / 4) ∧ ((1 / 4 : ℚ) < 1)
      ∧ f_node_of (grid_p 5) 5 (1 / 4 : ℚ) (vec [1, 2, 4, 2, 1]) (vec [0, 1, -1, 1, 0])
        = splint (grid_p 5) (vec [1, 2, 4, 2, 1]) (vec [0, 1, -1, 1, 0]) 5 (1 / 4) :=
  have h1 : (grid_p 5 1 : ℚ) ≤ 1 / 4 := by norm_num [grid_p]
  have h2 : (1 / 4 : ℚ) < 1 := by norm_num
  ⟨by decide, h1, h2,
    (f_node_eq_splint 5 (by decide) (1 / 4 : ℚ) h1 h2 (vec [1, 2, 4, 2, 1])
      (vec [0, 1, -1, 1, 0])).2.2⟩

/-! ## The spline of index-reversed samples -/

theorem spline_first (x y y2 : Nat → K) (n : Nat) (hn : 2 ≤ n) : spline x y n y2 0 = 0 := by
  rw [spline_rec x y y2 n 0 (by omega), (spline_forward_zero x y y2 (n - 2)).1,
    (spline_forward_zero x y y2 (n - 2)).2]
  simp

/-- A sequence that vanishes at both ends and satisfies `d[k-1] + 4 d[k] + d[k+1] = 0` at
the interior indices vanishes. -/
theorem tridiagonal_zero (d : Nat → K) (n : Nat) (h0 : d 0 = 0) (hl : d (n - 1) = 0)
    (hrec : ∀ k, d k + 4 * d (k + 1) + d (k + 2) = 0 ∨ n - 1 < k + 2) :
    ∀ k, k ≤ n - 1 → d k = 0 := by
  have mono : ∀ k, k + 1 ≤ n - 1 → |d k| ≤ |d (k + 1)| := by
    intro k
    induction k with
    | zero =>
      intro _
      rw [h0, abs_zero]
      exact abs_nonneg _
    | succ k ih =>
      intro hk
      have h1 := ih (by omega)
      rcases hrec k with h | h
      · have e : d (k + 2) + d k = -(4 * d (k + 1)) := by linear_combination h
        have h2 := abs_add (d (k + 2)) (d k)
        rw [e, abs_neg, abs_mul] at h2
        have h4 : |(4 : K)| = 4 := abs_of_pos (by norm_num)
        rw [h4] at h2
        have h3 := abs_nonneg (d (k + 1))
        linarith
      · omega
  have down : ∀ j k, k + j = n - 1 → |d k| ≤ 0 := by
    intro j
    induction j with
    | zero =>
      intro k hk
      have : k = n - 1 := by omega
      rw [this, hl, abs_zero]
    | succ j ih =>
      intro k hk
      exact le_trans (mono k (by omega)) (ih (k + 1) (by omega))
  intro k hk
  exact abs_nonpos_iff.mp (down (n - 1 - k) k (by omega))

/-- On the uniform grid the equations of the natural cubic spline read
`y2[k] + 4 y2[k+1] + y2[k+2] = 6 (y[k] - 2 y[k+1] + y[k+2]) / h^2` with `h = 2/(sp-1)`. -/
theorem spline_system_uniform (sp : Nat) (y y2 : Nat → K) (k : Nat) (hk : k + 2 < sp) :
    spline (grid_p sp) y sp y2 k + 4 * spline (grid_p sp) y sp y2 (k + 1)
        + spline (grid_p sp) y sp y2 (k + 2)
      = 6 * (y k - 2 * y (k + 1) + y (k + 2)) / (2 / ((sp : K) - 1)) ^ 2 := by
  have hsp : 2 ≤ sp := by omega
  have hd : (0 : K) < (sp : K) - 1 := by
    have : (2 : K) ≤ (sp : K) := by exact_mod_cast hsp
    linarith
  have hh : (2 : K) / ((sp : K) - 1) ≠ 0 := ne_of_gt (div_pos (by norm_num) hd)
  have hsys := spline_system (grid_p sp) y y2 sp (by omega)
    (fun i _ => (grid_p_lt_iff sp hsp i (i + 1)).mpr (by omega)) (k + 1) (by omega) (by omega)
  simp only [Nat.add_sub_cancel] at hsys
  have e1 : (grid_p sp (k + 1) : K) - grid_p sp k = 2 / ((sp : K) - 1) := by
    linear_combination -(grid_p_sub_succ (K := K) sp hsp k)
  have e2 : (grid_p sp (k + 1 + 1) : K) - grid_p sp (k + 1) = 2 / ((sp : K) - 1) := by
    linear_combination -(grid_p_sub_succ (K := K) sp hsp (k + 1))
  have e3 : (grid_p sp (k + 1 + 1) : K) - grid_p sp k = 2 * (2 / ((sp : K) - 1)) := by
    linear_combination e1 + e2
  rw [e1, e2, e3] at hsys
  generalize (2 : K) / ((sp : K) - 1) = h at hh hsys ⊢
  generalize spline (grid_p sp) y sp y2 k = Y0 at hsys ⊢
  generalize spline (grid_p sp) y sp y2 (k + 1) = Y1 at hsys ⊢
  generalize spline (grid_p sp) y sp y2 (k + 1 + 1) = Y2 at hsys ⊢
  field_simp
  field_simp at hsys
  linear_combination (1 / 18 : K) * hsys

/-- C36. On the uniform symmetric grid `p[j] = -1 + 2j/(sp-1)` with `sp ≥ 2`, the spline
coefficients of index-reversed samples are the index-reversed coefficients:
`spline(p, reverse(y))[k] = spline(p, y)[sp-1-k]` for `k = 0 .. sp-1`, whatever the output
vectors held before the calls. In particular `ddf1_cache`, which the cache construction
fills by reversing `ddf_cache`, holds the spline coefficients of the mirrored profile
`f1_cache`. -/
theorem spline_of_mirror (sp : Nat) (hsp : 2 ≤ sp) (y y2a y2b : Nat → K) :
    (∀ k, k < sp →
        spline (grid_p sp) (mirror sp y) sp y2a k = mirror sp (spline (grid_p sp) y sp y2b) k)
      ∧ ∀ (atten : Nat → Nat → Nat → K) (sth ia it k : Nat), k < sp →
        ddf1_cache_of atten sp sth ia it k
          = spline (grid_p sp) (f1_cache_of atten sp sth ia it) sp y2a k := by
  have key : ∀ (y y2a y2b : Nat → K) (k : Nat), k < sp →
      spline (grid_p sp) (mirror sp y) sp y2a k
        = mirror sp (spline (grid_p sp) y sp y2b) k := by
    intro y y2a y2b k hk
    have hz := tridiagonal_zero
      (fun k => spline (grid_p sp) (mirror sp y) sp y2a k
        - spline (grid_p sp) y sp y2b (sp - 1 - k)) sp
      (by
        simp only [Nat.sub_zero]
        rw [spline_first _ _ _ sp hsp, spline_last, sub_zero])
      (by
        simp only [Nat.sub_self]
        rw [spline_first _ _ _ sp hsp, spline_last, sub_zero])
      (by
        intro k
        rcases Nat.lt_or_ge (sp - 1) (k + 2) with h | h
        · exact Or.inr h
        · left
          obtain ⟨j, hj⟩ : ∃ j, sp = k + j + 3 := ⟨sp - 3 - k, by omega⟩
          have s1 := spline_system_uniform sp (mirror sp y) y2a k (by omega)
          have s2 := spline_system_uniform sp y y2b j (by omega)
          have i0 : sp - 1 - k = j + 2 := by omega
          have i1 : sp - 1 - (k + 1) = j + 1 := by omega
          have i2 : sp - 1 - (k + 2) = j := by omega
          have m0 : mirror sp y k = y (j + 2) := by
            simp only [mirror, if_pos (show k < sp by omega), i0]
          have m1 : mirror sp y (k + 1) = y (j + 1) := by
            simp only [mirror, if_pos (show k + 1 < sp by omega), i1]
          have m2 : mirror sp y (k + 2) = y j := by
            simp only [mirror, if_pos (show k + 2 < sp by omega), i2]
          rw [m0, m1, m2] at s1
          simp only [i0, i1, i2]
          linear_combination s1 - s2)
      k (by omega)
    simp only [mirror, if_pos hk]
    exact sub_eq_zero.mp hz
  refine ⟨key y y2a y2b, ?_⟩
  intro atten sth ia it k hk
  simp only [ddf1_cache_of, f1_cache_of, ddf_cache_of]
  exact (key _ _ _ k hk).symm

theorem spline_of_mirror_witness :
    (2 ≤ 4)
      ∧ ∀ k, k < 4 →
        spline (grid_p 4) (mirror 4 (vec [1, 2, 4, 8] : Nat → ℚ)) 4 (vec [5, 5, 5, 5]) k
          = mirror 4 (spline (grid_p 4) (vec [1, 2, 4, 8]) 4 (vec [7, 7, 7, 7])) k :=
  ⟨by decide,
    (spline_of_mirror 4 (by decide) (vec [1, 2, 4, 8] : Nat → ℚ) (vec [5, 5, 5, 5])
      (vec [7, 7, 7, 7])).1⟩

/-! ## The number of entries written by `get_all_det_pos_pairs_for_bin` -/

/-- A loop whose every iteration keeps an invariant and advances a counter by `c` keeps the
invariant and advances the counter by `c` times the number of iterations. -/
theorem foldl_count {α σ : Type} (P : σ → Prop) (cnt : σ → Nat) (f : σ → α → σ) (c : Nat)
    (hf : ∀ s a, P s → P (f s a) ∧ cnt (f s a) = cnt s + c) (l : List α) (s : σ) (hs : P s) :
    P (l.foldl f s) ∧ cnt (l.foldl f s) = cnt s + l.length * c := by
  induction l generalizing s with
  | nil => exact ⟨hs, by simp⟩
  | cons a l ih =>
    obtain ⟨h1, h2⟩ := hf s a hs
    obtain ⟨h3, h4⟩ := ih (f s a) h1
    refine ⟨h3, ?_⟩
    simp only [List.foldl_cons, List.length_cons]
    rw [h4, h2]
    ring

theorem loop_values_length (lo hi : Int) : (loop_values lo hi).length = (hi - lo + 1).toNat := by
  unfold loop_values
  rw [List.length_map, List.length_range]

/-- The innermost loop writes at the consecutive indices from `current_dp_num` on. -/
theorem write_timing_loop_spec (det1_num det2_num : Int) (rings : Int × Int)
    (timings : List Int) (s : Nat × List (Nat × DetectionPositionPair))
    (hs : s.2.map Prod.fst = List.range s.1) :
    (write_timing_loop det1_num det2_num rings timings s).2.map Prod.fst
        = List.range (write_timing_loop det1_num det2_num rings timings s).1
      ∧ (write_timing_loop det1_num det2_num rings timings s).1 = s.1 + timings.length * 1 := by
  unfold write_timing_loop
  apply foldl_count (fun s : Nat × List (Nat × DetectionPositionPair) =>
    s.2.map Prod.fst = List.range s.1) (fun s => s.1) _ 1 _ timings s hs
  intro s u h
  refine ⟨?_, rfl⟩
  simp only [List.map_append, List.map_cons, List.map_nil, h, List.range_succ]

/-- The writes of `get_all_det_pos_pairs_for_bin` go to the indices `0, 1, 2, ...` in order,
and their number is the number of ring pairs times the view mashing factor times the number
of timing positions of the loop. -/
theorem get_all_det_pos_pairs_count (num_detectors : Int) (ring_pairs : List (Int × Int))
    (view_mashing_factor tof_mash_factor : Nat) (bin : Bin) (ignore : Bool) :
    (get_all_det_pos_pairs_for_bin num_detectors ring_pairs view_mashing_factor
        tof_mash_factor bin ignore).2.map Prod.fst
      = List.range (get_all_det_pos_pairs_for_bin num_detectors ring_pairs view_mashing_factor
        tof_mash_factor bin ignore).1
    ∧ (get_all_det_pos_pairs_for_bin num_detectors ring_pairs view_mashing_factor
        tof_mash_factor bin ignore).1
      = view_mashing_factor * (ring_pairs.length
        * (loop_values (timing_pos_range tof_mash_factor bin.timing_pos_num ignore).1
            (timing_pos_range tof_mash_factor bin.timing_pos_num ignore).2).length) := by
  simp only [get_all_det_pos_pairs_for_bin]
  have h := foldl_count (fun s : Nat × List (Nat × DetectionPositionPair) =>
      s.2.map Prod.fst = List.range s.1) (fun s => s.1)
    (fun s (dv : Nat) =>
      ring_pairs.foldl
        (fun s rings => write_timing_loop
          (uncompressed_view_tangpos_to_det1det2 num_detectors
            (bin.view_num * (view_mashing_factor : Int) + (dv : Int))
            bin.tangential_pos_num).det1_num
          (uncompressed_view_tangpos_to_det1det2 num_detectors
            (bin.view_num * (view_mashing_factor : Int) + (dv : Int))
            bin.tangential_pos_num).det2_num rings
          (loop_values (timing_pos_range tof_mash_factor bin.timing_pos_num ignore).1
            (timing_pos_range tof_mash_factor bin.timing_pos_num ignore).2) s) s)
    (ring_pairs.length
      * (loop_values (timing_pos_range tof_mash_factor bin.timing_pos_num ignore).1
          (timing_pos_range tof_mash_factor bin.timing_pos_num ignore).2).length)
    (by
      intro s dv hs
      have h2 := foldl_count (fun s : Nat × List (Nat × DetectionPositionPair) =>
          s.2.map Prod.fst = List.range s.1) (fun s => s.1)
        (fun s (rings : Int × Int) => write_timing_loop
          (uncompressed_view_tangpos_to_det1det2 num_detectors
            (bin.view_num * (view_mashing_factor : Int) + (dv : Int))
            bin.tangential_pos_num).det1_num
          (uncompressed_view_tangpos_to_det1det2 num_detectors
            (bin.view_num * (view_mashing_factor : Int) + (dv : Int))
            bin.tangential_pos_num).det2_num rings
          (loop_values (timing_pos_range tof_mash_factor bin.timing_pos_num ignore).1
            (timing_pos_range tof_mash_factor bin.timing_pos_num ignore).2) s)
        ((loop_values (timing_pos_range tof_mash_factor bin.timing_pos_num ignore).1
            (timing_pos_range tof_mash_factor bin.timing_pos_num ignore).2).length)
        (by
          intro s rings hs
          have h3 := write_timing_loop_spec
            (uncompressed_view_tangpos_to_det1det2 num_detectors
              (bin.view_num * (view_mashing_factor : Int) + (dv : Int))
              bin.tangential_pos_num).det1_num
            (uncompressed_view_tangpos_to_det1det2 num_detectors
              (bin.view_num * (view_mashing_factor : Int) + (dv : Int))
              bin.tangential_pos_num).det2_num rings
            (loop_values (timing_pos_range tof_mash_factor bin.timing_pos_num ignore).1
              (timing_pos_range tof_mash_factor bin.timing_pos_num ignore).2) s hs
          have h4 := h3.2
          rw [Nat.mul_one] at h4
          exact ⟨h3.1, h4⟩)
        ring_pairs s hs
      exact h2)
    (List.range view_mashing_factor) (0, []) rfl
  refine ⟨h.1, ?_⟩
  have h2 := h.2
  simp only [List.length_range, Nat.zero_add] at h2
  exact h2

/-- The number of timing positions of the loop: `1` when the non-spatial dimensions are
ignored, `2 * (m / 2) + 1` otherwise. -/
theorem timing_loop_length (tof_mash_factor : Nat) (t : Int) (ignore : Bool) :
    (loop_values (timing_pos_range tof_mash_factor t ignore).1
        (timing_pos_range tof_mash_factor t ignore).2).length
      = if ignore = true then 1 else 2 * (tof_mash_factor / 2) + 1 := by
  rw [loop_values_length]
  unfold timing_pos_range
  cases ignore
  · simp only [Bool.false_eq_true, if_false]
    omega
  · simp

/-- C32. For every bin, whenever the TOF mashing factor `m` is `0` or odd, or the
non-spatial dimensions are ignored, `get_all_det_pos_pairs_for_bin` writes exactly
`get_num_det_pos_pairs_for_bin(bin, ignore)` entries, namely (number of ring pairs) * (view
mashing factor) * (`ignore ? 1 : max(1, m)`), at the indices `0, 1, 2, ...` in order: every
write index is below the size of the vector and the final assertion
`current_dp_num == get_num_det_pos_pairs_for_bin(...)` holds. -/
theorem det_pos_pairs_count (num_detectors : Int) (ring_pairs : List (Int × Int))
    (view_mashing_factor tof_mash_factor : Nat) (bin : Bin) (ignore : Bool)
    (h : tof_mash_factor = 0 ∨ tof_mash_factor % 2 = 1 ∨ ignore = true) :
    (get_all_det_pos_pairs_for_bin num_detectors ring_pairs view_mashing_factor
        tof_mash_factor bin ignore).1
      = get_num_det_pos_pairs_for_bin ring_pairs.length view_mashing_factor tof_mash_factor
        ignore
    ∧ (get_all_det_pos_pairs_for_bin num_detectors ring_pairs view_mashing_factor
        tof_mash_factor bin ignore).2.map Prod.fst
      = List.range (get_num_det_pos_pairs_for_bin ring_pairs.length view_mashing_factor
        tof_mash_factor ignore)
    ∧ ∀ w ∈ (get_all_det_pos_pairs_for_bin num_detectors ring_pairs view_mashing_factor
        tof_mash_factor bin ignore).2,
        w.1 < get_num_det_pos_pairs_for_bin ring_pairs.length view_mashing_factor
          tof_mash_factor ignore := by
  obtain ⟨h1, h2⟩ := get_all_det_pos_pairs_count num_detectors ring_pairs view_mashing_factor
    tof_mash_factor bin ignore
  have hT : (if ignore = true then 1 else 2 * (tof_mash_factor / 2) + 1)
      = (if ignore = true then 1 else max 1 tof_mash_factor) := by
    cases ignore
    · simp only [Bool.false_eq_true, if_false]
      rcases h with h | h | h
      · subst h
        rfl
      · omega
      · exact absurd h (by decide)
    · rfl
  have hc : (get_all_det_pos_pairs_for_bin num_detectors ring_pairs view_mashing_factor
        tof_mash_factor bin ignore).1
      = get_num_det_pos_pairs_for_bin ring_pairs.length view_mashing_factor tof_mash_factor
        ignore := by
    rw [h2, timing_loop_length, hT]
    unfold get_num_det_pos_pairs_for_bin
    ring
  refine ⟨hc, by rw [h1, hc], ?_⟩
  intro w hw
  have : w.1 ∈ (get_all_det_pos_pairs_for_bin num_detectors ring_pairs view_mashing_factor
      tof_mash_factor bin ignore).2.map Prod.fst := List.mem_map_of_mem _ hw
  rw [h1, hc] at this
  exact List.mem_range.mp this

theorem det_pos_pairs_count_witness :
    ((3 : Nat) = 0 ∨ 3 % 2 = 1 ∨ false = true)
      ∧ (get_all_det_pos_pairs_for_bin 8 [(0, 0), (0, 1)] 2 3 ⟨1, -1, 2⟩ false).1
        = get_num_det_pos_pairs_for_bin ([(0, 0), (0, 1)] : List (Int × Int)).length 2 3 false :=
  have h : (3 : Nat) = 0 ∨ 3 % 2 = 1 ∨ false = true := Or.inr (Or.inl (by decide))
  ⟨h, (det_pos_pairs_count 8 [(0, 0), (0, 1)] 2 3 ⟨1, -1, 2⟩ false h).1⟩

/-! ## `spline` at equal abscissae -/

theorem fp_add_not_finite_right (a b : Fp K) (h : b.is_finite = false) :
    (Fp.add a b).is_finite = false := by
  cases a <;> cases b <;> simp_all [Fp.add, Fp.is_finite]

theorem fp_sub_not_finite_left (a b : Fp K) (h : a.is_finite = false) :
    (Fp.sub a b).is_finite = false := by
  cases a <;> cases b <;> simp_all [Fp.sub, Fp.is_finite]

theorem fp_sub_not_finite_right (a b : Fp K) (h : b.is_finite = false) :
    (Fp.sub a b).is_finite = false := by
  cases a <;> cases b <;> simp_all [Fp.sub, Fp.is_finite]

theorem fp_signed_inf_not_finite (a : K) : (Fp.signed_inf a).is_finite = false := by
  unfold Fp.signed_inf
  split_ifs <;> rfl

theorem fp_mul_not_finite_right (a b : Fp K) (h : b.is_finite = false) :
    (Fp.mul a b).is_finite = false := by
  cases a <;> cases b <;>
    first
    | rfl
    | exact fp_signed_inf_not_finite _
    | exact absurd h (by simp [Fp.is_finite])

theorem fp_div_not_finite_left (a b : Fp K) (h : a.is_finite = false) :
    (Fp.div a b).is_finite = false := by
  cases a <;> cases b <;> simp_all [Fp.div, Fp.is_finite] <;> split_ifs <;> rfl

/-- A finite number divided by the difference of two equal finite numbers is not finite. -/
theorem fp_div_zero_not_finite (a : Fp K) (v : K) :
    (Fp.div a (Fp.sub (Fp.fin v) (Fp.fin v))).is_finite = false := by
  cases a <;>
    first
    | rfl
    | (simp only [Fp.div, Fp.sub, sub_self, if_true]; exact fp_signed_inf_not_finite _)
    | (simp only [Fp.div, Fp.sub, sub_self, le_refl, if_true]; rfl)

theorem spline_back_fp_ge (u : Nat → Fp K) (m : Nat) (y2 : Nat → Fp K) (k : Nat) (hk : m ≤ k) :
    spline_back_fp u m y2 k = y2 k := by
  induction m generalizing y2 with
  | zero => rfl
  | succ m ih =>
    rw [spline_back_fp, ih _ (by omega), Function.update_noteq (by omega)]

theorem spline_back_fp_lt (u : Nat → Fp K) (m : Nat) (y2 : Nat → Fp K) (k : Nat) (hk : k < m) :
    spline_back_fp u m y2 k = Fp.add (Fp.mul (y2 k) (spline_back_fp u m y2 (k + 1))) (u k) := by
  induction m generalizing y2 with
  | zero => omega
  | succ m ih =>
    rw [spline_back_fp]
    rcases Nat.lt_succ_iff_lt_or_eq.mp hk with h | h
    · rw [ih _ h, Function.update_noteq (by omega)]
    · subst h
      rw [spline_back_fp_ge u k _ k le_rfl, spline_back_fp_ge u k _ (k + 1) (by omega),
        Function.update_same, Function.update_noteq (by omega)]

theorem spline_forward_fp_snd_stable (x y y2 : Nat → Fp K) (m i : Nat) (h : i ≤ m) :
    (spline_forward_fp x y y2 m).2 i = (spline_forward_fp x y y2 i).2 i := by
  induction m with
  | zero => obtain rfl : i = 0 := by omega
            rfl
  | succ m ih =>
    rcases Nat.lt_or_ge i (m + 1) with h1 | h1
    · rw [← ih (by omega)]
      simp only [spline_forward_fp]
      rw [Function.update_noteq (by omega)]
    · obtain rfl : i = m + 1 := by omega
      rfl

/-- The iteration `j + 1` of the forward elimination stores a value that is not finite in
`u[j+1]` when one of its two difference quotients has the divisor `a - a`. -/
theorem spline_forward_fp_not_finite (x y y2 : Nat → Fp K) (j : Nat)
    (h : (∃ v, x (j + 1 + 1) = Fp.fin v ∧ x (j + 1) = Fp.fin v)
      ∨ (∃ v, x (j + 1) = Fp.fin v ∧ x j = Fp.fin v)) :
    ((spline_forward_fp x y y2 (j + 1)).2 (j + 1)).is_finite = false := by
  simp only [spline_forward_fp, Function.update_same, Nat.add_sub_cancel]
  apply fp_div_not_finite_left
  apply fp_sub_not_finite_left
  apply fp_div_not_finite_left
  apply fp_mul_not_finite_right
  rcases h with ⟨v, h1, h2⟩ | ⟨v, h1, h2⟩
  · apply fp_sub_not_finite_left
    rw [h1, h2]
    exact fp_div_zero_not_finite _ v
  · apply fp_sub_not_finite_right
    rw [h1, h2]
    exact fp_div_zero_not_finite _ v

/-! ## `spline` on finite values with distinct abscissae -/

theorem fp_update_fin {A : Type} (f : Nat → A) (i : Nat) (v : A) :
    Function.update (fun k => Fp.fin (f k)) i (Fp.fin v)
      = fun k => Fp.fin (Function.update f i v k) := by
  funext k
  by_cases h : k = i
  · subst h
    simp
  · simp [Function.update_noteq h]

theorem fp_div_fin (a b : K) (hb : b ≠ 0) : Fp.div (Fp.fin a) (Fp.fin b) = Fp.fin (a / b) := by
  simp only [Fp.div, if_neg hb]

theorem spline_forward_fp_eq (x y y2 : Nat → K) (m : Nat)
    (hx : ∀ i, i ≤ m → x i < x (i + 1)) :
    spline_forward_fp (fun k => Fp.fin (x k)) (fun k => Fp.fin (y k)) (fun k => Fp.fin (y2 k)) m
      = (fun k => Fp.fin ((spline_forward x y y2 m).1 k),
         fun k => Fp.fin ((spline_forward x y y2 m).2 k)) := by
  induction m with
  | zero =>
    simp only [spline_forward_fp, spline_forward]
    rw [fp_update_fin, fp_update_fin]
  | succ m ih =>
    have ha : x (m + 1) - x m ≠ 0 := (sub_pos.mpr (hx m (by omega))).ne'
    have hb : x (m + 1 + 1) - x (m + 1) ≠ 0 := (sub_pos.mpr (hx (m + 1) (by omega))).ne'
    have hab : x (m + 1 + 1) - x m ≠ 0 := by
      have h1 := hx m (by omega)
      have h2 := hx (m + 1) (by omega)
      exact (sub_pos.mpr (h1.trans h2)).ne'
    obtain ⟨hd1, hd2⟩ := spline_forward_bounds x y y2 m (fun i hi => hx i (by omega))
    have hsig0 : 0 < (x (m + 1) - x m) / (x (m + 1 + 1) - x m) :=
      div_pos (sub_pos.mpr (hx m (by omega)))
        (sub_pos.mpr ((hx m (by omega)).trans (hx (m + 1) (by omega))))
    have hsig1 : (x (m + 1) - x m) / (x (m + 1 + 1) - x m) < 1 := by
      rw [div_lt_one (sub_pos.mpr ((hx m (by omega)).trans (hx (m + 1) (by omega))))]
      have := hx (m + 1) (by omega)
      linarith
    have hp : (x (m + 1) - x m) / (x (m + 1 + 1) - x m) * (spline_forward x y y2 m).1 m + 2 ≠ 0 := by
      have : 1 < (x (m + 1) - x m) / (x (m + 1 + 1) - x m) * (spline_forward x y y2 m).1 m + 2 := by
        nlinarith
      exact (lt_trans zero_lt_one this).ne'
    simp only [spline_forward_fp, spline_forward, ih (fun i hi => hx i (by omega)),
      Nat.add_sub_cancel, Fp.sub, Fp.mul, Fp.add, fp_div_fin _ _ hab, fp_div_fin _ _ ha,
      fp_div_fin _ _ hb, fp_div_fin _ _ hp, fp_update_fin]

theorem spline_back_fp_eq (u : Nat → K) (m : Nat) (y2 : Nat → K) :
    spline_back_fp (fun k => Fp.fin (u k)) m (fun k => Fp.fin (y2 k))
      = fun k => Fp.fin (spline_back u m y2 k) := by
  induction m generalizing y2 with
  | zero => rfl
  | succ m ih =>
    simp only [spline_back_fp, spline_back, Fp.mul, Fp.add, fp_update_fin]
    exact ih _

/-- On finite samples with strictly increasing abscissae the two embeddings of `spline`
agree: no divisor vanishes, every value is finite, and `spline_fp` returns the vector that
`spline` returns. -/
theorem spline_fp_eq_spline (x y y2 : Nat → K) (n : Nat) (hn : 2 ≤ n)
    (hx : ∀ i, i + 1 < n → x i < x (i + 1)) :
    spline_fp (fun k => Fp.fin (x k)) (fun k => Fp.fin (y k)) n (fun k => Fp.fin (y2 k))
      = fun k => Fp.fin (spline x y n y2 k) := by
  have h1 : (0 : K) * (spline_forward x y y2 (n - 2)).1 (n - 2) + 1 ≠ 0 := by
    rw [zero_mul, zero_add]
    exact one_ne_zero
  simp only [spline_fp, spline, spline_forward_fp_eq x y y2 (n - 2) (fun i hi => hx i (by omega)),
    Fp.sub, Fp.mul, Fp.add, fp_div_fin _ _ h1, fp_update_fin, spline_back_fp_eq]

/-- C8, as stated, fails: on the abscissae `[0, 1, 1]`, whose last two samples are equal,
with the samples `[1, 0, 0]`, the call of `spline` reports no error; it returns a
coefficient vector, and that vector is `[NaN, NaN, NaN]`: the quotient
`(y[2] - y[1]) / (x[2] - x[1])` is `0 / 0`, which makes `u[1]` NaN, then
`y2[2] = (un - qn * u[1]) / (qn * y2[1] + 1.0)` is NaN, and the back-substitution carries it
to `y2[1]` and `y2[0]`. -/
theorem spline_call_equal_abscissae :
    (fun k => Fp.fin ((vec [0, 1, 1] : Nat → ℚ) k)) 1
        = (fun k => Fp.fin ((vec [0, 1, 1] : Nat → ℚ) k)) (1 + 1)
      ∧ ∃ v, spline_call (fun k => Fp.fin ((vec [0, 1, 1] : Nat → ℚ) k))
            (fun k => Fp.fin ((vec [1, 0, 0] : Nat → ℚ) k)) 3 (fun _ => Fp.fin 0) = Except.ok v
          ∧ v 0 = Fp.nan ∧ v 1 = Fp.nan ∧ v 2 = Fp.nan := by
  refine ⟨by norm_num [vec], _, rfl, ?_, ?_, ?_⟩ <;>
  norm_num [spline_fp, spline_back_fp, spline_forward_fp, Fp.div, Fp.sub, Fp.mul, Fp.add,
    Fp.signed_inf, vec, Function.update]

/-- C8, amended. `spline` does not check its abscissae: for `n ≥ 3` and finite samples,
whenever two consecutive abscissae are equal (`x[i] = x[i+1]` with `i + 1 < n`) the call
reports no error; it returns the coefficient vector its two loops compute, and the entry
`max(i, 1)` of that vector is not a finite number (an infinity or NaN). -/
theorem spline_call_returns (x y y2 : Nat → Fp K) (n : Nat) (hn : 3 ≤ n) (i : Nat)
    (hi : i + 1 < n) (hx : ∃ v, x i = Fp.fin v ∧ x (i + 1) = Fp.fin v) :
    ∃ v, spline_call x y n y2 = Except.ok v ∧ (v (max i 1)).is_finite = false := by
  refine ⟨_, rfl, ?_⟩
  have hj : max i 1 + 1 < n := by omega
  simp only [spline_fp]
  rw [spline_back_fp_lt _ _ _ _ (by omega)]
  apply fp_add_not_finite_right
  rw [spline_forward_fp_snd_stable _ _ _ _ _ (by omega)]
  obtain ⟨v, h1, h2⟩ := hx
  rcases Nat.eq_zero_or_pos i with h0 | h0
  · subst h0
    exact spline_forward_fp_not_finite x y y2 0 (Or.inr ⟨v, h2, h1⟩)
  · obtain ⟨j, rfl⟩ : ∃ j, i = j + 1 := ⟨i - 1, by omega⟩
    have e : max (j + 1) 1 = j + 1 := by omega
    rw [e]
    exact spline_forward_fp_not_finite x y y2 j (Or.inl ⟨v, h2, h1⟩)

theorem spline_call_returns_witness :
    (3 ≤ 3) ∧ (0 + 1 < 3)
      ∧ (∃ v, (fun k => Fp.fin ((vec [2, 2, 5] : Nat → ℚ) k)) 0 = Fp.fin v
        ∧ (fun k => Fp.fin ((vec [2, 2, 5] : Nat → ℚ) k)) (0 + 1) = Fp.fin v)
      ∧ ∃ v, spline_call (fun k => Fp.fin ((vec [2, 2, 5] : Nat → ℚ) k))
            (fun k => Fp.fin ((vec [1, 2, 4] : Nat → ℚ) k)) 3 (fun _ => Fp.fin 0) = Except.ok v
          ∧ (v (max 0 1)).is_finite = false :=
  have h : ∃ v, (fun k => Fp.fin ((vec [2, 2, 5] : Nat → ℚ) k)) 0 = Fp.fin v
      ∧ (fun k => Fp.fin ((vec [2, 2, 5] : Nat → ℚ) k)) (0 + 1) = Fp.fin v :=
    ⟨2, by norm_num [vec], by norm_num [vec]⟩
  ⟨by decide, by decide, h,
    spline_call_returns (fun k => Fp.fin ((vec [2, 2, 5] : Nat → ℚ) k))
      (fun k => Fp.fin ((vec [1, 2, 4] : Nat → ℚ) k)) (fun _ => Fp.fin 0) 3 (by decide) 0
      (by decide) h⟩

theorem int_log_two_eq (a : ℚ) (k : ℤ) (ha : 0 < a) (h1 : (2 : ℚ) ^ k ≤ a)
    (h2 : a < (2 : ℚ) ^ (k + 1)) : Int.log 2 a = k := by
  have hb : (1 : ℕ) < 2 := by norm_num
  have e1 : k ≤ Int.log 2 a := (Int.zpow_le_iff_le_log hb ha).mp (by exact_mod_cast h1)
  have e2 : Int.log 2 a < k + 1 := (Int.lt_zpow_iff_log_lt hb ha).mp (by exact_mod_cast h2)
  omega

/-- What rounding a positive number does: the result is `m * 2 ^ e` with the exponent `e`
that puts `x / 2 ^ e` in `[2 ^ (prec - 1), 2 ^ prec)` and an integer `m` within `1/2` of
`x / 2 ^ e`. -/
theorem round_to_precision_pos_spec (prec : Nat) (x : ℚ) (hx : 0 < x) :
    ∃ (e : ℤ) (m : ℤ), round_to_precision prec x = (m : ℚ) * 2 ^ e
      ∧ (2 : ℚ) ^ ((prec : ℤ) - 1) * 2 ^ e ≤ x ∧ x < (2 : ℚ) ^ (prec : ℤ) * 2 ^ e
      ∧ |x - (m : ℚ) * 2 ^ e| ≤ 2 ^ e / 2 ∧ (m : ℚ) ≤ 2 ^ (prec : ℤ) := by
  have hb : (1 : ℕ) < 2 := by norm_num
  have hlo : (2 : ℚ) ^ (Int.log 2 x) ≤ x := by exact_mod_cast Int.zpow_log_le_self hb hx
  have hhi : x < (2 : ℚ) ^ (Int.log 2 x + 1) := by
    exact_mod_cast Int.lt_zpow_succ_log_self hb x
  set k := Int.log 2 x with hk
  set e : ℤ := k - ((prec : ℤ) - 1) with he
  have h2e : (0 : ℚ) < 2 ^ e := by positivity
  have e1 : (2 : ℚ) ^ ((prec : ℤ) - 1) * 2 ^ e = 2 ^ k := by
    rw [← zpow_add₀ (by norm_num : (2 : ℚ) ≠ 0)]
    congr 1
    omega
  have e2 : (2 : ℚ) ^ (prec : ℤ) * 2 ^ e = 2 ^ (k + 1) := by
    rw [← zpow_add₀ (by norm_num : (2 : ℚ) ≠ 0)]
    congr 1
    omega
  have hs1 : x / 2 ^ e < 2 ^ (prec : ℤ) := by
    rw [div_lt_iff₀ h2e, e2]
    exact hhi
  have hfl : ((⌊x / 2 ^ e⌋ : ℤ) : ℚ) ≤ x / 2 ^ e := Int.floor_le _
  have hfl2 : x / 2 ^ e < ((⌊x / 2 ^ e⌋ : ℤ) : ℚ) + 1 := Int.lt_floor_add_one _
  have hfl3 : ((⌊x / 2 ^ e⌋ : ℤ) : ℚ) + 1 ≤ 2 ^ (prec : ℤ) := by
    have : (⌊x / 2 ^ e⌋ : ℤ) < 2 ^ prec := by
      rw [Int.floor_lt]
      push_cast
      exact_mod_cast hs1
    have h3 : (⌊x / 2 ^ e⌋ : ℤ) + 1 ≤ 2 ^ prec := by omega
    exact_mod_cast h3
  have hxs : x = x / 2 ^ e * 2 ^ e := by field_simp
  have key : ∀ m : ℤ, |x / 2 ^ e - (m : ℚ)| ≤ 1 / 2 → |x - (m : ℚ) * 2 ^ e| ≤ 2 ^ e / 2 := by
    intro m hm
    have : x - (m : ℚ) * 2 ^ e = (x / 2 ^ e - m) * 2 ^ e := by
      rw [sub_mul, div_mul_cancel₀ _ h2e.ne']
    rw [this, abs_mul, abs_of_pos h2e]
    nlinarith
  refine ⟨e, ?_⟩
  unfold round_to_precision
  rw [if_neg hx.ne']
  simp only [abs_of_pos hx, ← hk, ← he, if_neg (not_lt.mpr hx.le)]
  split_ifs with c1 c2 c3
  · refine ⟨_, rfl, by rw [e1]; exact hlo, by rw [e2]; exact hhi, key _ ?_, by linarith⟩
    rw [abs_le]
    constructor <;> linarith
  · refine ⟨_, rfl, by rw [e1]; exact hlo, by rw [e2]; exact hhi, key _ ?_, ?_⟩
    · rw [abs_le]
      push_cast
      constructor <;> linarith
    · push_cast
      linarith
  · refine ⟨_, rfl, by rw [e1]; exact hlo, by rw [e2]; exact hhi, key _ ?_, by linarith⟩
    rw [abs_le]
    constructor <;> linarith
  · refine ⟨_, rfl, by rw [e1]; exact hlo, by rw [e2]; exact hhi, key _ ?_, ?_⟩
    · rw [abs_le]
      push_cast
      constructor <;> linarith
    · push_cast
      linarith

theorem round_to_precision_zero (prec : Nat) : round_to_precision prec 0 = 0 := by
  simp [round_to_precision]

theorem round_to_precision_neg (prec : Nat) (x : ℚ) :
    round_to_precision prec (-x) = -round_to_precision prec x := by
  rcases lt_trichotomy x 0 with h | h | h
  · have h1 : ¬ (-x < 0) := by linarith
    have h2 : -x ≠ 0 := by linarith
    simp only [round_to_precision, if_neg h2, if_neg h.ne, abs_neg, if_neg h1, if_pos h, neg_neg]
  · subst h
    simp [round_to_precision]
  · have h1 : ¬ (x < 0) := by linarith
    have h2 : -x ≠ 0 := by linarith
    have h3 : -x < 0 := by linarith
    simp only [round_to_precision, if_neg h2, if_neg h.ne', abs_neg, if_neg h1, if_pos h3]

/-- The rounding error is at most `|x| / 2 ^ prec`. -/
theorem round_to_precision_abs_sub_le (prec : Nat) (x : ℚ) :
    |round_to_precision prec x - x| ≤ |x| / 2 ^ prec := by
  have pos : ∀ y : ℚ, 0 < y → |round_to_precision prec y - y| ≤ y / 2 ^ prec := by
    intro y hy
    obtain ⟨e, m, hr, h1, _, h3, _⟩ := round_to_precision_pos_spec prec y hy
    rw [hr, abs_sub_comm]
    refine h3.trans ?_
    rw [le_div_iff₀ (by positivity)]
    have e3 : (2 : ℚ) ^ ((prec : ℤ) - 1) = 2 ^ prec / 2 := by
      rw [zpow_sub₀ (by norm_num : (2 : ℚ) ≠ 0), zpow_natCast, zpow_one]
    rw [e3] at h1
    linarith
  rcases lt_trichotomy x 0 with h | h | h
  · have := pos (-x) (by linarith)
    rw [round_to_precision_neg] at this
    rw [abs_of_neg h, abs_sub_comm]
    have e : x - round_to_precision prec x = -round_to_precision prec x - -x := by ring
    rw [e]
    exact this
  · subst h
    simp [round_to_precision_zero]
  · rw [abs_of_pos h]
    exact pos x h

theorem round_to_precision_nonneg (prec : Nat) (x : ℚ) (hx : 0 ≤ x) :
    0 ≤ round_to_precision prec x := by
  have h := round_to_precision_abs_sub_le prec x
  rw [abs_of_nonneg hx, abs_le] at h
  have h2 : x / 2 ^ prec ≤ x := div_le_self hx (one_le_pow₀ (by norm_num))
  linarith

theorem round_to_precision_pos (prec : Nat) (hp : 1 ≤ prec) (x : ℚ) (hx : 0 < x) :
    0 < round_to_precision prec x := by
  have h := round_to_precision_abs_sub_le prec x
  rw [abs_of_pos hx, abs_le] at h
  have h3 : (2 : ℚ) ≤ 2 ^ prec := by
    calc (2 : ℚ) = 2 ^ 1 := by norm_num
      _ ≤ 2 ^ prec := pow_le_pow_right₀ (by norm_num) hp
  have h2 : x / 2 ^ prec ≤ x / 2 := div_le_div_of_nonneg_left hx.le (by norm_num) h3
  linarith

/-- Rounding does not cross the floating-point number `1`. -/
theorem round_to_precision_le_one (prec : Nat) (x : ℚ) (hx : x < 1) :
    round_to_precision prec x ≤ 1 := by
  rcases lt_trichotomy x 0 with h | h | h
  · have := round_to_precision_nonneg prec (-x) (by linarith)
    rw [round_to_precision_neg] at this
    linarith
  · subst h
    simp [round_to_precision_zero]
  · obtain ⟨e, m, hr, h1, _, _, h5⟩ := round_to_precision_pos_spec prec x h
    rw [hr]
    have h2e : (0 : ℚ) < 2 ^ e := by positivity
    have h6 : (2 : ℚ) ^ ((prec : ℤ) - 1 + e) < 2 ^ (0 : ℤ) := by
      rw [zpow_add₀ (by norm_num : (2 : ℚ) ≠ 0), zpow_zero]
      linarith
    have h7 : (prec : ℤ) - 1 + e < 0 := (zpow_lt_zpow_iff_right₀ (by norm_num : (1 : ℚ) < 2)).mp h6
    have h8 : (2 : ℚ) ^ ((prec : ℤ) + e) ≤ 2 ^ (0 : ℤ) :=
      zpow_le_zpow_right₀ (by norm_num) (by omega)
    rw [zpow_add₀ (by norm_num : (2 : ℚ) ≠ 0), zpow_zero] at h8
    calc (m : ℚ) * 2 ^ e ≤ 2 ^ (prec : ℤ) * 2 ^ e := mul_le_mul_of_nonneg_right h5 h2e.le
      _ ≤ 1 := h8

/-- Evaluation of a rounding: the exponent `e` and the integer `m` determine the result. -/
theorem round_to_precision_eq (prec : Nat) (x : ℚ) (e m : ℤ)
    (h1 : (2 : ℚ) ^ ((prec : ℤ) - 1 + e) ≤ x) (h2 : x < (2 : ℚ) ^ ((prec : ℤ) + e))
    (h3 : |x - (m : ℚ) * 2 ^ e| < 2 ^ e / 2) : round_to_precision prec x = (m : ℚ) * 2 ^ e := by
  have hx : 0 < x := lt_of_lt_of_le (by positivity) h1
  have hlog : Int.log 2 x = (prec : ℤ) - 1 + e :=
    int_log_two_eq x _ hx h1 (by rw [show (prec : ℤ) - 1 + e + 1 = (prec : ℤ) + e by ring]; exact h2)
  have h2e : (0 : ℚ) < 2 ^ e := by positivity
  have h4 : |x / 2 ^ e - (m : ℚ)| < 1 / 2 := by
    have : x / 2 ^ e - (m : ℚ) = (x - (m : ℚ) * 2 ^ e) / 2 ^ e := by
      rw [sub_div, mul_div_cancel_right₀ _ h2e.ne']
    rw [this, abs_div, abs_of_pos h2e, div_lt_iff₀ h2e]
    linarith
  rw [abs_lt] at h4
  have hfl : ((⌊x / 2 ^ e⌋ : ℤ) : ℚ) ≤ x / 2 ^ e := Int.floor_le _
  have hfl2 : x / 2 ^ e < ((⌊x / 2 ^ e⌋ : ℤ) : ℚ) + 1 := Int.lt_floor_add_one _
  have hcase : ⌊x / 2 ^ e⌋ = m ∨ ⌊x / 2 ^ e⌋ = m - 1 := by
    have a1 : ((⌊x / 2 ^ e⌋ : ℤ) : ℚ) < (m : ℚ) + 1 := by linarith
    have a2 : (m : ℚ) - 2 < ((⌊x / 2 ^ e⌋ : ℤ) : ℚ) := by linarith
    have a3 : ⌊x / 2 ^ e⌋ < m + 1 := by exact_mod_cast a1
    have a4 : m - 2 < ⌊x / 2 ^ e⌋ := by exact_mod_cast a2
    omega
  unfold round_to_precision
  rw [if_neg hx.ne']
  have he : Int.log 2 x - ((prec : ℤ) - 1) = e := by omega
  simp only [abs_of_pos hx, he, if_neg (not_lt.mpr hx.le)]
  rcases hcase with hc | hc
  · rw [hc, if_pos (by linarith)]
  · rw [hc] at hfl hfl2 ⊢
    push_cast at hfl hfl2 ⊢
    rw [if_neg (by linarith), if_pos (by linarith)]
    ring

/-- A number that is `m * 2 ^ e` with `2 ^ (prec - 1) ≤ m < 2 ^ prec` is a floating-point
number: rounding leaves it as it is. -/
theorem round_to_precision_exact (prec : Nat) (x : ℚ) (e m : ℤ) (hx : x = (m : ℚ) * 2 ^ e)
    (h1 : (2 : ℚ) ^ ((prec : ℤ) - 1 + e) ≤ x) (h2 : x < (2 : ℚ) ^ ((prec : ℤ) + e)) :
    round_to_precision prec x = x := by
  rw [round_to_precision_eq prec x e m h1 h2 ?_, hx]
  rw [hx, sub_self, abs_zero]
  positivity

theorem four_zpow (u : ℤ) : (4 : ℚ) ^ u = 2 ^ (2 * u) := by
  rw [zpow_mul, show (2 : ℚ) ^ (2 : ℤ) = 4 by norm_num]

theorem int_log_two_half (d : ℚ) (u : ℤ) (hd : 0 < d) (h1 : (4 : ℚ) ^ u ≤ d)
    (h2 : d < (4 : ℚ) ^ (u + 1)) : Int.log 2 d / 2 = u := by
  have hb : (1 : ℕ) < 2 := by norm_num
  rw [four_zpow] at h1 h2
  have e1 : 2 * u ≤ Int.log 2 d := (Int.zpow_le_iff_le_log hb hd).mp (by exact_mod_cast h1)
  have e2 : Int.log 2 d < 2 * (u + 1) := (Int.lt_zpow_iff_log_lt hb hd).mp (by exact_mod_cast h2)
  omega

theorem int_log_two_half_bounds (d : ℚ) (hd : 0 < d) :
    (4 : ℚ) ^ (Int.log 2 d / 2) ≤ d ∧ d < (4 : ℚ) ^ (Int.log 2 d / 2 + 1) := by
  have hb : (1 : ℕ) < 2 := by norm_num
  have hlo : (2 : ℚ) ^ (Int.log 2 d) ≤ d := by exact_mod_cast Int.zpow_log_le_self hb hd
  have hhi : d < (2 : ℚ) ^ (Int.log 2 d + 1) := by
    exact_mod_cast Int.lt_zpow_succ_log_self hb d
  rw [four_zpow, four_zpow]
  constructor
  · refine le_trans (zpow_le_zpow_right₀ (by norm_num) ?_) hlo
    omega
  · refine lt_of_lt_of_le hhi (zpow_le_zpow_right₀ (by norm_num) ?_)
    omega

/-- What the square root of a positive number is: a positive number whose square is the
argument up to the factors `(1 - 2 ^ -prec) ^ 2` and `(1 + 2 ^ -prec) ^ 2`. -/
theorem sqrt_to_precision_pos_spec (prec : Nat) (hp : 1 ≤ prec) (d : ℚ) (hd : 0 < d) :
    ∃ a : ℚ, sqrt_to_precision prec d = some a ∧ 0 < a
      ∧ a ^ 2 ≤ (1 + 1 / 2 ^ prec) ^ 2 * d ∧ (1 - 1 / 2 ^ prec) ^ 2 * d ≤ a ^ 2 := by
  obtain ⟨hlo, hhi⟩ := int_log_two_half_bounds d hd
  set h := Int.log 2 d / 2 with hh
  set e : ℤ := h - ((prec : ℤ) - 1) with he
  have h4e : (0 : ℚ) < 4 ^ e := by positivity
  have h2e : (0 : ℚ) < 2 ^ e := by positivity
  have h24 : ((2 : ℚ) ^ e) ^ 2 = 4 ^ e := by
    rw [four_zpow, ← zpow_natCast, ← zpow_mul]
    congr 1
    ring
  set s : ℚ := d / 4 ^ e with hs
  have hds : d = s * 4 ^ e := by rw [hs, div_mul_cancel₀ _ h4e.ne']
  have hs0 : 0 < s := div_pos hd h4e
  -- the lower bound on `s`
  have hs1 : ((2 : ℚ) ^ (prec - 1)) ^ 2 ≤ s := by
    rw [hs, le_div_iff₀ h4e]
    refine le_trans (le_of_eq ?_) hlo
    rw [four_zpow, four_zpow, ← pow_mul, ← zpow_natCast, ← zpow_add₀ (by norm_num : (2 : ℚ) ≠ 0)]
    congr 1
    push_cast [Nat.cast_sub hp]
    omega
  set f : ℕ := Nat.sqrt ⌊s⌋₊ with hf
  have hf1 : ((f : ℚ)) ^ 2 ≤ s := by
    have a1 : f ^ 2 ≤ ⌊s⌋₊ := Nat.sqrt_le' _
    have a2 : ((⌊s⌋₊ : ℕ) : ℚ) ≤ s := Nat.floor_le hs0.le
    have a3 : ((f ^ 2 : ℕ) : ℚ) ≤ ((⌊s⌋₊ : ℕ) : ℚ) := by exact_mod_cast a1
    push_cast at a3
    linarith
  have hf2 : s < ((f : ℚ) + 1) ^ 2 := by
    have a1 : ⌊s⌋₊ < (f + 1) ^ 2 := Nat.lt_succ_sqrt' _
    have a2 : s < ((⌊s⌋₊ : ℕ) : ℚ) + 1 := Nat.lt_floor_add_one s
    have a3 : ((⌊s⌋₊ + 1 : ℕ) : ℚ) ≤ (((f + 1) ^ 2 : ℕ) : ℚ) := by exact_mod_cast a1
    push_cast at a3
    linarith
  have hf3 : (2 : ℚ) ^ (prec - 1) ≤ f := by
    have a1 : 2 ^ (prec - 1) ≤ f := by
      rw [hf, Nat.le_sqrt']
      have a2 : (((2 ^ (prec - 1)) ^ 2 : ℕ) : ℚ) ≤ s := by
        push_cast
        exact hs1
      exact Nat.le_floor a2
    exact_mod_cast a1
  have hc : (0 : ℚ) < 2 ^ (prec - 1) := by positivity
  have heta : (1 : ℚ) / 2 ^ prec * 2 ^ (prec - 1) = 1 / 2 := by
    have : (2 : ℚ) ^ prec = 2 ^ (prec - 1) * 2 := by
      rw [← pow_succ]
      congr 1
      omega
    rw [this]
    field_simp
  set η : ℚ := 1 / 2 ^ prec with hη
  have hη0 : 0 < η := by positivity
  have hη1 : η ≤ 1 / 2 := by
    rw [hη]
    have : (2 : ℚ) ^ 1 ≤ 2 ^ prec := pow_le_pow_right₀ (by norm_num) hp
    rw [div_le_div_iff₀ (by positivity) (by norm_num)]
    linarith
  -- the key fact: half a unit is at most the fraction `η` of `f + 1/2`
  have key : 1 / 2 ≤ η * ((f : ℚ) + 1 / 2) := by
    have : η * 2 ^ (prec - 1) ≤ η * ((f : ℚ) + 1 / 2) :=
      mul_le_mul_of_nonneg_left (by linarith) hη0.le
    linarith
  have hf0 : (0 : ℚ) < f := lt_of_lt_of_le hc hf3
  -- the two candidates
  have low : (1 - η) ^ 2 * s ≤ (f : ℚ) ^ 2 ∨ ((f : ℚ) + 1 / 2) ^ 2 < s := by
    by_cases c : ((f : ℚ) + 1 / 2) ^ 2 < s
    · exact Or.inr c
    · left
      push_neg at c
      have b1 : (1 - η) * ((f : ℚ) + 1 / 2) ≤ f := by linarith
      have b2 : 0 ≤ (1 - η) * ((f : ℚ) + 1 / 2) := by
        apply mul_nonneg <;> linarith
      calc (1 - η) ^ 2 * s ≤ (1 - η) ^ 2 * ((f : ℚ) + 1 / 2) ^ 2 :=
            mul_le_mul_of_nonneg_left c (by positivity)
        _ = ((1 - η) * ((f : ℚ) + 1 / 2)) ^ 2 := by ring
        _ ≤ (f : ℚ) ^ 2 := pow_le_pow_left₀ b2 b1 2
  have up : ((f : ℚ) + 1 / 2) ^ 2 ≤ s → ((f : ℚ) + 1) ^ 2 ≤ (1 + η) ^ 2 * s := by
    intro c
    have b1 : (f : ℚ) + 1 ≤ (1 + η) * ((f : ℚ) + 1 / 2) := by linarith
    calc ((f : ℚ) + 1) ^ 2 ≤ ((1 + η) * ((f : ℚ) + 1 / 2)) ^ 2 :=
          pow_le_pow_left₀ (by positivity) b1 2
      _ = (1 + η) ^ 2 * ((f : ℚ) + 1 / 2) ^ 2 := by ring
      _ ≤ (1 + η) ^ 2 * s := mul_le_mul_of_nonneg_left c (by positivity)
  have one_le : (1 : ℚ) ≤ (1 + η) ^ 2 := by
    have := sq_nonneg η
    linarith [show (1 + η) ^ 2 = 1 + 2 * η + η ^ 2 by ring]
  have le_one : (1 - η) ^ 2 ≤ (1 : ℚ) := by
    have : η ^ 2 ≤ η * 1 := by
      rw [pow_two]
      exact mul_le_mul_of_nonneg_left (by linarith) hη0.le
    linarith [show (1 - η) ^ 2 = 1 - 2 * η + η ^ 2 by ring]
  -- the result for `m = f`
  have resf : s ≤ ((f : ℚ) + 1 / 2) ^ 2 →
      0 < (f : ℚ) * 2 ^ e ∧ ((f : ℚ) * 2 ^ e) ^ 2 ≤ (1 + η) ^ 2 * d
        ∧ (1 - η) ^ 2 * d ≤ ((f : ℚ) * 2 ^ e) ^ 2 := by
    intro c
    refine ⟨by positivity, ?_, ?_⟩
    · rw [mul_pow, h24, hds, ← mul_assoc]
      refine mul_le_mul_of_nonneg_right ?_ h4e.le
      calc (f : ℚ) ^ 2 ≤ 1 * s := by linarith
        _ ≤ (1 + η) ^ 2 * s := mul_le_mul_of_nonneg_right one_le hs0.le
    · rw [mul_pow, h24, hds, ← mul_assoc]
      refine mul_le_mul_of_nonneg_right ?_ h4e.le
      rcases low with l | l
      · exact l
      · linarith
  -- the result for `m = f + 1`
  have resf1 : ((f : ℚ) + 1 / 2) ^ 2 ≤ s →
      0 < ((f : ℚ) + 1) * 2 ^ e ∧ (((f : ℚ) + 1) * 2 ^ e) ^ 2 ≤ (1 + η) ^ 2 * d
        ∧ (1 - η) ^ 2 * d ≤ (((f : ℚ) + 1) * 2 ^ e) ^ 2 := by
    intro c
    refine ⟨by positivity, ?_, ?_⟩
    · rw [mul_pow, h24, hds, ← mul_assoc]
      exact mul_le_mul_of_nonneg_right (up c) h4e.le
    · rw [mul_pow, h24, hds, ← mul_assoc]
      refine mul_le_mul_of_nonneg_right ?_ h4e.le
      calc (1 - η) ^ 2 * s ≤ 1 * s := mul_le_mul_of_nonneg_right le_one hs0.le
        _ ≤ ((f : ℚ) + 1) ^ 2 := by linarith
  unfold sqrt_to_precision
  rw [if_neg (not_lt.mpr hd.le), if_neg hd.ne']
  simp only [← hh, ← he, ← hs, ← hf]
  split_ifs with c1 c2 c3
  · exact ⟨_, rfl, resf c1.le⟩
  · refine ⟨_, rfl, ?_⟩
    push_cast
    exact resf1 c2.le
  · exact ⟨_, rfl, resf (not_lt.mp c2)⟩
  · refine ⟨_, rfl, ?_⟩
    push_cast
    exact resf1 (not_lt.mp c1)

/-- Evaluation of a square root: the exponent `e` and the integer `m` determine the result. -/
theorem sqrt_to_precision_eq (prec : Nat) (d : ℚ) (e : ℤ) (m : ℕ) (hm : 1 ≤ m)
    (h1 : (4 : ℚ) ^ ((prec : ℤ) - 1 + e) ≤ d) (h2 : d < (4 : ℚ) ^ ((prec : ℤ) + e))
    (h3 : ((m : ℚ) - 1 / 2) ^ 2 * 4 ^ e < d) (h4 : d < ((m : ℚ) + 1 / 2) ^ 2 * 4 ^ e) :
    sqrt_to_precision prec d = some ((m : ℚ) * 2 ^ e) := by
  have hd : 0 < d := lt_of_lt_of_le (by positivity) h1
  have hlog : Int.log 2 d / 2 = (prec : ℤ) - 1 + e :=
    int_log_two_half d _ hd h1 (by rw [show (prec : ℤ) - 1 + e + 1 = (prec : ℤ) + e by ring]; exact h2)
  have h4e : (0 : ℚ) < 4 ^ e := by positivity
  set s : ℚ := d / 4 ^ e with hs
  have hs0 : 0 < s := div_pos hd h4e
  have h3s : ((m : ℚ) - 1 / 2) ^ 2 < s := by rw [hs, lt_div_iff₀ h4e]; exact h3
  have h4s : s < ((m : ℚ) + 1 / 2) ^ 2 := by rw [hs, div_lt_iff₀ h4e]; exact h4
  set f : ℕ := Nat.sqrt ⌊s⌋₊ with hf
  have hf1 : ((f : ℚ)) ^ 2 ≤ s := by
    have a1 : f ^ 2 ≤ ⌊s⌋₊ := Nat.sqrt_le' _
    have a2 : ((⌊s⌋₊ : ℕ) : ℚ) ≤ s := Nat.floor_le hs0.le
    have a3 : ((f ^ 2 : ℕ) : ℚ) ≤ ((⌊s⌋₊ : ℕ) : ℚ) := by exact_mod_cast a1
    push_cast at a3
    linarith
  have hf2 : s < ((f : ℚ) + 1) ^ 2 := by
    have a1 : ⌊s⌋₊ < (f + 1) ^ 2 := Nat.lt_succ_sqrt' _
    have a2 : s < ((⌊s⌋₊ : ℕ) : ℚ) + 1 := Nat.lt_floor_add_one s
    have a3 : ((⌊s⌋₊ + 1 : ℕ) : ℚ) ≤ (((f + 1) ^ 2 : ℕ) : ℚ) := by exact_mod_cast a1
    push_cast at a3
    linarith
  have hm1 : (1 : ℚ) ≤ m := by exact_mod_cast hm
  have hf0 : (0 : ℚ) ≤ f := Nat.cast_nonneg f
  -- comparisons of squares of nonnegative numbers
  have sq_lt : ∀ a b : ℚ, 0 ≤ b → a ^ 2 < b ^ 2 → a < b := by
    intro a b hb hab
    by_contra hc
    push_neg at hc
    have := pow_le_pow_left₀ hb hc 2
    linarith
  unfold sqrt_to_precision
  rw [if_neg (not_lt.mpr hd.le), if_neg hd.ne']
  have he : Int.log 2 d / 2 - ((prec : ℤ) - 1) = e := by omega
  simp only [he, ← hs, ← hf]
  have fin : ∀ n : ℕ, n = m → some ((n : ℚ) * (2 : ℚ) ^ e) = some ((m : ℚ) * 2 ^ e) := by
    intro n hn
    rw [hn]
  have cmp : ∀ a b : ℕ, (a : ℚ) < (b : ℚ) + 1 → a ≤ b := by
    intro a b hab
    have : a < b + 1 := by exact_mod_cast hab
    omega
  split_ifs with c1 c2 c3
  · apply fin
    have a1 : (m : ℚ) - 1 / 2 < (f : ℚ) + 1 / 2 := sq_lt _ _ (by linarith) (lt_trans h3s c1)
    have a2 : (f : ℚ) < (m : ℚ) + 1 / 2 := sq_lt _ _ (by linarith) (lt_of_le_of_lt hf1 h4s)
    have a3 := cmp m f (by linarith)
    have a4 := cmp f m (by linarith)
    omega
  · apply fin
    have a1 : (f : ℚ) + 1 / 2 < (m : ℚ) + 1 / 2 := sq_lt _ _ (by linarith) (lt_trans c2 h4s)
    have a2 : (m : ℚ) - 1 / 2 < (f : ℚ) + 1 := sq_lt _ _ (by linarith) (lt_trans h3s hf2)
    have a3 : f < m := by exact_mod_cast (by linarith : (f : ℚ) < m)
    have a4 := cmp m (f + 1) (by push_cast; linarith)
    omega
  · exfalso
    have c : s = ((f : ℚ) + 1 / 2) ^ 2 := le_antisymm (not_lt.mp c2) (not_lt.mp c1)
    rw [c] at h3s h4s
    have a1 : (m : ℚ) - 1 / 2 < (f : ℚ) + 1 / 2 := sq_lt _ _ (by linarith) h3s
    have a2 : (f : ℚ) + 1 / 2 < (m : ℚ) + 1 / 2 := sq_lt _ _ (by linarith) h4s
    have a3 : f < m := by exact_mod_cast (by linarith : (f : ℚ) < m)
    have a4 := cmp m f (by linarith)
    omega
  · exfalso
    have c : s = ((f : ℚ) + 1 / 2) ^ 2 := le_antisymm (not_lt.mp c2) (not_lt.mp c1)
    rw [c] at h3s h4s
    have a1 : (m : ℚ) - 1 / 2 < (f : ℚ) + 1 / 2 := sq_lt _ _ (by linarith) h3s
    have a2 : (f : ℚ) + 1 / 2 < (m : ℚ) + 1 / 2 := sq_lt _ _ (by linarith) h4s
    have a3 : f < m := by exact_mod_cast (by linarith : (f : ℚ) < m)
    have a4 := cmp m f (by linarith)
    omega

theorem round_to_precision_bounds (prec : Nat) (x : ℚ) (hx : 0 ≤ x) :
    (1 - 1 / 2 ^ prec) * x ≤ round_to_precision prec x
      ∧ round_to_precision prec x ≤ (1 + 1 / 2 ^ prec) * x := by
  have h := round_to_precision_abs_sub_le prec x
  rw [abs_of_nonneg hx, abs_le] at h
  have e : x / 2 ^ prec = 1 / 2 ^ prec * x := by ring
  rw [e] at h
  constructor <;> linarith

theorem abs_lt_of_sq_lt_sq (a b : ℚ) (hb : 0 ≤ b) (h : a ^ 2 < b ^ 2) : |a| < b := by
  by_contra hc
  push_neg at hc
  have := pow_le_pow_left₀ hb hc 2
  rw [sq_abs] at this
  linarith

theorem le_abs_of_sq_le_sq (a b : ℚ) (h : b ^ 2 ≤ a ^ 2) : b ≤ |a| := by
  by_contra hc
  push_neg at hc
  have := pow_lt_pow_left₀ hc (abs_nonneg a) (by norm_num : 2 ≠ 0)
  rw [sq_abs] at this
  linarith

/-- The value of `aux` for `|x2| < 1`, `x2 ^ 2 < 1`: it is a number `b ≥ 0`, and when
`1 - binary32 (x2 * x2)` is positive its square is that number up to the rounding factors. -/
theorem aux_binary32_spec (x2 : ℚ) (h : x2 ^ 2 < 1) :
    ∃ b : ℚ, aux_binary32 x2 = some b ∧ 0 ≤ b
      ∧ b ^ 2 ≤ (1 + 1 / 2 ^ 24) ^ 2 * ((1 + 1 / 2 ^ 53) ^ 2 * ((1 + 1 / 2 ^ 53)
            * (1 - binary32 (x2 * x2))))
      ∧ (1 - 1 / 2 ^ 24) ^ 2 * ((1 - 1 / 2 ^ 53) ^ 2 * ((1 - 1 / 2 ^ 53)
            * (1 - binary32 (x2 * x2)))) ≤ b ^ 2 := by
  have hq1 : binary32 (x2 * x2) ≤ 1 := round_to_precision_le_one 24 _ (by rw [← pow_two]; exact h)
  set u : ℚ := 1 - binary32 (x2 * x2) with hu
  have hu0 : 0 ≤ u := by linarith
  unfold aux_binary32
  rw [← hu]
  rcases hu0.eq_or_lt with h0 | h0
  · rw [← h0]
    refine ⟨0, ?_, le_rfl, by norm_num, by norm_num⟩
    simp [binary64, binary32, round_to_precision_zero, sqrt_to_precision]
  · have hd0 : 0 < binary64 u := round_to_precision_pos 53 (by norm_num) u h0
    obtain ⟨hd1, hd2⟩ := round_to_precision_bounds 53 u h0.le
    obtain ⟨a, ha, ha0, ha1, ha2⟩ := sqrt_to_precision_pos_spec 53 (by norm_num) (binary64 u) hd0
    obtain ⟨hb1, hb2⟩ := round_to_precision_bounds 24 a ha0.le
    have hb0 : 0 ≤ binary32 a := round_to_precision_nonneg 24 a ha0.le
    have c1 : (0 : ℚ) ≤ 1 - 1 / 2 ^ 24 := by norm_num
    have c2 : (0 : ℚ) ≤ 1 - 1 / 2 ^ 53 := by norm_num
    refine ⟨binary32 a, by rw [ha]; rfl, hb0, ?_, ?_⟩
    · calc binary32 a ^ 2 ≤ ((1 + 1 / 2 ^ 24) * a) ^ 2 := pow_le_pow_left₀ hb0 hb2 2
        _ = (1 + 1 / 2 ^ 24) ^ 2 * a ^ 2 := by ring
        _ ≤ (1 + 1 / 2 ^ 24) ^ 2 * ((1 + 1 / 2 ^ 53) ^ 2 * binary64 u) :=
            mul_le_mul_of_nonneg_left ha1 (by positivity)
        _ ≤ (1 + 1 / 2 ^ 24) ^ 2 * ((1 + 1 / 2 ^ 53) ^ 2 * ((1 + 1 / 2 ^ 53) * u)) :=
            mul_le_mul_of_nonneg_left (mul_le_mul_of_nonneg_left hd2 (by positivity))
              (by positivity)
    · calc (1 - 1 / 2 ^ 24) ^ 2 * ((1 - 1 / 2 ^ 53) ^ 2 * ((1 - 1 / 2 ^ 53) * u))
          ≤ (1 - 1 / 2 ^ 24) ^ 2 * ((1 - 1 / 2 ^ 53) ^ 2 * binary64 u) :=
            mul_le_mul_of_nonneg_left (mul_le_mul_of_nonneg_left hd1 (by positivity))
              (by positivity)
        _ ≤ (1 - 1 / 2 ^ 24) ^ 2 * a ^ 2 := mul_le_mul_of_nonneg_left ha2 (by positivity)
        _ = ((1 - 1 / 2 ^ 24) * a) ^ 2 := by ring
        _ ≤ binary32 a ^ 2 := pow_le_pow_left₀ (mul_nonneg c1 ha0.le) hb1 2

/-- The floating-point skip test skips every point with `x1 ^ 2 + x2 ^ 2 ≥ 1 + 2 ^ -20`. -/
theorem skipped_binary32_of_outside (x1 x2 : ℚ) (h : 1 + 1 / 2 ^ 20 ≤ x1 ^ 2 + x2 ^ 2) :
    skipped_binary32 x1 x2 := by
  by_cases hx2 : |x2| ≥ 1
  · exact Or.inl hx2
  · right
    push_neg at hx2
    have hsq : x2 ^ 2 < 1 := by
      rw [← sq_abs]
      exact pow_lt_one₀ (abs_nonneg _) hx2 (by norm_num)
    obtain ⟨b, hb, _, hb1, _⟩ := aux_binary32_spec x2 hsq
    rw [hb]
    show b ≤ |x1|
    apply le_abs_of_sq_le_sq
    obtain ⟨hq1, _⟩ := round_to_precision_bounds 24 (x2 * x2) (mul_self_nonneg x2)
    rw [← pow_two] at hq1
    have hx0 : 0 ≤ x2 ^ 2 := sq_nonneg x2
    have hu : 1 - binary32 (x2 * x2) ≤ 1 - x2 ^ 2 + 1 / 2 ^ 24 := by
      rw [← pow_two]
      have : (1 - 1 / 2 ^ 24) * x2 ^ 2 ≤ binary32 (x2 ^ 2) := hq1
      nlinarith
    have key : (1 + 1 / 2 ^ 24) ^ 2 * ((1 + 1 / 2 ^ 53) ^ 2 * ((1 + 1 / 2 ^ 53)
        * (1 - x2 ^ 2 + 1 / 2 ^ 24))) ≤ 1 - x2 ^ 2 + 1 / 2 ^ 20 := by
      have e : (1 + 1 / 2 ^ 24) ^ 2 * ((1 + 1 / 2 ^ 53) ^ 2 * ((1 + 1 / 2 ^ 53)
          * (1 - x2 ^ 2 + 1 / 2 ^ 24)))
          = ((1 + 1 / 2 ^ 24) ^ 2 * (1 + 1 / 2 ^ 53) ^ 3) * (1 - x2 ^ 2)
            + ((1 + 1 / 2 ^ 24) ^ 2 * (1 + 1 / 2 ^ 53) ^ 3) * (1 / 2 ^ 24) := by ring
      rw [e]
      have n1 : ((1 : ℚ) + 1 / 2 ^ 24) ^ 2 * (1 + 1 / 2 ^ 53) ^ 3 ≤ 1 + 3 / 2 ^ 24 := by norm_num
      have n2 : (0 : ℚ) ≤ (1 + 1 / 2 ^ 24) ^ 2 * (1 + 1 / 2 ^ 53) ^ 3 := by positivity
      have t0 : 0 ≤ 1 - x2 ^ 2 := by linarith
      have t1 : 1 - x2 ^ 2 ≤ 1 := by linarith
      have s1 : ((1 : ℚ) + 1 / 2 ^ 24) ^ 2 * (1 + 1 / 2 ^ 53) ^ 3 * (1 - x2 ^ 2)
          ≤ (1 + 3 / 2 ^ 24) * (1 - x2 ^ 2) := mul_le_mul_of_nonneg_right n1 t0
      have s2 : ((1 : ℚ) + 1 / 2 ^ 24) ^ 2 * (1 + 1 / 2 ^ 53) ^ 3 * (1 / 2 ^ 24)
          ≤ (1 + 3 / 2 ^ 24) * (1 / 2 ^ 24) := mul_le_mul_of_nonneg_right n1 (by positivity)
      have s3 : (3 : ℚ) / 2 ^ 24 * (1 - x2 ^ 2) ≤ 3 / 2 ^ 24 * 1 :=
        mul_le_mul_of_nonneg_left t1 (by positivity)
      have s4 : ((1 : ℚ) + 3 / 2 ^ 24) * (1 / 2 ^ 24) + 3 / 2 ^ 24 ≤ 1 / 2 ^ 20 := by norm_num
      linarith
    calc b ^ 2 ≤ (1 + 1 / 2 ^ 24) ^ 2 * ((1 + 1 / 2 ^ 53) ^ 2 * ((1 + 1 / 2 ^ 53)
            * (1 - binary32 (x2 * x2)))) := hb1
      _ ≤ (1 + 1 / 2 ^ 24) ^ 2 * ((1 + 1 / 2 ^ 53) ^ 2 * ((1 + 1 / 2 ^ 53)
            * (1 - x2 ^ 2 + 1 / 2 ^ 24))) :=
          mul_le_mul_of_nonneg_left (mul_le_mul_of_nonneg_left
            (mul_le_mul_of_nonneg_left hu (by positivity)) (by positivity)) (by positivity)
      _ ≤ 1 - x2 ^ 2 + 1 / 2 ^ 20 := key
      _ ≤ x1 ^ 2 := by linarith

/-- The floating-point skip test processes every point with `x1 ^ 2 + x2 ^ 2 ≤ 1 - 2 ^ -20`. -/
theorem not_skipped_binary32_of_inside (x1 x2 : ℚ) (h : x1 ^ 2 + x2 ^ 2 ≤ 1 - 1 / 2 ^ 20) :
    ¬ skipped_binary32 x1 x2 := by
  have hx1 : 0 ≤ x1 ^ 2 := sq_nonneg x1
  have hx0 : 0 ≤ x2 ^ 2 := sq_nonneg x2
  have hsq : x2 ^ 2 < 1 := by
    have : (0 : ℚ) < 1 / 2 ^ 20 := by positivity
    linarith
  have hx2 : |x2| < 1 := abs_lt_of_sq_lt_sq x2 1 (by norm_num) (by rw [one_pow]; exact hsq)
  obtain ⟨b, hb, hb0, _, hb2⟩ := aux_binary32_spec x2 hsq
  unfold skipped_binary32
  rw [hb]
  rintro (hc | hc)
  · exact absurd hc (not_le.mpr hx2)
  · have hc1 : b ≤ |x1| := hc
    have hlt : |x1| < b := by
      apply abs_lt_of_sq_lt_sq _ _ hb0
      obtain ⟨_, hq2⟩ := round_to_precision_bounds 24 (x2 * x2) (mul_self_nonneg x2)
      have hu : 1 - x2 ^ 2 - 1 / 2 ^ 24 ≤ 1 - binary32 (x2 * x2) := by
        rw [← pow_two] at hq2 ⊢
        have : binary32 (x2 ^ 2) ≤ (1 + 1 / 2 ^ 24) * x2 ^ 2 := hq2
        nlinarith
      have t1 : 1 - x2 ^ 2 ≤ 1 := by linarith
      have t0 : (1 : ℚ) / 2 ^ 20 ≤ 1 - x2 ^ 2 := by linarith
      have key : 1 - x2 ^ 2 - 1 / 2 ^ 20 < (1 - 1 / 2 ^ 24) ^ 2 * ((1 - 1 / 2 ^ 53) ^ 2
          * ((1 - 1 / 2 ^ 53) * (1 - x2 ^ 2 - 1 / 2 ^ 24))) := by
        have e : (1 - 1 / 2 ^ 24) ^ 2 * ((1 - 1 / 2 ^ 53) ^ 2
            * ((1 - 1 / 2 ^ 53) * (1 - x2 ^ 2 - 1 / 2 ^ 24)))
            = ((1 - 1 / 2 ^ 24) ^ 2 * (1 - 1 / 2 ^ 53) ^ 3) * (1 - x2 ^ 2 - 1 / 2 ^ 24) := by
          ring
        rw [e]
        have n1 : (1 : ℚ) - 3 / 2 ^ 24 ≤ (1 - 1 / 2 ^ 24) ^ 2 * (1 - 1 / 2 ^ 53) ^ 3 := by
          norm_num
        have t2 : (0 : ℚ) ≤ 1 - x2 ^ 2 - 1 / 2 ^ 24 := by
          have : (1 : ℚ) / 2 ^ 24 ≤ 1 / 2 ^ 20 := by norm_num
          linarith
        have s1 : ((1 : ℚ) - 3 / 2 ^ 24) * (1 - x2 ^ 2 - 1 / 2 ^ 24)
            ≤ (1 - 1 / 2 ^ 24) ^ 2 * (1 - 1 / 2 ^ 53) ^ 3 * (1 - x2 ^ 2 - 1 / 2 ^ 24) :=
          mul_le_mul_of_nonneg_right n1 t2
        have s3 : (3 : ℚ) / 2 ^ 24 * (1 - x2 ^ 2) ≤ 3 / 2 ^ 24 * 1 :=
          mul_le_mul_of_nonneg_left t1 (by positivity)
        have s4 : (1 : ℚ) / 2 ^ 24 + 3 / 2 ^ 24 < 1 / 2 ^ 20 + 3 / 2 ^ 24 * (1 / 2 ^ 24) := by
          norm_num
        linarith
      calc x1 ^ 2 ≤ 1 - x2 ^ 2 - 1 / 2 ^ 20 := by linarith
        _ < (1 - 1 / 2 ^ 24) ^ 2 * ((1 - 1 / 2 ^ 53) ^ 2
            * ((1 - 1 / 2 ^ 53) * (1 - x2 ^ 2 - 1 / 2 ^ 24))) := key
        _ ≤ (1 - 1 / 2 ^ 24) ^ 2 * ((1 - 1 / 2 ^ 53) ^ 2
            * ((1 - 1 / 2 ^ 53) * (1 - binary32 (x2 * x2)))) :=
          mul_le_mul_of_nonneg_left (mul_le_mul_of_nonneg_left
            (mul_le_mul_of_nonneg_left hu (by norm_num)) (by positivity)) (by positivity)
        _ ≤ b ^ 2 := hb2
    exact absurd hc1 (not_le.mpr hlt)

theorem round_to_precision_eq_of_pos (prec : Nat) (x r : ℚ) (e m : ℤ)
    (h1 : (2 : ℚ) ^ ((prec : ℤ) - 1 + e) ≤ x) (h2 : x < (2 : ℚ) ^ ((prec : ℤ) + e))
    (h3 : |x - (m : ℚ) * 2 ^ e| < 2 ^ e / 2) (hr : (m : ℚ) * 2 ^ e = r) :
    round_to_precision prec x = r := by
  rw [round_to_precision_eq prec x e m h1 h2 h3, hr]

theorem round_to_precision_eq_of_neg (prec : Nat) (x r : ℚ) (e m : ℤ)
    (h1 : (2 : ℚ) ^ ((prec : ℤ) - 1 + e) ≤ -x) (h2 : -x < (2 : ℚ) ^ ((prec : ℤ) + e))
    (h3 : |-x - (m : ℚ) * 2 ^ e| < 2 ^ e / 2) (hr : -((m : ℚ) * 2 ^ e) = r) :
    round_to_precision prec x = r := by
  rw [← neg_neg x, round_to_precision_neg, round_to_precision_eq prec (-x) e m h1 h2 h3, hr]

theorem sqrt_to_precision_eq_of (prec : Nat) (d r : ℚ) (e : ℤ) (m : ℕ) (hm : 1 ≤ m)
    (h1 : (4 : ℚ) ^ ((prec : ℤ) - 1 + e) ≤ d) (h2 : d < (4 : ℚ) ^ ((prec : ℤ) + e))
    (h3 : ((m : ℚ) - 1 / 2) ^ 2 * 4 ^ e < d) (h4 : d < ((m : ℚ) + 1 / 2) ^ 2 * 4 ^ e)
    (hr : (m : ℚ) * 2 ^ e = r) : sqrt_to_precision prec d = some r := by
  rw [sqrt_to_precision_eq prec d e m hm h1 h2 h3 h4, hr]

/-- Evaluation of a rounding at a tie: `x / 2 ^ e` is `f + 1/2` and the result is the even
one of `f` and `f + 1`. -/
theorem round_to_precision_eq_tie (prec : Nat) (x : ℚ) (e f : ℤ)
    (h1 : (2 : ℚ) ^ ((prec : ℤ) - 1 + e) ≤ x) (h2 : x < (2 : ℚ) ^ ((prec : ℤ) + e))
    (h3 : x - (f : ℚ) * 2 ^ e = 2 ^ e / 2) :
    round_to_precision prec x = ((if f % 2 = 0 then f else f + 1 : ℤ) : ℚ) * 2 ^ e := by
  have hx : 0 < x := lt_of_lt_of_le (by positivity) h1
  have hlog : Int.log 2 x = (prec : ℤ) - 1 + e :=
    int_log_two_eq x _ hx h1 (by rw [show (prec : ℤ) - 1 + e + 1 = (prec : ℤ) + e by ring]; exact h2)
  have h2e : (0 : ℚ) < 2 ^ e := by positivity
  have h4 : x / 2 ^ e = (f : ℚ) + 1 / 2 := by
    rw [div_eq_iff h2e.ne']
    linarith
  have hfl : ⌊x / 2 ^ e⌋ = f := by
    rw [h4, Int.floor_eq_iff]
    constructor <;> linarith
  unfold round_to_precision
  rw [if_neg hx.ne']
  have he : Int.log 2 x - ((prec : ℤ) - 1) = e := by omega
  simp only [abs_of_pos hx, he, if_neg (not_lt.mpr hx.le), hfl]
  rw [h4, if_neg (by linarith), if_neg (by linarith)]

theorem round_to_precision_eq_of_pos_tie (prec : Nat) (x r : ℚ) (e f m : ℤ)
    (h1 : (2 : ℚ) ^ ((prec : ℤ) - 1 + e) ≤ x) (h2 : x < (2 : ℚ) ^ ((prec : ℤ) + e))
    (h3 : x - (f : ℚ) * 2 ^ e = 2 ^ e / 2) (hm : (if f % 2 = 0 then f else f + 1) = m)
    (hr : (m : ℚ) * 2 ^ e = r) : round_to_precision prec x = r := by
  rw [round_to_precision_eq_tie prec x e f h1 h2 h3, hm, hr]

theorem round_to_precision_eq_of_neg_tie (prec : Nat) (x r : ℚ) (e f m : ℤ)
    (h1 : (2 : ℚ) ^ ((prec : ℤ) - 1 + e) ≤ -x) (h2 : -x < (2 : ℚ) ^ ((prec : ℤ) + e))
    (h3 : -x - (f : ℚ) * 2 ^ e = 2 ^ e / 2) (hm : (if f % 2 = 0 then f else f + 1) = m)
    (hr : -((m : ℚ) * 2 ^ e) = r) : round_to_precision prec x = r := by
  rw [← neg_neg x, round_to_precision_neg, round_to_precision_eq_tie prec (-x) e f h1 h2 h3, hm,
    hr]

theorem x1_binary32_27_8 : x1_binary32 27 8 = (-(12905551 / 33554432) : ℚ) := by
  have h0 : round_to_precision 53 (2 * ((8 : ℕ) : ℚ)) = (16 : ℚ) :=
    round_to_precision_eq_of_pos 53 _ _ (-48) 4503599627370496 (by norm_num) (by norm_num)
      (by norm_num [abs_lt]) (by norm_num)
  have h1 : round_to_precision 53 ((16 : ℚ) / (((27 : ℕ) : ℚ) - 1)) = (1385722962267845 / 2251799813685248 : ℚ) :=
    round_to_precision_eq_of_pos 53 _ _ (-53) 5542891849071380 (by norm_num) (by norm_num)
      (by norm_num [abs_lt]) (by norm_num)
  have h2 : round_to_precision 53 (-1 + (1385722962267845 / 2251799813685248 : ℚ)) = (-(866076851417403 / 2251799813685248) : ℚ) :=
    round_to_precision_eq_of_neg 53 _ _ (-54) 6928614811339224 (by norm_num) (by norm_num)
      (by norm_num [abs_lt]) (by norm_num)
  have h3 : round_to_precision 24 (-(866076851417403 / 2251799813685248) : ℚ) = (-(12905551 / 33554432) : ℚ) :=
    round_to_precision_eq_of_neg 24 _ _ (-25) 12905551 (by norm_num) (by norm_num)
      (by norm_num [abs_lt]) (by norm_num)
  unfold x1_binary32 binary32 binary64
  rw [h0, h1, h2, h3]

theorem x2_binary32_27_1 : x2_binary32 27 1 = (-(15486661 / 16777216) : ℚ) := by
  have h0 : round_to_precision 53 (2 * ((1 : ℕ) : ℚ)) = (2 : ℚ) :=
    round_to_precision_eq_of_pos 53 _ _ (-51) 4503599627370496 (by norm_num) (by norm_num)
      (by norm_num [abs_lt]) (by norm_num)
  have h1 : round_to_precision 53 ((2 : ℚ) / (((27 : ℕ) : ℚ) - 1)) = (1385722962267845 / 18014398509481984 : ℚ) :=
    round_to_precision_eq_of_pos 53 _ _ (-56) 5542891849071380 (by norm_num) (by norm_num)
      (by norm_num [abs_lt]) (by norm_num)
  have h2 : round_to_precision 53 (-1 + (1385722962267845 / 18014398509481984 : ℚ)) = (-(4157168886803535 / 4503599627370496) : ℚ) :=
    round_to_precision_eq_of_neg_tie 53 _ _ (-53) 8314337773607069 8314337773607070 (by norm_num) (by norm_num)
      (by norm_num) (by norm_num) (by norm_num)
  have h3 : round_to_precision 24 (-(4157168886803535 / 4503599627370496) : ℚ) = (-(15486661 / 16777216) : ℚ) :=
    round_to_precision_eq_of_neg 24 _ _ (-24) 15486661 (by norm_num) (by norm_num)
      (by norm_num [abs_lt]) (by norm_num)
  unfold x2_binary32 binary32 binary64
  rw [if_pos (by norm_num), h0, h1, h2, h3]

theorem aux_binary32_27_1 : aux_binary32 (-(15486661 / 16777216) : ℚ) = some (806597 / 2097152 : ℚ) := by
  have h0 : round_to_precision 24 ((-(15486661 / 16777216) : ℚ) * (-(15486661 / 16777216) : ℚ)) = (14295379 / 16777216 : ℚ) :=
    round_to_precision_eq_of_pos 24 _ _ (-24) 14295379 (by norm_num) (by norm_num)
      (by norm_num [abs_lt]) (by norm_num)
  have h1 : round_to_precision 53 (1 - (14295379 / 16777216 : ℚ)) = (2481837 / 16777216 : ℚ) :=
    round_to_precision_eq_of_pos 53 _ _ (-55) 5329704374501376 (by norm_num) (by norm_num)
      (by norm_num [abs_lt]) (by norm_num)
  have h2 : sqrt_to_precision 53 (2481837 / 16777216 : ℚ) = some (6928615249095493 / 18014398509481984 : ℚ) :=
    sqrt_to_precision_eq_of 53 _ _ (-54) 6928615249095493 (by norm_num) (by norm_num) (by norm_num)
      (by norm_num) (by norm_num) (by norm_num)
  have h3 : round_to_precision 24 (6928615249095493 / 18014398509481984 : ℚ) = (806597 / 2097152 : ℚ) :=
    round_to_precision_eq_of_pos 24 _ _ (-25) 12905552 (by norm_num) (by norm_num)
      (by norm_num [abs_lt]) (by norm_num)
  unfold aux_binary32 binary32 binary64
  rw [h0, h1, h2, Option.map_some', h3]


theorem x1_binary32_27_18 : x1_binary32 27 18 = (12905551 / 33554432 : ℚ) := by
  have h0 : round_to_precision 53 (2 * ((18 : ℕ) : ℚ)) = (36 : ℚ) :=
    round_to_precision_eq_of_pos 53 _ _ (-47) 5066549580791808 (by norm_num) (by norm_num)
      (by norm_num [abs_lt]) (by norm_num)
  have h1 : round_to_precision 53 ((36 : ℚ) / (((27 : ℕ) : ℚ) - 1)) = (3117876665102651 / 2251799813685248 : ℚ) :=
    round_to_precision_eq_of_pos 53 _ _ (-52) 6235753330205302 (by norm_num) (by norm_num)
      (by norm_num [abs_lt]) (by norm_num)
  have h2 : round_to_precision 53 (-1 + (3117876665102651 / 2251799813685248 : ℚ)) = (866076851417403 / 2251799813685248 : ℚ) :=
    round_to_precision_eq_of_pos 53 _ _ (-54) 6928614811339224 (by norm_num) (by norm_num)
      (by norm_num [abs_lt]) (by norm_num)
  have h3 : round_to_precision 24 (866076851417403 / 2251799813685248 : ℚ) = (12905551 / 33554432 : ℚ) :=
    round_to_precision_eq_of_pos 24 _ _ (-25) 12905551 (by norm_num) (by norm_num)
      (by norm_num [abs_lt]) (by norm_num)
  unfold x1_binary32 binary32 binary64
  rw [h0, h1, h2, h3]

theorem x2_binary32_27_25 : x2_binary32 27 25 = (15486661 / 16777216 : ℚ) := by
  have h0 : round_to_precision 53 (2 * ((25 : ℕ) : ℚ)) = (50 : ℚ) :=
    round_to_precision_eq_of_pos 53 _ _ (-47) 7036874417766400 (by norm_num) (by norm_num)
      (by norm_num [abs_lt]) (by norm_num)
  have h1 : round_to_precision 53 ((50 : ℚ) / (((27 : ℕ) : ℚ) - 1)) = (8660768514174031 / 4503599627370496 : ℚ) :=
    round_to_precision_eq_of_pos 53 _ _ (-52) 8660768514174031 (by norm_num) (by norm_num)
      (by norm_num [abs_lt]) (by norm_num)
  have h2 : round_to_precision 53 (-1 + (8660768514174031 / 4503599627370496 : ℚ)) = (4157168886803535 / 4503599627370496 : ℚ) :=
    round_to_precision_eq_of_pos 53 _ _ (-53) 8314337773607070 (by norm_num) (by norm_num)
      (by norm_num [abs_lt]) (by norm_num)
  have h3 : round_to_precision 24 (4157168886803535 / 4503599627370496 : ℚ) = (15486661 / 16777216 : ℚ) :=
    round_to_precision_eq_of_pos 24 _ _ (-24) 15486661 (by norm_num) (by norm_num)
      (by norm_num [abs_lt]) (by norm_num)
  unfold x2_binary32 binary32 binary64
  rw [if_pos (by norm_num), h0, h1, h2, h3]

theorem aux_binary32_27_25 : aux_binary32 (15486661 / 16777216 : ℚ) = some (806597 / 2097152 : ℚ) := by
  have h0 : round_to_precision 24 ((15486661 / 16777216 : ℚ) * (15486661 / 16777216 : ℚ)) = (14295379 / 16777216 : ℚ) :=
    round_to_precision_eq_of_pos 24 _ _ (-24) 14295379 (by norm_num) (by norm_num)
      (by norm_num [abs_lt]) (by norm_num)
  have h1 : round_to_precision 53 (1 - (14295379 / 16777216 : ℚ)) = (2481837 / 16777216 : ℚ) :=
    round_to_precision_eq_of_pos 53 _ _ (-55) 5329704374501376 (by norm_num) (by norm_num)
      (by norm_num [abs_lt]) (by norm_num)
  have h2 : sqrt_to_precision 53 (2481837 / 16777216 : ℚ) = some (6928615249095493 / 18014398509481984 : ℚ) :=
    sqrt_to_precision_eq_of 53 _ _ (-54) 6928615249095493 (by norm_num) (by norm_num) (by norm_num)
      (by norm_num) (by norm_num) (by norm_num)
  have h3 : round_to_precision 24 (6928615249095493 / 18014398509481984 : ℚ) = (806597 / 2097152 : ℚ) :=
    round_to_precision_eq_of_pos 24 _ _ (-25) 12905552 (by norm_num) (by norm_num)
      (by norm_num [abs_lt]) (by norm_num)
  unfold aux_binary32 binary32 binary64
  rw [h0, h1, h2, Option.map_some', h3]


/-! ## The skip test as the program evaluates it -/

/-- C15, as stated, fails for the test the program runs. On the 27 x 27 grid the point
`(ix1, ix2) = (8, 1)` has the coordinates `(-10/26, -24/26)`, on the unit circle; the
stored `float` coordinates are `-12905551 / 2^25` and `-15486661 / 2^24`, the sum of
whose squares exceeds `1`; `aux` is `806597 / 2^21 = 12905552 / 2^25`, greater than
`|x1[8]|`, and the point is processed. -/
theorem skip_test_processes_circle_point :
    (grid_x1 27 8 : ℚ) ^ 2 + (grid_x2 27 1 : ℚ) ^ 2 = 1
      ∧ 1 ≤ x1_binary32 27 8 ^ 2 + x2_binary32 27 1 ^ 2
      ∧ processed_binary32 27 27 8 1 := by
  refine ⟨by norm_num [grid_x1, grid_x2], ?_, ?_⟩
  · rw [x1_binary32_27_8, x2_binary32_27_1]
    norm_num
  · refine ⟨by norm_num, by norm_num, by norm_num, by norm_num, ?_⟩
    rw [show (8 : Int).toNat = 8 from rfl, show (1 : Int).toNat = 1 from rfl,
      x1_binary32_27_8, x2_binary32_27_1]
    unfold skipped_binary32
    rw [aux_binary32_27_1]
    norm_num [abs_lt, abs_le, le_abs]

/-- C15, amended. In exact real arithmetic the test `|x2| ≥ 1 or |x1| ≥ sqrt(1 - x2^2)`
skips exactly the points with `x1^2 + x2^2 ≥ 1`. As the program evaluates it (the product
`x2 * x2` in `float`, the difference from `1.` and the square root in `double`, `aux` stored
as a `float`) it agrees with that criterion outside a thin ring around the circle: a
point with `x1^2 + x2^2 ≤ 1 - 2^-20` or `x1^2 + x2^2 ≥ 1 + 2^-20` is processed if and only
if `x1^2 + x2^2 < 1`. Within the ring the outcome depends on the rounding. -/
theorem skip_test_outside_ring (x1 x2 : ℚ)
    (h : x1 ^ 2 + x2 ^ 2 ≤ 1 - 1 / 2 ^ 20 ∨ 1 + 1 / 2 ^ 20 ≤ x1 ^ 2 + x2 ^ 2) :
    (¬ skipped_binary32 x1 x2 ↔ x1 ^ 2 + x2 ^ 2 < 1)
      ∧ (¬ skipped ⟨Real.sqrt, Real.sin, Real.cos, Real.log, Real.exp, Real.pi⟩
          (x1 : ℝ) (x2 : ℝ) ↔ x1 ^ 2 + x2 ^ 2 < 1) := by
  have hreal : ¬ skipped ⟨Real.sqrt, Real.sin, Real.cos, Real.log, Real.exp, Real.pi⟩
      (x1 : ℝ) (x2 : ℝ) ↔ x1 ^ 2 + x2 ^ 2 < 1 := by
    rw [not_skipped_iff]
    exact_mod_cast Iff.rfl
  refine ⟨?_, hreal⟩
  have hpos : (0 : ℚ) < 1 / 2 ^ 20 := by positivity
  rcases h with h | h
  · exact ⟨fun _ => by linarith, fun _ => not_skipped_binary32_of_inside x1 x2 h⟩
  · constructor
    · intro hn
      exact absurd (skipped_binary32_of_outside x1 x2 h) hn
    · intro hlt
      linarith

theorem skip_test_outside_ring_witness :
    ((5 / 8 : ℚ) ^ 2 + (13 / 16 : ℚ) ^ 2 ≤ 1 - 1 / 2 ^ 20
        ∨ 1 + 1 / 2 ^ 20 ≤ (5 / 8 : ℚ) ^ 2 + (13 / 16 : ℚ) ^ 2)
      ∧ ((¬ skipped_binary32 (5 / 8) (13 / 16) ↔ (5 / 8 : ℚ) ^ 2 + (13 / 16 : ℚ) ^ 2 < 1)
        ∧ (¬ skipped ⟨Real.sqrt, Real.sin, Real.cos, Real.log, Real.exp, Real.pi⟩
            (((5 / 8 : ℚ)) : ℝ) (((13 / 16 : ℚ)) : ℝ) ↔ (5 / 8 : ℚ) ^ 2 + (13 / 16 : ℚ) ^ 2 < 1)) :=
  ⟨by norm_num, skip_test_outside_ring (5 / 8) (13 / 16) (by norm_num)⟩

/-! ## The stored coordinates and the grid -/

/-- The stored coordinate differs from the grid coordinate `-1 + 2 k / (n - 1)` by at most
`2 ^ -23`. -/
theorem stored_coordinate_error (n k : Nat) (hn : 2 ≤ n) (hk : k < n) :
    |binary32 (binary64 (-1 + binary64 (binary64 (2 * (k : ℚ)) / ((n : ℚ) - 1))))
        - (-1 + 2 * (k : ℚ) / ((n : ℚ) - 1))| ≤ 1 / 2 ^ 23 := by
  have hD : (1 : ℚ) ≤ (n : ℚ) - 1 := by
    have : (2 : ℚ) ≤ (n : ℚ) := by exact_mod_cast hn
    linarith
  have hD0 : (0 : ℚ) < (n : ℚ) - 1 := by linarith
  have hk0 : (0 : ℚ) ≤ (k : ℚ) := Nat.cast_nonneg k
  have hkD : (k : ℚ) ≤ (n : ℚ) - 1 := by
    have : k + 1 ≤ n := hk
    have : ((k + 1 : ℕ) : ℚ) ≤ (n : ℚ) := by exact_mod_cast this
    push_cast at this
    linarith
  set D : ℚ := (n : ℚ) - 1 with hDdef
  set q : ℚ := 2 * (k : ℚ) / D with hq
  have hq0 : 0 ≤ q := by positivity
  have hq2 : q ≤ 2 := by
    rw [hq, div_le_iff₀ hD0]
    linarith
  -- the product `2.0 * k`
  have h0 := round_to_precision_abs_sub_le 53 (2 * (k : ℚ))
  rw [abs_of_nonneg (by positivity : (0 : ℚ) ≤ 2 * (k : ℚ))] at h0
  have h0n : 0 ≤ binary64 (2 * (k : ℚ)) := round_to_precision_nonneg 53 _ (by positivity)
  set a0 : ℚ := binary64 (2 * (k : ℚ)) with ha0
  have h0' : |a0 / D - q| ≤ 2 / 2 ^ 53 := by
    have e : a0 / D - q = (a0 - 2 * (k : ℚ)) / D := by rw [hq]; ring
    rw [e, abs_div, abs_of_pos hD0, div_le_iff₀ hD0]
    have : 2 * (k : ℚ) / 2 ^ 53 ≤ 2 / 2 ^ 53 * D := by
      rw [div_mul_eq_mul_div, div_le_div_iff_of_pos_right (by positivity)]
      linarith
    exact le_trans h0 this
  rw [abs_le] at h0'
  -- the quotient
  have hv1 : 0 ≤ a0 / D := div_nonneg h0n hD0.le
  have h1 := round_to_precision_abs_sub_le 53 (a0 / D)
  rw [abs_of_nonneg hv1] at h1
  set a1 : ℚ := binary64 (a0 / D) with ha1
  have h1' : |a1 - a0 / D| ≤ 3 / 2 ^ 53 := by
    refine le_trans h1 ?_
    rw [div_le_div_iff_of_pos_right (by positivity)]
    have : (2 : ℚ) / 2 ^ 53 ≤ 1 := by norm_num
    linarith
  rw [abs_le] at h1'
  -- the sum
  have h2 := round_to_precision_abs_sub_le 53 (-1 + a1)
  have hv2 : |(-1 : ℚ) + a1| ≤ 2 := by
    rw [abs_le]
    have : (5 : ℚ) / 2 ^ 53 ≤ 1 := by norm_num
    constructor <;> linarith
  set a2 : ℚ := binary64 (-1 + a1) with ha2
  have h2' : |a2 - (-1 + a1)| ≤ 2 / 2 ^ 53 := by
    refine le_trans h2 ?_
    rw [div_le_div_iff_of_pos_right (by positivity)]
    exact hv2
  rw [abs_le] at h2'
  -- the store
  have h3 := round_to_precision_abs_sub_le 24 a2
  have hv3 : |a2| ≤ 1 + 7 / 2 ^ 53 := by
    rw [abs_le]
    constructor <;> linarith
  set a3 : ℚ := binary32 a2 with ha3
  have h3' : |a3 - a2| ≤ (1 + 7 / 2 ^ 53) / 2 ^ 24 := by
    refine le_trans h3 ?_
    rw [div_le_div_iff_of_pos_right (by positivity)]
    exact hv3
  rw [abs_le] at h3'
  have num : (7 : ℚ) / 2 ^ 53 + (1 + 7 / 2 ^ 53) / 2 ^ 24 ≤ 1 / 2 ^ 23 := by norm_num
  rw [abs_le]
  constructor <;> linarith

/-- The grid coordinates lie in `[-1, 1]`. -/
theorem grid_coordinate_abs_le_one (n k : Nat) (hn : 2 ≤ n) (hk : k < n) :
    |(-1 : ℚ) + 2 * (k : ℚ) / ((n : ℚ) - 1)| ≤ 1 := by
  have hD0 : (0 : ℚ) < (n : ℚ) - 1 := by
    have : (2 : ℚ) ≤ (n : ℚ) := by exact_mod_cast hn
    linarith
  have hk0 : (0 : ℚ) ≤ (k : ℚ) := Nat.cast_nonneg k
  have hkD : (k : ℚ) ≤ (n : ℚ) - 1 := by
    have : k + 1 ≤ n := hk
    have : ((k + 1 : ℕ) : ℚ) ≤ (n : ℚ) := by exact_mod_cast this
    push_cast at this
    linarith
  have hq0 : 0 ≤ 2 * (k : ℚ) / ((n : ℚ) - 1) := by positivity
  have hq2 : 2 * (k : ℚ) / ((n : ℚ) - 1) ≤ 2 := by
    rw [div_le_iff₀ hD0]
    linarith
  rw [abs_le]
  constructor <;> linarith

/-- The square of a number within `2 ^ -23` of a number `g` of `[-1, 1]` is within
`2 ^ -22 + 2 ^ -46` of the square of `g`. -/
theorem sq_error (x g : ℚ) (hg : |g| ≤ 1) (h : |x - g| ≤ 1 / 2 ^ 23) :
    |x ^ 2 - g ^ 2| ≤ 1 / 2 ^ 22 + 1 / 2 ^ 46 := by
  have e : x ^ 2 - g ^ 2 = (x - g) * ((x - g) + 2 * g) := by ring
  rw [e, abs_mul]
  have h1 : |x - g + 2 * g| ≤ 1 / 2 ^ 23 + 2 := by
    refine le_trans (abs_add _ _) ?_
    rw [abs_mul, abs_of_pos (by norm_num : (0 : ℚ) < 2)]
    linarith
  calc |x - g| * |x - g + 2 * g| ≤ 1 / 2 ^ 23 * (1 / 2 ^ 23 + 2) :=
        mul_le_mul h h1 (abs_nonneg _) (by positivity)
    _ = 1 / 2 ^ 22 + 1 / 2 ^ 46 := by norm_num

/-- A grid point with `x1 ^ 2 + x2 ^ 2 ≥ 1 + 2 ^ -19` is skipped by the floating-point test
on its stored coordinates. -/
theorem not_processed_binary32_of_outside (sx sy : Nat) (hxy : sx = sy) (h2 : 2 ≤ sx)
    (i j : Int) (hi : i < sx) (hj : j < sy)
    (hout : 1 + 1 / 2 ^ 19 ≤ (grid_x1 sx i.toNat : ℚ) ^ 2 + (grid_x2 sx j.toNat : ℚ) ^ 2) :
    ¬ processed_binary32 sx sy i j := by
  rintro ⟨_, _, _, _, h5⟩
  apply h5
  apply skipped_binary32_of_outside
  have hi' : i.toNat < sx := by omega
  have hj' : j.toNat < sx := by omega
  have e1 := sq_error _ _ (grid_coordinate_abs_le_one sx i.toNat h2 hi')
    (stored_coordinate_error sx i.toNat h2 hi')
  have e2 := sq_error _ _ (grid_coordinate_abs_le_one sx j.toNat h2 hj')
    (stored_coordinate_error sx j.toNat h2 hj')
  rw [abs_le] at e1 e2
  simp only [grid_x1, grid_x2, if_pos hj'] at hout
  simp only [x1_binary32, x2_binary32, if_pos hj']
  have num : (1 : ℚ) / 2 ^ 20 + 2 * (1 / 2 ^ 22 + 1 / 2 ^ 46) ≤ 1 / 2 ^ 19 := by norm_num
  linarith

/-! ## The voxels the view loop leaves at zero -/

/-- The function `view_step_axial` is the instance of `view_step_axial_with` with the exact
skip test and the exact grid. -/
theorem view_step_axial_eq_with [FloorRing K] (M : Libm K) (S : Sizes)
    (proj atten : Nat → Nat → Nat → K) (ia : Nat) (s : AxialState K) (ith : Nat) :
    view_step_axial M S proj atten ia s ith
      = view_step_axial_with M S (fun i j => decide (processed M S.sx S.sy i j))
          (grid_x1 S.sx) (grid_x2 S.sx) proj atten ia s ith := by
  simp only [view_step_axial, view_step_axial_with, decide_eq_true_eq]

/-- An iteration of the view loop leaves the image as it is at a point that is not
processed. -/
theorem view_step_with_image [FloorRing K] (M : Libm K) (S : Sizes) (proc : Int → Int → Bool)
    (x1 x2 : Nat → K) (proj atten : Nat → Nat → Nat → K) (s : Nat → AxialState K)
    (ith ia : Nat) (i j : Int) (h : proc i j = false) :
    (view_step_with M S proc x1 x2 proj atten s ith ia).image i j = (s ia).image i j := by
  unfold view_step_with
  by_cases hia : ia < S.sa
  · rw [if_pos hia]
    simp only [view_step_axial_with, h]
    rfl
  · rw [if_neg hia]

/-- The view loop leaves the image at zero at every point that is not processed. -/
theorem run_views_with_image [FloorRing K] (M : Libm K) (S : Sizes) (proc : Int → Int → Bool)
    (x1 x2 : Nat → K) (proj atten : Nat → Nat → Nat → K) (order : List Nat)
    (ia : Nat) (i j : Int) (h : proc i j = false) :
    (run_views_with M S proc x1 x2 proj atten order ia).image i j = 0 := by
  have key : ∀ (l : List Nat) (s : Nat → AxialState K),
      ((l.foldl (view_step_with M S proc x1 x2 proj atten) s) ia).image i j
        = (s ia).image i j := by
    intro l
    induction l with
    | nil => intro s; rfl
    | cons v l ih =>
      intro s
      rw [List.foldl_cons, ih, view_step_with_image M S proc x1 x2 proj atten s v ia i j h]
  unfold run_views_with
  rw [key]
  rfl

/-- After a successful call, a voxel that the floating-point skip test rejects is zero. -/
theorem actual_reconstruct_binary32_skipped [FloorRing K] (M : Libm K) (S : Sizes)
    (geometry : Geometry) (nseg : Int) (tan_theta : K) (proj atten : Nat → Nat → Nat → K)
    (density : Nat → Int → Int → K)
    (hok : (actual_reconstruct_binary32 M S geometry nseg tan_theta proj atten density).outcome
      = Except.ok Succeeded.yes)
    (ia : Nat) (i j : Int) (h : ¬ processed_binary32 S.sx S.sy i j) :
    (actual_reconstruct_binary32 M S geometry nseg tan_theta proj atten density).density ia i j
      = 0 := by
  unfold actual_reconstruct_binary32 at hok ⊢
  by_cases c1 : nseg > 1 ∧ geometry = Geometry.other
  · rw [if_pos c1] at hok
    simp at hok
  · rw [if_neg c1] at hok ⊢
    by_cases c2 : |tan_theta| > 1 / 10000
    · rw [if_pos c2] at hok
      simp at hok
    · rw [if_neg c2] at hok ⊢
      by_cases c3 : geometry ≠ Geometry.cylindrical_arc_corrected
      · rw [if_pos c3] at hok
        simp at hok
      · rw [if_neg c3]
        exact run_views_with_image M S _ _ _ proj atten _ ia i j (decide_eq_false h)

/-- The call on arc-corrected data without tilt succeeds. -/
theorem actual_reconstruct_binary32_outcome [FloorRing K] (M : Libm K) (S : Sizes) (nseg : Int)
    (proj atten : Nat → Nat → Nat → K) (density : Nat → Int → Int → K) :
    (actual_reconstruct_binary32 M S Geometry.cylindrical_arc_corrected nseg 0 proj atten
        density).outcome = Except.ok Succeeded.yes := by
  unfold actual_reconstruct_binary32
  rw [if_neg (by simp), if_neg (by norm_num), if_neg (by simp)]

/-- C31, as stated, fails for the loops the program runs. On the 27 x 27 grid the point
`(ix1, ix2) = (18, 25)`, which stands for the voxel with the `x` index `27 - 1 - 18 = 8`,
has the coordinates `(10/26, 24/26)`, on the unit circle, and the sum of the squares of
its stored `float` coordinates exceeds `1`; the skip test, evaluated in floating-point
arithmetic, does not reject it: it is among the points at which every view executes
`image[ia][sx - ix1 - 1][ix2] += ...`, so that it is written and holds the sum of the
increments, not the zero of the initial fill. -/
theorem circle_voxel_is_written :
    (grid_x1 27 18 : ℚ) ^ 2 + (grid_x2 27 25 : ℚ) ^ 2 = 1
      ∧ 1 ≤ x1_binary32 27 18 ^ 2 + x2_binary32 27 25 ^ 2
      ∧ processed_binary32 27 27 18 25
      ∧ ∀ (S : Sizes) (proj atten : Nat → Nat → Nat → ℝ) (ia : Nat) (s : AxialState ℝ)
          (ith : Nat), S.sx = 27 → S.sy = 27 →
          (view_step_axial_with ⟨Real.sqrt, Real.sin, Real.cos, Real.log, Real.exp, Real.pi⟩ S
              (fun ix1 ix2 => decide (processed_binary32 S.sx S.sy ix1 ix2))
              (fun k1 => ((x1_binary32 S.sx k1 : ℚ) : ℝ))
              (fun k2 => ((x2_binary32 S.sx k2 : ℚ) : ℝ)) proj atten ia s ith).image 18 25
            = s.image 18 25
              + 1 / (4 * Real.pi)
                * (diff_one_sided 27 ((x1_binary32 27 18 : ℚ) : ℝ)
                      (fun k => (view_step_axial_with
                        ⟨Real.sqrt, Real.sin, Real.cos, Real.log, Real.exp, Real.pi⟩ S
                        (fun ix1 ix2 => decide (processed_binary32 S.sx S.sy ix1 ix2))
                        (fun k1 => ((x1_binary32 S.sx k1 : ℚ) : ℝ))
                        (fun k2 => ((x2_binary32 S.sx k2 : ℚ) : ℝ)) proj atten ia s ith).rx k 25)
                      18
                    * Real.sin (grid_th
                      ⟨Real.sqrt, Real.sin, Real.cos, Real.log, Real.exp, Real.pi⟩ S.sth ith)
                  - diff_one_sided 27 ((x2_binary32 27 25 : ℚ) : ℝ)
                      (fun k => (view_step_axial_with
                        ⟨Real.sqrt, Real.sin, Real.cos, Real.log, Real.exp, Real.pi⟩ S
                        (fun ix1 ix2 => decide (processed_binary32 S.sx S.sy ix1 ix2))
                        (fun k1 => ((x1_binary32 S.sx k1 : ℚ) : ℝ))
                        (fun k2 => ((x2_binary32 S.sx k2 : ℚ) : ℝ)) proj atten ia s ith).rx 18 k)
                      25
                    * Real.cos (grid_th
                      ⟨Real.sqrt, Real.sin, Real.cos, Real.log, Real.exp, Real.pi⟩ S.sth ith))
                * (2 * Real.pi / (S.sth : ℝ)) * (623 / 100) := by
  have hproc : processed_binary32 27 27 18 25 := by
    refine ⟨by norm_num, by norm_num, by norm_num, by norm_num, ?_⟩
    rw [show (18 : Int).toNat = 18 from rfl, show (25 : Int).toNat = 25 from rfl,
      x1_binary32_27_18, x2_binary32_27_25]
    unfold skipped_binary32
    rw [aux_binary32_27_25]
    norm_num [abs_lt, abs_le, le_abs]
  refine ⟨by norm_num [grid_x1, grid_x2], ?_, hproc, ?_⟩
  · rw [x1_binary32_27_18, x2_binary32_27_25]
    norm_num
  · intro S proj atten ia s ith hx hy
    obtain ⟨sp, sth, sa, sx, sy⟩ := S
    simp only at hx hy
    subst hx
    subst hy
    simp only [view_step_axial_with, decide_eq_true hproc, if_true]
    rfl

/-- C31, amended. For `sx = sy ≥ 4`, after `actual_reconstruct` succeeds, every voxel that
the skip test of the image loops rejects is exactly `0`, whatever the projection data, the
attenuation data and the content of the image before the call; the test, which the program
evaluates in floating-point arithmetic on the stored `float` coordinates, rejects every
voxel whose grid point has `x1^2 + x2^2 ≥ 1 + 2^-19`. The image is indexed by the loop
indices `(ix1, ix2)`; the voxel they stand for has the mirrored `x` index `sx - 1 - ix1`,
whose grid coordinate `-x1` has the same square. -/
theorem skipped_voxels_zero (S : Sizes) (hxy : S.sx = S.sy) (h4 : 4 ≤ S.sx)
    (geometry : Geometry) (nseg : Int) (tan_theta : ℝ) (proj atten : Nat → Nat → Nat → ℝ)
    (density : Nat → Int → Int → ℝ)
    (hok : (actual_reconstruct_binary32 ⟨Real.sqrt, Real.sin, Real.cos, Real.log, Real.exp, Real.pi⟩
      S geometry nseg tan_theta proj atten density).outcome = Except.ok Succeeded.yes)
    (ia : Nat) (i j : Int) (hi0 : 0 ≤ i) (hi : i < S.sx) (_hj0 : 0 ≤ j) (hj : j < S.sy)
    (hout : ¬ processed_binary32 S.sx S.sy i j
      ∨ 1 + 1 / 2 ^ 19 ≤ (grid_x1 S.sx i.toNat : ℚ) ^ 2 + (grid_x2 S.sx j.toNat : ℚ) ^ 2) :
    (actual_reconstruct_binary32 ⟨Real.sqrt, Real.sin, Real.cos, Real.log, Real.exp, Real.pi⟩ S
        geometry nseg tan_theta proj atten density).density ia i j = 0
      ∧ (grid_x1 S.sx ((S.sx : Int) - 1 - i).toNat : ℚ) ^ 2 = (grid_x1 S.sx i.toNat : ℚ) ^ 2 := by
  have hmir : (grid_x1 S.sx ((S.sx : Int) - 1 - i).toNat : ℚ) ^ 2
      = (grid_x1 S.sx i.toNat : ℚ) ^ 2 := by
    obtain ⟨a, rfl⟩ := Int.eq_ofNat_of_zero_le hi0
    have ha : a + 1 ≤ S.sx := by omega
    have e : ((S.sx : Int) - 1 - (a : Int)).toNat = S.sx - 1 - a := by omega
    have hne : (S.sx : ℚ) - 1 ≠ 0 := by
      have : (4 : ℚ) ≤ (S.sx : ℚ) := by exact_mod_cast h4
      linarith
    rw [e, Int.toNat_ofNat]
    unfold grid_x1
    rw [Nat.sub_sub, Nat.cast_sub (by omega)]
    push_cast
    field_simp
    ring
  refine ⟨?_, hmir⟩
  have hnp : ¬ processed_binary32 S.sx S.sy i j := by
    rcases hout with h | h
    · exact h
    · exact not_processed_binary32_of_outside S.sx S.sy hxy (by omega) i j hi hj h
  exact actual_reconstruct_binary32_skipped _ S geometry nseg tan_theta proj atten density hok
    ia i j hnp

theorem skipped_voxels_zero_witness :
    ((⟨5, 8, 1, 4, 4⟩ : Sizes).sx = (⟨5, 8, 1, 4, 4⟩ : Sizes).sy)
      ∧ (4 ≤ (⟨5, 8, 1, 4, 4⟩ : Sizes).sx)
      ∧ ((actual_reconstruct_binary32 ⟨Real.sqrt, Real.sin, Real.cos, Real.log, Real.exp, Real.pi⟩
          ⟨5, 8, 1, 4, 4⟩ Geometry.cylindrical_arc_corrected 1 0 (fun _ _ _ => 1)
          (fun _ _ _ => 1) (fun _ _ _ => 7)).outcome = Except.ok Succeeded.yes)
      ∧ (0 : Int) ≤ 0 ∧ (0 : Int) < (⟨5, 8, 1, 4, 4⟩ : Sizes).sx
      ∧ (0 : Int) ≤ 1 ∧ (1 : Int) < (⟨5, 8, 1, 4, 4⟩ : Sizes).sy
      ∧ (¬ processed_binary32 (⟨5, 8, 1, 4, 4⟩ : Sizes).sx (⟨5, 8, 1, 4, 4⟩ : Sizes).sy 0 1
        ∨ 1 + 1 / 2 ^ 19 ≤ (grid_x1 (⟨5, 8, 1, 4, 4⟩ : Sizes).sx (0 : Int).toNat : ℚ) ^ 2
          + (grid_x2 (⟨5, 8, 1, 4, 4⟩ : Sizes).sx (1 : Int).toNat : ℚ) ^ 2)
      ∧ ((actual_reconstruct_binary32 ⟨Real.sqrt, Real.sin, Real.cos, Real.log, Real.exp, Real.pi⟩
          ⟨5, 8, 1, 4, 4⟩ Geometry.cylindrical_arc_corrected 1 0 (fun _ _ _ => 1)
          (fun _ _ _ => 1) (fun _ _ _ => 7)).density 0 0 1 = 0
        ∧ (grid_x1 (⟨5, 8, 1, 4, 4⟩ : Sizes).sx
            (((⟨5, 8, 1, 4, 4⟩ : Sizes).sx : Int) - 1 - 0).toNat : ℚ) ^ 2
          = (grid_x1 (⟨5, 8, 1, 4, 4⟩ : Sizes).sx (0 : Int).toNat : ℚ) ^ 2) :=
  have hok : (actual_reconstruct_binary32 ⟨Real.sqrt, Real.sin, Real.cos, Real.log, Real.exp, Real.pi⟩
          ⟨5, 8, 1, 4, 4⟩ Geometry.cylindrical_arc_corrected 1 0 (fun _ _ _ => 1)
          (fun _ _ _ => 1) (fun _ _ _ => 7)).outcome = Except.ok Succeeded.yes :=
    actual_reconstruct_binary32_outcome _ _ 1 _ _ _
  have hout : (¬ processed_binary32 (⟨5, 8, 1, 4, 4⟩ : Sizes).sx (⟨5, 8, 1, 4, 4⟩ : Sizes).sy 0 1
        ∨ 1 + 1 / 2 ^ 19 ≤ (grid_x1 (⟨5, 8, 1, 4, 4⟩ : Sizes).sx (0 : Int).toNat : ℚ) ^ 2
          + (grid_x2 (⟨5, 8, 1, 4, 4⟩ : Sizes).sx (1 : Int).toNat : ℚ) ^ 2) := by
    right
    norm_num [grid_x1, grid_x2]
  ⟨rfl, by decide, hok, by decide, by decide, by decide, by decide, hout,
    skipped_voxels_zero ⟨5, 8, 1, 4, 4⟩ rfl (by decide) Geometry.cylindrical_arc_corrected 1
      0 (fun _ _ _ => 1) (fun _ _ _ => 1) (fun _ _ _ => 7) hok 0 0 1 (by decide) (by decide)
      (by decide) (by decide) hout⟩

end SRT2DSPECT
